import Mathlib

/-!
# Flip-partner map of a planar triangulation

A shallow embedding of `FlipPartnerMapNative`
(`flip_partner_map_native.h`, `flip_partner_map_native.cpp`) and of the
segment-crossing predicate `do_cross` (`geometry_operations.cpp`).

* `std::unordered_set<EdgeKey>` is a duplicate-free list of keys,
  `std::unordered_map<EdgeKey, V>` an association list with at most one entry
  per key.  The iteration order of the C++ containers is unspecified; here it is
  the insertion order.
* A member function that can throw after it has changed the object returns the
  pair of its outcome and the object as the exception leaves it.
* `CGAL::intersection` and the arrangement behind `compute_triangles` are
  library code; they are parameters of the definitions that call them.
-/

namespace cgshop2026

/-! ## Geometry kernel types -/

/-- A point with exact coordinates (`Kernel::Point_2` over an exact field). -/
structure Point where
  x : ℚ
  y : ℚ
deriving DecidableEq

/-- A segment given by its two endpoints (`Segment2`). -/
structure Segment2 where
  source : Point
  target : Point
deriving DecidableEq

/-- The value held by the result of `CGAL::intersection` on two segments: a
single point or a segment. -/
inductive Intersection where
  | point (p : Point)
  | segment (s : Segment2)
deriving DecidableEq

/-- The type of `CGAL::intersection` on two segments: `none` when the segments
are disjoint. -/
abbrev IntersectionFn := Segment2 → Segment2 → Option Intersection

/-- `do_cross`, geometry_operations.cpp 256-269: the two segments meet in a
single point that is an endpoint of neither. -/
def do_cross (intersection : IntersectionFn) (s1 s2 : Segment2) : Bool :=
  match intersection s1 s2 with
  | some (Intersection.point p) =>
    if p = s1.source ∨ p = s1.target ∨ p = s2.source ∨ p = s2.target then false
    else true
  | _ => false

/-! ## Keys, triangles, errors -/

/-- `FlipPartnerMapNative::EdgeKey`: a pair of point indices. -/
structure EdgeKey where
  u : Int
  v : Int
deriving DecidableEq

/-- The constructor `EdgeKey(int a, int b)`, which stores the smaller index
first. -/
def EdgeKey.of (a b : Int) : EdgeKey :=
  if a ≤ b then { u := a, v := b } else { u := b, v := a }

/-- `FlipPartnerMapNative::Triangle`, a `std::array<int, 3>`. -/
structure Triangle where
  i0 : Int
  i1 : Int
  i2 : Int
deriving DecidableEq

/-- The three entries of a triangle in index order (`for (int idx : tri)`). -/
def Triangle.toList (t : Triangle) : List Int := [t.i0, t.i1, t.i2]

/-- The `std::runtime_error`s of the flip-partner map, one constructor per
message. -/
inductive Err where
  /-- "Edge does not exist in the triangulation" -/
  | edgeNotFound
  /-- "Edge is not flippable" -/
  | notFlippable
  /-- "Edge must be adjacent to exactly two triangles" -/
  | malformedTopology
  /-- "Triangle does not contain an opposite vertex" -/
  | noOppositeVertex
  /-- An exception that leaves `compute_triangles`. -/
  | invalidTriangulation
deriving DecidableEq

/-! ## Containers -/

/-- `unordered_map::find`: the value stored under `k`, if any. -/
def find {V : Type} : List (EdgeKey × V) → EdgeKey → Option V
  | [], _ => none
  | (k0, v0) :: m, k => if k0 = k then some v0 else find m k

/-- `unordered_map::erase(key)`. -/
def erase {V : Type} : List (EdgeKey × V) → EdgeKey → List (EdgeKey × V)
  | [], _ => []
  | (k0, v0) :: m, k => if k0 = k then erase m k else (k0, v0) :: erase m k

/-- `map[k] = v`: replaces the value under `k` or adds the entry. -/
def assign {V : Type} : List (EdgeKey × V) → EdgeKey → V → List (EdgeKey × V)
  | [], k, v => [(k, v)]
  | (k0, v0) :: m, k, v =>
    if k0 = k then (k, v) :: m else (k0, v0) :: assign m k v

/-- The keys of a map in iteration order. -/
def keys {V : Type} (m : List (EdgeKey × V)) : List EdgeKey := m.map Prod.fst

/-- `unordered_set::insert`. -/
def setInsert (s : List EdgeKey) (k : EdgeKey) : List EdgeKey :=
  if k ∈ s then s else s ++ [k]

/-- `unordered_set::erase(key)`. -/
def setErase (s : List EdgeKey) (k : EdgeKey) : List EdgeKey :=
  s.filter (fun x => x ≠ k)

/-! ## The flip-partner map -/

/-- The data members of `FlipPartnerMapNative`. -/
structure FlipPartnerMapNative where
  points_ : List Point
  edges_ : List EdgeKey
  edge_to_triangles_ : List (EdgeKey × List Triangle)
  flip_map_ : List (EdgeKey × EdgeKey)

/-- The access `points_[i]`.  An index outside the vector is undefined behaviour
in the source; the embedding reads the origin there. -/
def pointAt (points : List Point) (i : Int) : Point :=
  if i < 0 then { x := 0, y := 0 } else points.getD i.toNat { x := 0, y := 0 }

/-- `normalize_edge`. -/
def normalize_edge (edge : Int × Int) : EdgeKey := EdgeKey.of edge.1 edge.2

/-- `to_tuple`. -/
def to_tuple (edge : EdgeKey) : Int × Int := (edge.u, edge.v)

/-- `opposite_vertex`: the first entry of the triangle that is neither endpoint
of the edge. -/
def opposite_vertex (tri : Triangle) (edge : EdgeKey) : Except Err Int :=
  match tri.toList.find? (fun idx => decide (idx ≠ edge.u ∧ idx ≠ edge.v)) with
  | some idx => Except.ok idx
  | none => Except.error Err.noOppositeVertex

/-- `check_flippability`. -/
def check_flippability (intersection : IntersectionFn) (points : List Point)
    (edge : EdgeKey) (tri1 tri2 : Triangle) : Except Err (Option EdgeKey) :=
  match opposite_vertex tri1 edge with
  | Except.error e => Except.error e
  | Except.ok opp1 =>
    match opposite_vertex tri2 edge with
    | Except.error e => Except.error e
    | Except.ok opp2 =>
      let segment_ab : Segment2 :=
        { source := pointAt points edge.u, target := pointAt points edge.v }
      let segment_cd : Segment2 :=
        { source := pointAt points opp1, target := pointAt points opp2 }
      if do_cross intersection segment_ab segment_cd then
        Except.ok (some (EdgeKey.of opp1 opp2))
      else Except.ok none

/-- `contains_old_edge`: the loop sets `has_u` on an entry equal to `edge.u` and
otherwise `has_v` on an entry equal to `edge.v`. -/
def contains_old_edge (tri : Triangle) (edge : EdgeKey) : Bool :=
  let r := tri.toList.foldl
    (fun (acc : Bool × Bool) idx =>
      if idx = edge.u then (true, acc.2)
      else if idx = edge.v then (acc.1, true) else acc)
    (false, false)
  r.1 && r.2

/-- `update_flip_partner`. -/
def update_flip_partner (intersection : IntersectionFn) (s : FlipPartnerMapNative)
    (edge : EdgeKey) : Except Err Unit × FlipPartnerMapNative :=
  match find s.edge_to_triangles_ edge with
  | none => (Except.ok (), { s with flip_map_ := erase s.flip_map_ edge })
  | some [t0, t1] =>
    match check_flippability intersection s.points_ edge t0 t1 with
    | Except.error e => (Except.error e, s)
    | Except.ok (some partner) =>
      (Except.ok (), { s with flip_map_ := assign s.flip_map_ edge partner })
    | Except.ok none =>
      (Except.ok (), { s with flip_map_ := erase s.flip_map_ edge })
  | some _ => (Except.ok (), { s with flip_map_ := erase s.flip_map_ edge })

/-- The lambda `update_incident` of `flip`. -/
def update_incident (intersection : IntersectionFn) (old_edge : EdgeKey)
    (s : FlipPartnerMapNative) (adj_edge : EdgeKey) (tri : Triangle) :
    Except Err Unit × FlipPartnerMapNative :=
  let vec := (find s.edge_to_triangles_ adj_edge).getD []
  let vec := vec.filter (fun t => !contains_old_edge t old_edge)
  let vec := tri :: vec
  update_flip_partner intersection
    { s with edge_to_triangles_ := assign s.edge_to_triangles_ adj_edge vec }
    adj_edge

/-- Sequencing of two steps on the object: the second runs on the state left by
the first unless the first threw. -/
def andThen {α : Type} (r : Except Err Unit × FlipPartnerMapNative)
    (f : FlipPartnerMapNative → Except Err α × FlipPartnerMapNative) :
    Except Err α × FlipPartnerMapNative :=
  match r with
  | (Except.error e, s) => (Except.error e, s)
  | (Except.ok _, s) => f s

/-- `FlipPartnerMapNative::flip`. -/
def flip (intersection : IntersectionFn) (s : FlipPartnerMapNative)
    (edge : Int × Int) : Except Err (Int × Int) × FlipPartnerMapNative :=
  let old_edge := normalize_edge edge
  if old_edge ∉ s.edges_ then (Except.error Err.edgeNotFound, s)
  else
    match find s.flip_map_ old_edge with
    | none => (Except.error Err.notFlippable, s)
    | some new_edge =>
      let s1 := { s with flip_map_ := erase s.flip_map_ old_edge }
      match find s1.edge_to_triangles_ old_edge with
      | some [_, _] =>
        let new_tri_0 : Triangle :=
          { i0 := new_edge.u, i1 := new_edge.v, i2 := old_edge.u }
        let new_tri_1 : Triangle :=
          { i0 := new_edge.u, i1 := new_edge.v, i2 := old_edge.v }
        let s2 := { s1 with
          edge_to_triangles_ :=
            assign (erase s1.edge_to_triangles_ old_edge) new_edge
              [new_tri_0, new_tri_1] }
        andThen (update_incident intersection old_edge s2
          (EdgeKey.of new_edge.u old_edge.u) new_tri_0) fun s3 =>
        andThen (update_incident intersection old_edge s3
          (EdgeKey.of new_edge.v old_edge.u) new_tri_0) fun s4 =>
        andThen (update_incident intersection old_edge s4
          (EdgeKey.of new_edge.u old_edge.v) new_tri_1) fun s5 =>
        andThen (update_incident intersection old_edge s5
          (EdgeKey.of new_edge.v old_edge.v) new_tri_1) fun s6 =>
        let s7 := { s6 with edges_ := setInsert (setErase s6.edges_ old_edge) new_edge }
        andThen (update_flip_partner intersection s7 new_edge) fun s8 =>
        (Except.ok (to_tuple new_edge), s8)
      | _ => (Except.error Err.malformedTopology, s1)

/-- `FlipPartnerMapNative::is_flippable`. -/
def is_flippable (s : FlipPartnerMapNative) (edge : Int × Int) : Bool :=
  (find s.flip_map_ (normalize_edge edge)).isSome

/-- `FlipPartnerMapNative::flippable_edges`. -/
def flippable_edges (s : FlipPartnerMapNative) : List (Int × Int) :=
  s.flip_map_.map (fun entry => (entry.1.u, entry.1.v))

/-- `FlipPartnerMapNative::get_flip_partner`. -/
def get_flip_partner (s : FlipPartnerMapNative) (edge : Int × Int) :
    Except Err (Int × Int) :=
  match find s.flip_map_ (normalize_edge edge) with
  | none => Except.error Err.notFlippable
  | some partner => Except.ok (to_tuple partner)

/-- `FlipPartnerMapNative::conflicting_flips`; the lambda `add_if_flippable` is
the filter over the four candidates. -/
def conflicting_flips (s : FlipPartnerMapNative) (edge : Int × Int) :
    Except Err (List (Int × Int)) :=
  let key := normalize_edge edge
  match find s.flip_map_ key with
  | none => Except.error Err.notFlippable
  | some partner =>
    let candidates :=
      [EdgeKey.of key.u partner.u, EdgeKey.of key.v partner.u,
       EdgeKey.of key.u partner.v, EdgeKey.of key.v partner.v]
    Except.ok ((candidates.filter (fun c => (find s.flip_map_ c).isSome)).map
      (fun c => (c.u, c.v)))

/-- `FlipPartnerMapNative::edge_list`, also the result of `edges()`. -/
def edge_list (s : FlipPartnerMapNative) : List (Int × Int) :=
  s.edges_.map (fun edge => (edge.u, edge.v))

/-- The type of the free function `compute_triangles(points, edges)`, whose
arrangement code is library code. -/
abbrev ComputeTriangles :=
  List Point → List (Int × Int) → Except Err (List (Int × Int × Int))

/-- The first loop of `rebuild_flip_map`: every triangle is recorded under its
three edges, which are also inserted into the edge set. -/
def add_triangle (s : FlipPartnerMapNative) (tri_tuple : Int × Int × Int) :
    FlipPartnerMapNative :=
  let tri : Triangle :=
    { i0 := tri_tuple.1, i1 := tri_tuple.2.1, i2 := tri_tuple.2.2 }
  let e1 := EdgeKey.of tri.i0 tri.i1
  let e2 := EdgeKey.of tri.i1 tri.i2
  let e3 := EdgeKey.of tri.i2 tri.i0
  let push (m : List (EdgeKey × List Triangle)) (e : EdgeKey) :=
    assign m e ((find m e).getD [] ++ [tri])
  { s with
    edges_ := setInsert (setInsert (setInsert s.edges_ e1) e2) e3
    edge_to_triangles_ := push (push (push s.edge_to_triangles_ e1) e2) e3 }

/-- The second loop of `rebuild_flip_map`: `update_flip_partner` on every key of
`edge_to_triangles_`; an exception ends the loop. -/
def update_all (intersection : IntersectionFn) :
    List EdgeKey → FlipPartnerMapNative → Except Err FlipPartnerMapNative
  | [], s => Except.ok s
  | k :: ks, s =>
    match update_flip_partner intersection s k with
    | (Except.error e, _) => Except.error e
    | (Except.ok _, s1) => update_all intersection ks s1

/-- `rebuild_flip_map`, as run by the constructor: an exception abandons the
object. -/
def rebuild_flip_map (intersection : IntersectionFn)
    (compute_triangles : ComputeTriangles) (s : FlipPartnerMapNative) :
    Except Err FlipPartnerMapNative :=
  let s0 := { s with edge_to_triangles_ := [], flip_map_ := [] }
  match compute_triangles s0.points_ (edge_list s0) with
  | Except.error e => Except.error e
  | Except.ok triangles =>
    let s1 := triangles.foldl add_triangle s0
    update_all intersection (keys s1.edge_to_triangles_) s1

/-- The constructor `FlipPartnerMapNative(points, edges)`. -/
def FlipPartnerMapNative.new (intersection : IntersectionFn)
    (compute_triangles : ComputeTriangles) (points : List Point)
    (edges : List (Int × Int)) : Except Err FlipPartnerMapNative :=
  let s : FlipPartnerMapNative :=
    { points_ := points
      edges_ := edges.foldl (fun acc edge => setInsert acc (normalize_edge edge)) []
      edge_to_triangles_ := []
      flip_map_ := [] }
  rebuild_flip_map intersection compute_triangles s

/-! ## Specification-level definitions -/

/-- The flip partner that `update_flip_partner` computes for `x` from the triangle
lists: present when `x` has exactly two triangles and the crossing test succeeds. -/
def flipEntry (I : IntersectionFn) (pts : List Point) (ett : List (EdgeKey × List Triangle))
    (x : EdgeKey) : Option EdgeKey :=
  match find ett x with
  | some [t0, t1] =>
    match check_flippability I pts x t0 t1 with
    | Except.ok r => r
    | Except.error _ => none
  | _ => none

/-- The list stored for an adjacent edge by `update_incident`. -/
def incidentList (old : EdgeKey) (L : List Triangle) (tri : Triangle) : List Triangle :=
  tri :: L.filter (fun t => !contains_old_edge t old)


/-- The change that one call of `update_incident` makes to `edge_to_triangles_`. -/
def ettStep (old : EdgeKey) (m : List (EdgeKey × List Triangle)) (adj : EdgeKey)
    (tri : Triangle) : List (EdgeKey × List Triangle) :=
  assign m adj (incidentList old ((find m adj).getD []) tri)

/-- The first new triangle of a flip, `new_tri_0`. -/
def newTri0 (old new : EdgeKey) : Triangle := { i0 := new.u, i1 := new.v, i2 := old.u }

/-- The second new triangle of a flip, `new_tri_1`. -/
def newTri1 (old new : EdgeKey) : Triangle := { i0 := new.u, i1 := new.v, i2 := old.v }

/-- The map `edge_to_triangles_` after the flip of `old` into `new`: the entry of
`old` erased, the entry of `new` assigned, then the four `update_incident` steps. -/
def ettAfterFlip (m : List (EdgeKey × List Triangle)) (old new : EdgeKey) :
    List (EdgeKey × List Triangle) :=
  ettStep old
    (ettStep old
      (ettStep old
        (ettStep old (assign (erase m old) new [newTri0 old new, newTri1 old new])
          (EdgeKey.of new.u old.u) (newTri0 old new))
        (EdgeKey.of new.v old.u) (newTri0 old new))
      (EdgeKey.of new.u old.v) (newTri1 old new))
    (EdgeKey.of new.v old.v) (newTri1 old new)

/-- The keys whose flip-map entry `flip` recomputes: the four edges of the
quadrilateral and the new diagonal. -/
def touched (old new : EdgeKey) : List EdgeKey :=
  [EdgeKey.of new.u old.u, EdgeKey.of new.v old.u, EdgeKey.of new.u old.v,
   EdgeKey.of new.v old.v, new]

/-- The segment between the points with indices `a` and `b`. -/
def segmentOf (points : List Point) (a b : Int) : Segment2 :=
  { source := pointAt points a, target := pointAt points b }

/-- Invariant 2 of the data model: `flip_map_` holds `x` exactly when `x` has
exactly two triangles and the segment joining their opposite vertices crosses
`x`, and then it holds the normalized pair of the opposite vertices. -/
def Invariant2 (intersection : IntersectionFn) (s : FlipPartnerMapNative) : Prop :=
  ∀ x r, find s.flip_map_ x = some r ↔
    ∃ t0 t1 o0 o1, find s.edge_to_triangles_ x = some [t0, t1] ∧
      opposite_vertex t0 x = Except.ok o0 ∧ opposite_vertex t1 x = Except.ok o1 ∧
      do_cross intersection (segmentOf s.points_ x.u x.v) (segmentOf s.points_ o0 o1) = true ∧
      r = EdgeKey.of o0 o1

/-- The endpoints of the flipped edge and of its partner are the four distinct
corners of a quadrilateral. -/
def Quad (old new : EdgeKey) : Prop :=
  old.u ≠ old.v ∧ new.u ≠ new.v ∧ new.u ≠ old.u ∧ new.u ≠ old.v ∧
    new.v ≠ old.u ∧ new.v ≠ old.v

/-- Invariant 1 of the data model: every edge of the edge set has an entry of one
or two triangles, each of which contains both endpoints of the edge. -/
def Invariant1 (s : FlipPartnerMapNative) : Prop :=
  ∀ x ∈ s.edges_, ∃ L, find s.edge_to_triangles_ x = some L ∧
    (L.length = 1 ∨ L.length = 2) ∧
    ∀ t ∈ L, x.u ∈ t.toList ∧ x.v ∈ t.toList

/-- The invariants of section 3 of the design for one state, with the
consistency of the triangle lists spelled out. -/
structure Invariants (intersection : IntersectionFn) (s : FlipPartnerMapNative) : Prop where
  /-- Invariant 1. -/
  inv1 : Invariant1 s
  /-- Invariant 2. -/
  inv2 : Invariant2 intersection s
  /-- Invariant 3: keys are normalized, and an edge joins two different points. -/
  normalized : ∀ x ∈ s.edges_, x.u < x.v
  /-- Only edges of the edge set have a triangle list. -/
  listed : ∀ x L, find s.edge_to_triangles_ x = some L → x ∈ s.edges_
  /-- Every listed triangle has a vertex off the edge it is listed for. -/
  opposite : ∀ x L, find s.edge_to_triangles_ x = some L →
    ∀ t ∈ L, ∃ w, opposite_vertex t x = Except.ok w
  /-- A listed triangle is listed for each of its three edges. -/
  shared : ∀ x L t, find s.edge_to_triangles_ x = some L → t ∈ L →
    ∀ a ∈ t.toList, ∀ b ∈ t.toList, a ≠ b →
      ∃ L1, find s.edge_to_triangles_ (EdgeKey.of a b) = some L1 ∧ t ∈ L1
  /-- The two triangles of an interior edge lie on different sides: their
  opposite vertices differ. -/
  distinct : ∀ x t0 t1, find s.edge_to_triangles_ x = some [t0, t1] →
    opposite_vertex t0 x ≠ opposite_vertex t1 x

/-- The triangle contains the edge: both endpoints are among its entries. -/
def hasEdge (t : Triangle) (e : EdgeKey) : Bool :=
  decide (e.u ∈ t.toList ∧ e.v ∈ t.toList)

/-- The four edges of the quadrilateral around the flipped edge, in the order in
which `flip` updates them. -/
def quadEdges (old new : EdgeKey) : List EdgeKey :=
  [EdgeKey.of new.u old.u, EdgeKey.of new.v old.u, EdgeKey.of new.u old.v,
   EdgeKey.of new.v old.v]

/-- The outcome of the crossing test of `check_flippability` for the edge `x` and
the opposite vertices `o0`, `o1`. -/
def checkOpp (intersection : IntersectionFn) (points : List Point) (x : EdgeKey)
    (o0 o1 : Int) : Option EdgeKey :=
  if do_cross intersection (segmentOf points x.u x.v) (segmentOf points o0 o1) then
    some (EdgeKey.of o0 o1)
  else none

/-- The crossing predicate does not depend on the order of its two segments nor on
the order of the endpoints of a segment. -/
def CrossSymmetric (intersection : IntersectionFn) : Prop :=
  (∀ s1 s2, do_cross intersection s1 s2 = do_cross intersection s2 s1) ∧
  (∀ s1 a b, do_cross intersection s1 { source := a, target := b } =
    do_cross intersection s1 { source := b, target := a })

/-- The triangle array built from a tuple of `compute_triangles`. -/
def triangleOfTuple (t : Int × Int × Int) : Triangle :=
  { i0 := t.1, i1 := t.2.1, i2 := t.2.2 }

/-- The triangles of the list that contain the edge, in list order. -/
def trianglesOf (tris : List (Int × Int × Int)) (e : EdgeKey) : List Triangle :=
  (tris.map triangleOfTuple).filter (fun t => hasEdge t e)

/-- The vertex of the triangle that is not an endpoint of the edge. -/
def thirdVertex (t : Triangle) (e : EdgeKey) : Option Int :=
  (t.toList.filter (fun i => decide (i ≠ e.u ∧ i ≠ e.v))).head?

/-- The brute-force flippability predicate of the design: the edge `(x.1, x.2)`
lies in exactly two triangles of the list and crosses the segment that joins the
two opposite vertices; `partner` is the normalized pair of those vertices. -/
def SpecFlippable (intersection : IntersectionFn) (points : List Point)
    (tris : List (Int × Int × Int)) (x partner : Int × Int) : Prop :=
  x.1 < x.2 ∧
  ∃ t0 t1 o0 o1, trianglesOf tris { u := x.1, v := x.2 } = [t0, t1] ∧
    thirdVertex t0 { u := x.1, v := x.2 } = some o0 ∧
    thirdVertex t1 { u := x.1, v := x.2 } = some o1 ∧
    do_cross intersection (segmentOf points x.1 x.2) (segmentOf points o0 o1) = true ∧
    partner = (min o0 o1, max o0 o1)

/-- What the construction needs from the list returned by `compute_triangles`:
every triangle has three different vertices, and no edge lies in more than two
triangles. -/
def TrianglesOk (tris : List (Int × Int × Int)) : Prop :=
  (∀ t ∈ tris, t.1 ≠ t.2.1 ∧ t.2.1 ≠ t.2.2 ∧ t.1 ≠ t.2.2) ∧
  (∀ e : EdgeKey, e.u < e.v → (trianglesOf tris e).length ≤ 2)

/-- The edge set that the constructor builds from its `edges` argument. -/
def initialEdges (edges : List (Int × Int)) : List EdgeKey :=
  edges.foldl (fun acc edge => setInsert acc (normalize_edge edge)) []

/-- The triangle lists while the first loop of `rebuild_flip_map` runs: after the
triangles `done`, an edge is listed with the triangles of `done` that contain it. -/
def ListsBuilt (m : List (EdgeKey × List Triangle)) (done : List (Int × Int × Int)) : Prop :=
  ∀ e, find m e =
    if e.u < e.v ∧ trianglesOf done e ≠ [] then some (trianglesOf done e) else none

/-- The shape of the list that `compute_triangles` returns for a triangulation:
every triple is ascending, no triple occurs twice, no edge lies in more than two
triangles, and every edge handed to the constructor is an edge of a triangle. -/
def ValidTriangles (edges : List (Int × Int)) (tris : List (Int × Int × Int)) : Prop :=
  (∀ t ∈ tris, t.1 < t.2.1 ∧ t.2.1 < t.2.2) ∧ tris.Nodup ∧
  (∀ e : EdgeKey, e.u < e.v → (trianglesOf tris e).length ≤ 2) ∧
  (∀ x ∈ initialEdges edges, ∃ t ∈ tris,
    x = EdgeKey.of t.1 t.2.1 ∨ x = EdgeKey.of t.2.1 t.2.2 ∨ x = EdgeKey.of t.2.2 t.1)

/-- Invariant 3 of the data model as stored: every key of `edges_`,
`edge_to_triangles_` and `flip_map_`, and every value of `flip_map_`, has its
smaller index first. -/
def Normalized (s : FlipPartnerMapNative) : Prop :=
  (∀ x ∈ s.edges_, x.u ≤ x.v) ∧
  (∀ kv ∈ s.edge_to_triangles_, kv.1.u ≤ kv.1.v) ∧
  (∀ kv ∈ s.flip_map_, kv.1.u ≤ kv.1.v ∧ kv.2.u ≤ kv.2.v)

/-- The states of a flip-partner map that a caller can reach: the constructor
returned it, or it is what a call of `flip` (successful or not) left behind. -/
inductive Reachable (intersection : IntersectionFn) (compute_triangles : ComputeTriangles) :
    FlipPartnerMapNative → Prop where
  | construct (points : List Point) (edges : List (Int × Int)) (s : FlipPartnerMapNative)
      (h : FlipPartnerMapNative.new intersection compute_triangles points edges = Except.ok s) :
      Reachable intersection compute_triangles s
  | flip (s : FlipPartnerMapNative) (edge : Int × Int)
      (h : Reachable intersection compute_triangles s) :
      Reachable intersection compute_triangles (flip intersection s edge).2

/-! ## A model of the exact segment intersection -/

/-- The cross product of the directions of the two segments. -/
def crossDen (s1 s2 : Segment2) : ℚ :=
  (s1.target.x - s1.source.x) * (s2.target.y - s2.source.y) -
    (s1.target.y - s1.source.y) * (s2.target.x - s2.source.x)

/-- The numerator of the parameter of the meeting point along the first segment. -/
def crossNumT (s1 s2 : Segment2) : ℚ :=
  (s2.source.x - s1.source.x) * (s2.target.y - s2.source.y) -
    (s2.source.y - s1.source.y) * (s2.target.x - s2.source.x)

/-- The numerator of the parameter of the meeting point along the second segment. -/
def crossNumR (s1 s2 : Segment2) : ℚ :=
  (s2.source.x - s1.source.x) * (s1.target.y - s1.source.y) -
    (s2.source.y - s1.source.y) * (s1.target.x - s1.source.x)

/-- The orientation determinant of three points. -/
def orient (a b c : Point) : ℚ :=
  (b.x - a.x) * (c.y - a.y) - (b.y - a.y) * (c.x - a.x)

/-- The lexicographic order of points. -/
def lexLe (p q : Point) : Bool := decide (p.x < q.x ∨ (p.x = q.x ∧ p.y ≤ q.y))

/-- The smaller of two points in lexicographic order. -/
def lexMin (p q : Point) : Point := if lexLe p q then p else q

/-- The larger of two points in lexicographic order. -/
def lexMax (p q : Point) : Point := if lexLe p q then q else p

/-- The exact intersection of two segments, the result of `CGAL::intersection`
(library code): for segments on crossing lines the common point when it lies on
both, for segments on one line their overlap (a point or a segment), otherwise
nothing. -/
def segIntersection : IntersectionFn := fun s1 s2 =>
  if crossDen s1 s2 ≠ 0 then
    let t := crossNumT s1 s2 / crossDen s1 s2
    let r := crossNumR s1 s2 / crossDen s1 s2
    if 0 ≤ t ∧ t ≤ 1 ∧ 0 ≤ r ∧ r ≤ 1 then
      some (Intersection.point
        { x := s1.source.x + t * (s1.target.x - s1.source.x)
          y := s1.source.y + t * (s1.target.y - s1.source.y) })
    else none
  else if orient s1.source s1.target s2.source = 0 ∧ orient s1.source s1.target s2.target = 0 ∧
      orient s2.source s2.target s1.source = 0 ∧ orient s2.source s2.target s1.target = 0 then
    let lo := lexMax (lexMin s1.source s1.target) (lexMin s2.source s2.target)
    let hi := lexMin (lexMax s1.source s1.target) (lexMax s2.source s2.target)
    if lo = hi then some (Intersection.point lo)
    else if lexLe lo hi then some (Intersection.segment { source := lo, target := hi })
    else none
  else none

/-- The two segments cross properly: their lines cross, and the meeting point
lies strictly inside both segments. -/
def ProperCross (s1 s2 : Segment2) : Prop :=
  crossDen s1 s2 ≠ 0 ∧
    0 < crossNumT s1 s2 / crossDen s1 s2 ∧ crossNumT s1 s2 / crossDen s1 s2 < 1 ∧
    0 < crossNumR s1 s2 / crossDen s1 s2 ∧ crossNumR s1 s2 / crossDen s1 s2 < 1

/-! ## The square scenario -/

/-- The corners of the square with corner `(x, y)` and side vector `(a, b)`, in
counterclockwise order. -/
def squarePoints (x y a b : ℚ) : List Point :=
  [{ x := x, y := y }, { x := x + a, y := y + b }, { x := x + a - b, y := y + b + a },
   { x := x - b, y := y + a }]

/-- The four sides of the square and the diagonal `(0, 2)`. -/
def squareEdges : List (Int × Int) := [(0, 1), (1, 2), (2, 3), (3, 0), (0, 2)]

/-- The edge list that the constructor passes to `compute_triangles` for
`squareEdges`. -/
def squareEdgeList : List (Int × Int) := [(0, 1), (1, 2), (2, 3), (0, 3), (0, 2)]

/-- The two triangles of the square split by the diagonal `(0, 2)`. -/
def squareTriangles : List (Int × Int × Int) := [(0, 1, 2), (0, 2, 3)]

/-- A `compute_triangles` that returns the two triangles of the split square. -/
def squareComputeTriangles : ComputeTriangles := fun _ _ => Except.ok squareTriangles

/-- The state that the constructor builds for the split square. -/
def squareState (points : List Point) : FlipPartnerMapNative :=
  { points_ := points
    edges_ := [{ u := 0, v := 1 }, { u := 1, v := 2 }, { u := 2, v := 3 }, { u := 0, v := 3 },
      { u := 0, v := 2 }]
    edge_to_triangles_ :=
      [({ u := 0, v := 1 }, [{ i0 := 0, i1 := 1, i2 := 2 }]),
       ({ u := 1, v := 2 }, [{ i0 := 0, i1 := 1, i2 := 2 }]),
       ({ u := 0, v := 2 }, [{ i0 := 0, i1 := 1, i2 := 2 }, { i0 := 0, i1 := 2, i2 := 3 }]),
       ({ u := 2, v := 3 }, [{ i0 := 0, i1 := 2, i2 := 3 }]),
       ({ u := 0, v := 3 }, [{ i0 := 0, i1 := 2, i2 := 3 }])]
    flip_map_ := [({ u := 0, v := 2 }, { u := 1, v := 3 })] }

/-- The state of the split square after the flip of the diagonal `(0, 2)`. -/
def squareFlipped (points : List Point) : FlipPartnerMapNative :=
  { points_ := points
    edges_ := [{ u := 0, v := 1 }, { u := 1, v := 2 }, { u := 2, v := 3 }, { u := 0, v := 3 },
      { u := 1, v := 3 }]
    edge_to_triangles_ :=
      [({ u := 0, v := 1 }, [{ i0 := 1, i1 := 3, i2 := 0 }]),
       ({ u := 1, v := 2 }, [{ i0 := 1, i1 := 3, i2 := 2 }]),
       ({ u := 2, v := 3 }, [{ i0 := 1, i1 := 3, i2 := 2 }]),
       ({ u := 0, v := 3 }, [{ i0 := 1, i1 := 3, i2 := 0 }]),
       ({ u := 1, v := 3 }, [{ i0 := 1, i1 := 3, i2 := 0 }, { i0 := 1, i1 := 3, i2 := 2 }])]
    flip_map_ := [({ u := 1, v := 3 }, { u := 0, v := 2 })] }

/-! ## `compute_triangles` (geometry_operations.cpp)

The arrangement (`CGAL::Arrangement_2`, `CGAL::insert`, `CGAL::convex_hull_2`) is
library code: the faces of the arrangement of the edge segments and the hull are a
parameter. -/

/-- The exceptions of `compute_triangles` and its helpers, one constructor per
message. -/
inductive TriErr where
  /-- "Edge indices are out of bounds." -/
  | outOfBounds
  /-- "Bound face is not triangular." -/
  | notTriangular
  /-- "Face vertex not found in original points list." -/
  | vertexNotFound
  /-- "Duplicate triangles found after extraction. This should not happen." -/
  | duplicateTriangles
deriving DecidableEq

/-- A face of the arrangement as `extract_triangular_faces` reads it: whether it is
the unbounded face, and the source points of the halfedges of its outer boundary in
the order of the walk from `outer_ccb()` back to the start. -/
structure Face where
  is_unbounded : Bool
  outer_ccb : List Point

/-- The type of the arrangement construction: the faces of the arrangement of the
segments of `edges` and of the convex hull of `points`. -/
abbrev ArrangementFn := List Point → List (Int × Int) → List Face

/-- The map `idx_of` of `compute_triangles`: `emplace` keeps the first index of a
point. -/
def idx_of (points : List Point) (p : Point) : Option Int :=
  if p ∈ points then some (points.indexOf p : Nat) else none

/-- The body of the `do ... while` loop of `extract_triangular_faces` for one
boundary vertex; the state is the array `idxs` and the counter `deg`. -/
def walk_step (idx : Point → Option Int) (st : (Int × Int × Int) × Nat) (pv : Point) :
    Except TriErr ((Int × Int × Int) × Nat) :=
  if st.2 > 3 then Except.error TriErr.notTriangular
  else
    match idx pv with
    | none => Except.error TriErr.vertexNotFound
    | some i =>
      let idxs :=
        if st.2 = 0 then (i, st.1.2.1, st.1.2.2)
        else if st.2 = 1 then (st.1.1, i, st.1.2.2)
        else if st.2 = 2 then (st.1.1, st.1.2.1, i)
        else st.1
      Except.ok (idxs, st.2 + 1)

/-- The walk around the boundary of one face. -/
def walk_boundary (idx : Point → Option Int) :
    List Point → (Int × Int × Int) × Nat → Except TriErr ((Int × Int × Int) × Nat)
  | [], st => Except.ok st
  | pv :: rest, st =>
    match walk_step idx st pv with
    | Except.error e => Except.error e
    | Except.ok st1 => walk_boundary idx rest st1

/-- `std::sort` on the three entries of `idxs`. -/
def sort3 (t : Int × Int × Int) : Int × Int × Int :=
  match List.insertionSort (fun a b : Int => a ≤ b) [t.1, t.2.1, t.2.2] with
  | [a, b, c] => (a, b, c)
  | _ => t

/-- `extract_triangular_faces`: the sorted index triple of every bounded face whose
walk counts three vertices. -/
def extract_triangular_faces (idx : Point → Option Int) :
    List Face → Except TriErr (List (Int × Int × Int))
  | [] => Except.ok []
  | f :: rest =>
    if f.is_unbounded then extract_triangular_faces idx rest
    else
      match walk_boundary idx f.outer_ccb ((0, 0, 0), 0) with
      | Except.error e => Except.error e
      | Except.ok (idxs, deg) =>
        match extract_triangular_faces idx rest with
        | Except.error e => Except.error e
        | Except.ok triangles =>
          if deg = 3 then Except.ok (sort3 idxs :: triangles) else Except.ok triangles

/-- The order of `std::tuple<int, int, int>`: lexicographic. -/
def tupleLe (a b : Int × Int × Int) : Prop :=
  a.1 < b.1 ∨ (a.1 = b.1 ∧ (a.2.1 < b.2.1 ∨ (a.2.1 = b.2.1 ∧ a.2.2 ≤ b.2.2)))

instance tupleLe_decidable : DecidableRel tupleLe := fun a b => by
  unfold tupleLe
  infer_instance

/-- `std::unique`: of every run of equal neighbours the first is kept. -/
def unique : List (Int × Int × Int) → List (Int × Int × Int)
  | [] => []
  | [a] => [a]
  | a :: b :: rest => if a = b then unique (b :: rest) else a :: unique (b :: rest)

/-- The bounds check of `build_arrangement_for_triangles`. -/
def edge_in_bounds (points : List Point) (edge : Int × Int) : Bool :=
  decide (¬(edge.1 < 0 ∨ edge.1 ≥ (points.length : Int) ∨ edge.2 < 0 ∨
    edge.2 ≥ (points.length : Int)))

/-- `build_arrangement_for_triangles`: the first edge with an index out of range
throws; otherwise the arrangement is built. -/
def build_arrangement_for_triangles (arrangement : ArrangementFn) (points : List Point)
    (edges : List (Int × Int)) : Except TriErr (List Face) :=
  if edges.all (edge_in_bounds points) then Except.ok (arrangement points edges)
  else Except.error TriErr.outOfBounds

/-- `compute_triangles`. -/
def compute_triangles (arrangement : ArrangementFn) (points : List Point)
    (edges : List (Int × Int)) : Except TriErr (List (Int × Int × Int)) :=
  match build_arrangement_for_triangles arrangement points edges with
  | Except.error e => Except.error e
  | Except.ok faces =>
    match extract_triangular_faces (idx_of points) faces with
    | Except.error e => Except.error e
    | Except.ok extracted =>
      let triangles := List.insertionSort tupleLe extracted
      let num_triangles := triangles.length
      let triangles := unique triangles
      if triangles.length ≠ num_triangles then Except.error TriErr.duplicateTriangles
      else Except.ok triangles

/-- The arrangement of points in convex position, listed counterclockwise, with
only the hull edges: the unbounded face and one bounded face whose boundary visits
every point once. -/
def hullOnlyArrangement : ArrangementFn := fun points _ =>
  [{ is_unbounded := true, outer_ccb := [] }, { is_unbounded := false, outer_ccb := points }]

/-- The four sides of a quadrilateral. -/
def hullEdges : List (Int × Int) := [(0, 1), (1, 2), (2, 3), (3, 0)]

/-- The bounded face with corners `points[i]`, `points[j]`, `points[k]`, walked in
this order. -/
def triangleFace (points : List Point) (i j k : Int) : Face :=
  { is_unbounded := false, outer_ccb := [pointAt points i, pointAt points j, pointAt points k] }

/-- The arrangement of a convex quadrilateral with corners `0, 1, 2, 3` and one
diagonal: the unbounded face and the two triangles beside the diagonal, which is
`(0, 2)` when the edges hold it and `(1, 3)` otherwise. -/
def squareArrangement : ArrangementFn := fun points edges =>
  if (0, 2) ∈ edges ∨ (2, 0) ∈ edges then
    [{ is_unbounded := true, outer_ccb := [] }, triangleFace points 0 1 2,
      triangleFace points 0 2 3]
  else
    [{ is_unbounded := true, outer_ccb := [] }, triangleFace points 1 2 3,
      triangleFace points 3 0 1]

/-! ## The batch schedulers (geometry_operations.cpp)

* The declarations of the anonymous namespace of geometry_operations.cpp are in the
  namespace `detail`.
* The thread-local scratch arrays are an explicit argument, `Scratch`, of the two
  schedulers; its value at the call is what earlier calls left behind.  An array is
  a function of the index; only indices below the length of the array are used.
* `size_t` has 64 bits.  The counters never exceed the array lengths, so they are
  natural numbers.
* The loops `while (true)` of `insert_bucket` and `find_bucket` visit the slots
  cyclically and change nothing before they exit: after `EDGE_TABLE_SIZE` steps
  without exit every slot is used by another key and the loop runs forever.  This
  outcome is `BatchErr.hang`.
* The outer loop of `compute_delaunay_batches` takes the number of rounds it may run
  as fuel; `none` means that the fuel did not suffice.
* The predicates of the CGAL kernel and `std::mt19937` with its distributions are
  library code and parameters of the definitions.
-/

/-- `CGAL::Sign`, which is also `CGAL::Orientation` (`NEGATIVE`, `COLLINEAR`,
`POSITIVE`) and `CGAL::Oriented_side` (`ON_NEGATIVE_SIDE`, `ON_ORIENTED_BOUNDARY`,
`ON_POSITIVE_SIDE`). -/
inductive Sign where
  | negative
  | zero
  | positive
deriving DecidableEq

/-- The functions of the CGAL kernel that the schedulers call. -/
structure Kernel where
  intersection : IntersectionFn
  orientation : Point → Point → Point → Sign
  side_of_oriented_circle : Point → Point → Point → Point → Sign

/-- The random number generator `std::mt19937` with the two distributions that
`sample_parallel_batch` draws from. -/
structure Rng where
  /-- The state of the generator. -/
  State : Type
  /-- The type `double`. -/
  Real : Type
  /-- The generator seeded with a 32-bit value. -/
  seed : Nat → State
  /-- One draw of `std::uniform_int_distribution<size_t>(0, hi)`. -/
  uniform_int : Nat → State → Nat × State
  /-- The draw lies in the range of the distribution. -/
  uniform_int_le : ∀ hi s, (uniform_int hi s).1 ≤ hi
  /-- One draw of `std::uniform_real_distribution<double>(0.0, 1.0)`. -/
  uniform_real : State → Real × State
  /-- The comparison `<` of two values of type `double`. -/
  lt : Real → Real → Bool

/-- The outcomes of the schedulers other than a normal return. -/
inductive BatchErr where
  /-- An exception that leaves `compute_triangles`. -/
  | triangles (e : TriErr)
  /-- "Triangle missing opposite vertex." -/
  | missingOpposite
  /-- The probing loop of `insert_bucket` or `find_bucket` never exits. -/
  | hang
deriving DecidableEq

/-- `violates_local_delaunay`. -/
def violates_local_delaunay (K : Kernel) (a b c d : Point) : Bool :=
  match K.orientation a b c with
  | Sign.zero => false
  | Sign.negative => decide (K.side_of_oriented_circle b a c d = Sign.positive)
  | Sign.positive => decide (K.side_of_oriented_circle a b c d = Sign.positive)

namespace detail

/-- `Edge`. -/
structure Edge where
  first : Int
  second : Int
deriving DecidableEq

/-- `normalize_edge(int u, int v)`. -/
def normalize_edge (u v : Int) : Edge :=
  if u < v then { first := u, second := v } else { first := v, second := u }

/-- `CandidateEdge`. -/
structure CandidateEdge where
  edge : Edge
  partner : Edge
  opp1 : Int
  opp2 : Int
deriving DecidableEq

/-- `std::array<int, 3>`. -/
abbrev Tri := Int × Int × Int

/-- `EdgeBucket`; `triangles0` and `triangles1` are the two entries of the array
`triangles`. -/
structure EdgeBucket where
  key : Edge
  used : Bool
  blocked : Bool
  candidate_valid : Bool
  triangle_count : Nat
  triangles0 : Tri
  triangles1 : Tri
  candidate : CandidateEdge

/-- `MAX_EDGES_PER_TRIANG`. -/
def MAX_EDGES_PER_TRIANG : Nat := 60000

/-- `EDGE_TABLE_SIZE`. -/
def EDGE_TABLE_SIZE : Nat := 1 <<< 17

/-- `EDGE_TABLE_MASK`. -/
def EDGE_TABLE_MASK : Nat := EDGE_TABLE_SIZE - 1

/-- The type of `g_edge_table`. -/
abbrev EdgeTable := Nat → EdgeBucket

/-- The type of `g_candidate_order_buf`, `g_offender_buf` and `g_selected_buf`. -/
abbrev EdgeBuf := Nat → Edge

/-- `to_triangle`. -/
def to_triangle (tri_tpl : Int × Int × Int) : Tri := (tri_tpl.1, tri_tpl.2.1, tri_tpl.2.2)

/-- `opposite_vertex`. -/
def opposite_vertex (tri : Tri) (edge : Edge) : Except BatchErr Int :=
  if tri.1 ≠ edge.first ∧ tri.1 ≠ edge.second then Except.ok tri.1
  else if tri.2.1 ≠ edge.first ∧ tri.2.1 ≠ edge.second then Except.ok tri.2.1
  else if tri.2.2 ≠ edge.first ∧ tri.2.2 ≠ edge.second then Except.ok tri.2.2
  else Except.error BatchErr.missingOpposite

/-- `conflicting_edges_from_candidate`. -/
def conflicting_edges_from_candidate (candidate : CandidateEdge) : List Edge :=
  [normalize_edge candidate.edge.first candidate.opp1,
   normalize_edge candidate.edge.second candidate.opp1,
   normalize_edge candidate.edge.first candidate.opp2,
   normalize_edge candidate.edge.second candidate.opp2]

/-- `clear_edge_table`. -/
def clear_edge_table (table : EdgeTable) : EdgeTable := fun i =>
  if i < EDGE_TABLE_SIZE then
    { table i with used := false, blocked := false, candidate_valid := false,
                   triangle_count := 0 }
  else table i

/-- The slot at which the probing for an edge starts. -/
def start_index (edge : Edge) : Nat :=
  ((((edge.first % 2 ^ 64).toNat * 73856093) % 2 ^ 64) ^^^
    (((edge.second % 2 ^ 64).toNat * 19349663) % 2 ^ 64)) &&& EDGE_TABLE_MASK

/-- The loop of `insert_bucket` from slot `idx` on, for at most `fuel` steps: the
table and the index of the bucket that the reference returned points to. -/
def insert_probe (table : EdgeTable) (edge : Edge) : Nat → Nat → Except BatchErr (EdgeTable × Nat)
  | 0, _ => Except.error BatchErr.hang
  | fuel + 1, idx =>
    if (table idx).used = false then
      Except.ok (Function.update table idx
        { table idx with used := true, key := edge, blocked := false,
                         candidate_valid := false, triangle_count := 0 }, idx)
    else if (table idx).key = edge then Except.ok (table, idx)
    else insert_probe table edge fuel ((idx + 1) &&& EDGE_TABLE_MASK)

/-- `insert_bucket`. -/
def insert_bucket (table : EdgeTable) (edge : Edge) : Except BatchErr (EdgeTable × Nat) :=
  insert_probe table edge EDGE_TABLE_SIZE (start_index edge)

/-- The loop of `find_bucket` from slot `idx` on, for at most `fuel` steps: the
index of the bucket found, `none` for `nullptr`. -/
def find_probe (table : EdgeTable) (edge : Edge) : Nat → Nat → Except BatchErr (Option Nat)
  | 0, _ => Except.error BatchErr.hang
  | fuel + 1, idx =>
    if (table idx).used = false then Except.ok none
    else if (table idx).key = edge then Except.ok (some idx)
    else find_probe table edge fuel ((idx + 1) &&& EDGE_TABLE_MASK)

/-- `find_bucket`. -/
def find_bucket (table : EdgeTable) (edge : Edge) : Except BatchErr (Option Nat) :=
  find_probe table edge EDGE_TABLE_SIZE (start_index edge)

/-- `unordered_set<Edge>::insert`. -/
def set_insert (s : List Edge) (edge : Edge) : List Edge :=
  if edge ∈ s then s else s ++ [edge]

/-- `unordered_set<Edge>::erase`. -/
def set_erase (s : List Edge) (edge : Edge) : List Edge :=
  s.filter (fun x => x ≠ edge)

/-- `edges_vector_from_set`. -/
def edges_vector_from_set (edges : List Edge) : List (Int × Int) :=
  edges.map (fun edge => (edge.first, edge.second))

/-- The three edges `e1, e2, e3` of a triangle. -/
def tri_edges (tri : Tri) : List Edge :=
  [normalize_edge tri.1 tri.2.1, normalize_edge tri.2.1 tri.2.2, normalize_edge tri.2.2 tri.1]

/-- The body of the loop over `tri_edges`: the triangle is stored in the bucket of
the edge unless the bucket holds two triangles. -/
def record_edge (tri : Tri) (table : EdgeTable) (edge : Edge) : Except BatchErr EdgeTable :=
  match insert_bucket table edge with
  | Except.error e => Except.error e
  | Except.ok (table, idx) =>
    let bucket := table idx
    if bucket.triangle_count < 2 then
      if bucket.triangle_count = 0 then
        Except.ok (Function.update table idx
          { bucket with triangles0 := tri, triangle_count := bucket.triangle_count + 1 })
      else
        Except.ok (Function.update table idx
          { bucket with triangles1 := tri, triangle_count := bucket.triangle_count + 1 })
    else Except.ok table

/-- The loop over the three edges of one triangle. -/
def record_edges (tri : Tri) : List Edge → EdgeTable → Except BatchErr EdgeTable
  | [], table => Except.ok table
  | edge :: rest, table =>
    match record_edge tri table edge with
    | Except.error e => Except.error e
    | Except.ok table => record_edges tri rest table

/-- The loop over the triangles, the same in both schedulers. -/
def record_triangles : List (Int × Int × Int) → EdgeTable → Except BatchErr EdgeTable
  | [], table => Except.ok table
  | tri_tpl :: rest, table =>
    match record_edges (to_triangle tri_tpl) (tri_edges (to_triangle tri_tpl)) table with
    | Except.error e => Except.error e
    | Except.ok table => record_triangles rest table

/-- The test of a bucket with two triangles: the candidate record when the edge
crosses the segment of its opposite vertices and violates the Delaunay condition,
`none` when a `continue` is taken. -/
def candidate_of_bucket (K : Kernel) (points : List Point) (bucket : EdgeBucket) (edge : Edge) :
    Except BatchErr (Option CandidateEdge) :=
  match opposite_vertex bucket.triangles0 edge with
  | Except.error e => Except.error e
  | Except.ok opp1 =>
    match opposite_vertex bucket.triangles1 edge with
    | Except.error e => Except.error e
    | Except.ok opp2 =>
      let diag : Segment2 :=
        { source := pointAt points edge.first, target := pointAt points edge.second }
      let partner : Segment2 := { source := pointAt points opp1, target := pointAt points opp2 }
      if !do_cross K.intersection diag partner then Except.ok none
      else if !violates_local_delaunay K (pointAt points edge.first) (pointAt points edge.second)
          (pointAt points opp1) (pointAt points opp2) then Except.ok none
      else
        Except.ok (some { edge := edge, partner := normalize_edge opp1 opp2, opp1 := opp1,
                          opp2 := opp2 })

/-- The loop of `compute_delaunay_batches` over the buckets of the table, here over
the slots listed: the table, `g_candidate_order_buf` and `candidate_count`. -/
def scan_buckets (K : Kernel) (points : List Point) :
    List Nat → EdgeTable → EdgeBuf → Nat → Except BatchErr (EdgeTable × EdgeBuf × Nat)
  | [], table, buf, candidate_count => Except.ok (table, buf, candidate_count)
  | idx :: rest, table, buf, candidate_count =>
    let bucket := table idx
    if bucket.used = false ∨ bucket.triangle_count ≠ 2 then
      scan_buckets K points rest table buf candidate_count
    else
      match candidate_of_bucket K points bucket bucket.key with
      | Except.error e => Except.error e
      | Except.ok none => scan_buckets K points rest table buf candidate_count
      | Except.ok (some candidate) =>
        let table := Function.update table idx
          { bucket with candidate_valid := true, blocked := false, candidate := candidate }
        let buf := Function.update buf candidate_count bucket.key
        if candidate_count + 1 ≥ MAX_EDGES_PER_TRIANG then
          Except.ok (table, buf, candidate_count + 1)
        else scan_buckets K points rest table buf (candidate_count + 1)

/-- The loop over the conflict edges of a selected edge: the bucket of each one
that is in the table is blocked. -/
def block_conflicts : List Edge → EdgeTable → Except BatchErr EdgeTable
  | [], table => Except.ok table
  | conflict :: rest, table =>
    match find_bucket table conflict with
    | Except.error e => Except.error e
    | Except.ok none => block_conflicts rest table
    | Except.ok (some idx) =>
      block_conflicts rest (Function.update table idx { table idx with blocked := true })

/-- The body of the selection loop of both schedulers from `find_bucket` on: the
table, `g_selected_buf` and `selected_count`. -/
def select_edge (table : EdgeTable) (selected : EdgeBuf) (selected_count : Nat) (edge : Edge) :
    Except BatchErr (EdgeTable × EdgeBuf × Nat) :=
  match find_bucket table edge with
  | Except.error e => Except.error e
  | Except.ok none => Except.ok (table, selected, selected_count)
  | Except.ok (some idx) =>
    let bucket := table idx
    if bucket.blocked = true ∨ bucket.candidate_valid = false then
      Except.ok (table, selected, selected_count)
    else
      let selected := Function.update selected selected_count edge
      let table := Function.update table idx { bucket with blocked := true }
      match block_conflicts (conflicting_edges_from_candidate bucket.candidate) table with
      | Except.error e => Except.error e
      | Except.ok table => Except.ok (table, selected, selected_count + 1)

/-- The selection loop of `compute_delaunay_batches` over the positions listed. -/
def select_loop (candidates : EdgeBuf) :
    List Nat → EdgeTable → EdgeBuf → Nat → Except BatchErr (EdgeTable × EdgeBuf × Nat)
  | [], table, selected, selected_count => Except.ok (table, selected, selected_count)
  | i :: rest, table, selected, selected_count =>
    match select_edge table selected selected_count (candidates i) with
    | Except.error e => Except.error e
    | Except.ok (table, selected, selected_count) =>
      select_loop candidates rest table selected selected_count

/-- The last loop of a round of `compute_delaunay_batches` over the positions
listed: the batch and the edge set. -/
def apply_loop (table : EdgeTable) (selected : EdgeBuf) :
    List Nat → List (Int × Int) → List Edge → Except BatchErr (List (Int × Int) × List Edge)
  | [], batch, edge_set => Except.ok (batch, edge_set)
  | i :: rest, batch, edge_set =>
    let edge := selected i
    let batch := batch ++ [(edge.first, edge.second)]
    match find_bucket table edge with
    | Except.error e => Except.error e
    | Except.ok none => apply_loop table selected rest batch edge_set
    | Except.ok (some idx) =>
      apply_loop table selected rest batch
        (set_insert (set_erase edge_set edge) (table idx).candidate.partner)

/-- The values of the thread-local arrays. -/
structure Scratch where
  g_edge_table : EdgeTable
  g_candidate_order_buf : EdgeBuf
  g_offender_buf : EdgeBuf
  g_selected_buf : EdgeBuf

/-- What one round of the loop of `compute_delaunay_batches` leaves: the batch, or
`none` when the round ends the loop, the edge set and the scratch arrays. -/
structure RoundResult where
  batch : Option (List (Int × Int))
  edge_set : List Edge
  scratch : Scratch

/-- The body of the loop `while (true)` of `compute_delaunay_batches`. -/
def delaunay_round (K : Kernel) (arrangement : ArrangementFn) (points : List Point)
    (g : Scratch) (edge_set : List Edge) : Except BatchErr RoundResult :=
  let table := clear_edge_table g.g_edge_table
  let edge_vec := edges_vector_from_set edge_set
  match compute_triangles arrangement points edge_vec with
  | Except.error e => Except.error (BatchErr.triangles e)
  | Except.ok triangles =>
    match record_triangles triangles table with
    | Except.error e => Except.error e
    | Except.ok table =>
      match scan_buckets K points (List.range EDGE_TABLE_SIZE) table g.g_candidate_order_buf 0 with
      | Except.error e => Except.error e
      | Except.ok (table, candidates, candidate_count) =>
        if candidate_count = 0 then
          Except.ok { batch := none, edge_set := edge_set,
                      scratch := { g with g_edge_table := table,
                                          g_candidate_order_buf := candidates } }
        else
          match select_loop candidates (List.range candidate_count) table g.g_selected_buf 0 with
          | Except.error e => Except.error e
          | Except.ok (table, selected, selected_count) =>
            let g1 : Scratch :=
              { g with g_edge_table := table, g_candidate_order_buf := candidates,
                       g_selected_buf := selected }
            if selected_count = 0 then
              Except.ok { batch := none, edge_set := edge_set, scratch := g1 }
            else
              match apply_loop table selected (List.range selected_count) [] edge_set with
              | Except.error e => Except.error e
              | Except.ok (batch, edge_set) =>
                Except.ok { batch := some batch, edge_set := edge_set, scratch := g1 }

/-- One entry per batch of `compute_delaunay_batches`: the edge set at the start of
the round that selected the batch, and the batch. -/
structure Round where
  edge_set : List Edge
  batch : List (Int × Int)

/-- The loop `while (true)` of `compute_delaunay_batches` for at most `fuel`
rounds.  Beside the batches it yields the edge set of every round and the edge set
at the `break`. -/
def delaunay_loop (K : Kernel) (arrangement : ArrangementFn) (points : List Point) :
    Nat → Scratch → List Edge → List Round → Option (Except BatchErr (List Round × List Edge))
  | 0, _, _, _ => none
  | fuel + 1, g, edge_set, rounds =>
    match delaunay_round K arrangement points g edge_set with
    | Except.error e => some (Except.error e)
    | Except.ok r =>
      match r.batch with
      | none => some (Except.ok (rounds, edge_set))
      | some batch =>
        delaunay_loop K arrangement points fuel r.scratch r.edge_set
          (rounds ++ [{ edge_set := edge_set, batch := batch }])

/-- The edge set that `compute_delaunay_batches` starts from. -/
def initial_edge_set (edges : List (Int × Int)) : List Edge :=
  edges.foldl (fun s edge_tpl => set_insert s (normalize_edge edge_tpl.1 edge_tpl.2)) []

/-- The loop over `candidates` of `sample_parallel_batch`: the table,
`g_candidate_order_buf` and `candidate_count`. -/
def filter_candidates (K : Kernel) (points : List Point) :
    List (Int × Int) → EdgeTable → EdgeBuf → Nat → Except BatchErr (EdgeTable × EdgeBuf × Nat)
  | [], table, buf, candidate_count => Except.ok (table, buf, candidate_count)
  | edge_tpl :: rest, table, buf, candidate_count =>
    let edge := normalize_edge edge_tpl.1 edge_tpl.2
    match find_bucket table edge with
    | Except.error e => Except.error e
    | Except.ok none => filter_candidates K points rest table buf candidate_count
    | Except.ok (some idx) =>
      let bucket := table idx
      if bucket.triangle_count ≠ 2 then filter_candidates K points rest table buf candidate_count
      else
        match candidate_of_bucket K points bucket edge with
        | Except.error e => Except.error e
        | Except.ok none => filter_candidates K points rest table buf candidate_count
        | Except.ok (some candidate) =>
          let table := Function.update table idx
            { bucket with candidate_valid := true, candidate := candidate }
          let buf := Function.update buf candidate_count edge
          if candidate_count + 1 ≥ MAX_EDGES_PER_TRIANG then
            Except.ok (table, buf, candidate_count + 1)
          else filter_candidates K points rest table buf (candidate_count + 1)

/-- The loop over `offenders` of `sample_parallel_batch`: `g_offender_buf` and
`offender_count`. -/
def filter_offenders (table : EdgeTable) :
    List (Int × Int) → EdgeBuf → Nat → Except BatchErr (EdgeBuf × Nat)
  | [], buf, offender_count => Except.ok (buf, offender_count)
  | edge_tpl :: rest, buf, offender_count =>
    let edge := normalize_edge edge_tpl.1 edge_tpl.2
    match find_bucket table edge with
    | Except.error e => Except.error e
    | Except.ok none => filter_offenders table rest buf offender_count
    | Except.ok (some idx) =>
      if (table idx).candidate_valid = false then filter_offenders table rest buf offender_count
      else
        let buf := Function.update buf offender_count edge
        if offender_count + 1 ≥ MAX_EDGES_PER_TRIANG then Except.ok (buf, offender_count + 1)
        else filter_offenders table rest buf (offender_count + 1)

/-- The shuffle of `g_candidate_order_buf`: the loop `for (i = n; i > 1; --i)`. -/
def shuffle (R : Rng) : Nat → EdgeBuf → R.State → EdgeBuf × R.State
  | 0, buf, rng => (buf, rng)
  | n + 1, buf, rng =>
    if n + 1 > 1 then
      let draw := R.uniform_int n rng
      let j := draw.1
      let buf1 := Function.update (Function.update buf n (buf j)) j (buf n)
      shuffle R n buf1 draw.2
    else (buf, rng)

/-- The edge that one step of the selection loop of `sample_parallel_batch` tries,
and the generator after the step. -/
def choose_edge (R : Rng) (random_pick_prob : R.Real) (candidates offenders : EdgeBuf)
    (offender_count : Nat) (i : Nat) (rng : R.State) : Edge × R.State :=
  if offender_count = 0 then (candidates i, rng)
  else
    let draw := R.uniform_real rng
    if R.lt draw.1 random_pick_prob then (candidates i, draw.2)
    else
      let pick := R.uniform_int (offender_count - 1) draw.2
      (offenders pick.1, pick.2)

/-- The selection loop of `sample_parallel_batch` over the positions listed. -/
def sample_loop (R : Rng) (random_pick_prob : R.Real) (candidates offenders : EdgeBuf)
    (offender_count : Nat) :
    List Nat → R.State → EdgeTable → EdgeBuf → Nat → Except BatchErr (EdgeTable × EdgeBuf × Nat)
  | [], _, table, selected, selected_count => Except.ok (table, selected, selected_count)
  | i :: rest, rng, table, selected, selected_count =>
    let chosen := choose_edge R random_pick_prob candidates offenders offender_count i rng
    match select_edge table selected selected_count chosen.1 with
    | Except.error e => Except.error e
    | Except.ok (table, selected, selected_count) =>
      sample_loop R random_pick_prob candidates offenders offender_count rest chosen.2 table
        selected selected_count

end detail

/-- `compute_delaunay_batches`, for at most `fuel` rounds. -/
def compute_delaunay_batches (K : Kernel) (arrangement : ArrangementFn) (g : detail.Scratch)
    (points : List Point) (edges : List (Int × Int)) (fuel : Nat) :
    Option (Except BatchErr (List (List (Int × Int)))) :=
  match detail.delaunay_loop K arrangement points fuel g (detail.initial_edge_set edges) [] with
  | none => none
  | some (Except.error e) => some (Except.error e)
  | some (Except.ok (rounds, _)) => some (Except.ok (rounds.map (fun r => r.batch)))

/-- `sample_parallel_batch`. -/
def sample_parallel_batch (K : Kernel) (R : Rng) (arrangement : ArrangementFn)
    (g : detail.Scratch) (points : List Point) (edges candidates offenders : List (Int × Int))
    (random_pick_prob : R.Real) (seed : Nat) : Except BatchErr (List (Int × Int)) :=
  let table := detail.clear_edge_table g.g_edge_table
  match compute_triangles arrangement points edges with
  | Except.error e => Except.error (BatchErr.triangles e)
  | Except.ok triangles =>
    match detail.record_triangles triangles table with
    | Except.error e => Except.error e
    | Except.ok table =>
      match detail.filter_candidates K points candidates table g.g_candidate_order_buf 0 with
      | Except.error e => Except.error e
      | Except.ok (table, candidate_buf, candidate_count) =>
        if candidate_count = 0 then Except.ok []
        else
          match detail.filter_offenders table offenders g.g_offender_buf 0 with
          | Except.error e => Except.error e
          | Except.ok (offender_buf, offender_count) =>
            let rng := R.seed (seed % 2 ^ 32)
            let shuffled := detail.shuffle R candidate_count candidate_buf rng
            match detail.sample_loop R random_pick_prob shuffled.1 offender_buf offender_count
                (List.range candidate_count) shuffled.2 table g.g_selected_buf 0 with
            | Except.error e => Except.error e
            | Except.ok (_, selected, selected_count) =>
              Except.ok ((List.range selected_count).map
                (fun i => ((selected i).first, (selected i).second)))

/-! ## Notions for the statements about the schedulers -/

namespace detail

/-- The slot that the probing for an edge visits after `j` steps. -/
def slot (edge : Edge) (j : Nat) : Nat := (start_index edge + j) % EDGE_TABLE_SIZE

/-- The probing stops at a slot: it is unused or holds the key. -/
def Stop (t : EdgeTable) (e : Edge) (j : Nat) : Prop :=
  (t (slot e j)).used = false ∨ (t (slot e j)).key = e

/-- The bucket that `insert_bucket` writes into an unused slot. -/
def fresh_bucket (b : EdgeBucket) (e : Edge) : EdgeBucket :=
  { b with used := true, key := e, blocked := false, candidate_valid := false,
           triangle_count := 0 }

/-- The invariant of the open-addressing table: the bucket of a key is reached from
its start index through used slots that hold other keys. -/
def Chain (t : EdgeTable) : Prop :=
  ∀ idx, idx < EDGE_TABLE_SIZE → (t idx).used = true →
    ∃ j, j < EDGE_TABLE_SIZE ∧ slot (t idx).key j = idx ∧
      ∀ j2, j2 < j → (t (slot (t idx).key j2)).used = true ∧
        (t (slot (t idx).key j2)).key ≠ (t idx).key

/-- Two tables with the same used slots and the same keys. -/
def KeysEq (t t2 : EdgeTable) : Prop :=
  ∀ i, (t2 i).used = (t i).used ∧ (t2 i).key = (t i).key

/-- The triple `(x, y, z)` lists the corners of the triangle in cyclic order. -/
def Rot (T : Tri) (x y z : Int) : Prop :=
  (x, y, z) = T ∨ (x, y, z) = (T.2.1, T.2.2, T.1) ∨ (x, y, z) = (T.2.2, T.1, T.2.1)

/-- The triangles that a bucket holds. -/
def bucket_tris (b : EdgeBucket) : List Tri := [b.triangles0, b.triangles1].take b.triangle_count

/-- Two buckets that agree on all that is not left over from earlier calls: the
flag `used`, and for a used bucket the key, the other flags, the triangles below
`triangle_count`, and the candidate record when it is valid. -/
def BucketSim (b b2 : EdgeBucket) : Prop :=
  b.used = b2.used ∧
    (b.used = true →
      b.key = b2.key ∧ b.blocked = b2.blocked ∧ b.candidate_valid = b2.candidate_valid ∧
      b.triangle_count = b2.triangle_count ∧
      (1 ≤ b.triangle_count → b.triangles0 = b2.triangles0) ∧
      (2 ≤ b.triangle_count → b.triangles1 = b2.triangles1) ∧
      (b.candidate_valid = true → b.candidate = b2.candidate))

/-- Two tables whose buckets agree in this sense. -/
def TableSim (t t2 : EdgeTable) : Prop := ∀ i, i < EDGE_TABLE_SIZE → BucketSim (t i) (t2 i)

/-- Two buffers that agree below `n`. -/
def BufSim (n : Nat) (b b2 : EdgeBuf) : Prop := ∀ i, i < n → b i = b2 i

/-- The calls of `insert_bucket` that the loop over the triangles makes, in order:
the edge and the triangle it comes from. -/
def insertions (tris : List (Int × Int × Int)) : List (Edge × Tri) :=
  tris.flatMap (fun tri => (tri_edges (to_triangle tri)).map (fun e => (e, to_triangle tri)))

/-- The triangles of the calls made for one edge. -/
def incident_of (ins : List (Edge × Tri)) (edge : Edge) : List Tri :=
  (ins.filter (fun p => p.1 = edge)).map Prod.snd

/-- The state of the table while the triangles are recorded, where `ins` lists the
calls of `insert_bucket` made so far: the used buckets are those of the edges
inserted, none is blocked or marked, and each holds the first two triangles of its
edge. -/
structure RecInv (ins : List (Edge × Tri)) (t : EdgeTable) : Prop where
  chain : Chain t
  flags : ∀ i, i < EDGE_TABLE_SIZE → (t i).used = true →
    (t i).blocked = false ∧ (t i).candidate_valid = false
  tris : ∀ i, i < EDGE_TABLE_SIZE → (t i).used = true →
    bucket_tris (t i) = (incident_of ins (t i).key).take 2 ∧ (t i).triangle_count ≤ 2
  present : ∀ p, p ∈ ins → ∃ i, i < EDGE_TABLE_SIZE ∧ (t i).used = true ∧ (t i).key = p.1
  inserted : ∀ i, i < EDGE_TABLE_SIZE → (t i).used = true → (t i).key ∈ ins.map Prod.fst

/-- The triangles that the table holds for an edge after the loop over the
triangles: the first two of its calls. -/
def recorded (tris : List (Int × Int × Int)) (edge : Edge) : List Tri :=
  (incident_of (insertions tris) edge).take 2

/-- The candidate record of an edge in a list of triangles: the edge has two
recorded triangles with opposite vertices, crosses the segment of the opposite
vertices and violates the Delaunay condition. -/
def edge_candidate (K : Kernel) (points : List Point) (tris : List (Int × Int × Int))
    (edge : Edge) : Option CandidateEdge :=
  match recorded tris edge with
  | [A, B] =>
    match opposite_vertex A edge, opposite_vertex B edge with
    | Except.ok opp1, Except.ok opp2 =>
      if do_cross K.intersection
          { source := pointAt points edge.first, target := pointAt points edge.second }
          { source := pointAt points opp1, target := pointAt points opp2 } = true ∧
        violates_local_delaunay K (pointAt points edge.first) (pointAt points edge.second)
          (pointAt points opp1) (pointAt points opp2) = true then
        some { edge := edge, partner := normalize_edge opp1 opp2, opp1 := opp1, opp2 := opp2 }
      else none
    | _, _ => none
  | _ => none

/-- The four conflict edges of an edge in a list of triangles; none when the edge
is no candidate. -/
def conflicts_of (K : Kernel) (points : List Point) (tris : List (Int × Int × Int))
    (edge : Edge) : List Edge :=
  match edge_candidate K points tris edge with
  | some c => conflicting_edges_from_candidate c
  | none => []

/-- The state of the table after the loop over the triangles `tris`: the used
buckets are those of the edges of the triangles, each holds the first two triangles
of its edge, and a valid candidate record is the record of its edge. -/
structure TableOk (K : Kernel) (points : List Point) (tris : List (Int × Int × Int))
    (t : EdgeTable) : Prop where
  chain : Chain t
  held : ∀ i, i < EDGE_TABLE_SIZE → (t i).used = true →
    bucket_tris (t i) = recorded tris (t i).key ∧ (t i).triangle_count ≤ 2
  present : ∀ p, p ∈ insertions tris →
    ∃ i, i < EDGE_TABLE_SIZE ∧ (t i).used = true ∧ (t i).key = p.1
  inserted : ∀ i, i < EDGE_TABLE_SIZE → (t i).used = true →
    (t i).key ∈ (insertions tris).map Prod.fst
  cand : ∀ i, i < EDGE_TABLE_SIZE → (t i).used = true → (t i).candidate_valid = true →
    edge_candidate K points tris (t i).key = some (t i).candidate

/-- Some slot of the table is unused. -/
def HasFree (t : EdgeTable) : Prop := ∃ i, i < EDGE_TABLE_SIZE ∧ (t i).used = false

/-- No used bucket is blocked. -/
def Unblocked (t : EdgeTable) : Prop :=
  ∀ i, i < EDGE_TABLE_SIZE → (t i).used = true → (t i).blocked = false

/-- Two tables that differ at most in the flags `blocked` and `candidate_valid` and
in the candidate records. -/
def SameData (t t2 : EdgeTable) : Prop :=
  ∀ i, (t2 i).used = (t i).used ∧ (t2 i).key = (t i).key ∧
    (t2 i).triangle_count = (t i).triangle_count ∧ (t2 i).triangles0 = (t i).triangles0 ∧
    (t2 i).triangles1 = (t i).triangles1

/-- What the loop of `compute_delaunay_batches` over the slots `idxs` does to a
table `t`, a buffer `buf` and a count `n`: it marks buckets among `idxs` as
candidates and appends their keys to the buffer; below the cap it appends every
candidate among `idxs`. -/
structure ScanPost (K : Kernel) (points : List Point) (tris : List (Int × Int × Int))
    (idxs : List Nat) (t : EdgeTable) (buf : EdgeBuf) (n : Nat) (t2 : EdgeTable) (buf2 : EdgeBuf)
    (n2 : Nat) : Prop where
  ok : TableOk K points tris t2
  same : SameData t t2
  unblocked : Unblocked t2
  le : n ≤ n2
  bound : n2 ≤ n + idxs.length
  cap : n < MAX_EDGES_PER_TRIANG → n2 ≤ MAX_EDGES_PER_TRIANG
  buf : BufSim n buf buf2
  mono : ∀ i, (t i).candidate_valid = true → (t2 i).candidate_valid = true
  frame : ∀ i, i ∉ idxs → t2 i = t i
  listed : ∀ k, n ≤ k → k < n2 →
    ∃ i, i ∈ idxs ∧ (t2 i).used = true ∧ (t2 i).key = buf2 k ∧ (t2 i).candidate_valid = true
  complete : n2 < MAX_EDGES_PER_TRIANG → ∀ i, i ∈ idxs → (t i).used = true →
    ∀ c, edge_candidate K points tris (t i).key = some c →
      ∃ k, n ≤ k ∧ k < n2 ∧ buf2 k = (t i).key
  nodup : ∀ k1 k2, n ≤ k1 → k1 < k2 → k2 < n2 → buf2 k1 ≠ buf2 k2

/-- What the loop of `sample_parallel_batch` over `candidates` does to a table `t`,
a buffer `buf` and a count `n`: it marks buckets of normalized entries as candidates
and appends their keys to the buffer. -/
structure FilterPost (K : Kernel) (points : List Point) (tris : List (Int × Int × Int))
    (cands : List (Int × Int)) (t : EdgeTable) (buf : EdgeBuf) (n : Nat) (t2 : EdgeTable)
    (buf2 : EdgeBuf) (n2 : Nat) : Prop where
  ok : TableOk K points tris t2
  same : SameData t t2
  unblocked : Unblocked t2
  le : n ≤ n2
  bound : n2 ≤ n + cands.length
  cap : n < MAX_EDGES_PER_TRIANG → n2 ≤ MAX_EDGES_PER_TRIANG
  buf : BufSim n buf buf2
  mono : ∀ i, (t i).candidate_valid = true → (t2 i).candidate_valid = true
  listed : ∀ k, n ≤ k → k < n2 →
    buf2 k ∈ cands.map (fun p => normalize_edge p.1 p.2) ∧
    ∃ i, i < EDGE_TABLE_SIZE ∧ (t2 i).used = true ∧ (t2 i).key = buf2 k ∧
      (t2 i).candidate_valid = true
  marked : ∀ i, i < EDGE_TABLE_SIZE → (t2 i).used = true → (t2 i).candidate_valid = true →
    (t i).candidate_valid = true ∨ (t2 i).key ∈ cands.map (fun p => normalize_edge p.1 p.2)
  none : (∀ p, p ∈ cands → edge_candidate K points tris (normalize_edge p.1 p.2) = none) →
    n2 = n

/-- The second table is the first with some more buckets blocked. -/
def BlockStep (t t2 : EdgeTable) : Prop :=
  ∀ i, t2 i = t i ∨ t2 i = { t i with blocked := true }

/-- The state of the selection loop, where `S` lists the edges selected so far:
their buckets and the buckets of their conflict edges are blocked, nothing else is,
and no edge selected is equal to or a conflict edge of an earlier one. -/
structure SelInv (K : Kernel) (points : List Point) (tris : List (Int × Int × Int))
    (t : EdgeTable) (S : List Edge) : Prop where
  ok : TableOk K points tris t
  sel : ∀ s, s ∈ S → ∃ i, i < EDGE_TABLE_SIZE ∧ (t i).used = true ∧ (t i).key = s ∧
    (t i).candidate_valid = true ∧ (t i).blocked = true
  conf : ∀ s, s ∈ S → ∀ c, c ∈ conflicts_of K points tris s →
    ∀ i, i < EDGE_TABLE_SIZE → (t i).used = true → (t i).key = c → (t i).blocked = true
  why : ∀ i, i < EDGE_TABLE_SIZE → (t i).used = true → (t i).blocked = true →
    (t i).key ∈ S ∨ ∃ s, s ∈ S ∧ (t i).key ∈ conflicts_of K points tris s
  pairwise : S.Pairwise (fun a b => a ≠ b ∧ b ∉ conflicts_of K points tris a)

/-- The distinct edges of the triangles of a list. -/
def edge_keys (tris : List (Int × Int × Int)) : List Edge :=
  ((insertions tris).map Prod.fst).dedup

/-- Every triangle of the list has three different corners. -/
def NonDegenerate (tris : List (Int × Int × Int)) : Prop :=
  ∀ T, T ∈ tris → T.1 ≠ T.2.1 ∧ T.2.1 ≠ T.2.2 ∧ T.1 ≠ T.2.2

/-- Every edge lies in at most two triangles of the list. -/
def AtMostTwo (tris : List (Int × Int × Int)) : Prop :=
  ∀ edge : Edge, (tris.filter (fun tri => decide (edge ∈ tri_edges (to_triangle tri)))).length ≤ 2

/-- The edge of a pair of indices as the schedulers return it. -/
def edge_of (p : Int × Int) : Edge := { first := p.1, second := p.2 }

/-- The pair of indices of an edge, as the schedulers return it. -/
def to_pair (e : Edge) : Int × Int := (e.first, e.second)

/-- The edge set after the edges of `S` are replaced, one after the other, by their
flip partners in the triangles `tris`. -/
def flip_edges (K : Kernel) (points : List Point) (tris : List (Int × Int × Int))
    (S : List Edge) (edge_set : List Edge) : List Edge :=
  S.foldl (fun acc s =>
    match edge_candidate K points tris s with
    | some c => set_insert (set_erase acc s) c.partner
    | none => acc) edge_set

/-- The candidates of a list of triangles: the distinct edges that have a
candidate record. -/
def candidate_edges (K : Kernel) (points : List Point) (tris : List (Int × Int × Int)) :
    List Edge :=
  (edge_keys tris).filter (fun e => (edge_candidate K points tris e).isSome)

/-- What a round of `compute_delaunay_batches` that yields a batch guarantees: the
batch lists the edges selected by a run of the selection loop on the table of the
triangles of the edge set of the round, it is not empty, and below the cap every
candidate is selected or is a conflict edge of a selected edge. -/
def RoundOk (K : Kernel) (arrangement : ArrangementFn) (points : List Point) (r : Round) :
    Prop :=
  ∃ tris t S,
    compute_triangles arrangement points (edges_vector_from_set r.edge_set) = Except.ok tris ∧
    SelInv K points tris t S ∧ r.batch = S.map to_pair ∧ S ≠ [] ∧
    ((candidate_edges K points tris).length < MAX_EDGES_PER_TRIANG →
      ∀ e c, edge_candidate K points tris e = some c →
        e ∈ S ∨ ∃ s, s ∈ S ∧ e ∈ conflicts_of K points tris s)

/-- The rounds of `compute_delaunay_batches` follow each other: every round starts
from the edge set that the round before leaves, which is its own edge set with the
edges of its batch replaced by their flip partners. -/
def RoundsFrom (K : Kernel) (arrangement : ArrangementFn) (points : List Point) :
    List Edge → List Round → List Edge → Prop
  | edge_set, [], final => final = edge_set
  | edge_set, r :: rest, final =>
    r.edge_set = edge_set ∧
    ∃ tris, compute_triangles arrangement points (edges_vector_from_set edge_set) =
        Except.ok tris ∧
      RoundsFrom K arrangement points
        (flip_edges K points tris (r.batch.map edge_of) edge_set) rest final

/-- An edge set as `compute_delaunay_batches` keeps it: no edge twice, every edge
with its smaller index first. -/
def EdgeSetOk (s : List Edge) : Prop := s.Nodup ∧ ∀ e, e ∈ s → e.first ≤ e.second

/-- The first `n` entries of a buffer. -/
def buf_list (buf : EdgeBuf) (n : Nat) : List Edge := (List.range n).map buf

end detail

/-! ## Concrete kernel, generator and scratch arrays -/

/-- The sign of a number. -/
def signOf (q : ℚ) : Sign :=
  if q < 0 then Sign.negative else if q = 0 then Sign.zero else Sign.positive

/-- The in-circle determinant of four points: positive when `d` lies inside the
circle through `a`, `b`, `c` taken counterclockwise. -/
def inCircleDet (a b c d : Point) : ℚ :=
  ((a.x - d.x) * (a.x - d.x) + (a.y - d.y) * (a.y - d.y)) *
      ((b.x - d.x) * (c.y - d.y) - (c.x - d.x) * (b.y - d.y)) -
    ((b.x - d.x) * (b.x - d.x) + (b.y - d.y) * (b.y - d.y)) *
      ((a.x - d.x) * (c.y - d.y) - (c.x - d.x) * (a.y - d.y)) +
    ((c.x - d.x) * (c.x - d.x) + (c.y - d.y) * (c.y - d.y)) *
      ((a.x - d.x) * (b.y - d.y) - (b.x - d.x) * (a.y - d.y))

/-- A model of the exact predicates of the CGAL kernel. -/
def exactKernel : Kernel :=
  { intersection := segIntersection
    orientation := fun a b c => signOf (orient a b c)
    side_of_oriented_circle := fun a b c d => signOf (inCircleDet a b c d) }

/-- A generator that counts its draws, in place of `std::mt19937`: the integer draw
is the count reduced to the range, the real draw alternates between 0 and 1. -/
def counterRng : Rng :=
  { State := Nat
    Real := Nat
    seed := fun s => s
    uniform_int := fun hi s => (s % (hi + 1), s + 1)
    uniform_int_le := fun hi s => Nat.le_of_lt_succ (Nat.mod_lt s (Nat.succ_pos hi))
    uniform_real := fun s => (s % 2, s + 1)
    lt := fun a b => decide (a < b) }

namespace detail

/-- A bucket with all fields zero. -/
def zeroBucket : EdgeBucket :=
  { key := { first := 0, second := 0 }
    used := false
    blocked := false
    candidate_valid := false
    triangle_count := 0
    triangles0 := (0, 0, 0)
    triangles1 := (0, 0, 0)
    candidate := { edge := { first := 0, second := 0 }, partner := { first := 0, second := 0 },
                   opp1 := 0, opp2 := 0 } }

/-- The scratch arrays of a thread before the first call. -/
def zeroScratch : Scratch :=
  { g_edge_table := fun _ => zeroBucket
    g_candidate_order_buf := fun _ => { first := 0, second := 0 }
    g_offender_buf := fun _ => { first := 0, second := 0 }
    g_selected_buf := fun _ => { first := 0, second := 0 } }

end detail
namespace detail

/-- The tables that a cleared table becomes through calls of `insert_bucket` and
through writes of the callers to the fields of a bucket other than `used` and `key`;
the list holds the edges inserted, the latest first. -/
inductive Inserted : EdgeTable → List Edge → Prop where
  | clear (t0 : EdgeTable) : Inserted (clear_edge_table t0) []
  | insert (t t2 : EdgeTable) (es : List Edge) (e : Edge) (i : Nat) (h : Inserted t es)
      (hi : insert_bucket t e = Except.ok (t2, i)) : Inserted t2 (e :: es)
  | write (t : EdgeTable) (es : List Edge) (i : Nat) (b : EdgeBucket) (h : Inserted t es)
      (hu : b.used = (t i).used) (hk : b.key = (t i).key) :
      Inserted (Function.update t i b) es

end detail

/-- The squared distance of two points. -/
def sqDist (p q : Point) : ℚ := (p.x - q.x) * (p.x - q.x) + (p.y - q.y) * (p.y - q.y)

/-- The three points lie on one line, in the words of the description: some line
`α x + β y = γ` holds all three. -/
def Collinear (a b c : Point) : Prop :=
  ∃ α β γ : ℚ, (α ≠ 0 ∨ β ≠ 0) ∧ α * a.x + β * a.y = γ ∧ α * b.x + β * b.y = γ ∧
    α * c.x + β * c.y = γ

/-- The point `d` lies strictly inside the circumcircle of `a`, `b`, `c`, in the
words of the description: some point `o` is at one distance from `a`, `b` and `c`,
and `d` is closer to it. -/
def StrictlyInsideCircumcircle (a b c d : Point) : Prop :=
  ∃ o : Point, sqDist o a = sqDist o b ∧ sqDist o a = sqDist o c ∧ sqDist o d < sqDist o a

/-- The point `d` lies on a circle through `a`, `b`, `c`. -/
def OnCircumcircle (a b c d : Point) : Prop :=
  ∃ o : Point, sqDist o a = sqDist o b ∧ sqDist o a = sqDist o c ∧ sqDist o d = sqDist o a

/-- The centre of the circle through three points that are not collinear. -/
def circumcenter (a b c : Point) : Point :=
  { x := a.x + (((b.x - a.x) * (b.x - a.x) + (b.y - a.y) * (b.y - a.y)) * (c.y - a.y) -
        ((c.x - a.x) * (c.x - a.x) + (c.y - a.y) * (c.y - a.y)) * (b.y - a.y)) /
        (2 * orient a b c)
    y := a.y + (((c.x - a.x) * (c.x - a.x) + (c.y - a.y) * (c.y - a.y)) * (b.x - a.x) -
        ((b.x - a.x) * (b.x - a.x) + (b.y - a.y) * (b.y - a.y)) * (c.x - a.x)) /
        (2 * orient a b c) }

namespace detail

/-- Two outcomes agree: both are the same failure, or both are results that `r`
relates. -/
def ResSim {α β : Type} (r : α → β → Prop) : Except BatchErr α → Except BatchErr β → Prop
  | Except.error x, Except.error y => x = y
  | Except.ok a, Except.ok b => r a b
  | Except.error _, Except.ok _ => False
  | Except.ok _, Except.error _ => False

/-- Two states of a loop over a table, a buffer and a count agree: the tables agree,
the counts are equal, and the buffers agree below the count. -/
def LoopSim (r r2 : EdgeTable × EdgeBuf × Nat) : Prop :=
  TableSim r.1 r2.1 ∧ r.2.2 = r2.2.2 ∧ BufSim r.2.2 r.2.1 r2.2.1

end detail

namespace detail

/-- The entries of `candidates` that are valid candidates, normalized, in the order
of the list: the edges that have a candidate record in the triangles. -/
def valid_entries (K : Kernel) (points : List Point) (tris : List (Int × Int × Int))
    (candidates : List (Int × Int)) : List Edge :=
  (candidates.map (fun q => normalize_edge q.1 q.2)).filter
    (fun e => (edge_candidate K points tris e).isSome)

/-- The valid candidates that `sample_parallel_batch` keeps: the first
`MAX_EDGES_PER_TRIANG` valid entries. -/
def valid_candidates (K : Kernel) (points : List Point) (tris : List (Int × Int × Int))
    (candidates : List (Int × Int)) : List Edge :=
  (valid_entries K points tris candidates).take MAX_EDGES_PER_TRIANG

/-- The buffer that holds a list of edges from position 0 on. -/
def buf_of (l : List Edge) : EdgeBuf := fun i => l.getD i { first := 0, second := 0 }

/-- The order into which `sample_parallel_batch` shuffles a list of edges for a
seed. -/
def shuffled (R : Rng) (seed : Nat) (l : List Edge) : List Edge :=
  buf_list (shuffle R l.length (buf_of l) (R.seed (seed % 2 ^ 32))).1 l.length

/-- One step of the greedy selection in the words of the description: the edge is
taken unless it is selected already or is a conflict edge of a selected edge. -/
def greedy_step (K : Kernel) (points : List Point) (tris : List (Int × Int × Int))
    (S : List Edge) (e : Edge) : List Edge :=
  if e ∈ S ∨ ∃ s, s ∈ S ∧ e ∈ conflicts_of K points tris s then S else S ++ [e]

/-- The greedy selection over an order of edges, in the words of the description. -/
def greedy (K : Kernel) (points : List Point) (tris : List (Int × Int × Int))
    (order : List Edge) : List Edge :=
  order.foldl (greedy_step K points tris) []

end detail

/-! ## A hexagon with two candidates -/

/-- The corners of a convex hexagon, counterclockwise. -/
def hexPoints : List Point :=
  [{ x := -1, y := 0 }, { x := 0, y := -1 }, { x := 1, y := -1 }, { x := 1, y := 0 },
   { x := 0, y := 1 }, { x := -1, y := 1 }]

/-- The six sides of the hexagon and the diagonals `(1, 5)`, `(1, 4)`, `(2, 4)` of a
triangulation. -/
def hexEdges : List (Int × Int) :=
  [(0, 1), (1, 2), (2, 3), (3, 4), (4, 5), (5, 0), (1, 5), (1, 4), (2, 4)]

/-- The four triangles of the triangulation of the hexagon. -/
def hexTriangles : List (Int × Int × Int) := [(0, 1, 5), (1, 2, 4), (1, 4, 5), (2, 3, 4)]

/-- The arrangement of `hexEdges` on `hexPoints`: the unbounded face and the four
triangles, each walked counterclockwise. -/
def hexArrangement : ArrangementFn := fun points _ =>
  [{ is_unbounded := true, outer_ccb := [] }, triangleFace points 0 1 5,
    triangleFace points 1 4 5, triangleFace points 1 2 4, triangleFace points 2 3 4]

/-! ## A run of the Delaunay scheduler on the hexagon -/

/-- The arrangement of a triangulation of the hexagon `hexPoints` that holds the
diagonal `(1, 4)`: the unbounded face and four triangles.  The quadrilateral
`0, 1, 4, 5` is split by the diagonal `(1, 5)` when the edges hold it and by `(0, 4)`
otherwise; the quadrilateral `1, 2, 3, 4` is split by `(2, 4)` when the edges hold it
and by `(1, 3)` otherwise.  Every triangle is walked counterclockwise. -/
def hexagonArrangement : ArrangementFn := fun points edges =>
  { is_unbounded := true, outer_ccb := [] } ::
    ((if (1, 5) ∈ edges ∨ (5, 1) ∈ edges then
        [triangleFace points 0 1 5, triangleFace points 1 4 5]
      else [triangleFace points 0 1 4, triangleFace points 0 4 5]) ++
     (if (2, 4) ∈ edges ∨ (4, 2) ∈ edges then
        [triangleFace points 1 2 4, triangleFace points 2 3 4]
      else [triangleFace points 1 2 3, triangleFace points 1 3 4]))

/-- The four triangles of the hexagon after the diagonals `(1, 5)` and `(2, 4)` are
replaced by `(0, 4)` and `(1, 3)`. -/
def hexFlippedTriangles : List (Int × Int × Int) := [(0, 1, 4), (0, 4, 5), (1, 2, 3), (1, 3, 4)]

/-! ## Triangle lists with opposite vertices -/

/-- Every triangle of a list of `edge_to_triangles_` has a vertex that is not an
endpoint of the edge it is listed for, so that `opposite_vertex` returns on it. -/
def ListsProper (s : FlipPartnerMapNative) : Prop :=
  ∀ x L, find s.edge_to_triangles_ x = some L →
    ∀ t ∈ L, ∃ w, opposite_vertex t x = Except.ok w

/-! ## The square with both diagonals -/

/-- The four triangles that three of the four corners of a quadrilateral span. -/
def crossedTriangles : List (Int × Int × Int) := [(0, 1, 2), (0, 1, 3), (0, 2, 3), (1, 2, 3)]

/-- The four sides of a quadrilateral and both diagonals. -/
def crossedEdges : List (Int × Int) := [(0, 1), (1, 2), (2, 3), (3, 0), (0, 2), (1, 3)]

/-- A state on four points in which both diagonals of the quadrilateral are edges:
every edge lies in the two triangles that contain it, and each diagonal is the flip
partner of the other. -/
def crossedSquare (points : List Point) : FlipPartnerMapNative :=
  { points_ := points
    edges_ := [{ u := 0, v := 1 }, { u := 1, v := 2 }, { u := 2, v := 3 }, { u := 0, v := 3 },
      { u := 0, v := 2 }, { u := 1, v := 3 }]
    edge_to_triangles_ :=
      [({ u := 0, v := 1 }, [{ i0 := 0, i1 := 1, i2 := 2 }, { i0 := 0, i1 := 1, i2 := 3 }]),
       ({ u := 1, v := 2 }, [{ i0 := 0, i1 := 1, i2 := 2 }, { i0 := 1, i1 := 2, i2 := 3 }]),
       ({ u := 0, v := 2 }, [{ i0 := 0, i1 := 1, i2 := 2 }, { i0 := 0, i1 := 2, i2 := 3 }]),
       ({ u := 1, v := 3 }, [{ i0 := 0, i1 := 1, i2 := 3 }, { i0 := 1, i1 := 2, i2 := 3 }]),
       ({ u := 0, v := 3 }, [{ i0 := 0, i1 := 1, i2 := 3 }, { i0 := 0, i1 := 2, i2 := 3 }]),
       ({ u := 2, v := 3 }, [{ i0 := 0, i1 := 2, i2 := 3 }, { i0 := 1, i1 := 2, i2 := 3 }])]
    flip_map_ := [({ u := 0, v := 2 }, { u := 1, v := 3 }), ({ u := 1, v := 3 }, { u := 0, v := 2 })] }


/-! ## Triangles as regions of the plane -/

/-- The point `z` lies strictly inside the triangle `a b c`: strictly on the same
side of its three directed sides. -/
def InsideTriangle (a b c z : Point) : Prop :=
  (0 < orient a b z ∧ 0 < orient b c z ∧ 0 < orient c a z) ∨
    (orient a b z < 0 ∧ orient b c z < 0 ∧ orient c a z < 0)

/-- The point at the fraction `e` of the way from `z` to `w`. -/
def towards (z w : Point) (e : ℚ) : Point :=
  { x := (1 - e) * z.x + e * w.x, y := (1 - e) * z.y + e * w.y }


/-- The point lies strictly inside the triangle, taken with the points of its three
corners. -/
def triInside (points : List Point) (t : Triangle) (z : Point) : Prop :=
  InsideTriangle (pointAt points t.i0) (pointAt points t.i1) (pointAt points t.i2) z

/-- The two triangles have the same corners. -/
def SameCorners (t t2 : Triangle) : Prop := ∀ a, a ∈ t.toList ↔ a ∈ t2.toList

/-- The triangle is in one of the lists of `edge_to_triangles_`. -/
def ListedTriangle (s : FlipPartnerMapNative) (t : Triangle) : Prop :=
  ∃ x L, find s.edge_to_triangles_ x = some L ∧ t ∈ L

/-- The listed triangles are the faces of a drawing in the plane: none is degenerate,
and two of them with different corners have no inner point in common. -/
def TrianglesDisjoint (s : FlipPartnerMapNative) : Prop :=
  (∀ t, ListedTriangle s t →
    orient (pointAt s.points_ t.i0) (pointAt s.points_ t.i1) (pointAt s.points_ t.i2) ≠ 0) ∧
  ∀ t t2, ListedTriangle s t → ListedTriangle s t2 → ¬SameCorners t t2 →
    ∀ z, ¬(triInside s.points_ t z ∧ triInside s.points_ t2 z)

/-- The triangles that `compute_triangles` returns for a triangulation are the
bounded faces of an arrangement: none is degenerate, and no two of them have an
inner point in common. -/
def GeoTriangles (points : List Point) (tris : List (Int × Int × Int)) : Prop :=
  (∀ t, t ∈ tris →
    orient (pointAt points t.1) (pointAt points t.2.1) (pointAt points t.2.2) ≠ 0) ∧
  ∀ t t2, t ∈ tris → t2 ∈ tris → t ≠ t2 →
    ∀ z, ¬(InsideTriangle (pointAt points t.1) (pointAt points t.2.1) (pointAt points t.2.2) z ∧
      InsideTriangle (pointAt points t2.1) (pointAt points t2.2.1) (pointAt points t2.2.2) z)

/-- The state after a sequence of calls of `flip`, whatever each call returns. -/
def after_flips (intersection : IntersectionFn) (s : FlipPartnerMapNative)
    (flips : List (Int × Int)) : FlipPartnerMapNative :=
  flips.foldl (fun st edge => (flip intersection st edge).2) s
/-! ## Basic lemmas -/

theorem EdgeKey.of_eq_min_max (a b : Int) : EdgeKey.of a b = { u := min a b, v := max a b } := by
  unfold EdgeKey.of
  split_ifs with h
  · simp [min_eq_left h, max_eq_right h]
  · have h2 : b ≤ a := by omega
    simp [min_eq_right h2, max_eq_left h2]

theorem EdgeKey.of_le (a b : Int) : (EdgeKey.of a b).u ≤ (EdgeKey.of a b).v := by
  unfold EdgeKey.of
  split_ifs with h
  · exact h
  · simp only; omega

theorem EdgeKey.of_eq_iff (a b c d : Int) :
    EdgeKey.of a b = EdgeKey.of c d ↔ (a = c ∧ b = d) ∨ (a = d ∧ b = c) := by
  unfold EdgeKey.of
  split_ifs <;> simp only [EdgeKey.mk.injEq] <;> omega

theorem EdgeKey.of_eq_mk_iff (a b u v : Int) (h : u ≤ v) :
    EdgeKey.of a b = { u := u, v := v } ↔ (a = u ∧ b = v) ∨ (a = v ∧ b = u) := by
  unfold EdgeKey.of
  split_ifs <;> simp only [EdgeKey.mk.injEq] <;> omega

theorem find_assign {V : Type} (m : List (EdgeKey × V)) (k y : EdgeKey) (v : V) :
    find (assign m k v) y = if k = y then some v else find m y := by
  induction m with
  | nil => simp [assign, find]
  | cons kv m ih =>
    obtain ⟨k0, v0⟩ := kv
    by_cases h : k0 = k
    · subst h
      by_cases h2 : k0 = y <;> simp [assign, find, h2]
    · simp only [assign, if_neg h, find, ih]
      by_cases h2 : k0 = y
      · subst h2
        simp [Ne.symm h]
      · simp [h2]

theorem find_erase {V : Type} (m : List (EdgeKey × V)) (k y : EdgeKey) :
    find (erase m k) y = if k = y then none else find m y := by
  induction m with
  | nil => simp [erase, find]
  | cons kv m ih =>
    obtain ⟨k0, v0⟩ := kv
    by_cases h : k0 = k
    · subst h
      simp only [erase, if_true, ih, find]
      by_cases h2 : k0 = y <;> simp [h2]
    · simp only [erase, if_neg h, find, ih]
      by_cases h2 : k0 = y
      · subst h2
        simp [Ne.symm h]
      · simp [h2]


theorem andThen_ok {α : Type} (r : Except Err Unit × FlipPartnerMapNative)
    (f : FlipPartnerMapNative → Except Err α × FlipPartnerMapNative) (a : α)
    (s : FlipPartnerMapNative) :
    andThen r f = (Except.ok a, s) ↔ ∃ s1, r = (Except.ok (), s1) ∧ f s1 = (Except.ok a, s) := by
  obtain ⟨r1, r2⟩ := r
  cases r1 with
  | error e => simp [andThen]
  | ok u => simp [andThen]

theorem andThen_error {α : Type} (r : Except Err Unit × FlipPartnerMapNative)
    (f : FlipPartnerMapNative → Except Err α × FlipPartnerMapNative) (e : Err) :
    (andThen r f).1 = Except.error e ↔
      r.1 = Except.error e ∨ ∃ s1, r = (Except.ok (), s1) ∧ (f s1).1 = Except.error e := by
  obtain ⟨r1, r2⟩ := r
  cases r1 with
  | error e0 => simp [andThen]
  | ok u => simp [andThen]

theorem opposite_vertex_error (t : Triangle) (x : EdgeKey) (e : Err)
    (h : opposite_vertex t x = Except.error e) : e = Err.noOppositeVertex := by
  unfold opposite_vertex at h
  split at h
  · simp at h
  · simp only [Except.error.injEq] at h
    exact h.symm

theorem check_flippability_error (I : IntersectionFn) (pts : List Point) (x : EdgeKey)
    (t0 t1 : Triangle) (e : Err) (h : check_flippability I pts x t0 t1 = Except.error e) :
    e = Err.noOppositeVertex := by
  unfold check_flippability at h
  cases h0 : opposite_vertex t0 x with
  | error e0 =>
    simp only [h0, Except.error.injEq] at h
    subst h
    exact opposite_vertex_error t0 x e0 h0
  | ok o0 =>
    cases h1 : opposite_vertex t1 x with
    | error e1 =>
      simp only [h0, h1, Except.error.injEq] at h
      subst h
      exact opposite_vertex_error t1 x e1 h1
    | ok o1 =>
      simp only [h0, h1] at h
      split_ifs at h

theorem update_flip_partner_error (I : IntersectionFn) (s : FlipPartnerMapNative) (x : EdgeKey)
    (e : Err) (h : (update_flip_partner I s x).1 = Except.error e) :
    e = Err.noOppositeVertex ∧ (update_flip_partner I s x).2 = s := by
  unfold update_flip_partner at h ⊢
  revert h
  split
  · simp
  · split
    · rename_i he
      intro h
      simp only [Except.error.injEq] at h
      subst h
      exact ⟨check_flippability_error I _ _ _ _ _ he, rfl⟩
    · simp
    · simp
  · simp


theorem update_incident_error (I : IntersectionFn) (old : EdgeKey) (s : FlipPartnerMapNative)
    (adj : EdgeKey) (tri : Triangle) (e : Err)
    (h : (update_incident I old s adj tri).1 = Except.error e) : e = Err.noOppositeVertex :=
  (update_flip_partner_error I _ adj e h).1

theorem flip_error_cases (I : IntersectionFn) (s : FlipPartnerMapNative) (edge : Int × Int)
    (e : Err) (h : (flip I s edge).1 = Except.error e) :
    (e = Err.edgeNotFound ∧ normalize_edge edge ∉ s.edges_) ∨
    (e = Err.notFlippable ∧ normalize_edge edge ∈ s.edges_ ∧
      find s.flip_map_ (normalize_edge edge) = none) ∨
    ((e = Err.malformedTopology ∨ e = Err.noOppositeVertex) ∧ normalize_edge edge ∈ s.edges_ ∧
      (find s.flip_map_ (normalize_edge edge)).isSome = true) := by
  unfold flip at h
  by_cases hmem : normalize_edge edge ∈ s.edges_
  · simp only [hmem, not_true_eq_false, if_false] at h
    cases hf : find s.flip_map_ (normalize_edge edge) with
    | none =>
      simp only [hf, Except.error.injEq] at h
      exact Or.inr (Or.inl ⟨h.symm, hmem, rfl⟩)
    | some new_edge =>
      refine Or.inr (Or.inr ⟨?_, hmem, rfl⟩)
      simp only [hf] at h
      split at h
      · right
        simp only [andThen_error] at h
        rcases h with h | ⟨s3, -, h | ⟨s4, -, h | ⟨s5, -, h | ⟨s6, -, h | ⟨s8, -, h⟩⟩⟩⟩⟩
        · exact update_incident_error I _ _ _ _ e h
        · exact update_incident_error I _ _ _ _ e h
        · exact update_incident_error I _ _ _ _ e h
        · exact update_incident_error I _ _ _ _ e h
        · exact (update_flip_partner_error I _ _ e h).1
        · simp at h
      · left
        simp only [Except.error.injEq] at h
        exact h.symm
  · simp only [hmem, not_false_eq_true, if_true, Except.error.injEq] at h
    exact Or.inl ⟨h.symm, hmem⟩

theorem flip_edgeNotFound (I : IntersectionFn) (s : FlipPartnerMapNative) (edge : Int × Int)
    (h : normalize_edge edge ∉ s.edges_) : flip I s edge = (Except.error Err.edgeNotFound, s) := by
  unfold flip
  simp [h]

theorem flip_notFlippable (I : IntersectionFn) (s : FlipPartnerMapNative) (edge : Int × Int)
    (h : normalize_edge edge ∈ s.edges_) (hf : find s.flip_map_ (normalize_edge edge) = none) :
    flip I s edge = (Except.error Err.notFlippable, s) := by
  unfold flip
  simp [h, hf]

theorem flipEntry_congr (I : IntersectionFn) (pts : List Point)
    (m1 m2 : List (EdgeKey × List Triangle)) (x : EdgeKey) (h : find m1 x = find m2 x) :
    flipEntry I pts m1 x = flipEntry I pts m2 x := by
  unfold flipEntry
  rw [h]

theorem flipEntry_of_none (I : IntersectionFn) (pts : List Point)
    (m : List (EdgeKey × List Triangle)) (x : EdgeKey) (h : find m x = none) :
    flipEntry I pts m x = none := by
  unfold flipEntry
  rw [h]

theorem flipEntry_of_two (I : IntersectionFn) (pts : List Point)
    (m : List (EdgeKey × List Triangle)) (x : EdgeKey) (t0 t1 : Triangle)
    (h : find m x = some [t0, t1]) :
    flipEntry I pts m x =
      match check_flippability I pts x t0 t1 with
      | Except.ok r => r
      | Except.error _ => none := by
  unfold flipEntry
  rw [h]

theorem flipEntry_of_not_two (I : IntersectionFn) (pts : List Point)
    (m : List (EdgeKey × List Triangle)) (x : EdgeKey) (L : List Triangle)
    (h : find m x = some L) (hne : ∀ t0 t1 : Triangle, L = [t0, t1] → False) :
    flipEntry I pts m x = none := by
  unfold flipEntry
  rw [h]
  split
  · rename_i t0 t1 h2
    exact absurd (Option.some.inj h2) (hne t0 t1)
  · rfl

theorem update_flip_partner_ok (I : IntersectionFn) (s s1 : FlipPartnerMapNative) (x : EdgeKey)
    (h : update_flip_partner I s x = (Except.ok (), s1)) :
    s1.points_ = s.points_ ∧ s1.edges_ = s.edges_ ∧
    s1.edge_to_triangles_ = s.edge_to_triangles_ ∧
    ∀ y, find s1.flip_map_ y =
      if x = y then flipEntry I s.points_ s.edge_to_triangles_ x else find s.flip_map_ y := by
  unfold update_flip_partner at h
  split at h
  · rename_i hf
    simp only [Prod.mk.injEq, true_and] at h
    subst h
    simp [flipEntry_of_none I _ _ _ hf, find_erase]
  · rename_i t0 t1 hf
    rw [flipEntry_of_two I _ _ _ t0 t1 hf]
    split at h
    · simp at h
    · rename_i p hc
      simp only [Prod.mk.injEq, true_and] at h
      subst h
      simp [hc, find_assign]
    · rename_i hc
      simp only [Prod.mk.injEq, true_and] at h
      subst h
      simp [hc, find_erase]
  · rename_i L hne hf
    simp only [Prod.mk.injEq, true_and] at h
    subst h
    simp [flipEntry_of_not_two I _ _ _ L hf hne, find_erase]

theorem update_incident_ok (I : IntersectionFn) (old : EdgeKey) (s s1 : FlipPartnerMapNative)
    (adj : EdgeKey) (tri : Triangle)
    (h : update_incident I old s adj tri = (Except.ok (), s1)) :
    s1.points_ = s.points_ ∧ s1.edges_ = s.edges_ ∧
    s1.edge_to_triangles_ = assign s.edge_to_triangles_ adj
      (incidentList old ((find s.edge_to_triangles_ adj).getD []) tri) ∧
    ∀ y, find s1.flip_map_ y =
      if adj = y then flipEntry I s1.points_ s1.edge_to_triangles_ adj else find s.flip_map_ y := by
  unfold update_incident at h
  obtain ⟨h1, h2, h3, h4⟩ := update_flip_partner_ok I _ s1 adj h
  refine ⟨h1, h2, h3, fun y => ?_⟩
  rw [h4 y, h1, h3]

/-- The flip-map entry of `y` agrees with the triangle lists of the state. -/
theorem update_incident_step (I : IntersectionFn) (old : EdgeKey) (s s1 : FlipPartnerMapNative)
    (adj : EdgeKey) (tri : Triangle)
    (h : update_incident I old s adj tri = (Except.ok (), s1)) :
    s1.points_ = s.points_ ∧ s1.edges_ = s.edges_ ∧
    s1.edge_to_triangles_ = ettStep old s.edge_to_triangles_ adj tri ∧
    (∀ y, y ≠ adj → find s1.flip_map_ y = find s.flip_map_ y) ∧
    (∀ y, (y = adj ∨ find s.flip_map_ y = flipEntry I s.points_ s.edge_to_triangles_ y) →
      find s1.flip_map_ y = flipEntry I s1.points_ s1.edge_to_triangles_ y) := by
  obtain ⟨h1, h2, h3, h4⟩ := update_incident_ok I old s s1 adj tri h
  refine ⟨h1, h2, h3, fun y hy => ?_, fun y hy => ?_⟩
  · rw [h4 y, if_neg (Ne.symm hy)]
  · by_cases hya : adj = y
    · subst hya
      rw [h4 adj, if_pos rfl]
    · rw [h4 y, if_neg hya]
      rcases hy with hy | hy
      · exact absurd hy.symm hya
      · rw [hy, h1]
        apply flipEntry_congr
        rw [h3, find_assign, if_neg hya]

theorem flip_ok_spec (I : IntersectionFn) (s s1 : FlipPartnerMapNative) (edge r : Int × Int)
    (h : flip I s edge = (Except.ok r, s1)) :
    ∃ new i0 i1, normalize_edge edge ∈ s.edges_ ∧
      find s.flip_map_ (normalize_edge edge) = some new ∧
      find s.edge_to_triangles_ (normalize_edge edge) = some [i0, i1] ∧
      r = to_tuple new ∧
      s1.points_ = s.points_ ∧
      s1.edges_ = setInsert (setErase s.edges_ (normalize_edge edge)) new ∧
      s1.edge_to_triangles_ = ettAfterFlip s.edge_to_triangles_ (normalize_edge edge) new ∧
      (∀ y, y ∉ touched (normalize_edge edge) new →
        find s1.flip_map_ y = find (erase s.flip_map_ (normalize_edge edge)) y) ∧
      (∀ y, (y ∈ touched (normalize_edge edge) new ∨
          (y ≠ normalize_edge edge ∧
            find s.flip_map_ y = flipEntry I s.points_ s.edge_to_triangles_ y)) →
        find s1.flip_map_ y = flipEntry I s1.points_ s1.edge_to_triangles_ y) := by
  unfold flip at h
  by_cases hmem : normalize_edge edge ∈ s.edges_
  swap
  · simp [hmem] at h
  simp only [hmem, not_true_eq_false, if_false] at h
  cases hf : find s.flip_map_ (normalize_edge edge) with
  | none => simp [hf] at h
  | some new =>
    simp only [hf] at h
    split at h
    swap
    · simp at h
    rename_i i0 i1 hett
    simp only [andThen_ok] at h
    obtain ⟨s3, h3, s4, h4, s5, h5, s6, h6, s8, h8, hr⟩ := h
    simp only [Prod.mk.injEq, Except.ok.injEq] at hr
    obtain ⟨hr, hs⟩ := hr
    subst hs
    obtain ⟨p3, e3, t3, u3, c3⟩ := update_incident_step I _ _ _ _ _ h3
    obtain ⟨p4, e4, t4, u4, c4⟩ := update_incident_step I _ _ _ _ _ h4
    obtain ⟨p5, e5, t5, u5, c5⟩ := update_incident_step I _ _ _ _ _ h5
    obtain ⟨p6, e6, t6, u6, c6⟩ := update_incident_step I _ _ _ _ _ h6
    obtain ⟨p8, e8, t8, f8⟩ := update_flip_partner_ok I _ _ _ h8
    simp only at p3 e3 t3 u3 c3 p8 e8 t8 f8 hett
    refine ⟨new, i0, i1, hmem, rfl, hett, hr.symm, ?_, ?_, ?_, ?_, ?_⟩
    · rw [p8, p6, p5, p4, p3]
    · rw [e8, e6, e5, e4, e3]
    · rw [t8, t6, t5, t4, t3]
      rfl
    · intro y hy
      simp only [touched, List.mem_cons, List.mem_singleton, List.not_mem_nil, or_false,
        not_or] at hy
      obtain ⟨y1, y2, y3, y4, y5⟩ := hy
      rw [f8 y, if_neg (Ne.symm y5), u6 y y4, u5 y y3, u4 y y2, u3 y y1]
    · intro y hy
      by_cases hyn : new = y
      · subst hyn
        rw [f8 new, if_pos rfl, p8, t8]
      · rw [f8 y, if_neg hyn, p8, t8]
        apply c6
        by_cases y4 : y = EdgeKey.of new.v (normalize_edge edge).v
        · exact Or.inl y4
        right
        apply c5
        by_cases y3 : y = EdgeKey.of new.u (normalize_edge edge).v
        · exact Or.inl y3
        right
        apply c4
        by_cases y2 : y = EdgeKey.of new.v (normalize_edge edge).u
        · exact Or.inl y2
        right
        apply c3
        by_cases y1 : y = EdgeKey.of new.u (normalize_edge edge).u
        · exact Or.inl y1
        right
        have hy2 : y ≠ normalize_edge edge ∧
            find s.flip_map_ y = flipEntry I s.points_ s.edge_to_triangles_ y := by
          rcases hy with hy | hy
          · simp only [touched, List.mem_cons, List.mem_singleton, List.not_mem_nil,
              or_false] at hy
            rcases hy with hy | hy | hy | hy | hy
            · exact absurd hy y1
            · exact absurd hy y2
            · exact absurd hy y3
            · exact absurd hy y4
            · exact absurd hy.symm hyn
          · exact hy
        rw [find_erase, if_neg (Ne.symm hy2.1), hy2.2]
        apply flipEntry_congr
        rw [find_assign, if_neg hyn, find_erase, if_neg (Ne.symm hy2.1)]

theorem flipEntry_eq_some_iff (I : IntersectionFn) (pts : List Point)
    (m : List (EdgeKey × List Triangle)) (x r : EdgeKey) :
    flipEntry I pts m x = some r ↔
      ∃ t0 t1 o0 o1, find m x = some [t0, t1] ∧
        opposite_vertex t0 x = Except.ok o0 ∧ opposite_vertex t1 x = Except.ok o1 ∧
        do_cross I (segmentOf pts x.u x.v) (segmentOf pts o0 o1) = true ∧
        r = EdgeKey.of o0 o1 := by
  constructor
  · intro h
    unfold flipEntry at h
    split at h
    · rename_i t0 t1 hf
      unfold check_flippability at h
      cases h0 : opposite_vertex t0 x with
      | error e => simp [h0] at h
      | ok o0 =>
        cases h1 : opposite_vertex t1 x with
        | error e => simp [h0, h1] at h
        | ok o1 =>
          simp only [h0, h1] at h
          by_cases hc : do_cross I (segmentOf pts x.u x.v) (segmentOf pts o0 o1) = true
          · unfold segmentOf at hc
            simp only [hc, if_true, Option.some.injEq] at h
            exact ⟨t0, t1, o0, o1, hf, h0, h1, hc, h.symm⟩
          · unfold segmentOf at hc
            simp [hc] at h
    · simp at h
  · rintro ⟨t0, t1, o0, o1, hf, h0, h1, hc, hr⟩
    unfold segmentOf at hc
    rw [flipEntry_of_two I pts m x t0 t1 hf]
    unfold check_flippability
    simp [h0, h1, hc, hr]

theorem invariant2_iff (I : IntersectionFn) (s : FlipPartnerMapNative) :
    Invariant2 I s ↔
      ∀ y, find s.flip_map_ y = flipEntry I s.points_ s.edge_to_triangles_ y := by
  unfold Invariant2
  constructor
  · intro h y
    apply Option.ext
    intro r
    simp only [Option.mem_def]
    rw [h y r, flipEntry_eq_some_iff]
  · intro h x r
    rw [h x, flipEntry_eq_some_iff]

theorem find_ettStep (old : EdgeKey) (m : List (EdgeKey × List Triangle)) (adj y : EdgeKey)
    (tri : Triangle) :
    find (ettStep old m adj tri) y =
      if adj = y then some (incidentList old ((find m adj).getD []) tri) else find m y := by
  unfold ettStep
  rw [find_assign]

theorem find_ettAfterFlip_of_not_touched (m : List (EdgeKey × List Triangle))
    (old new y : EdgeKey) (hy : y ∉ touched old new) :
    find (ettAfterFlip m old new) y = find (erase m old) y := by
  simp only [touched, List.mem_cons, List.mem_singleton, List.not_mem_nil, or_false,
    not_or] at hy
  obtain ⟨y1, y2, y3, y4, y5⟩ := hy
  unfold ettAfterFlip
  rw [find_ettStep, if_neg (Ne.symm y4), find_ettStep, if_neg (Ne.symm y3), find_ettStep,
    if_neg (Ne.symm y2), find_ettStep, if_neg (Ne.symm y1), find_assign, if_neg (Ne.symm y5)]

theorem flip_preserves_invariant2 (I : IntersectionFn) (s s1 : FlipPartnerMapNative)
    (edge r : Int × Int) (hinv : Invariant2 I s) (h : flip I s edge = (Except.ok r, s1)) :
    Invariant2 I s1 := by
  rw [invariant2_iff] at hinv ⊢
  obtain ⟨new, i0, i1, -, -, -, -, -, -, hett, hun, hto⟩ := flip_ok_spec I s s1 edge r h
  intro y
  by_cases hy : y = normalize_edge edge
  · by_cases ht : y ∈ touched (normalize_edge edge) new
    · exact hto y (Or.inl ht)
    · rw [hun y ht, find_erase, if_pos hy.symm]
      symm
      apply flipEntry_of_none
      rw [hett, find_ettAfterFlip_of_not_touched _ _ _ _ ht, find_erase, if_pos hy.symm]
  · exact hto y (Or.inr ⟨hy, hinv y⟩)

theorem EdgeKey.of_eq_imp (a b : Int) (k : EdgeKey) (h : EdgeKey.of a b = k) :
    (a = k.u ∧ b = k.v) ∨ (a = k.v ∧ b = k.u) := by
  subst h
  unfold EdgeKey.of
  split_ifs <;> simp

theorem EdgeKey.of_comm (a b : Int) : EdgeKey.of a b = EdgeKey.of b a := by
  rw [EdgeKey.of_eq_iff]
  exact Or.inr ⟨rfl, rfl⟩

theorem EdgeKey.of_self (k : EdgeKey) (h : k.u ≤ k.v) : EdgeKey.of k.u k.v = k := by
  unfold EdgeKey.of
  rw [if_pos h]

theorem EdgeKey.of_fields (a b : Int) :
    ((EdgeKey.of a b).u = a ∧ (EdgeKey.of a b).v = b) ∨
      ((EdgeKey.of a b).u = b ∧ (EdgeKey.of a b).v = a) := by
  unfold EdgeKey.of
  split_ifs <;> simp

/-- The keys that a flip touches are pairwise different. -/
theorem quad_keys_ne (old new : EdgeKey) (hq : Quad old new) :
    (EdgeKey.of new.u old.u ≠ EdgeKey.of new.v old.u ∧
      EdgeKey.of new.u old.u ≠ EdgeKey.of new.u old.v ∧
      EdgeKey.of new.u old.u ≠ EdgeKey.of new.v old.v ∧
      EdgeKey.of new.v old.u ≠ EdgeKey.of new.u old.v ∧
      EdgeKey.of new.v old.u ≠ EdgeKey.of new.v old.v ∧
      EdgeKey.of new.u old.v ≠ EdgeKey.of new.v old.v) ∧
    (EdgeKey.of new.u old.u ≠ new ∧ EdgeKey.of new.v old.u ≠ new ∧
      EdgeKey.of new.u old.v ≠ new ∧ EdgeKey.of new.v old.v ≠ new) ∧
    (EdgeKey.of new.u old.u ≠ old ∧ EdgeKey.of new.v old.u ≠ old ∧
      EdgeKey.of new.u old.v ≠ old ∧ EdgeKey.of new.v old.v ≠ old) ∧
    new ≠ old := by
  obtain ⟨h1, h2, h3, h4, h5, h6⟩ := hq
  refine ⟨⟨?_, ?_, ?_, ?_, ?_, ?_⟩, ⟨?_, ?_, ?_, ?_⟩, ⟨?_, ?_, ?_, ?_⟩, ?_⟩
  · rw [Ne, EdgeKey.of_eq_iff]; omega
  · rw [Ne, EdgeKey.of_eq_iff]; omega
  · rw [Ne, EdgeKey.of_eq_iff]; omega
  · rw [Ne, EdgeKey.of_eq_iff]; omega
  · rw [Ne, EdgeKey.of_eq_iff]; omega
  · rw [Ne, EdgeKey.of_eq_iff]; omega
  · intro h; have := EdgeKey.of_eq_imp _ _ _ h; omega
  · intro h; have := EdgeKey.of_eq_imp _ _ _ h; omega
  · intro h; have := EdgeKey.of_eq_imp _ _ _ h; omega
  · intro h; have := EdgeKey.of_eq_imp _ _ _ h; omega
  · intro h; have := EdgeKey.of_eq_imp _ _ _ h; omega
  · intro h; have := EdgeKey.of_eq_imp _ _ _ h; omega
  · intro h; have := EdgeKey.of_eq_imp _ _ _ h; omega
  · intro h; have := EdgeKey.of_eq_imp _ _ _ h; omega
  · intro h; subst h; exact h3 rfl

theorem quad_not_touched_old (old new : EdgeKey) (hq : Quad old new) :
    old ∉ touched old new := by
  obtain ⟨-, ⟨a1, a2, a3, a4⟩, ⟨b1, b2, b3, b4⟩, hn⟩ := quad_keys_ne old new hq
  simp only [touched, List.mem_cons, List.mem_singleton, List.not_mem_nil, or_false, not_or]
  exact ⟨Ne.symm b1, Ne.symm b2, Ne.symm b3, Ne.symm b4, Ne.symm hn⟩

theorem find_ettAfterFlip_old (m : List (EdgeKey × List Triangle)) (old new : EdgeKey)
    (hq : Quad old new) : find (ettAfterFlip m old new) old = none := by
  rw [find_ettAfterFlip_of_not_touched m old new old (quad_not_touched_old old new hq),
    find_erase, if_pos rfl]

theorem find_ettAfterFlip_other (m : List (EdgeKey × List Triangle)) (old new y : EdgeKey)
    (hy : y ∉ touched old new) (hyo : y ≠ old) :
    find (ettAfterFlip m old new) y = find m y := by
  rw [find_ettAfterFlip_of_not_touched m old new y hy, find_erase, if_neg (Ne.symm hyo)]

theorem find_ettAfterFlip_new (m : List (EdgeKey × List Triangle)) (old new : EdgeKey)
    (hq : Quad old new) :
    find (ettAfterFlip m old new) new = some [newTri0 old new, newTri1 old new] := by
  obtain ⟨-, ⟨a1, a2, a3, a4⟩, -, -⟩ := quad_keys_ne old new hq
  unfold ettAfterFlip
  rw [find_ettStep, if_neg a4, find_ettStep, if_neg a3, find_ettStep, if_neg a2, find_ettStep,
    if_neg a1, find_assign, if_pos rfl]

theorem find_ettAfterFlip_adj1 (m : List (EdgeKey × List Triangle)) (old new : EdgeKey)
    (hq : Quad old new) :
    find (ettAfterFlip m old new) (EdgeKey.of new.u old.u) =
      some (incidentList old ((find m (EdgeKey.of new.u old.u)).getD []) (newTri0 old new)) := by
  obtain ⟨⟨c12, c13, c14, c23, c24, c34⟩, ⟨a1, a2, a3, a4⟩, ⟨b1, b2, b3, b4⟩, hn⟩ :=
    quad_keys_ne old new hq
  unfold ettAfterFlip
  rw [find_ettStep, if_neg (Ne.symm c14), find_ettStep, if_neg (Ne.symm c13), find_ettStep,
    if_neg (Ne.symm c12), find_ettStep, if_pos rfl, find_assign, if_neg (Ne.symm a1),
    find_erase, if_neg (Ne.symm b1)]

theorem find_ettAfterFlip_adj2 (m : List (EdgeKey × List Triangle)) (old new : EdgeKey)
    (hq : Quad old new) :
    find (ettAfterFlip m old new) (EdgeKey.of new.v old.u) =
      some (incidentList old ((find m (EdgeKey.of new.v old.u)).getD []) (newTri0 old new)) := by
  obtain ⟨⟨c12, c13, c14, c23, c24, c34⟩, ⟨a1, a2, a3, a4⟩, ⟨b1, b2, b3, b4⟩, hn⟩ :=
    quad_keys_ne old new hq
  unfold ettAfterFlip
  rw [find_ettStep, if_neg (Ne.symm c24), find_ettStep, if_neg (Ne.symm c23), find_ettStep,
    if_pos rfl, find_ettStep, if_neg c12, find_assign, if_neg (Ne.symm a2),
    find_erase, if_neg (Ne.symm b2)]

theorem find_ettAfterFlip_adj3 (m : List (EdgeKey × List Triangle)) (old new : EdgeKey)
    (hq : Quad old new) :
    find (ettAfterFlip m old new) (EdgeKey.of new.u old.v) =
      some (incidentList old ((find m (EdgeKey.of new.u old.v)).getD []) (newTri1 old new)) := by
  obtain ⟨⟨c12, c13, c14, c23, c24, c34⟩, ⟨a1, a2, a3, a4⟩, ⟨b1, b2, b3, b4⟩, hn⟩ :=
    quad_keys_ne old new hq
  unfold ettAfterFlip
  rw [find_ettStep, if_neg (Ne.symm c34), find_ettStep, if_pos rfl, find_ettStep,
    if_neg c23, find_ettStep, if_neg c13, find_assign, if_neg (Ne.symm a3),
    find_erase, if_neg (Ne.symm b3)]

theorem find_ettAfterFlip_adj4 (m : List (EdgeKey × List Triangle)) (old new : EdgeKey)
    (hq : Quad old new) :
    find (ettAfterFlip m old new) (EdgeKey.of new.v old.v) =
      some (incidentList old ((find m (EdgeKey.of new.v old.v)).getD []) (newTri1 old new)) := by
  obtain ⟨⟨c12, c13, c14, c23, c24, c34⟩, ⟨a1, a2, a3, a4⟩, ⟨b1, b2, b3, b4⟩, hn⟩ :=
    quad_keys_ne old new hq
  unfold ettAfterFlip
  rw [find_ettStep, if_pos rfl, find_ettStep, if_neg c34, find_ettStep,
    if_neg c24, find_ettStep, if_neg c14, find_assign, if_neg (Ne.symm a4),
    find_erase, if_neg (Ne.symm b4)]

theorem Triangle.mem_toList (t : Triangle) (a : Int) :
    a ∈ t.toList ↔ a = t.i0 ∨ a = t.i1 ∨ a = t.i2 := by
  simp [Triangle.toList]

theorem opposite_vertex_ok (t : Triangle) (x : EdgeKey) (w : Int)
    (h : opposite_vertex t x = Except.ok w) : w ∈ t.toList ∧ w ≠ x.u ∧ w ≠ x.v := by
  unfold opposite_vertex at h
  split at h
  · rename_i idx hfind
    simp only [Except.ok.injEq] at h
    subst h
    have h1 := List.mem_of_find?_eq_some hfind
    have h2 := List.find?_some hfind
    simp only [ne_eq, decide_eq_true_eq] at h2
    exact ⟨h1, h2.1, h2.2⟩
  · simp at h

theorem opposite_vertex_mk (a b c : Int) (x : EdgeKey) :
    opposite_vertex { i0 := a, i1 := b, i2 := c } x =
      if a ≠ x.u ∧ a ≠ x.v then Except.ok a
      else if b ≠ x.u ∧ b ≠ x.v then Except.ok b
      else if c ≠ x.u ∧ c ≠ x.v then Except.ok c
      else Except.error Err.noOppositeVertex := by
  unfold opposite_vertex
  simp only [Triangle.toList, List.find?]
  by_cases ha : a ≠ x.u ∧ a ≠ x.v
  · simp [ha]
  · by_cases hb : b ≠ x.u ∧ b ≠ x.v
    · simp [ha, hb]
    · by_cases hc : c ≠ x.u ∧ c ≠ x.v
      · simp [ha, hb, hc]
      · simp [ha, hb, hc]

theorem update_flip_partner_succeeds (I : IntersectionFn) (s : FlipPartnerMapNative)
    (x : EdgeKey)
    (h : ∀ L, find s.edge_to_triangles_ x = some L →
      ∀ t ∈ L, ∃ w, opposite_vertex t x = Except.ok w) :
    ∃ s1, update_flip_partner I s x = (Except.ok (), s1) := by
  unfold update_flip_partner
  split
  · exact ⟨_, rfl⟩
  · rename_i t0 t1 hf
    obtain ⟨w0, h0⟩ := h _ hf t0 (by simp)
    obtain ⟨w1, h1⟩ := h _ hf t1 (by simp)
    unfold check_flippability
    simp only [h0, h1]
    split_ifs
    · exact ⟨_, rfl⟩
    · exact ⟨_, rfl⟩
  · exact ⟨_, rfl⟩

theorem update_incident_succeeds (I : IntersectionFn) (old : EdgeKey)
    (s : FlipPartnerMapNative) (adj : EdgeKey) (tri : Triangle)
    (h : ∀ t ∈ incidentList old ((find s.edge_to_triangles_ adj).getD []) tri,
      ∃ w, opposite_vertex t adj = Except.ok w) :
    ∃ s1, update_incident I old s adj tri = (Except.ok (), s1) := by
  unfold update_incident
  apply update_flip_partner_succeeds
  intro L hL t ht
  simp only [find_assign, if_true, Option.some.injEq] at hL
  subst hL
  exact h t ht

theorem incidentList_opposite (m : List (EdgeKey × List Triangle)) (old adj : EdgeKey)
    (tri : Triangle)
    (hopp : ∀ L, find m adj = some L → ∀ t ∈ L, ∃ w, opposite_vertex t adj = Except.ok w)
    (htri : ∃ w, opposite_vertex tri adj = Except.ok w) :
    ∀ t ∈ incidentList old ((find m adj).getD []) tri,
      ∃ w, opposite_vertex t adj = Except.ok w := by
  intro t ht
  simp only [incidentList, List.mem_cons, List.mem_filter] at ht
  rcases ht with ht | ht
  · subst ht
    exact htri
  · cases hf : find m adj with
    | none => simp [hf] at ht
    | some L =>
      simp only [hf, Option.getD_some] at ht
      exact hopp L hf t ht.1

/-- In a consistent state the partner of a flippable edge joins the two opposite
vertices, which with the endpoints of the edge are four different points. -/
theorem invariants_quad (I : IntersectionFn) (s : FlipPartnerMapNative) (old new : EdgeKey)
    (hinv : Invariants I s) (hmem : old ∈ s.edges_) (hf : find s.flip_map_ old = some new) :
    Quad old new ∧ new.u < new.v ∧
    ∃ t0 t1 o0 o1, find s.edge_to_triangles_ old = some [t0, t1] ∧
      opposite_vertex t0 old = Except.ok o0 ∧ opposite_vertex t1 old = Except.ok o1 ∧
      do_cross I (segmentOf s.points_ old.u old.v) (segmentOf s.points_ o0 o1) = true ∧
      new = EdgeKey.of o0 o1 := by
  obtain ⟨t0, t1, o0, o1, hett, h0, h1, hc, hn⟩ := (hinv.inv2 old new).1 hf
  have hlt := hinv.normalized old hmem
  have hd := hinv.distinct old t0 t1 hett
  rw [h0, h1] at hd
  have hd2 : o0 ≠ o1 := fun h => hd (by rw [h])
  obtain ⟨-, a1, a2⟩ := opposite_vertex_ok t0 old o0 h0
  obtain ⟨-, b1, b2⟩ := opposite_vertex_ok t1 old o1 h1
  have hfields := EdgeKey.of_fields o0 o1
  have hle := EdgeKey.of_le o0 o1
  rw [← hn] at hfields hle
  refine ⟨?_, ?_, t0, t1, o0, o1, hett, h0, h1, hc, hn⟩
  · unfold Quad
    omega
  · omega

theorem flip_succeeds_aux (I : IntersectionFn) (s : FlipPartnerMapNative) (edge : Int × Int)
    (new : EdgeKey) (hinv : Invariants I s) (hmem : normalize_edge edge ∈ s.edges_)
    (hf : find s.flip_map_ (normalize_edge edge) = some new) :
    ∃ s1, flip I s edge = (Except.ok (to_tuple new), s1) := by
  obtain ⟨hq, hlt, t0, t1, o0, o1, hett, -⟩ := invariants_quad I s _ new hinv hmem hf
  obtain ⟨⟨c12, c13, c14, c23, c24, c34⟩, ⟨a1, a2, a3, a4⟩, ⟨b1, b2, b3, b4⟩, hn⟩ :=
    quad_keys_ne _ new hq
  obtain ⟨q1, q2, q3, q4, q5, q6⟩ := hq
  have hopp := hinv.opposite
  generalize hold : normalize_edge edge = old at *
  -- the state on which the first `update_incident` runs
  let s2 : FlipPartnerMapNative :=
    { s with
      flip_map_ := erase s.flip_map_ old
      edge_to_triangles_ :=
        assign (erase s.edge_to_triangles_ old) new [newTri0 old new, newTri1 old new] }
  have e2 : ∀ y, y ≠ new → y ≠ old →
      find s2.edge_to_triangles_ y = find s.edge_to_triangles_ y := by
    intro y h1 h2
    simp only [s2, find_assign, if_neg (Ne.symm h1), find_erase, if_neg (Ne.symm h2)]
  have tri0a : ∃ w, opposite_vertex (newTri0 old new) (EdgeKey.of new.u old.u) = Except.ok w := by
    refine ⟨new.v, ?_⟩
    rw [newTri0, opposite_vertex_mk]
    rcases EdgeKey.of_fields new.u old.u with h | h <;> simp [h.1, h.2, q2, Ne.symm q2, q5]
  have tri0b : ∃ w, opposite_vertex (newTri0 old new) (EdgeKey.of new.v old.u) = Except.ok w := by
    refine ⟨new.u, ?_⟩
    rw [newTri0, opposite_vertex_mk]
    rcases EdgeKey.of_fields new.v old.u with h | h <;> simp [h.1, h.2, q2, q3]
  have tri1a : ∃ w, opposite_vertex (newTri1 old new) (EdgeKey.of new.u old.v) = Except.ok w := by
    refine ⟨new.v, ?_⟩
    rw [newTri1, opposite_vertex_mk]
    rcases EdgeKey.of_fields new.u old.v with h | h <;> simp [h.1, h.2, q2, Ne.symm q2, q6]
  have tri1b : ∃ w, opposite_vertex (newTri1 old new) (EdgeKey.of new.v old.v) = Except.ok w := by
    refine ⟨new.u, ?_⟩
    rw [newTri1, opposite_vertex_mk]
    rcases EdgeKey.of_fields new.v old.v with h | h <;> simp [h.1, h.2, q2, q4]
  obtain ⟨s3, h3⟩ := update_incident_succeeds I old s2 (EdgeKey.of new.u old.u)
    (newTri0 old new) (by
      rw [e2 _ a1 b1]
      exact incidentList_opposite _ _ _ _ (hopp _) tri0a)
  obtain ⟨-, -, t3, -⟩ := update_incident_step I _ _ _ _ _ h3
  obtain ⟨s4, h4⟩ := update_incident_succeeds I old s3 (EdgeKey.of new.v old.u)
    (newTri0 old new) (by
      rw [t3, find_ettStep, if_neg c12, e2 _ a2 b2]
      exact incidentList_opposite _ _ _ _ (hopp _) tri0b)
  obtain ⟨-, -, t4, -⟩ := update_incident_step I _ _ _ _ _ h4
  obtain ⟨s5, h5⟩ := update_incident_succeeds I old s4 (EdgeKey.of new.u old.v)
    (newTri1 old new) (by
      rw [t4, find_ettStep, if_neg c23, t3, find_ettStep, if_neg c13, e2 _ a3 b3]
      exact incidentList_opposite _ _ _ _ (hopp _) tri1a)
  obtain ⟨-, -, t5, -⟩ := update_incident_step I _ _ _ _ _ h5
  obtain ⟨s6, h6⟩ := update_incident_succeeds I old s5 (EdgeKey.of new.v old.v)
    (newTri1 old new) (by
      rw [t5, find_ettStep, if_neg c34, t4, find_ettStep, if_neg c24, t3, find_ettStep,
        if_neg c14, e2 _ a4 b4]
      exact incidentList_opposite _ _ _ _ (hopp _) tri1b)
  obtain ⟨-, -, t6, -⟩ := update_incident_step I _ _ _ _ _ h6
  have hnew6 : find s6.edge_to_triangles_ new = some [newTri0 old new, newTri1 old new] := by
    rw [t6, find_ettStep, if_neg a4, t5, find_ettStep, if_neg a3, t4, find_ettStep, if_neg a2,
      t3, find_ettStep, if_neg a1]
    simp only [s2, find_assign, if_true]
  obtain ⟨s8, h8⟩ := update_flip_partner_succeeds I
    { s6 with edges_ := setInsert (setErase s6.edges_ old) new } new (by
      intro L hL t ht
      simp only [hnew6, Option.some.injEq] at hL
      subst hL
      simp only [List.mem_cons, List.mem_singleton, List.not_mem_nil, or_false] at ht
      rcases ht with ht | ht
      · subst ht
        refine ⟨old.u, ?_⟩
        rw [newTri0, opposite_vertex_mk]
        simp [q3, q5, Ne.symm q3, Ne.symm q5]
      · subst ht
        refine ⟨old.v, ?_⟩
        rw [newTri1, opposite_vertex_mk]
        simp [q4, q6, Ne.symm q4, Ne.symm q6])
  refine ⟨s8, ?_⟩
  unfold flip
  simp only [hold, hmem, not_true_eq_false, if_false, hf, hett]
  simp only [newTri0, newTri1, s2] at h3 h4 h5 h6 h8
  simp only [andThen, h3, h4, h5, h6, h8]

theorem mem_setInsert (s : List EdgeKey) (k x : EdgeKey) :
    x ∈ setInsert s k ↔ x ∈ s ∨ x = k := by
  unfold setInsert
  split_ifs with h
  · constructor
    · exact Or.inl
    · rintro (h1 | h1)
      · exact h1
      · subst h1; exact h
  · simp

theorem mem_setErase (s : List EdgeKey) (k x : EdgeKey) :
    x ∈ setErase s k ↔ x ∈ s ∧ x ≠ k := by
  simp [setErase]

theorem mem_touched (old new y : EdgeKey) :
    y ∈ touched old new ↔ y ∈ quadEdges old new ∨ y = new := by
  simp [touched, quadEdges, or_assoc]

theorem contains_old_edge_eq (t : Triangle) (e : EdgeKey) (h : e.u ≠ e.v) :
    contains_old_edge t e = hasEdge t e := by
  obtain ⟨a, b, c⟩ := t
  simp only [contains_old_edge, hasEdge, Triangle.toList, List.foldl, List.mem_cons,
    List.mem_singleton, List.not_mem_nil, or_false]
  by_cases ha : a = e.u <;> by_cases hb : b = e.u <;> by_cases hc : c = e.u <;>
    by_cases ha2 : a = e.v <;> by_cases hb2 : b = e.v <;> by_cases hc2 : c = e.v <;>
    simp_all [eq_comm]

/-- The result of a flip in a consistent state. -/
theorem flip_succeeds_spec (I : IntersectionFn) (s : FlipPartnerMapNative) (edge : Int × Int)
    (new : EdgeKey) (hinv : Invariants I s) (hmem : normalize_edge edge ∈ s.edges_)
    (hf : find s.flip_map_ (normalize_edge edge) = some new) :
    ∃ s1, flip I s edge = (Except.ok (new.u, new.v), s1) ∧
      s1.points_ = s.points_ ∧
      s1.edges_ = setInsert (setErase s.edges_ (normalize_edge edge)) new ∧
      s1.edge_to_triangles_ = ettAfterFlip s.edge_to_triangles_ (normalize_edge edge) new ∧
      (∀ y, y ∉ touched (normalize_edge edge) new →
        find s1.flip_map_ y = find (erase s.flip_map_ (normalize_edge edge)) y) ∧
      (∀ y, find s1.flip_map_ y = flipEntry I s1.points_ s1.edge_to_triangles_ y) := by
  obtain ⟨s1, h⟩ := flip_succeeds_aux I s edge new hinv hmem hf
  refine ⟨s1, h, ?_⟩
  have hi2 := flip_preserves_invariant2 I s s1 edge _ hinv.inv2 h
  obtain ⟨new1, i0, i1, -, hf1, -, -, hp, he, ht, hun, -⟩ := flip_ok_spec I s s1 edge _ h
  rw [hf] at hf1
  simp only [Option.some.injEq] at hf1
  subst hf1
  exact ⟨hp, he, ht, hun, (invariant2_iff I s1).1 hi2⟩

/-- The list of an edge of the quadrilateral after the flip. -/
theorem find_ettAfterFlip_quad (m : List (EdgeKey × List Triangle)) (old new y : EdgeKey)
    (hq : Quad old new) (hy : y ∈ quadEdges old new) :
    ∃ tri, (tri = newTri0 old new ∨ tri = newTri1 old new) ∧
      y.u ∈ tri.toList ∧ y.v ∈ tri.toList ∧
      find (ettAfterFlip m old new) y =
        some (incidentList old ((find m y).getD []) tri) := by
  simp only [quadEdges, List.mem_cons, List.mem_singleton, List.not_mem_nil, or_false] at hy
  rcases hy with hy | hy | hy | hy
  · subst hy
    refine ⟨newTri0 old new, Or.inl rfl, ?_, ?_, find_ettAfterFlip_adj1 m old new hq⟩ <;>
      rcases EdgeKey.of_fields new.u old.u with h | h <;>
      simp [h.1, h.2, newTri0, Triangle.toList]
  · subst hy
    refine ⟨newTri0 old new, Or.inl rfl, ?_, ?_, find_ettAfterFlip_adj2 m old new hq⟩ <;>
      rcases EdgeKey.of_fields new.v old.u with h | h <;>
      simp [h.1, h.2, newTri0, Triangle.toList]
  · subst hy
    refine ⟨newTri1 old new, Or.inr rfl, ?_, ?_, find_ettAfterFlip_adj3 m old new hq⟩ <;>
      rcases EdgeKey.of_fields new.u old.v with h | h <;>
      simp [h.1, h.2, newTri1, Triangle.toList]
  · subst hy
    refine ⟨newTri1 old new, Or.inr rfl, ?_, ?_, find_ettAfterFlip_adj4 m old new hq⟩ <;>
      rcases EdgeKey.of_fields new.v old.v with h | h <;>
      simp [h.1, h.2, newTri1, Triangle.toList]

theorem newTri_not_hasEdge (old new : EdgeKey) (hq : Quad old new) :
    hasEdge (newTri0 old new) old = false ∧ hasEdge (newTri1 old new) old = false := by
  obtain ⟨q1, q2, q3, q4, q5, q6⟩ := hq
  simp only [hasEdge, newTri0, newTri1, Triangle.toList, List.mem_cons, List.mem_singleton,
    List.not_mem_nil, or_false, decide_eq_false_iff_not, not_and]
  constructor
  · intro _ h
    rcases h with h | h | h
    · exact q4 h.symm
    · exact q6 h.symm
    · exact q1 h.symm
  · intro h _
    rcases h with h | h | h
    · exact q3 h.symm
    · exact q5 h.symm
    · exact q1 h

theorem length_incidentList (old : EdgeKey) (L : List Triangle) (tri : Triangle)
    (h : (L.filter (fun t => contains_old_edge t old)).length = 1) :
    (incidentList old L tri).length = L.length := by
  have h1 := List.length_eq_countP_add_countP (fun t => contains_old_edge t old) L
  rw [List.countP_eq_length_filter, List.countP_eq_length_filter, h] at h1
  simp only [incidentList, List.length_cons]
  have h2 : (List.filter (fun t => !contains_old_edge t old) L) =
      (List.filter (fun a => decide ¬contains_old_edge a old = true) L) := by
    congr 1
    funext t
    cases contains_old_edge t old <;> simp
  rw [h2]
  omega

theorem flip_invariant1_aux (I : IntersectionFn) (s s1 : FlipPartnerMapNative)
    (edge r : Int × Int) (new : EdgeKey)
    (h1 : Invariant1 s)
    (hf : find s.flip_map_ (normalize_edge edge) = some new)
    (hq : Quad (normalize_edge edge) new)
    (hquad : ∀ a ∈ quadEdges (normalize_edge edge) new, ∃ L,
      find s.edge_to_triangles_ a = some L ∧
      (L.filter (fun t => hasEdge t (normalize_edge edge))).length = 1)
    (hrest : ∀ y L, find s.edge_to_triangles_ y = some L → y ≠ normalize_edge edge →
      y ∉ quadEdges (normalize_edge edge) new →
      ∀ t ∈ L, hasEdge t (normalize_edge edge) = false)
    (hflip : flip I s edge = (Except.ok r, s1)) :
    Invariant1 s1 ∧
    (∀ a ∈ quadEdges (normalize_edge edge) new,
      (find s1.edge_to_triangles_ a).map List.length =
        (find s.edge_to_triangles_ a).map List.length) ∧
    (∀ y L, find s1.edge_to_triangles_ y = some L →
      ∀ t ∈ L, hasEdge t (normalize_edge edge) = false) := by
  obtain ⟨new1, i0, i1, hmem, hf1, -, -, -, he, ht, -, -⟩ := flip_ok_spec I s s1 edge r hflip
  rw [hf] at hf1
  simp only [Option.some.injEq] at hf1
  subst hf1
  generalize normalize_edge edge = old at *
  have hc : ∀ t, contains_old_edge t old = hasEdge t old :=
    fun t => contains_old_edge_eq t old hq.1
  have hnt := newTri_not_hasEdge old new hq
  -- the list of a quadrilateral edge after the flip
  have hadj : ∀ y ∈ quadEdges old new, ∃ L tri,
      find s.edge_to_triangles_ y = some L ∧
      find s1.edge_to_triangles_ y = some (incidentList old L tri) ∧
      (incidentList old L tri).length = L.length ∧
      y.u ∈ tri.toList ∧ y.v ∈ tri.toList ∧ hasEdge tri old = false := by
    intro y hy
    obtain ⟨L, hL, hcount⟩ := hquad y hy
    obtain ⟨tri, htri, hu, hv, hfind⟩ := find_ettAfterFlip_quad s.edge_to_triangles_ old new y hq hy
    refine ⟨L, tri, hL, ?_, ?_, hu, hv, ?_⟩
    · rw [ht, hfind, hL]
      rfl
    · apply length_incidentList
      simp only [hc]
      exact hcount
    · rcases htri with h | h
      · rw [h]; exact hnt.1
      · rw [h]; exact hnt.2
  refine ⟨?_, ?_, ?_⟩
  · intro x hx
    rw [he, mem_setInsert, mem_setErase] at hx
    by_cases hxn : x = new
    · subst hxn
      refine ⟨[newTri0 old x, newTri1 old x],
        by rw [ht]; exact find_ettAfterFlip_new _ old x hq, Or.inr rfl, ?_⟩
      intro t htm
      simp only [List.mem_cons, List.mem_singleton, List.not_mem_nil, or_false] at htm
      rcases htm with htm | htm <;> subst htm <;> simp [newTri0, newTri1, Triangle.toList]
    · have hx2 : x ∈ s.edges_ ∧ x ≠ old := by
        rcases hx with hx | hx
        · exact hx
        · exact absurd hx hxn
      obtain ⟨L, hL, hlen, hend⟩ := h1 x hx2.1
      by_cases hxq : x ∈ quadEdges old new
      · obtain ⟨L2, tri, hL2, hfind, hlen2, hu, hv, -⟩ := hadj x hxq
        rw [hL] at hL2
        simp only [Option.some.injEq] at hL2
        subst hL2
        refine ⟨_, hfind, by rw [hlen2]; exact hlen, ?_⟩
        intro t htm
        simp only [incidentList, List.mem_cons, List.mem_filter] at htm
        rcases htm with htm | htm
        · subst htm
          exact ⟨hu, hv⟩
        · exact hend t htm.1
      · refine ⟨L, ?_, hlen, hend⟩
        rw [ht, find_ettAfterFlip_other _ old new x ?_ hx2.2, hL]
        rw [mem_touched]
        exact fun h => h.elim hxq hxn
  · intro a ha
    obtain ⟨L, tri, hL, hfind, hlen, -⟩ := hadj a ha
    rw [hfind, hL]
    simp [hlen]
  · intro y L hL t htm
    by_cases hyn : y = new
    · subst hyn
      rw [ht, find_ettAfterFlip_new _ old y hq] at hL
      simp only [Option.some.injEq] at hL
      subst hL
      simp only [List.mem_cons, List.mem_singleton, List.not_mem_nil, or_false] at htm
      rcases htm with htm | htm
      · rw [htm]; exact hnt.1
      · rw [htm]; exact hnt.2
    · by_cases hyq : y ∈ quadEdges old new
      · obtain ⟨L2, tri, hL2, hfind, -, -, -, htri⟩ := hadj y hyq
        rw [hfind] at hL
        simp only [Option.some.injEq] at hL
        subst hL
        simp only [incidentList, List.mem_cons, List.mem_filter] at htm
        rcases htm with htm | htm
        · rw [htm]; exact htri
        · have := htm.2
          rw [hc] at this
          simpa using this
      · have hnt2 : y ∉ touched old new := by
          rw [mem_touched]
          exact fun h => h.elim hyq hyn
        by_cases hyo : y = old
        · subst hyo
          rw [ht, find_ettAfterFlip_old _ y new hq] at hL
          simp at hL
        · rw [ht, find_ettAfterFlip_other _ old new y hnt2 hyo] at hL
          exact hrest y L hL hyo hyq t htm

/-- A triangle that holds three different indices holds nothing else, and the one
off the edge of the other two is its opposite vertex. -/
theorem opposite_of_three (t : Triangle) (a b c : Int) (x : EdgeKey)
    (ha : a ∈ t.toList) (hb : b ∈ t.toList) (hc : c ∈ t.toList)
    (hab : a ≠ b) (hac : a ≠ c) (hbc : b ≠ c)
    (hx : (x.u = a ∧ x.v = b) ∨ (x.u = b ∧ x.v = a)) :
    opposite_vertex t x = Except.ok c := by
  obtain ⟨i, j, k⟩ := t
  rw [opposite_vertex_mk]
  simp only [Triangle.mem_toList] at ha hb hc
  split_ifs with h1 h2 h3
  · simp only [Except.ok.injEq]; omega
  · simp only [Except.ok.injEq]; omega
  · simp only [Except.ok.injEq]; omega
  · exfalso; omega

theorem entries_of_opposite (t : Triangle) (x : EdgeKey) (w : Int)
    (hu : x.u ∈ t.toList) (hv : x.v ∈ t.toList) (hne : x.u ≠ x.v)
    (hw : opposite_vertex t x = Except.ok w) :
    ∀ d ∈ t.toList, d = x.u ∨ d = x.v ∨ d = w := by
  obtain ⟨hw1, hw2, hw3⟩ := opposite_vertex_ok t x w hw
  obtain ⟨i, j, k⟩ := t
  simp only [Triangle.mem_toList] at hu hv hw1 ⊢
  intro d hd
  omega

theorem hasEdge_iff (t : Triangle) (e : EdgeKey) :
    hasEdge t e = true ↔ e.u ∈ t.toList ∧ e.v ∈ t.toList := by
  simp [hasEdge]

theorem hasEdge_eq_false_iff (t : Triangle) (e : EdgeKey) :
    hasEdge t e = false ↔ ¬(e.u ∈ t.toList ∧ e.v ∈ t.toList) := by
  simp [hasEdge]

theorem EdgeKey.eq_of_iff (y : EdgeKey) (a b : Int) (h : y.u ≤ y.v) :
    y = EdgeKey.of a b ↔ (a = y.u ∧ b = y.v) ∨ (a = y.v ∧ b = y.u) := by
  obtain ⟨yu, yv⟩ := y
  rw [eq_comm]
  exact EdgeKey.of_eq_mk_iff a b yu yv h

theorem mem_quadEdges (old new y : EdgeKey) (h : y.u ≤ y.v) :
    y ∈ quadEdges old new ↔
      ((y.u = new.u ∨ y.u = new.v) ∧ (y.v = old.u ∨ y.v = old.v)) ∨
      ((y.v = new.u ∨ y.v = new.v) ∧ (y.u = old.u ∨ y.u = old.v)) := by
  simp only [quadEdges, List.mem_cons, List.mem_singleton, List.not_mem_nil, or_false,
    EdgeKey.eq_of_iff y _ _ h]
  omega

/-- The facts about the two triangles of a flippable edge that a flip relies on. -/
theorem invariants_old_triangles (I : IntersectionFn) (s : FlipPartnerMapNative)
    (old new : EdgeKey) (hinv : Invariants I s) (hmem : old ∈ s.edges_)
    (hf : find s.flip_map_ old = some new) :
    ∃ t0 t1, find s.edge_to_triangles_ old = some [t0, t1] ∧
      (∀ r, r = new.u ∨ r = new.v → ∃ T, T ∈ [t0, t1] ∧ opposite_vertex T old = Except.ok r ∧
        old.u ∈ T.toList ∧ old.v ∈ T.toList ∧ r ∈ T.toList ∧
        ∀ t, t ∈ [t0, t1] → opposite_vertex t old = Except.ok r → t = T) ∧
      (∀ t, t ∈ [t0, t1] → ∃ r, (r = new.u ∨ r = new.v) ∧
        opposite_vertex t old = Except.ok r) := by
  obtain ⟨hq, hlt, t0, t1, o0, o1, hett, h0, h1, hc, hn⟩ :=
    invariants_quad I s old new hinv hmem hf
  have hd := hinv.distinct old t0 t1 hett
  obtain ⟨L, hL, -, hend⟩ := hinv.inv1 old hmem
  rw [hett] at hL
  simp only [Option.some.injEq] at hL
  subst hL
  have hfields := EdgeKey.of_fields o0 o1
  rw [← hn] at hfields
  refine ⟨t0, t1, hett, ?_, ?_⟩
  · intro r hr
    have hr2 : r = o0 ∨ r = o1 := by omega
    rcases hr2 with hr2 | hr2
    · subst hr2
      refine ⟨t0, by simp, h0, (hend t0 (by simp)).1, (hend t0 (by simp)).2,
        (opposite_vertex_ok _ _ _ h0).1, ?_⟩
      intro t ht hto
      simp only [List.mem_cons, List.mem_singleton, List.not_mem_nil, or_false] at ht
      rcases ht with ht | ht
      · exact ht
      · subst ht
        exact absurd (h0.trans hto.symm) hd
    · subst hr2
      refine ⟨t1, by simp, h1, (hend t1 (by simp)).1, (hend t1 (by simp)).2,
        (opposite_vertex_ok _ _ _ h1).1, ?_⟩
      intro t ht hto
      simp only [List.mem_cons, List.mem_singleton, List.not_mem_nil, or_false] at ht
      rcases ht with ht | ht
      · subst ht
        exact absurd (hto.trans h1.symm) hd
      · exact ht
  · intro t ht
    simp only [List.mem_cons, List.mem_singleton, List.not_mem_nil, or_false] at ht
    rcases ht with ht | ht
    · subst ht
      exact ⟨o0, by omega, h0⟩
    · subst ht
      exact ⟨o1, by omega, h1⟩

/-- A listed triangle that contains the edge `old` is one of the triangles of `old`. -/
theorem invariants_hasEdge_listed (I : IntersectionFn) (s : FlipPartnerMapNative)
    (old y : EdgeKey) (L : List Triangle) (t : Triangle) (hinv : Invariants I s)
    (hmem : old ∈ s.edges_) (hy : find s.edge_to_triangles_ y = some L) (ht : t ∈ L)
    (he : hasEdge t old = true) :
    ∃ L0, find s.edge_to_triangles_ old = some L0 ∧ t ∈ L0 := by
  rw [hasEdge_iff] at he
  have hlt := hinv.normalized old hmem
  have := hinv.shared y L t hy ht old.u he.1 old.v he.2 (by omega)
  rw [EdgeKey.of_self old (by omega)] at this
  exact this

/-- In a consistent state a triangle of the flipped edge is listed once for each
of the two quadrilateral edges it contains. -/
theorem invariants_quad_count (I : IntersectionFn) (s : FlipPartnerMapNative)
    (old new : EdgeKey) (hinv : Invariants I s) (hmem : old ∈ s.edges_)
    (hf : find s.flip_map_ old = some new) :
    ∀ a ∈ quadEdges old new, ∃ L, find s.edge_to_triangles_ a = some L ∧
      (L.filter (fun t => hasEdge t old)).length = 1 := by
  obtain ⟨hq, hlt, -⟩ := invariants_quad I s old new hinv hmem hf
  obtain ⟨q1, q2, q3, q4, q5, q6⟩ := hq
  obtain ⟨t0, t1, hett, hT, -⟩ := invariants_old_triangles I s old new hinv hmem hf
  have key : ∀ r c, (r = new.u ∨ r = new.v) → (c = old.u ∨ c = old.v) →
      ∃ L, find s.edge_to_triangles_ (EdgeKey.of r c) = some L ∧
        (L.filter (fun t => hasEdge t old)).length = 1 := by
    intro r c hr hcc
    obtain ⟨T, hTm, hTo, hTu, hTv, hTr, hTuniq⟩ := hT r hr
    have hrc : r ≠ c := by omega
    have hTc : c ∈ T.toList := by
      rcases hcc with h | h <;> subst h <;> assumption
    obtain ⟨L, hL, hTL⟩ := hinv.shared old _ T hett hTm r hTr c hTc hrc
    refine ⟨L, hL, ?_⟩
    have ha : EdgeKey.of r c ∈ s.edges_ := hinv.listed _ L hL
    obtain ⟨L2, hL2, hlen, hend⟩ := hinv.inv1 _ ha
    rw [hL] at hL2
    simp only [Option.some.injEq] at hL2
    subst hL2
    have hTe : hasEdge T old = true := (hasEdge_iff T old).2 ⟨hTu, hTv⟩
    -- a listed triangle that contains `old` is `T`
    have huniq : ∀ t ∈ L, hasEdge t old = true → t = T := by
      intro t ht hte
      obtain ⟨L0, hL0, htL0⟩ := invariants_hasEdge_listed I s old _ L t hinv hmem hL ht hte
      rw [hett] at hL0
      simp only [Option.some.injEq] at hL0
      subst hL0
      apply hTuniq t htL0
      rw [hasEdge_iff] at hte
      have hrt : r ∈ t.toList := by
        have := hend t ht
        rcases EdgeKey.of_fields r c with h | h
        · rw [h.1] at this; exact this.1
        · rw [h.2] at this; exact this.2
      exact opposite_of_three t old.u old.v r old hte.1 hte.2 hrt q1 (by omega) (by omega)
        (Or.inl ⟨rfl, rfl⟩)
    rcases hlen with hlen | hlen
    · obtain ⟨x, hx⟩ := List.length_eq_one.1 hlen
      subst hx
      simp only [List.mem_singleton] at hTL
      subst hTL
      simp [List.filter, hTe]
    · obtain ⟨x1, x2, hx⟩ := List.length_eq_two.1 hlen
      subst hx
      have hdist := hinv.distinct _ x1 x2 hL
      have hne : x1 ≠ x2 := fun h => hdist (by rw [h])
      simp only [List.mem_cons, List.mem_singleton, List.not_mem_nil, or_false] at hTL
      rcases hTL with hTL | hTL
      · subst hTL
        have h2 : hasEdge x2 old = false := by
          cases hh : hasEdge x2 old with
          | false => rfl
          | true => exact absurd (huniq x2 (by simp) hh).symm hne
        simp [List.filter, hTe, h2]
      · subst hTL
        have h2 : hasEdge x1 old = false := by
          cases hh : hasEdge x1 old with
          | false => rfl
          | true => exact absurd (huniq x1 (by simp) hh) hne
        simp [List.filter, hTe, h2]
  intro a ha
  simp only [quadEdges, List.mem_cons, List.mem_singleton, List.not_mem_nil, or_false] at ha
  rcases ha with ha | ha | ha | ha <;> subst ha
  · exact key _ _ (Or.inl rfl) (Or.inl rfl)
  · exact key _ _ (Or.inr rfl) (Or.inl rfl)
  · exact key _ _ (Or.inl rfl) (Or.inr rfl)
  · exact key _ _ (Or.inr rfl) (Or.inr rfl)

/-- In a consistent state the triangles of the flipped edge are listed only for
that edge and for the four edges of the quadrilateral. -/
theorem invariants_quad_rest (I : IntersectionFn) (s : FlipPartnerMapNative)
    (old new : EdgeKey) (hinv : Invariants I s) (hmem : old ∈ s.edges_)
    (hf : find s.flip_map_ old = some new) :
    ∀ y L, find s.edge_to_triangles_ y = some L → y ≠ old → y ∉ quadEdges old new →
      ∀ t ∈ L, hasEdge t old = false := by
  intro y L hL hyo hyq t ht
  cases hh : hasEdge t old with
  | false => rfl
  | true =>
    exfalso
    obtain ⟨t0, t1, hett, -, hT⟩ := invariants_old_triangles I s old new hinv hmem hf
    obtain ⟨L0, hL0, htL0⟩ := invariants_hasEdge_listed I s old y L t hinv hmem hL ht hh
    rw [hett] at hL0
    simp only [Option.some.injEq] at hL0
    subst hL0
    obtain ⟨r, hr, hopp⟩ := hT t htL0
    rw [hasEdge_iff] at hh
    have holt := hinv.normalized old hmem
    have hym : y ∈ s.edges_ := hinv.listed y L hL
    have hylt := hinv.normalized y hym
    obtain ⟨L2, hL2, -, hend⟩ := hinv.inv1 y hym
    rw [hL] at hL2
    simp only [Option.some.injEq] at hL2
    subst hL2
    have hent := entries_of_opposite t old r hh.1 hh.2 (by omega) hopp
    have hyu := hent y.u (hend t ht).1
    have hyv := hent y.v (hend t ht).2
    have hyq2 := (mem_quadEdges old new y (by omega)).not.1 hyq
    have hyo2 : ¬(y.u = old.u ∧ y.v = old.v) := by
      intro h
      apply hyo
      obtain ⟨yu, yv⟩ := y
      obtain ⟨ou, ov⟩ := old
      simp only at h
      rw [h.1, h.2]
    omega

/-- When the partner is not yet an edge, no listed triangle contains it. -/
theorem invariants_fresh (I : IntersectionFn) (s : FlipPartnerMapNative) (new : EdgeKey)
    (hinv : Invariants I s) (hfresh : new ∉ s.edges_) (hlt : new.u < new.v) :
    ∀ y L, find s.edge_to_triangles_ y = some L → ∀ t ∈ L, hasEdge t new = false := by
  intro y L hL t ht
  cases hh : hasEdge t new with
  | false => rfl
  | true =>
    exfalso
    rw [hasEdge_iff] at hh
    obtain ⟨L1, hL1, -⟩ := hinv.shared y L t hL ht new.u hh.1 new.v hh.2 (by omega)
    rw [EdgeKey.of_self new (by omega)] at hL1
    exact hfresh (hinv.listed new L1 hL1)

/-- The triangle lists after a flip, case by case. -/
theorem find_ettAfterFlip_cases (m : List (EdgeKey × List Triangle)) (old new y : EdgeKey)
    (L1 : List Triangle) (hq : Quad old new)
    (h : find (ettAfterFlip m old new) y = some L1) :
    (y = new ∧ L1 = [newTri0 old new, newTri1 old new]) ∨
    (y ∈ quadEdges old new ∧ ∃ tri, (tri = newTri0 old new ∨ tri = newTri1 old new) ∧
      y.u ∈ tri.toList ∧ y.v ∈ tri.toList ∧
      L1 = tri :: ((find m y).getD []).filter (fun t => !hasEdge t old)) ∨
    (y ∉ touched old new ∧ y ≠ old ∧ find m y = some L1) := by
  have hc : (fun t => !contains_old_edge t old) = (fun t => !hasEdge t old) := by
    funext t
    rw [contains_old_edge_eq t old hq.1]
  by_cases hyn : y = new
  · left
    subst hyn
    rw [find_ettAfterFlip_new m old y hq] at h
    exact ⟨rfl, (Option.some.inj h).symm⟩
  · by_cases hyq : y ∈ quadEdges old new
    · right; left
      obtain ⟨tri, htri, hu, hv, hfind⟩ := find_ettAfterFlip_quad m old new y hq hyq
      rw [hfind] at h
      refine ⟨hyq, tri, htri, hu, hv, ?_⟩
      rw [← Option.some.inj h, incidentList, hc]
    · right; right
      have hnt : y ∉ touched old new := by
        rw [mem_touched]
        exact fun h => h.elim hyq hyn
      by_cases hyo : y = old
      · subst hyo
        rw [find_ettAfterFlip_old m y new hq] at h
        simp at h
      · rw [find_ettAfterFlip_other m old new y hnt hyo] at h
        exact ⟨hnt, hyo, h⟩

/-- The new triangles have an opposite vertex for each of their edges. -/
theorem newTri_opposite (old new : EdgeKey) (hq : Quad old new) :
    opposite_vertex (newTri0 old new) new = Except.ok old.u ∧
    opposite_vertex (newTri1 old new) new = Except.ok old.v ∧
    opposite_vertex (newTri0 old new) (EdgeKey.of new.u old.u) = Except.ok new.v ∧
    opposite_vertex (newTri0 old new) (EdgeKey.of new.v old.u) = Except.ok new.u ∧
    opposite_vertex (newTri1 old new) (EdgeKey.of new.u old.v) = Except.ok new.v ∧
    opposite_vertex (newTri1 old new) (EdgeKey.of new.v old.v) = Except.ok new.u := by
  obtain ⟨q1, q2, q3, q4, q5, q6⟩ := hq
  refine ⟨?_, ?_, ?_, ?_, ?_, ?_⟩
  · exact opposite_of_three _ new.u new.v old.u new (by simp [newTri0, Triangle.toList])
      (by simp [newTri0, Triangle.toList]) (by simp [newTri0, Triangle.toList]) q2 q3 q5
      (Or.inl ⟨rfl, rfl⟩)
  · exact opposite_of_three _ new.u new.v old.v new (by simp [newTri1, Triangle.toList])
      (by simp [newTri1, Triangle.toList]) (by simp [newTri1, Triangle.toList]) q2 q4 q6
      (Or.inl ⟨rfl, rfl⟩)
  · refine opposite_of_three _ new.u old.u new.v _ (by simp [newTri0, Triangle.toList])
      (by simp [newTri0, Triangle.toList]) (by simp [newTri0, Triangle.toList]) q3 q2
      (Ne.symm q5) ?_
    have := EdgeKey.of_fields new.u old.u
    omega
  · refine opposite_of_three _ new.v old.u new.u _ (by simp [newTri0, Triangle.toList])
      (by simp [newTri0, Triangle.toList]) (by simp [newTri0, Triangle.toList]) q5
      (Ne.symm q2) (Ne.symm q3) ?_
    have := EdgeKey.of_fields new.v old.u
    omega
  · refine opposite_of_three _ new.u old.v new.v _ (by simp [newTri1, Triangle.toList])
      (by simp [newTri1, Triangle.toList]) (by simp [newTri1, Triangle.toList]) q4 q2
      (Ne.symm q6) ?_
    have := EdgeKey.of_fields new.u old.v
    omega
  · refine opposite_of_three _ new.v old.v new.u _ (by simp [newTri1, Triangle.toList])
      (by simp [newTri1, Triangle.toList]) (by simp [newTri1, Triangle.toList]) q6
      (Ne.symm q2) (Ne.symm q4) ?_
    have := EdgeKey.of_fields new.v old.v
    omega

theorem quadEdges_le (old new y : EdgeKey) (hy : y ∈ quadEdges old new) : y.u ≤ y.v := by
  simp only [quadEdges, List.mem_cons, List.mem_singleton, List.not_mem_nil, or_false] at hy
  rcases hy with h | h | h | h <;> subst h <;> exact EdgeKey.of_le _ _

theorem mem_of_mem_of (a b : Int) (t : Triangle) (hu : (EdgeKey.of a b).u ∈ t.toList)
    (hv : (EdgeKey.of a b).v ∈ t.toList) : a ∈ t.toList ∧ b ∈ t.toList := by
  rcases EdgeKey.of_fields a b with h | h
  · rw [h.1] at hu; rw [h.2] at hv; exact ⟨hu, hv⟩
  · rw [h.1] at hu; rw [h.2] at hv; exact ⟨hv, hu⟩

theorem of_has_new (a b : Int) (new : EdgeKey) (h : a = new.u ∨ a = new.v) :
    ((EdgeKey.of a b).u = new.u ∨ (EdgeKey.of a b).u = new.v) ∨
      ((EdgeKey.of a b).v = new.u ∨ (EdgeKey.of a b).v = new.v) := by
  rcases EdgeKey.of_fields a b with h1 | h1
  · rw [h1.1]; exact Or.inl h
  · rw [h1.2]; exact Or.inr h

/-- The new triangle listed for a quadrilateral edge has, as its opposite vertex,
the endpoint of the new diagonal that is not on that edge. -/
theorem quad_tri_opposite (old new y : EdgeKey) (tri : Triangle) (hq : Quad old new)
    (hy : y ∈ quadEdges old new) (htri : tri = newTri0 old new ∨ tri = newTri1 old new)
    (hu : y.u ∈ tri.toList) (hv : y.v ∈ tri.toList) :
    ∃ w, opposite_vertex tri y = Except.ok w ∧ (w = new.u ∨ w = new.v) ∧
      ((y.u = new.u ∨ y.u = new.v) ∨ (y.v = new.u ∨ y.v = new.v)) := by
  obtain ⟨o1, o2, o3, o4, o5, o6⟩ := newTri_opposite old new hq
  obtain ⟨q1, q2, q3, q4, q5, q6⟩ := hq
  simp only [quadEdges, List.mem_cons, List.mem_singleton, List.not_mem_nil, or_false] at hy
  rcases hy with h | h | h | h <;> subst h <;> rcases htri with h | h <;> subst h
  · exact ⟨_, o3, Or.inr rfl, of_has_new _ _ _ (Or.inl rfl)⟩
  · have := (mem_of_mem_of _ _ _ hu hv).2
    simp only [newTri1, Triangle.toList, List.mem_cons, List.mem_singleton, List.not_mem_nil,
      or_false] at this
    exfalso; omega
  · exact ⟨_, o4, Or.inl rfl, of_has_new _ _ _ (Or.inr rfl)⟩
  · have := (mem_of_mem_of _ _ _ hu hv).2
    simp only [newTri1, Triangle.toList, List.mem_cons, List.mem_singleton, List.not_mem_nil,
      or_false] at this
    exfalso; omega
  · have := (mem_of_mem_of _ _ _ hu hv).2
    simp only [newTri0, Triangle.toList, List.mem_cons, List.mem_singleton, List.not_mem_nil,
      or_false] at this
    exfalso; omega
  · exact ⟨_, o5, Or.inr rfl, of_has_new _ _ _ (Or.inl rfl)⟩
  · have := (mem_of_mem_of _ _ _ hu hv).2
    simp only [newTri0, Triangle.toList, List.mem_cons, List.mem_singleton, List.not_mem_nil,
      or_false] at this
    exfalso; omega
  · exact ⟨_, o6, Or.inl rfl, of_has_new _ _ _ (Or.inr rfl)⟩

theorem of_pair_of_three (p q c a b : Int) (ha : a = p ∨ a = q ∨ a = c)
    (hb : b = p ∨ b = q ∨ b = c) (hab : a ≠ b) :
    EdgeKey.of a b = EdgeKey.of p q ∨ EdgeKey.of a b = EdgeKey.of p c ∨
      EdgeKey.of a b = EdgeKey.of q c := by
  rcases ha with h | h | h <;> rcases hb with h2 | h2 | h2 <;> subst h <;> subst h2
  · exact absurd rfl hab
  · exact Or.inl rfl
  · exact Or.inr (Or.inl rfl)
  · exact Or.inl (EdgeKey.of_comm _ _)
  · exact absurd rfl hab
  · exact Or.inr (Or.inr rfl)
  · exact Or.inr (Or.inl (EdgeKey.of_comm _ _))
  · exact Or.inr (Or.inr (EdgeKey.of_comm _ _))
  · exact absurd rfl hab

/-- A flip of a flippable edge whose partner is not yet an edge keeps a consistent
state consistent. -/
theorem flip_preserves_invariants (I : IntersectionFn) (s s1 : FlipPartnerMapNative)
    (edge r : Int × Int) (new : EdgeKey) (hinv : Invariants I s)
    (hf : find s.flip_map_ (normalize_edge edge) = some new) (hfresh : new ∉ s.edges_)
    (hflip : flip I s edge = (Except.ok r, s1)) : Invariants I s1 := by
  obtain ⟨new1, i0, i1, hmem, hf1, -, -, -, he, ht, -, -⟩ := flip_ok_spec I s s1 edge r hflip
  rw [hf] at hf1
  simp only [Option.some.injEq] at hf1
  subst hf1
  have hi2 := flip_preserves_invariant2 I s s1 edge r hinv.inv2 hflip
  obtain ⟨hq, hlt, -⟩ := invariants_quad I s _ new hinv hmem hf
  have hquad := invariants_quad_count I s _ new hinv hmem hf
  have hrest := invariants_quad_rest I s _ new hinv hmem hf
  have hi1 := (flip_invariant1_aux I s s1 edge r new hinv.inv1 hf hq hquad hrest hflip).1
  have hfr := invariants_fresh I s new hinv hfresh hlt
  have holt := hinv.normalized _ hmem
  generalize normalize_edge edge = old at *
  obtain ⟨o1, o2, o3, o4, o5, o6⟩ := newTri_opposite old new hq
  have hcases := fun y L1 => find_ettAfterFlip_cases s.edge_to_triangles_ old new y L1 hq
  -- membership in the new lists of a triangle that stays
  have hstay : ∀ z L t, find s.edge_to_triangles_ z = some L → t ∈ L →
      hasEdge t old = false →
      ∃ L1, find s1.edge_to_triangles_ z = some L1 ∧ t ∈ L1 := by
    intro z L t hL htm hte
    have hzn : z ≠ new := fun h => hfresh (h ▸ hinv.listed z L hL)
    by_cases hzq : z ∈ quadEdges old new
    · obtain ⟨tri, -, -, -, hfind⟩ := find_ettAfterFlip_quad s.edge_to_triangles_ old new z hq hzq
      refine ⟨_, by rw [ht]; exact hfind, ?_⟩
      rw [hL]
      simp only [incidentList, Option.getD_some, List.mem_cons, List.mem_filter]
      right
      exact ⟨htm, by rw [contains_old_edge_eq t old hq.1, hte]; rfl⟩
    · have hzt : z ∉ touched old new := by
        rw [mem_touched]
        exact fun h => h.elim hzq hzn
      have hzo : z ≠ old := by
        intro h
        subst h
        obtain ⟨L2, hL2, -, hend⟩ := hinv.inv1 z hmem
        rw [hL] at hL2
        have := hend t (by rw [← Option.some.inj hL2]; exact htm)
        rw [hasEdge_eq_false_iff] at hte
        exact hte this
      exact ⟨L, by rw [ht, find_ettAfterFlip_other _ old new z hzt hzo]; exact hL, htm⟩
  -- membership in the new lists of the two new triangles
  have hnew0 : ∀ a ∈ (newTri0 old new).toList, ∀ b ∈ (newTri0 old new).toList, a ≠ b →
      ∃ L1, find s1.edge_to_triangles_ (EdgeKey.of a b) = some L1 ∧ newTri0 old new ∈ L1 := by
    intro a ha b hb hab
    simp only [newTri0, Triangle.toList, List.mem_cons, List.mem_singleton, List.not_mem_nil,
      or_false] at ha hb
    have hz : EdgeKey.of a b = EdgeKey.of new.u new.v ∨
        EdgeKey.of a b = EdgeKey.of new.u old.u ∨
        EdgeKey.of a b = EdgeKey.of new.v old.u :=
      of_pair_of_three _ _ _ a b ha hb hab
    rw [EdgeKey.of_self new (le_of_lt hlt)] at hz
    rcases hz with hz | hz | hz <;> rw [hz, ht]
    · exact ⟨_, find_ettAfterFlip_new _ old new hq, by simp⟩
    · exact ⟨_, find_ettAfterFlip_adj1 _ old new hq, by simp [incidentList]⟩
    · exact ⟨_, find_ettAfterFlip_adj2 _ old new hq, by simp [incidentList]⟩
  have hnew1 : ∀ a ∈ (newTri1 old new).toList, ∀ b ∈ (newTri1 old new).toList, a ≠ b →
      ∃ L1, find s1.edge_to_triangles_ (EdgeKey.of a b) = some L1 ∧ newTri1 old new ∈ L1 := by
    intro a ha b hb hab
    simp only [newTri1, Triangle.toList, List.mem_cons, List.mem_singleton, List.not_mem_nil,
      or_false] at ha hb
    have hz : EdgeKey.of a b = EdgeKey.of new.u new.v ∨
        EdgeKey.of a b = EdgeKey.of new.u old.v ∨
        EdgeKey.of a b = EdgeKey.of new.v old.v :=
      of_pair_of_three _ _ _ a b ha hb hab
    rw [EdgeKey.of_self new (le_of_lt hlt)] at hz
    rcases hz with hz | hz | hz <;> rw [hz, ht]
    · exact ⟨_, find_ettAfterFlip_new _ old new hq, by simp⟩
    · exact ⟨_, find_ettAfterFlip_adj3 _ old new hq, by simp [incidentList]⟩
    · exact ⟨_, find_ettAfterFlip_adj4 _ old new hq, by simp [incidentList]⟩
  refine ⟨hi1, hi2, ?_, ?_, ?_, ?_, ?_⟩
  · -- normalized
    intro x hx
    rw [he, mem_setInsert, mem_setErase] at hx
    rcases hx with hx | hx
    · exact hinv.normalized x hx.1
    · rw [hx]; exact hlt
  · -- listed
    intro y L1 hL1
    rw [ht] at hL1
    rw [he, mem_setInsert, mem_setErase]
    rcases hcases y L1 hL1 with ⟨h1, -⟩ | ⟨h1, -⟩ | ⟨-, h2, h3⟩
    · exact Or.inr h1
    · obtain ⟨L, hL, -⟩ := hquad y h1
      refine Or.inl ⟨hinv.listed y L hL, ?_⟩
      intro h
      subst h
      have := quad_not_touched_old y new hq
      rw [mem_touched] at this
      exact this (Or.inl h1)
    · exact Or.inl ⟨hinv.listed y L1 h3, h2⟩
  · -- opposite
    intro y L1 hL1 t htm
    rw [ht] at hL1
    rcases hcases y L1 hL1 with ⟨h1, h2⟩ | ⟨h1, tri, htri, hu, hv, h2⟩ | ⟨-, -, h3⟩
    · subst h1 h2
      simp only [List.mem_cons, List.mem_singleton, List.not_mem_nil, or_false] at htm
      rcases htm with h | h <;> subst h
      · exact ⟨_, o1⟩
      · exact ⟨_, o2⟩
    · subst h2
      simp only [List.mem_cons, List.mem_filter] at htm
      rcases htm with h | h
      · subst h
        obtain ⟨w, hw, -⟩ := quad_tri_opposite old new y t hq h1 htri hu hv
        exact ⟨w, hw⟩
      · obtain ⟨L, hL, -⟩ := hquad y h1
        rw [hL] at h
        exact hinv.opposite y L hL t h.1
    · exact hinv.opposite y L1 h3 t htm
  · -- shared
    intro y L1 t hL1 htm a ha b hb hab
    rw [ht] at hL1
    rcases hcases y L1 hL1 with ⟨h1, h2⟩ | ⟨h1, tri, htri, hu, hv, h2⟩ | ⟨hnt, h2, h3⟩
    · subst h1 h2
      simp only [List.mem_cons, List.mem_singleton, List.not_mem_nil, or_false] at htm
      rcases htm with h | h <;> subst h
      · exact hnew0 a ha b hb hab
      · exact hnew1 a ha b hb hab
    · subst h2
      simp only [List.mem_cons, List.mem_filter] at htm
      rcases htm with h | h
      · subst h
        rcases htri with h | h <;> subst h
        · exact hnew0 a ha b hb hab
        · exact hnew1 a ha b hb hab
      · obtain ⟨L, hL, -⟩ := hquad y h1
        rw [hL] at h
        have hte : hasEdge t old = false := by simpa using h.2
        obtain ⟨L2, hL2, htL2⟩ := hinv.shared y L t hL h.1 a ha b hb hab
        exact hstay _ L2 t hL2 htL2 hte
    · have hyq : y ∉ quadEdges old new := fun h => hnt ((mem_touched old new y).2 (Or.inl h))
      have hte := hrest y L1 h3 h2 hyq t htm
      obtain ⟨L2, hL2, htL2⟩ := hinv.shared y L1 t h3 htm a ha b hb hab
      exact hstay _ L2 t hL2 htL2 hte
  · -- distinct
    intro y t0 t1 hL1
    rw [ht] at hL1
    rcases hcases y _ hL1 with ⟨h1, h2⟩ | ⟨h1, tri, htri, hu, hv, h2⟩ | ⟨-, -, h3⟩
    · subst h1
      simp only [List.cons.injEq, and_true] at h2
      rw [h2.1, h2.2, o1, o2]
      intro h
      exact hq.1 (Except.ok.inj h)
    · obtain ⟨L, hL, -⟩ := hquad y h1
      rw [hL] at h2
      simp only [Option.getD_some, List.cons.injEq] at h2
      obtain ⟨h2a, h2b⟩ := h2
      subst h2a
      have htm : t1 ∈ L.filter (fun t => !hasEdge t old) := by rw [← h2b]; simp
      rw [List.mem_filter] at htm
      obtain ⟨w, hw, hwn, hyn⟩ := quad_tri_opposite old new y t0 hq h1 htri hu hv
      rw [hw]
      intro h
      have hw1 := opposite_vertex_ok t1 y w h.symm
      have hym := hinv.listed y L hL
      obtain ⟨L2, hL2, -, hend⟩ := hinv.inv1 y hym
      rw [hL] at hL2
      have hend1 := hend t1 (by rw [← Option.some.inj hL2]; exact htm.1)
      have hfalse := hfr y L hL t1 htm.1
      rw [hasEdge_eq_false_iff] at hfalse
      apply hfalse
      obtain ⟨hw1a, hw1b, hw1c⟩ := hw1
      obtain ⟨hend1a, hend1b⟩ := hend1
      have hq2 := hq.2.1
      rcases hwn with hwn | hwn <;> rcases hyn with (hyn | hyn) | (hyn | hyn)
      all_goals first
        | (exfalso; omega)
        | (constructor <;> first
            | (rw [← hwn]; exact hw1a)
            | (rw [← hyn]; exact hend1a)
            | (rw [← hyn]; exact hend1b))
    · exact hinv.distinct y t0 t1 h3

theorem flipEntry_eq_checkOpp (I : IntersectionFn) (pts : List Point)
    (m : List (EdgeKey × List Triangle)) (x : EdgeKey) (t0 t1 : Triangle) (o0 o1 : Int)
    (h : find m x = some [t0, t1]) (h0 : opposite_vertex t0 x = Except.ok o0)
    (h1 : opposite_vertex t1 x = Except.ok o1) :
    flipEntry I pts m x = checkOpp I pts x o0 o1 := by
  rw [flipEntry_of_two I pts m x t0 t1 h]
  unfold check_flippability checkOpp segmentOf
  simp only [h0, h1]
  split_ifs <;> rfl

theorem checkOpp_comm (I : IntersectionFn) (pts : List Point) (x : EdgeKey) (o0 o1 : Int)
    (hsym : CrossSymmetric I) : checkOpp I pts x o0 o1 = checkOpp I pts x o1 o0 := by
  unfold checkOpp segmentOf
  rw [hsym.2 _ (pointAt pts o0) (pointAt pts o1), EdgeKey.of_comm o0 o1]

theorem checkOpp_swap (I : IntersectionFn) (pts : List Point) (old : EdgeKey) (o0 o1 : Int)
    (hsym : CrossSymmetric I) (holt : old.u ≤ old.v)
    (hc : do_cross I (segmentOf pts old.u old.v) (segmentOf pts o0 o1) = true) :
    checkOpp I pts (EdgeKey.of o0 o1) old.u old.v = some old ∧
    checkOpp I pts old (EdgeKey.of o0 o1).u (EdgeKey.of o0 o1).v = some (EdgeKey.of o0 o1) := by
  have hle := EdgeKey.of_le o0 o1
  unfold checkOpp
  rw [EdgeKey.of_self old holt, EdgeKey.of_self _ hle]
  have h2 : do_cross I (segmentOf pts old.u old.v)
      (segmentOf pts (EdgeKey.of o0 o1).u (EdgeKey.of o0 o1).v) = true := by
    rcases EdgeKey.of_fields o0 o1 with h | h
    · rw [h.1, h.2]; exact hc
    · rw [h.1, h.2]
      unfold segmentOf at hc ⊢
      rw [hsym.2]
      exact hc
  rw [hsym.1, h2]
  simp

theorem flipEntry_length_one (I : IntersectionFn) (pts : List Point)
    (m : List (EdgeKey × List Triangle)) (x : EdgeKey) (t : Triangle)
    (h : find m x = some [t]) : flipEntry I pts m x = none := by
  apply flipEntry_of_not_two I pts m x [t] h
  intro t0 t1 h2
  simp at h2

/-- Replacing the triangle of the flipped edge in the list of a quadrilateral edge
by a triangle with the same opposite vertex keeps the flip-map entry. -/
theorem quad_entry_restore (I : IntersectionFn) (pts : List Point) (x old : EdgeKey)
    (L : List Triangle) (tri : Triangle) (m m2 : List (EdgeKey × List Triangle)) (w : Int)
    (hL : find m x = some L)
    (hL2 : find m2 x = some (tri :: L.filter (fun t => !hasEdge t old)))
    (hlen : L.length = 1 ∨ L.length = 2)
    (hcount : (L.filter (fun t => hasEdge t old)).length = 1)
    (hopp : ∀ t ∈ L, ∃ o, opposite_vertex t x = Except.ok o)
    (hw : opposite_vertex tri x = Except.ok w)
    (hT : ∀ t ∈ L, hasEdge t old = true → opposite_vertex t x = Except.ok w)
    (hsym : CrossSymmetric I) :
    flipEntry I pts m2 x = flipEntry I pts m x := by
  rcases hlen with hlen | hlen
  · obtain ⟨a, ha⟩ := List.length_eq_one.1 hlen
    subst ha
    have hae : hasEdge a old = true := by
      cases hh : hasEdge a old with
      | true => rfl
      | false => simp [List.filter, hh] at hcount
    simp only [List.filter, hae, Bool.not_true] at hL2
    rw [flipEntry_length_one I pts m2 x tri hL2, flipEntry_length_one I pts m x a hL]
  · obtain ⟨a, b, hab⟩ := List.length_eq_two.1 hlen
    subst hab
    obtain ⟨wa, hwa⟩ := hopp a (by simp)
    obtain ⟨wb, hwb⟩ := hopp b (by simp)
    cases hae : hasEdge a old <;> cases hbe : hasEdge b old
    · simp [List.filter, hae, hbe] at hcount
    · simp only [List.filter, hae, hbe, Bool.not_true, Bool.not_false] at hL2
      have hb2 := hT b (by simp) hbe
      rw [hwb] at hb2
      have hb3 : wb = w := Except.ok.inj hb2
      subst hb3
      rw [flipEntry_eq_checkOpp I pts m2 x tri a wb wa hL2 hw hwa,
        flipEntry_eq_checkOpp I pts m x a b wa wb hL hwa hwb, checkOpp_comm I pts x wb wa hsym]
    · simp only [List.filter, hae, hbe, Bool.not_true, Bool.not_false] at hL2
      have ha2 := hT a (by simp) hae
      rw [hwa] at ha2
      have ha3 : wa = w := Except.ok.inj ha2
      subst ha3
      rw [flipEntry_eq_checkOpp I pts m2 x tri b wa wb hL2 hw hwb,
        flipEntry_eq_checkOpp I pts m x a b wa wb hL hwa hwb]
    · simp [List.filter, hae, hbe] at hcount

theorem quad_swap (old new : EdgeKey) (hq : Quad old new) : Quad new old := by
  obtain ⟨q1, q2, q3, q4, q5, q6⟩ := hq
  exact ⟨q2, q1, Ne.symm q3, Ne.symm q5, Ne.symm q4, Ne.symm q6⟩

theorem mem_quadEdges_swap (old new y : EdgeKey) :
    y ∈ quadEdges new old ↔ y ∈ quadEdges old new := by
  simp only [quadEdges, List.mem_cons, List.mem_singleton, List.not_mem_nil, or_false]
  rw [EdgeKey.of_comm old.u new.u, EdgeKey.of_comm old.v new.u, EdgeKey.of_comm old.u new.v,
    EdgeKey.of_comm old.v new.v]
  constructor
  · rintro (h | h | h | h)
    · exact Or.inl h
    · exact Or.inr (Or.inr (Or.inl h))
    · exact Or.inr (Or.inl h)
    · exact Or.inr (Or.inr (Or.inr h))
  · rintro (h | h | h | h)
    · exact Or.inl h
    · exact Or.inr (Or.inr (Or.inl h))
    · exact Or.inr (Or.inl h)
    · exact Or.inr (Or.inr (Or.inr h))

theorem newTri_hasEdge_new (old new : EdgeKey) :
    hasEdge (newTri0 old new) new = true ∧ hasEdge (newTri1 old new) new = true := by
  simp [hasEdge, newTri0, newTri1, Triangle.toList]

theorem invariants_key_mem (I : IntersectionFn) (s : FlipPartnerMapNative) (x r : EdgeKey)
    (hinv : Invariants I s) (hf : find s.flip_map_ x = some r) : x ∈ s.edges_ := by
  obtain ⟨t0, t1, o0, o1, hett, -⟩ := (hinv.inv2 x r).1 hf
  exact hinv.listed x _ hett

/-- Flipping an edge and then its partner restores the edge set and the flip map. -/
theorem flip_flip_aux (I : IntersectionFn) (s : FlipPartnerMapNative) (edge : Int × Int)
    (new : EdgeKey) (hinv : Invariants I s)
    (hf : find s.flip_map_ (normalize_edge edge) = some new) (hfresh : new ∉ s.edges_)
    (hsym : CrossSymmetric I) :
    ∃ s1 s2, flip I s edge = (Except.ok (new.u, new.v), s1) ∧
      find s1.flip_map_ new = some (normalize_edge edge) ∧
      flip I s1 (new.u, new.v) =
        (Except.ok ((normalize_edge edge).u, (normalize_edge edge).v), s2) ∧
      (∀ x, x ∈ s2.edges_ ↔ x ∈ s.edges_) ∧
      (∀ x, find s2.flip_map_ x = find s.flip_map_ x) ∧
      s2.points_ = s.points_ := by
  have hmem := invariants_key_mem I s _ new hinv hf
  obtain ⟨s1, hfl1, hp1, he1, ht1, -, hall1⟩ := flip_succeeds_spec I s edge new hinv hmem hf
  have hinv1 := flip_preserves_invariants I s s1 edge _ new hinv hf hfresh hfl1
  obtain ⟨hq, hlt, t0, t1, o0, o1, hett, h0, h1, hc, hn⟩ :=
    invariants_quad I s _ new hinv hmem hf
  have hquad := invariants_quad_count I s _ new hinv hmem hf
  have hfr := invariants_fresh I s new hinv hfresh hlt
  have holt := hinv.normalized _ hmem
  have hall := (invariant2_iff I s).1 hinv.inv2
  generalize normalize_edge edge = old at *
  have hq2 := quad_swap old new hq
  obtain ⟨-, -, -, hno⟩ := quad_keys_ne old new hq
  obtain ⟨o1a, o2a, -⟩ := newTri_opposite old new hq
  obtain ⟨o1b, o2b, -⟩ := newTri_opposite new old hq2
  have hswap := checkOpp_swap I s.points_ old o0 o1 hsym (le_of_lt holt) hc
  rw [← hn] at hswap
  -- the partner is flippable after the first flip
  have hf1 : find s1.flip_map_ new = some old := by
    rw [hall1 new, flipEntry_eq_checkOpp I _ _ new _ _ old.u old.v
      (by rw [ht1]; exact find_ettAfterFlip_new _ old new hq) o1a o2a, hp1]
    exact hswap.1
  have hnorm : normalize_edge (new.u, new.v) = new := EdgeKey.of_self new (le_of_lt hlt)
  have hmem1 : new ∈ s1.edges_ := by
    rw [he1, mem_setInsert]
    exact Or.inr rfl
  obtain ⟨s2, hfl2, hp2, he2, ht2, -, hall2⟩ :=
    flip_succeeds_spec I s1 (new.u, new.v) old hinv1 (by rw [hnorm]; exact hmem1)
      (by rw [hnorm]; exact hf1)
  rw [hnorm] at he2 ht2
  refine ⟨s1, s2, hfl1, hf1, hfl2, ?_, ?_, by rw [hp2, hp1]⟩
  · intro x
    rw [he2, mem_setInsert, mem_setErase, he1, mem_setInsert, mem_setErase]
    constructor
    · rintro (⟨(h | h), h2⟩ | h)
      · exact h.1
      · exact absurd h h2
      · rw [h]; exact hmem
    · intro h
      by_cases hxo : x = old
      · exact Or.inr hxo
      · exact Or.inl ⟨Or.inl ⟨h, hxo⟩, fun h2 => hfresh (h2 ▸ h)⟩
  · intro x
    rw [hall2 x, hall x, hp2, hp1, ht2, ht1]
    by_cases hxo : x = old
    · subst hxo
      rw [flipEntry_eq_checkOpp I _ _ x _ _ new.u new.v
        (find_ettAfterFlip_new _ new x hq2) o1b o2b, ← hall x, hf]
      exact hswap.2
    by_cases hxn : x = new
    · subst hxn
      rw [flipEntry_of_none I _ _ x (find_ettAfterFlip_old _ x old hq2)]
      symm
      apply flipEntry_of_none
      cases hh : find s.edge_to_triangles_ x with
      | none => rfl
      | some L => exact absurd (hinv.listed x L hh) hfresh
    by_cases hxq : x ∈ quadEdges old new
    · obtain ⟨L, hL, hcount⟩ := hquad x hxq
      have hxm := hinv.listed x L hL
      obtain ⟨L0, hL0, hlen, hend⟩ := hinv.inv1 x hxm
      rw [hL] at hL0
      simp only [Option.some.injEq] at hL0
      subst hL0
      have hxlt := hinv.normalized x hxm
      obtain ⟨tri1, htri1, -, -, hfind1⟩ :=
        find_ettAfterFlip_quad s.edge_to_triangles_ old new x hq hxq
      obtain ⟨tri2, htri2, hu2, hv2, hfind2⟩ :=
        find_ettAfterFlip_quad (ettAfterFlip s.edge_to_triangles_ old new) new old x hq2
          ((mem_quadEdges_swap old new x).2 hxq)
      obtain ⟨w, hw, hwo, -⟩ := quad_tri_opposite new old x tri2 hq2
        ((mem_quadEdges_swap old new x).2 hxq) htri2 hu2 hv2
      obtain ⟨-, hw2, hw3⟩ := opposite_vertex_ok tri2 x w hw
      have hm := (mem_quadEdges old new x (le_of_lt hxlt)).1 hxq
      refine quad_entry_restore I s.points_ x old L tri2 _ _ w hL ?_ hlen hcount
        (hinv.opposite x L hL) hw ?_ hsym
      · rw [hfind2, hfind1, hL]
        simp only [Option.getD_some, incidentList, List.filter_cons,
          contains_old_edge_eq _ new hq2.1, contains_old_edge_eq _ old hq.1]
        have ht1n : hasEdge tri1 new = true := by
          rcases htri1 with h | h <;> rw [h]
          · exact (newTri_hasEdge_new old new).1
          · exact (newTri_hasEdge_new old new).2
        simp only [ht1n, Bool.not_true, Bool.false_eq_true, if_false, Option.some.injEq,
          List.cons.injEq, true_and]
        rw [List.filter_filter]
        apply List.filter_congr
        intro t htm
        rw [hfr x L hL t htm]
        simp
      · intro t htm hte
        rw [hasEdge_iff] at hte
        obtain ⟨hxu, hxv⟩ := hend t htm
        have hwt : w ∈ t.toList := by
          rcases hwo with h | h <;> rw [h]
          · exact hte.1
          · exact hte.2
        exact opposite_of_three t x.u x.v w x hxu hxv hwt (by omega) (Ne.symm hw2)
          (Ne.symm hw3) (Or.inl ⟨rfl, rfl⟩)
    · have hnt1 : x ∉ touched old new := by
        rw [mem_touched]
        exact fun h => h.elim hxq hxn
      have hnt2 : x ∉ touched new old := by
        rw [mem_touched, mem_quadEdges_swap]
        exact fun h => h.elim hxq hxo
      apply flipEntry_congr
      rw [find_ettAfterFlip_other _ new old x hnt2 hxn,
        find_ettAfterFlip_other _ old new x hnt1 hxo]

theorem invariant2_partner_off (I : IntersectionFn) (s : FlipPartnerMapNative)
    (x r : EdgeKey) (hinv : Invariant2 I s) (hf : find s.flip_map_ x = some r) :
    r.u ≤ r.v ∧ r.u ≠ x.u ∧ r.u ≠ x.v ∧ r.v ≠ x.u ∧ r.v ≠ x.v := by
  obtain ⟨t0, t1, o0, o1, -, h0, h1, -, hn⟩ := (hinv x r).1 hf
  obtain ⟨-, a1, a2⟩ := opposite_vertex_ok t0 x o0 h0
  obtain ⟨-, b1, b2⟩ := opposite_vertex_ok t1 x o1 h1
  subst hn
  refine ⟨EdgeKey.of_le o0 o1, ?_⟩
  rcases EdgeKey.of_fields o0 o1 with h | h <;> rw [h.1, h.2] <;> exact ⟨by omega, by omega, by omega, by omega⟩

theorem conflicting_flips_aux (I : IntersectionFn) (s : FlipPartnerMapNative) (u v : Int)
    (partner : EdgeKey) (hinv : Invariant2 I s)
    (hf : find s.flip_map_ (normalize_edge (u, v)) = some partner) :
    ∃ result, conflicting_flips s (u, v) = Except.ok result ∧
      result =
        ([EdgeKey.of (normalize_edge (u, v)).u partner.u,
          EdgeKey.of (normalize_edge (u, v)).v partner.u,
          EdgeKey.of (normalize_edge (u, v)).u partner.v,
          EdgeKey.of (normalize_edge (u, v)).v partner.v].filter
            (fun c => (find s.flip_map_ c).isSome)).map (fun c => (c.u, c.v)) ∧
      (u, v) ∉ result ∧ (v, u) ∉ result ∧ result.length ≤ 4 ∧
      ∀ c ∈ result, c.1 ≤ c.2 ∧ is_flippable s c = true := by
  obtain ⟨hle, p1, p2, p3, p4⟩ := invariant2_partner_off I s _ partner hinv hf
  refine ⟨_, by unfold conflicting_flips; simp only [hf], rfl, ?_, ?_, ?_, ?_⟩
  · intro h
    simp only [List.mem_map, List.mem_filter, List.mem_cons, List.mem_singleton,
      List.not_mem_nil, or_false, Prod.mk.injEq] at h
    obtain ⟨c, ⟨hc, -⟩, hcu, hcv⟩ := h
    have hk := EdgeKey.of_fields u v
    simp only [normalize_edge] at hc p1 p2 p3 p4
    rcases hc with hc | hc | hc | hc <;> have := EdgeKey.of_eq_imp _ _ _ hc.symm <;> omega
  · intro h
    simp only [List.mem_map, List.mem_filter, List.mem_cons, List.mem_singleton,
      List.not_mem_nil, or_false, Prod.mk.injEq] at h
    obtain ⟨c, ⟨hc, -⟩, hcu, hcv⟩ := h
    have hk := EdgeKey.of_fields u v
    simp only [normalize_edge] at hc p1 p2 p3 p4
    rcases hc with hc | hc | hc | hc <;> have := EdgeKey.of_eq_imp _ _ _ hc.symm <;> omega
  · rw [List.length_map]
    exact (List.length_filter_le _ _).trans (by simp)
  · intro c hc
    simp only [List.mem_map, List.mem_filter, List.mem_cons, List.mem_singleton,
      List.not_mem_nil, or_false] at hc
    obtain ⟨k, ⟨hk, hsome⟩, hkc⟩ := hc
    subst hkc
    have hkle : k.u ≤ k.v := by
      rcases hk with h | h | h | h <;> rw [h] <;> exact EdgeKey.of_le _ _
    refine ⟨hkle, ?_⟩
    unfold is_flippable normalize_edge
    rw [EdgeKey.of_self k hkle]
    exact hsome

theorem hasEdge_iff_edge (i j k : Int) (e : EdgeKey) (he : e.u < e.v) :
    hasEdge { i0 := i, i1 := j, i2 := k } e = true ↔
      e = EdgeKey.of i j ∨ e = EdgeKey.of j k ∨ e = EdgeKey.of k i := by
  rw [hasEdge_iff, EdgeKey.eq_of_iff e i j (le_of_lt he), EdgeKey.eq_of_iff e j k (le_of_lt he),
    EdgeKey.eq_of_iff e k i (le_of_lt he)]
  simp only [Triangle.toList, List.mem_cons, List.mem_singleton, List.not_mem_nil, or_false]
  omega

theorem thirdVertex_eq (t : Triangle) (e : EdgeKey) (w : Int) :
    thirdVertex t e = some w ↔ opposite_vertex t e = Except.ok w := by
  unfold thirdVertex opposite_vertex
  rw [List.filter_head?]
  cases List.find? (fun i => decide (i ≠ e.u ∧ i ≠ e.v)) t.toList <;> simp

/-- The effect of the three `push_back` calls for one triangle. -/
theorem find_add_triangle (s : FlipPartnerMapNative) (t : Int × Int × Int) (y : EdgeKey)
    (hd : t.1 ≠ t.2.1 ∧ t.2.1 ≠ t.2.2 ∧ t.1 ≠ t.2.2) :
    find (add_triangle s t).edge_to_triangles_ y =
      if y = EdgeKey.of t.1 t.2.1 ∨ y = EdgeKey.of t.2.1 t.2.2 ∨ y = EdgeKey.of t.2.2 t.1 then
        some ((find s.edge_to_triangles_ y).getD [] ++ [triangleOfTuple t])
      else find s.edge_to_triangles_ y := by
  obtain ⟨i, j, k⟩ := t
  simp only at hd
  obtain ⟨hij, hjk, hik⟩ := hd
  have h12 : EdgeKey.of i j ≠ EdgeKey.of j k := by rw [Ne, EdgeKey.of_eq_iff]; omega
  have h13 : EdgeKey.of i j ≠ EdgeKey.of k i := by rw [Ne, EdgeKey.of_eq_iff]; omega
  have h23 : EdgeKey.of j k ≠ EdgeKey.of k i := by rw [Ne, EdgeKey.of_eq_iff]; omega
  simp only [add_triangle, find_assign, triangleOfTuple]
  by_cases h1 : y = EdgeKey.of i j
  · subst h1
    simp [h12, h13, Ne.symm h12, Ne.symm h13]
  · by_cases h2 : y = EdgeKey.of j k
    · subst h2
      simp [h12, h23, Ne.symm h12, Ne.symm h23]
    · by_cases h3 : y = EdgeKey.of k i
      · subst h3
        simp [h13, h23, Ne.symm h13, Ne.symm h23]
      · simp [h1, h2, h3, Ne.symm h1, Ne.symm h2, Ne.symm h3]

theorem trianglesOf_append (done : List (Int × Int × Int)) (t : Int × Int × Int)
    (e : EdgeKey) :
    trianglesOf (done ++ [t]) e =
      trianglesOf done e ++
        (if hasEdge (triangleOfTuple t) e = true then [triangleOfTuple t] else []) := by
  simp only [trianglesOf, List.map_append, List.filter_append, List.map_cons, List.map_nil,
    List.filter_cons, List.filter_nil]

theorem listsBuilt_step (s : FlipPartnerMapNative) (done : List (Int × Int × Int))
    (t : Int × Int × Int) (hd : t.1 ≠ t.2.1 ∧ t.2.1 ≠ t.2.2 ∧ t.1 ≠ t.2.2)
    (h : ListsBuilt s.edge_to_triangles_ done) :
    ListsBuilt (add_triangle s t).edge_to_triangles_ (done ++ [t]) := by
  intro e
  rw [find_add_triangle s t e hd, trianglesOf_append, h e]
  by_cases he : e.u < e.v
  · have hiff := hasEdge_iff_edge t.1 t.2.1 t.2.2 e he
    by_cases hedge : e = EdgeKey.of t.1 t.2.1 ∨ e = EdgeKey.of t.2.1 t.2.2 ∨
        e = EdgeKey.of t.2.2 t.1
    · have hh : hasEdge (triangleOfTuple t) e = true := hiff.2 hedge
      rw [if_pos hedge, hh]
      by_cases hne : trianglesOf done e = []
      · simp [he, hne]
      · simp [he, hne]
    · have hh : ¬ hasEdge (triangleOfTuple t) e = true := fun h2 => hedge (hiff.1 h2)
      rw [if_neg hedge, if_neg hh, List.append_nil]
  · have hedge : ¬(e = EdgeKey.of t.1 t.2.1 ∨ e = EdgeKey.of t.2.1 t.2.2 ∨
        e = EdgeKey.of t.2.2 t.1) := by
      obtain ⟨h1, h2, h3⟩ := hd
      intro h2
      have l1 := EdgeKey.of_fields t.1 t.2.1
      have l2 := EdgeKey.of_fields t.2.1 t.2.2
      have l3 := EdgeKey.of_fields t.2.2 t.1
      have m1 := EdgeKey.of_le t.1 t.2.1
      have m2 := EdgeKey.of_le t.2.1 t.2.2
      have m3 := EdgeKey.of_le t.2.2 t.1
      rcases h2 with h2 | h2 | h2 <;> subst h2 <;> omega
    rw [if_neg hedge]
    simp [he]

theorem add_triangle_frame (s : FlipPartnerMapNative) (t : Int × Int × Int) :
    (add_triangle s t).points_ = s.points_ ∧ (add_triangle s t).flip_map_ = s.flip_map_ ∧
    ∀ x, x ∈ (add_triangle s t).edges_ ↔
      x ∈ s.edges_ ∨ x = EdgeKey.of t.1 t.2.1 ∨ x = EdgeKey.of t.2.1 t.2.2 ∨
        x = EdgeKey.of t.2.2 t.1 := by
  refine ⟨rfl, rfl, fun x => ?_⟩
  simp only [add_triangle, mem_setInsert, or_assoc]

theorem fold_add_triangle (rest : List (Int × Int × Int)) :
    ∀ (done : List (Int × Int × Int)) (s : FlipPartnerMapNative),
      (∀ t ∈ rest, t.1 ≠ t.2.1 ∧ t.2.1 ≠ t.2.2 ∧ t.1 ≠ t.2.2) →
      ListsBuilt s.edge_to_triangles_ done →
      ListsBuilt (rest.foldl add_triangle s).edge_to_triangles_ (done ++ rest) ∧
      (rest.foldl add_triangle s).points_ = s.points_ ∧
      (rest.foldl add_triangle s).flip_map_ = s.flip_map_ ∧
      ∀ x, x ∈ (rest.foldl add_triangle s).edges_ ↔
        x ∈ s.edges_ ∨ ∃ t ∈ rest, x = EdgeKey.of t.1 t.2.1 ∨ x = EdgeKey.of t.2.1 t.2.2 ∨
          x = EdgeKey.of t.2.2 t.1 := by
  induction rest with
  | nil =>
    intro done s _ h
    refine ⟨by simpa using h, rfl, rfl, fun x => by simp⟩
  | cons t rest ih =>
    intro done s hd h
    have hstep := listsBuilt_step s done t (hd t (by simp)) h
    obtain ⟨f1, f2, f3⟩ := add_triangle_frame s t
    obtain ⟨i1, i2, i3, i4⟩ := ih (done ++ [t]) (add_triangle s t)
      (fun t2 ht2 => hd t2 (by simp [ht2])) hstep
    simp only [List.foldl_cons]
    refine ⟨?_, by rw [i2, f1], by rw [i3, f2], fun x => ?_⟩
    · rw [List.append_assoc] at i1
      exact i1
    · rw [i4 x, f3 x]
      constructor
      · rintro ((h1 | h1) | ⟨t2, ht2, h1⟩)
        · exact Or.inl h1
        · exact Or.inr ⟨t, by simp, h1⟩
        · exact Or.inr ⟨t2, by simp [ht2], h1⟩
      · rintro (h1 | ⟨t2, ht2, h1⟩)
        · exact Or.inl (Or.inl h1)
        · rw [List.mem_cons] at ht2
          rcases ht2 with ht2 | ht2
          · subst ht2
            exact Or.inl (Or.inr h1)
          · exact Or.inr ⟨t2, ht2, h1⟩

theorem mem_keys_iff {V : Type} (m : List (EdgeKey × V)) (k : EdgeKey) :
    k ∈ keys m ↔ (find m k).isSome = true := by
  induction m with
  | nil => simp [keys, find]
  | cons kv m ih =>
    obtain ⟨k0, v0⟩ := kv
    simp only [keys, List.map_cons, List.mem_cons, find] at ih ⊢
    by_cases h : k0 = k
    · simp [h]
    · simp only [if_neg h]
      rw [← ih]
      constructor
      · rintro (h1 | h1)
        · exact absurd h1.symm h
        · exact h1
      · exact Or.inr

theorem update_all_spec (I : IntersectionFn) (ks : List EdgeKey) :
    ∀ s : FlipPartnerMapNative,
      (∀ k ∈ ks, ∀ L, find s.edge_to_triangles_ k = some L →
        ∀ t ∈ L, ∃ w, opposite_vertex t k = Except.ok w) →
      ∃ s1, update_all I ks s = Except.ok s1 ∧ s1.points_ = s.points_ ∧
        s1.edges_ = s.edges_ ∧ s1.edge_to_triangles_ = s.edge_to_triangles_ ∧
        ∀ y, find s1.flip_map_ y =
          if y ∈ ks then flipEntry I s.points_ s.edge_to_triangles_ y
          else find s.flip_map_ y := by
  induction ks with
  | nil =>
    intro s _
    exact ⟨s, rfl, rfl, rfl, rfl, fun y => by simp⟩
  | cons k ks ih =>
    intro s hok
    obtain ⟨s0, h0⟩ := update_flip_partner_succeeds I s k (hok k (by simp))
    obtain ⟨p0, e0, t0, f0⟩ := update_flip_partner_ok I s s0 k h0
    obtain ⟨s1, h1, p1, e1, t1, f1⟩ := ih s0 (by
      intro k2 hk2 L hL
      rw [t0] at hL
      exact hok k2 (by simp [hk2]) L hL)
    refine ⟨s1, ?_, by rw [p1, p0], by rw [e1, e0], by rw [t1, t0], fun y => ?_⟩
    · simp only [update_all, h0]
      exact h1
    · rw [f1 y, p0, t0, f0 y]
      by_cases hy : y ∈ ks
      · simp [hy]
      · by_cases hyk : k = y
        · subst hyk
          simp
        · simp [hy, hyk, Ne.symm hyk]

theorem listsBuilt_find (m : List (EdgeKey × List Triangle)) (tris : List (Int × Int × Int))
    (h : ListsBuilt m tris) (e : EdgeKey) (L : List Triangle) :
    find m e = some L ↔ e.u < e.v ∧ L ≠ [] ∧ trianglesOf tris e = L := by
  rw [h e]
  constructor
  · intro h1
    split_ifs at h1 with h2
    simp only [Option.some.injEq] at h1
    subst h1
    exact ⟨h2.1, h2.2, rfl⟩
  · rintro ⟨h1, h2, h3⟩
    subst h3
    rw [if_pos ⟨h1, h2⟩]

/-- A triangle with three different vertices that contains an edge has a vertex
off that edge. -/
theorem opposite_of_hasEdge (t : Int × Int × Int) (e : EdgeKey)
    (hd : t.1 ≠ t.2.1 ∧ t.2.1 ≠ t.2.2 ∧ t.1 ≠ t.2.2) :
    ∃ w, opposite_vertex (triangleOfTuple t) e = Except.ok w := by
  obtain ⟨i, j, k⟩ := t
  simp only at hd
  rw [triangleOfTuple, opposite_vertex_mk]
  simp only
  split_ifs with h1 h2 h3
  · exact ⟨_, rfl⟩
  · exact ⟨_, rfl⟩
  · exact ⟨_, rfl⟩
  · exfalso; omega

theorem mem_trianglesOf (tris : List (Int × Int × Int)) (e : EdgeKey) (t : Triangle) :
    t ∈ trianglesOf tris e ↔ (∃ t0 ∈ tris, triangleOfTuple t0 = t) ∧ hasEdge t e = true := by
  simp [trianglesOf]

/-- The state that the constructor builds from a triangle list. -/
theorem new_spec (I : IntersectionFn) (ct : ComputeTriangles) (points : List Point)
    (edges : List (Int × Int)) (tris : List (Int × Int × Int))
    (hct : ct points ((initialEdges edges).map (fun e => (e.u, e.v))) = Except.ok tris)
    (hok : TrianglesOk tris) :
    ∃ s, FlipPartnerMapNative.new I ct points edges = Except.ok s ∧ s.points_ = points ∧
      ListsBuilt s.edge_to_triangles_ tris ∧
      (∀ y, find s.flip_map_ y = flipEntry I points s.edge_to_triangles_ y) ∧
      (∀ x, x ∈ s.edges_ ↔ x ∈ initialEdges edges ∨
        ∃ t ∈ tris, x = EdgeKey.of t.1 t.2.1 ∨ x = EdgeKey.of t.2.1 t.2.2 ∨
          x = EdgeKey.of t.2.2 t.1) := by
  let s0 : FlipPartnerMapNative :=
    { points_ := points, edges_ := initialEdges edges, edge_to_triangles_ := [],
      flip_map_ := [] }
  have hb0 : ListsBuilt s0.edge_to_triangles_ [] := by
    intro e
    simp [s0, find, trianglesOf]
  obtain ⟨hb, hp, hfm, hed⟩ := fold_add_triangle tris [] s0 hok.1 hb0
  rw [List.nil_append] at hb
  obtain ⟨s1, h1, p1, e1, t1, f1⟩ := update_all_spec I
    (keys (tris.foldl add_triangle s0).edge_to_triangles_) (tris.foldl add_triangle s0) (by
      intro k _ L hL t ht
      obtain ⟨-, -, hL2⟩ := (listsBuilt_find _ tris hb k L).1 hL
      rw [← hL2, mem_trianglesOf] at ht
      obtain ⟨⟨t0, ht0, ht0e⟩, -⟩ := ht
      rw [← ht0e]
      exact opposite_of_hasEdge t0 k (hok.1 t0 ht0))
  refine ⟨s1, ?_, by rw [p1, hp], by rw [t1]; exact hb, fun y => ?_, fun x => ?_⟩
  · unfold FlipPartnerMapNative.new rebuild_flip_map
    simp only [edge_list]
    have hct2 : ct points (List.map (fun edge => (edge.u, edge.v))
        (List.foldl (fun acc edge => setInsert acc (normalize_edge edge)) [] edges)) =
        Except.ok tris := hct
    simp only [hct2]
    exact h1
  · rw [f1 y, t1, hp, hfm]
    by_cases hy : y ∈ keys (tris.foldl add_triangle s0).edge_to_triangles_
    · rw [if_pos hy]
    · rw [if_neg hy]
      rw [mem_keys_iff] at hy
      have hnone : find (tris.foldl add_triangle s0).edge_to_triangles_ y = none := by
        cases hh : find (tris.foldl add_triangle s0).edge_to_triangles_ y with
        | none => rfl
        | some L => simp [hh] at hy
      rw [flipEntry_of_none I _ _ y hnone]
      rfl
  · rw [e1, hed x]

theorem mem_flippable_edges (s : FlipPartnerMapNative) (x : Int × Int) :
    x ∈ flippable_edges s ↔ (find s.flip_map_ { u := x.1, v := x.2 }).isSome = true := by
  rw [← mem_keys_iff]
  unfold flippable_edges keys
  simp only [List.mem_map]
  constructor
  · rintro ⟨entry, hmem, hx⟩
    refine ⟨entry, hmem, ?_⟩
    rw [← hx]
  · rintro ⟨entry, hmem, hx⟩
    refine ⟨entry, hmem, ?_⟩
    rw [hx]

theorem specFlippable_iff (I : IntersectionFn) (points : List Point)
    (tris : List (Int × Int × Int)) (m : List (EdgeKey × List Triangle))
    (hb : ListsBuilt m tris) (x partner : Int × Int) :
    SpecFlippable I points tris x partner ↔
      ∃ r, flipEntry I points m { u := x.1, v := x.2 } = some r ∧ partner = (r.u, r.v) := by
  unfold SpecFlippable
  constructor
  · rintro ⟨hlt, t0, t1, o0, o1, htr, h0, h1, hc, hp⟩
    rw [thirdVertex_eq] at h0 h1
    refine ⟨EdgeKey.of o0 o1, ?_, ?_⟩
    · rw [flipEntry_eq_some_iff]
      exact ⟨t0, t1, o0, o1, (listsBuilt_find m tris hb _ _).2 ⟨hlt, by simp, htr⟩,
        h0, h1, hc, rfl⟩
    · rw [hp, EdgeKey.of_eq_min_max]
  · rintro ⟨r, hr, hp⟩
    rw [flipEntry_eq_some_iff] at hr
    obtain ⟨t0, t1, o0, o1, hf, h0, h1, hc, hr2⟩ := hr
    obtain ⟨hlt, -, htr⟩ := (listsBuilt_find m tris hb _ _).1 hf
    rw [← thirdVertex_eq] at h0 h1
    refine ⟨hlt, t0, t1, o0, o1, htr, h0, h1, hc, ?_⟩
    rw [hp, hr2, EdgeKey.of_eq_min_max]

theorem construction_aux (I : IntersectionFn) (ct : ComputeTriangles) (points : List Point)
    (edges : List (Int × Int)) (tris : List (Int × Int × Int))
    (hct : ct points ((initialEdges edges).map (fun e => (e.u, e.v))) = Except.ok tris)
    (hok : TrianglesOk tris) :
    ∃ s, FlipPartnerMapNative.new I ct points edges = Except.ok s ∧
      (∀ x, x ∈ flippable_edges s ↔ ∃ partner, SpecFlippable I points tris x partner) ∧
      (∀ x partner, SpecFlippable I points tris x partner →
        get_flip_partner s x = Except.ok partner) := by
  obtain ⟨s, hs, hp, hb, hfm, -⟩ := new_spec I ct points edges tris hct hok
  refine ⟨s, hs, fun x => ?_, fun x partner hsp => ?_⟩
  · rw [mem_flippable_edges, hfm]
    constructor
    · intro h
      cases hh : flipEntry I points s.edge_to_triangles_ { u := x.1, v := x.2 } with
      | none => simp [hh] at h
      | some r =>
        exact ⟨(r.u, r.v), (specFlippable_iff I points tris _ hb x _).2 ⟨r, hh, rfl⟩⟩
    · rintro ⟨partner, hsp⟩
      obtain ⟨r, hr, -⟩ := (specFlippable_iff I points tris _ hb x partner).1 hsp
      simp [hr]
  · obtain ⟨r, hr, hpr⟩ := (specFlippable_iff I points tris _ hb x partner).1 hsp
    have hlt := hsp.1
    unfold get_flip_partner normalize_edge EdgeKey.of
    rw [if_pos (le_of_lt hlt), hfm, hr, hpr]
    rfl

theorem sorted_triple_eq (t : Triangle) (a b c : Int) (hab : a < b) (hbc : b < c)
    (ha : a ∈ t.toList) (hb : b ∈ t.toList) (hc : c ∈ t.toList)
    (h01 : t.i0 < t.i1) (h12 : t.i1 < t.i2) : t = { i0 := a, i1 := b, i2 := c } := by
  obtain ⟨i, j, k⟩ := t
  simp only [Triangle.mem_toList] at ha hb hc
  simp only at h01 h12
  simp only [Triangle.mk.injEq]
  omega

/-- Two ascending triangles with the same edge and the same opposite vertex are
equal. -/
theorem sorted_triangles_eq (t0 t1 : Triangle) (x : EdgeKey) (w : Int) (hx : x.u < x.v)
    (h0 : hasEdge t0 x = true) (h1 : hasEdge t1 x = true)
    (o0 : opposite_vertex t0 x = Except.ok w) (o1 : opposite_vertex t1 x = Except.ok w)
    (s0 : t0.i0 < t0.i1 ∧ t0.i1 < t0.i2) (s1 : t1.i0 < t1.i1 ∧ t1.i1 < t1.i2) : t0 = t1 := by
  rw [hasEdge_iff] at h0 h1
  obtain ⟨w0, wu, wv⟩ := opposite_vertex_ok t0 x w o0
  obtain ⟨w1, -, -⟩ := opposite_vertex_ok t1 x w o1
  rcases lt_trichotomy w x.u with h | h | h
  · rw [sorted_triple_eq t0 w x.u x.v h hx w0 h0.1 h0.2 s0.1 s0.2,
      sorted_triple_eq t1 w x.u x.v h hx w1 h1.1 h1.2 s1.1 s1.2]
  · exact absurd h wu
  · rcases lt_trichotomy w x.v with h2 | h2 | h2
    · rw [sorted_triple_eq t0 x.u w x.v h h2 h0.1 w0 h0.2 s0.1 s0.2,
        sorted_triple_eq t1 x.u w x.v h h2 h1.1 w1 h1.2 s1.1 s1.2]
    · exact absurd h2 wv
    · rw [sorted_triple_eq t0 x.u x.v w hx h2 h0.1 h0.2 w0 s0.1 s0.2,
        sorted_triple_eq t1 x.u x.v w hx h2 h1.1 h1.2 w1 s1.1 s1.2]

theorem triangleOfTuple_injective : Function.Injective triangleOfTuple := by
  rintro ⟨a, b, c⟩ ⟨a2, b2, c2⟩ h
  simp only [triangleOfTuple, Triangle.mk.injEq] at h
  obtain ⟨h1, h2, h3⟩ := h
  subst h1 h2 h3
  rfl

theorem trianglesOf_nodup (tris : List (Int × Int × Int)) (e : EdgeKey) (h : tris.Nodup) :
    (trianglesOf tris e).Nodup :=
  List.Nodup.filter _ ((List.nodup_map_iff triangleOfTuple_injective).2 h)

theorem validTriangles_ok (edges : List (Int × Int)) (tris : List (Int × Int × Int))
    (h : ValidTriangles edges tris) : TrianglesOk tris := by
  refine ⟨fun t ht => ?_, h.2.2.1⟩
  have := h.1 t ht
  omega

theorem edge_of_triangle (t : Int × Int × Int) (x : EdgeKey) (hs : t.1 < t.2.1 ∧ t.2.1 < t.2.2)
    (hx : x = EdgeKey.of t.1 t.2.1 ∨ x = EdgeKey.of t.2.1 t.2.2 ∨ x = EdgeKey.of t.2.2 t.1) :
    x.u < x.v ∧ hasEdge (triangleOfTuple t) x = true := by
  have hlt : x.u < x.v := by
    have l1 := EdgeKey.of_fields t.1 t.2.1
    have l2 := EdgeKey.of_fields t.2.1 t.2.2
    have l3 := EdgeKey.of_fields t.2.2 t.1
    have m1 := EdgeKey.of_le t.1 t.2.1
    have m2 := EdgeKey.of_le t.2.1 t.2.2
    have m3 := EdgeKey.of_le t.2.2 t.1
    rcases hx with h | h | h <;> subst h <;> omega
  exact ⟨hlt, (hasEdge_iff_edge t.1 t.2.1 t.2.2 x hlt).2 hx⟩

/-- The constructor establishes the invariants of the data model. -/
theorem new_invariants (I : IntersectionFn) (ct : ComputeTriangles) (points : List Point)
    (edges : List (Int × Int)) (tris : List (Int × Int × Int))
    (hct : ct points ((initialEdges edges).map (fun e => (e.u, e.v))) = Except.ok tris)
    (hv : ValidTriangles edges tris) :
    ∃ s, FlipPartnerMapNative.new I ct points edges = Except.ok s ∧ Invariants I s := by
  have hok := validTriangles_ok edges tris hv
  obtain ⟨hsorted, hnodup, htwo, hinput⟩ := hv
  obtain ⟨s, hs, hp, hb, hfm, hed⟩ := new_spec I ct points edges tris hct hok
  refine ⟨s, hs, ?_⟩
  -- every edge of the edge set is an edge of a triangle
  have hedge : ∀ x ∈ s.edges_, ∃ t ∈ tris,
      x = EdgeKey.of t.1 t.2.1 ∨ x = EdgeKey.of t.2.1 t.2.2 ∨ x = EdgeKey.of t.2.2 t.1 := by
    intro x hx
    rcases (hed x).1 hx with h | h
    · exact hinput x h
    · exact h
  have hfind : ∀ x L, find s.edge_to_triangles_ x = some L →
      x.u < x.v ∧ L ≠ [] ∧ trianglesOf tris x = L :=
    fun x L => (listsBuilt_find _ tris hb x L).1
  have hlisted : ∀ t0 ∈ tris, ∀ x, x.u < x.v → hasEdge (triangleOfTuple t0) x = true →
      ∃ L, find s.edge_to_triangles_ x = some L ∧ triangleOfTuple t0 ∈ L := by
    intro t0 ht0 x hx hh
    have hm : triangleOfTuple t0 ∈ trianglesOf tris x :=
      (mem_trianglesOf tris x _).2 ⟨⟨t0, ht0, rfl⟩, hh⟩
    refine ⟨trianglesOf tris x, (listsBuilt_find _ tris hb x _).2 ⟨hx, ?_, rfl⟩, hm⟩
    intro h
    rw [h] at hm
    simp at hm
  refine ⟨?_, ?_, ?_, ?_, ?_, ?_, ?_⟩
  · -- invariant 1
    intro x hx
    obtain ⟨t0, ht0, hxe⟩ := hedge x hx
    obtain ⟨hlt, hh⟩ := edge_of_triangle t0 x (hsorted t0 ht0) hxe
    obtain ⟨L, hL, hm⟩ := hlisted t0 ht0 x hlt hh
    obtain ⟨-, hne, hL2⟩ := hfind x L hL
    refine ⟨L, hL, ?_, ?_⟩
    · have h2 := htwo x hlt
      rw [hL2] at h2
      have h1 : L.length ≠ 0 := fun h => hne (List.length_eq_zero.1 h)
      omega
    · intro t ht
      rw [← hL2, mem_trianglesOf] at ht
      exact (hasEdge_iff t x).1 ht.2
  · -- invariant 2
    rw [invariant2_iff, hp]
    exact hfm
  · -- normalized
    intro x hx
    obtain ⟨t0, ht0, hxe⟩ := hedge x hx
    exact (edge_of_triangle t0 x (hsorted t0 ht0) hxe).1
  · -- listed
    intro x L hL
    obtain ⟨hlt, hne, hL2⟩ := hfind x L hL
    obtain ⟨t, ht⟩ := List.exists_mem_of_ne_nil L hne
    rw [← hL2, mem_trianglesOf] at ht
    obtain ⟨⟨t0, ht0, hte⟩, hh⟩ := ht
    rw [← hte] at hh
    exact (hed x).2 (Or.inr ⟨t0, ht0, (hasEdge_iff_edge t0.1 t0.2.1 t0.2.2 x hlt).1 hh⟩)
  · -- opposite
    intro x L hL t ht
    obtain ⟨-, -, hL2⟩ := hfind x L hL
    rw [← hL2, mem_trianglesOf] at ht
    obtain ⟨⟨t0, ht0, hte⟩, -⟩ := ht
    rw [← hte]
    exact opposite_of_hasEdge t0 x (hok.1 t0 ht0)
  · -- shared
    intro x L t hL ht a ha b hb2 hab
    obtain ⟨-, -, hL2⟩ := hfind x L hL
    rw [← hL2, mem_trianglesOf] at ht
    obtain ⟨⟨t0, ht0, hte⟩, -⟩ := ht
    subst hte
    have hle := EdgeKey.of_le a b
    have hf := EdgeKey.of_fields a b
    have hlt : (EdgeKey.of a b).u < (EdgeKey.of a b).v := by omega
    apply hlisted t0 ht0 _ hlt
    rw [hasEdge_iff]
    rcases hf with h | h <;> rw [h.1, h.2]
    · exact ⟨ha, hb2⟩
    · exact ⟨hb2, ha⟩
  · -- distinct
    intro x t0 t1 hL heq
    obtain ⟨hlt, -, hL2⟩ := hfind x _ hL
    have hnd := trianglesOf_nodup tris x hnodup
    rw [hL2] at hnd
    have hne : t0 ≠ t1 := by
      intro h
      subst h
      simp at hnd
    have hm0 : t0 ∈ trianglesOf tris x := by rw [hL2]; simp
    have hm1 : t1 ∈ trianglesOf tris x := by rw [hL2]; simp
    rw [mem_trianglesOf] at hm0 hm1
    obtain ⟨⟨a0, ha0, hae0⟩, hh0⟩ := hm0
    obtain ⟨⟨a1, ha1, hae1⟩, hh1⟩ := hm1
    obtain ⟨w, hw⟩ : ∃ w, opposite_vertex t0 x = Except.ok w := by
      rw [← hae0]
      exact opposite_of_hasEdge a0 x (hok.1 a0 ha0)
    have hw1 : opposite_vertex t1 x = Except.ok w := by rw [← heq]; exact hw
    apply hne
    apply sorted_triangles_eq t0 t1 x w hlt hh0 hh1 hw hw1
    · rw [← hae0]; exact hsorted a0 ha0
    · rw [← hae1]; exact hsorted a1 ha1

theorem Point.eq_iff (p q : Point) : p = q ↔ p.x = q.x ∧ p.y = q.y := by
  obtain ⟨px, py⟩ := p
  obtain ⟨qx, qy⟩ := q
  simp

theorem lex_overlap_endpoint (a b c d : Point) :
    lexMax (lexMin a b) (lexMin c d) = a ∨ lexMax (lexMin a b) (lexMin c d) = b ∨
    lexMax (lexMin a b) (lexMin c d) = c ∨ lexMax (lexMin a b) (lexMin c d) = d := by
  unfold lexMax lexMin
  split_ifs <;> simp

/-- The crossing test on the model of the intersection is the proper crossing of
the two segments. -/
theorem do_cross_segIntersection (s1 s2 : Segment2) :
    do_cross segIntersection s1 s2 = true ↔ ProperCross s1 s2 := by
  obtain ⟨a, b⟩ := s1
  obtain ⟨c, d⟩ := s2
  unfold do_cross segIntersection ProperCross
  by_cases hden : crossDen ⟨a, b⟩ ⟨c, d⟩ = 0
  · simp only [hden, ne_eq, not_true_eq_false, if_false, false_and, iff_false]
    split_ifs with h1 h2 h3
    · have := lex_overlap_endpoint a b c d
      simp only [← h2] at this ⊢
      simp [this]
    · simp
    · simp
    · simp
  · simp only [ne_eq, hden, not_false_eq_true, if_true, true_and]
    have hd := hden
    simp only [crossDen] at hd
    set t := crossNumT ⟨a, b⟩ ⟨c, d⟩ / crossDen ⟨a, b⟩ ⟨c, d⟩ with ht
    set r := crossNumR ⟨a, b⟩ ⟨c, d⟩ / crossDen ⟨a, b⟩ ⟨c, d⟩ with hr
    -- the meeting point, seen from the second segment
    have hx : a.x + t * (b.x - a.x) = c.x + r * (d.x - c.x) := by
      rw [ht, hr]
      simp only [crossNumT, crossNumR, crossDen]
      field_simp
      ring
    have hy : a.y + t * (b.y - a.y) = c.y + r * (d.y - c.y) := by
      rw [ht, hr]
      simp only [crossNumT, crossNumR, crossDen]
      field_simp
      ring
    have hab : ¬(b.x - a.x = 0 ∧ b.y - a.y = 0) := by
      rintro ⟨h1, h2⟩
      apply hd
      rw [h1, h2]
      ring
    have hcd : ¬(d.x - c.x = 0 ∧ d.y - c.y = 0) := by
      rintro ⟨h1, h2⟩
      apply hd
      rw [h1, h2]
      ring
    by_cases hb : 0 ≤ t ∧ t ≤ 1 ∧ 0 ≤ r ∧ r ≤ 1
    · simp only [hb, and_self, if_true]
      have ea : (({ x := a.x + t * (b.x - a.x), y := a.y + t * (b.y - a.y) } : Point) = a) ↔
          t = 0 := by
        rw [Point.eq_iff]
        simp only
        constructor
        · rintro ⟨h1, h2⟩
          by_contra htne
          apply hab
          constructor
          · have : t * (b.x - a.x) = 0 := by linarith
            rcases mul_eq_zero.1 this with h | h
            · exact absurd h htne
            · exact h
          · have : t * (b.y - a.y) = 0 := by linarith
            rcases mul_eq_zero.1 this with h | h
            · exact absurd h htne
            · exact h
        · intro h
          rw [h]
          simp
      have eb : (({ x := a.x + t * (b.x - a.x), y := a.y + t * (b.y - a.y) } : Point) = b) ↔
          t = 1 := by
        rw [Point.eq_iff]
        simp only
        constructor
        · rintro ⟨h1, h2⟩
          by_contra htne
          apply hab
          have htne2 : t - 1 ≠ 0 := fun h => htne (by linarith)
          constructor
          · have : (t - 1) * (b.x - a.x) = 0 := by linarith
            rcases mul_eq_zero.1 this with h | h
            · exact absurd h htne2
            · exact h
          · have : (t - 1) * (b.y - a.y) = 0 := by linarith
            rcases mul_eq_zero.1 this with h | h
            · exact absurd h htne2
            · exact h
        · intro h
          rw [h]
          constructor <;> ring
      have ec : (({ x := a.x + t * (b.x - a.x), y := a.y + t * (b.y - a.y) } : Point) = c) ↔
          r = 0 := by
        rw [Point.eq_iff]
        simp only
        rw [hx, hy]
        constructor
        · rintro ⟨h1, h2⟩
          by_contra hrne
          apply hcd
          constructor
          · have : r * (d.x - c.x) = 0 := by linarith
            rcases mul_eq_zero.1 this with h | h
            · exact absurd h hrne
            · exact h
          · have : r * (d.y - c.y) = 0 := by linarith
            rcases mul_eq_zero.1 this with h | h
            · exact absurd h hrne
            · exact h
        · intro h
          rw [h]
          simp
      have ed : (({ x := a.x + t * (b.x - a.x), y := a.y + t * (b.y - a.y) } : Point) = d) ↔
          r = 1 := by
        rw [Point.eq_iff]
        simp only
        rw [hx, hy]
        constructor
        · rintro ⟨h1, h2⟩
          by_contra hrne
          apply hcd
          have hrne2 : r - 1 ≠ 0 := fun h => hrne (by linarith)
          constructor
          · have : (r - 1) * (d.x - c.x) = 0 := by linarith
            rcases mul_eq_zero.1 this with h | h
            · exact absurd h hrne2
            · exact h
          · have : (r - 1) * (d.y - c.y) = 0 := by linarith
            rcases mul_eq_zero.1 this with h | h
            · exact absurd h hrne2
            · exact h
        · intro h
          rw [h]
          constructor <;> ring
      simp only [ea, eb, ec, ed]
      obtain ⟨b1, b2, b3, b4⟩ := hb
      constructor
      · intro h
        split_ifs at h with h2
        have h3 : t ≠ 0 ∧ t ≠ 1 ∧ r ≠ 0 ∧ r ≠ 1 := by
          refine ⟨fun h => h2 (Or.inl h), fun h => h2 (Or.inr (Or.inl h)),
            fun h => h2 (Or.inr (Or.inr (Or.inl h))), fun h => h2 (Or.inr (Or.inr (Or.inr h)))⟩
        exact ⟨lt_of_le_of_ne b1 (Ne.symm h3.1), lt_of_le_of_ne b2 h3.2.1,
          lt_of_le_of_ne b3 (Ne.symm h3.2.2.1), lt_of_le_of_ne b4 h3.2.2.2⟩
      · rintro ⟨c1, c2, c3, c4⟩
        rw [if_neg]
        rintro (h | h | h | h) <;> linarith
    · simp only [hb, if_false]
      constructor
      · intro h
        exact absurd h (by decide)
      · rintro ⟨c1, c2, c3, c4⟩
        exact absurd ⟨le_of_lt c1, le_of_lt c2, le_of_lt c3, le_of_lt c4⟩ hb

theorem properCross_comm (s1 s2 : Segment2) : ProperCross s1 s2 ↔ ProperCross s2 s1 := by
  have key : ∀ s1 s2 : Segment2, ProperCross s1 s2 → ProperCross s2 s1 := by
    intro s1 s2 h
    obtain ⟨hd, t0, t1, r0, r1⟩ := h
    have e1 : crossDen s2 s1 = -crossDen s1 s2 := by
      simp only [crossDen]; ring
    have e2 : crossNumT s2 s1 = -crossNumR s1 s2 := by
      simp only [crossNumT, crossNumR]; ring
    have e3 : crossNumR s2 s1 = -crossNumT s1 s2 := by
      simp only [crossNumT, crossNumR]; ring
    unfold ProperCross
    rw [e1, e2, e3, neg_div_neg_eq, neg_div_neg_eq]
    exact ⟨neg_ne_zero.2 hd, r0, r1, t0, t1⟩
  exact ⟨key s1 s2, key s2 s1⟩

theorem properCross_reverse (s1 : Segment2) (a b : Point) :
    ProperCross s1 { source := a, target := b } ↔
      ProperCross s1 { source := b, target := a } := by
  have key : ∀ a b : Point, ProperCross s1 { source := a, target := b } →
      ProperCross s1 { source := b, target := a } := by
    intro a b h
    obtain ⟨hd, t0, t1, r0, r1⟩ := h
    have e1 : crossDen s1 { source := b, target := a } =
        -crossDen s1 { source := a, target := b } := by
      simp only [crossDen]; ring
    have e2 : crossNumT s1 { source := b, target := a } =
        -crossNumT s1 { source := a, target := b } := by
      simp only [crossNumT]; ring
    have e3 : crossNumR s1 { source := b, target := a } =
        crossNumR s1 { source := a, target := b } - crossDen s1 { source := a, target := b } := by
      simp only [crossNumR, crossDen]; ring
    unfold ProperCross
    rw [e1, e2, e3, neg_div_neg_eq]
    have e4 : (crossNumR s1 { source := a, target := b } -
        crossDen s1 { source := a, target := b }) / -crossDen s1 { source := a, target := b } =
        1 - crossNumR s1 { source := a, target := b } /
          crossDen s1 { source := a, target := b } := by
      rw [div_neg, sub_div, div_self hd]
      ring
    rw [e4]
    exact ⟨neg_ne_zero.2 hd, t0, t1, by linarith, by linarith⟩
  exact ⟨key a b, key b a⟩

theorem bool_eq_of_iff (x y : Bool) (h : x = true ↔ y = true) : x = y := by
  cases x <;> cases y <;> simp_all

/-- The crossing test on the model of the intersection is symmetric. -/
theorem crossSymmetric_segIntersection : CrossSymmetric segIntersection := by
  constructor
  · intro s1 s2
    apply bool_eq_of_iff
    rw [do_cross_segIntersection, do_cross_segIntersection]
    exact properCross_comm s1 s2
  · intro s1 a b
    apply bool_eq_of_iff
    rw [do_cross_segIntersection, do_cross_segIntersection]
    exact properCross_reverse s1 a b

/-- The diagonals of a square cross properly. -/
theorem square_diagonals_cross (x y a b : ℚ) (h : a ≠ 0 ∨ b ≠ 0) :
    do_cross segIntersection
      { source := { x := x, y := y }, target := { x := x + a - b, y := y + b + a } }
      { source := { x := x + a, y := y + b }, target := { x := x - b, y := y + a } } = true := by
  rw [do_cross_segIntersection]
  have hpos : 0 < a * a + b * b := by
    rcases h with h | h
    · have := mul_self_pos.2 h
      have := mul_self_nonneg b
      linarith
    · have := mul_self_pos.2 h
      have := mul_self_nonneg a
      linarith
  have hne : a * a + b * b ≠ 0 := ne_of_gt hpos
  have e1 : crossDen
      { source := { x := x, y := y }, target := { x := x + a - b, y := y + b + a } }
      { source := { x := x + a, y := y + b }, target := { x := x - b, y := y + a } } =
      2 * (a * a + b * b) := by
    simp only [crossDen]; ring
  have e2 : crossNumT
      { source := { x := x, y := y }, target := { x := x + a - b, y := y + b + a } }
      { source := { x := x + a, y := y + b }, target := { x := x - b, y := y + a } } =
      a * a + b * b := by
    simp only [crossNumT]; ring
  have e3 : crossNumR
      { source := { x := x, y := y }, target := { x := x + a - b, y := y + b + a } }
      { source := { x := x + a, y := y + b }, target := { x := x - b, y := y + a } } =
      a * a + b * b := by
    simp only [crossNumR]; ring
  unfold ProperCross
  rw [e1, e2, e3]
  have e4 : (a * a + b * b) / (2 * (a * a + b * b)) = 1 / 2 := by
    field_simp
    ring
  rw [e4]
  refine ⟨by positivity, by norm_num, by norm_num, by norm_num, by norm_num⟩

theorem square_new (I : IntersectionFn) (ct : ComputeTriangles) (p0 p1 p2 p3 : Point)
    (hct : ct [p0, p1, p2, p3] squareEdgeList = Except.ok squareTriangles)
    (hc : do_cross I { source := p0, target := p2 } { source := p1, target := p3 } = true) :
    FlipPartnerMapNative.new I ct [p0, p1, p2, p3] squareEdges =
      Except.ok (squareState [p0, p1, p2, p3]) := by
  have he : (List.map (fun edge => (edge.u, edge.v))
      (List.foldl (fun acc edge => setInsert acc (normalize_edge edge)) [] squareEdges)) =
      squareEdgeList := by decide
  simp only [FlipPartnerMapNative.new, rebuild_flip_map, edge_list, he, hct]
  simp [squareTriangles, squareEdges, squareState, add_triangle, update_all, keys,
    update_flip_partner, check_flippability, opposite_vertex, Triangle.toList, find, assign,
    erase, setInsert, normalize_edge, EdgeKey.of, pointAt, hc]

theorem square_flip (I : IntersectionFn) (p0 p1 p2 p3 : Point)
    (hc : do_cross I { source := p1, target := p3 } { source := p0, target := p2 } = true) :
    flip I (squareState [p0, p1, p2, p3]) (0, 2) =
      (Except.ok (1, 3), squareFlipped [p0, p1, p2, p3]) := by
  simp [flip, squareState, squareFlipped, andThen, update_incident, contains_old_edge,
    update_flip_partner, check_flippability, opposite_vertex, Triangle.toList, find, assign,
    erase, setInsert, setErase, normalize_edge, EdgeKey.of, pointAt, to_tuple, hc]

theorem squareTriangles_valid : ValidTriangles squareEdges squareTriangles := by
  refine ⟨by decide, by decide, fun e _ => ?_, by decide⟩
  exact (List.length_filter_le _ _).trans (by simp [squareTriangles])

theorem square_cross (x y a b : ℚ) (h : a ≠ 0 ∨ b ≠ 0) :
    do_cross segIntersection
      { source := pointAt (squarePoints x y a b) 0, target := pointAt (squarePoints x y a b) 2 }
      { source := pointAt (squarePoints x y a b) 1, target := pointAt (squarePoints x y a b) 3 } =
        true ∧
    do_cross segIntersection
      { source := pointAt (squarePoints x y a b) 1, target := pointAt (squarePoints x y a b) 3 }
      { source := pointAt (squarePoints x y a b) 0, target := pointAt (squarePoints x y a b) 2 } =
        true := by
  have h1 := square_diagonals_cross x y a b h
  have e0 : pointAt (squarePoints x y a b) 0 = { x := x, y := y } := by
    simp [pointAt, squarePoints]
  have e1 : pointAt (squarePoints x y a b) 1 = { x := x + a, y := y + b } := by
    simp [pointAt, squarePoints]
  have e2 : pointAt (squarePoints x y a b) 2 = { x := x + a - b, y := y + b + a } := by
    simp [pointAt, squarePoints]
  have e3 : pointAt (squarePoints x y a b) 3 = { x := x - b, y := y + a } := by
    simp [pointAt, squarePoints]
  rw [e0, e1, e2, e3]
  exact ⟨h1, by rw [crossSymmetric_segIntersection.1]; exact h1⟩

/-- The constructor on the split square, for any `compute_triangles` that returns
its two triangles. -/
theorem square_new_seg (ct : ComputeTriangles) (x y a b : ℚ) (h : a ≠ 0 ∨ b ≠ 0)
    (hct : ct (squarePoints x y a b) squareEdgeList = Except.ok squareTriangles) :
    FlipPartnerMapNative.new segIntersection ct (squarePoints x y a b) squareEdges =
      Except.ok (squareState (squarePoints x y a b)) :=
  square_new segIntersection ct _ _ _ _ hct (square_diagonals_cross x y a b h)

theorem square_flip_seg (x y a b : ℚ) (h : a ≠ 0 ∨ b ≠ 0) :
    flip segIntersection (squareState (squarePoints x y a b)) (0, 2) =
      (Except.ok (1, 3), squareFlipped (squarePoints x y a b)) :=
  square_flip segIntersection _ _ _ _ (by
    rw [crossSymmetric_segIntersection.1]
    exact square_diagonals_cross x y a b h)

theorem squareState_invariants (x y a b : ℚ) (h : a ≠ 0 ∨ b ≠ 0) :
    Invariants segIntersection (squareState (squarePoints x y a b)) := by
  obtain ⟨s, hs, hinv⟩ := new_invariants segIntersection squareComputeTriangles
    (squarePoints x y a b) squareEdges squareTriangles rfl squareTriangles_valid
  rw [square_new_seg squareComputeTriangles x y a b h rfl] at hs
  rw [Except.ok.injEq] at hs
  rw [hs]
  exact hinv

theorem mem_assign {V : Type} (m : List (EdgeKey × V)) (k : EdgeKey) (v : V)
    (kv : EdgeKey × V) (h : kv ∈ assign m k v) : kv = (k, v) ∨ kv ∈ m := by
  induction m with
  | nil =>
    simp only [assign, List.mem_singleton] at h
    exact Or.inl h
  | cons kv0 m ih =>
    obtain ⟨k0, v0⟩ := kv0
    simp only [assign] at h
    split_ifs at h with hk
    · rw [List.mem_cons] at h
      rcases h with h | h
      · exact Or.inl h
      · exact Or.inr (List.mem_cons_of_mem _ h)
    · rw [List.mem_cons] at h
      rcases h with h | h
      · exact Or.inr (by rw [h]; exact List.mem_cons_self _ _)
      · rcases ih h with h2 | h2
        · exact Or.inl h2
        · exact Or.inr (List.mem_cons_of_mem _ h2)

theorem mem_erase {V : Type} (m : List (EdgeKey × V)) (k : EdgeKey) (kv : EdgeKey × V)
    (h : kv ∈ erase m k) : kv ∈ m := by
  induction m with
  | nil => simp [erase] at h
  | cons kv0 m ih =>
    obtain ⟨k0, v0⟩ := kv0
    simp only [erase] at h
    split_ifs at h with hk
    · exact List.mem_cons_of_mem _ (ih h)
    · rw [List.mem_cons] at h
      rcases h with h | h
      · rw [h]; exact List.mem_cons_self _ _
      · exact List.mem_cons_of_mem _ (ih h)

theorem check_flippability_le (I : IntersectionFn) (pts : List Point) (x : EdgeKey)
    (t0 t1 : Triangle) (p : EdgeKey)
    (h : check_flippability I pts x t0 t1 = Except.ok (some p)) : p.u ≤ p.v := by
  unfold check_flippability at h
  cases h0 : opposite_vertex t0 x with
  | error e => simp [h0] at h
  | ok o0 =>
    cases h1 : opposite_vertex t1 x with
    | error e => simp [h0, h1] at h
    | ok o1 =>
      simp only [h0, h1] at h
      split_ifs at h
      · simp only [Except.ok.injEq, Option.some.injEq] at h
        rw [← h]
        exact EdgeKey.of_le o0 o1
      · simp at h

theorem update_flip_partner_normalized (I : IntersectionFn) (s : FlipPartnerMapNative)
    (x : EdgeKey) (hx : x.u ≤ x.v) (h : Normalized s) :
    Normalized (update_flip_partner I s x).2 := by
  obtain ⟨h1, h2, h3⟩ := h
  unfold update_flip_partner
  split
  · exact ⟨h1, h2, fun kv hkv => h3 kv (mem_erase _ _ _ hkv)⟩
  · split
    · exact ⟨h1, h2, h3⟩
    · rename_i p hc
      refine ⟨h1, h2, fun kv hkv => ?_⟩
      rcases mem_assign _ _ _ _ hkv with h4 | h4
      · rw [h4]
        exact ⟨hx, check_flippability_le I _ _ _ _ _ hc⟩
      · exact h3 kv h4
    · exact ⟨h1, h2, fun kv hkv => h3 kv (mem_erase _ _ _ hkv)⟩
  · exact ⟨h1, h2, fun kv hkv => h3 kv (mem_erase _ _ _ hkv)⟩

theorem update_incident_normalized (I : IntersectionFn) (old : EdgeKey)
    (s : FlipPartnerMapNative) (adj : EdgeKey) (tri : Triangle) (hx : adj.u ≤ adj.v)
    (h : Normalized s) : Normalized (update_incident I old s adj tri).2 := by
  unfold update_incident
  apply update_flip_partner_normalized I _ adj hx
  obtain ⟨h1, h2, h3⟩ := h
  refine ⟨h1, fun kv hkv => ?_, h3⟩
  rcases mem_assign _ _ _ _ hkv with h4 | h4
  · rw [h4]; exact hx
  · exact h2 kv h4

theorem andThen_preserves {α : Type} (P : FlipPartnerMapNative → Prop)
    (r : Except Err Unit × FlipPartnerMapNative)
    (f : FlipPartnerMapNative → Except Err α × FlipPartnerMapNative)
    (hr : P r.2) (hf : ∀ s, P s → P (f s).2) : P (andThen r f).2 := by
  obtain ⟨r1, r2⟩ := r
  cases r1 with
  | error e => exact hr
  | ok u => exact hf r2 hr

theorem find_mem {V : Type} (m : List (EdgeKey × V)) (k : EdgeKey) (v : V)
    (h : find m k = some v) : (k, v) ∈ m := by
  induction m with
  | nil => simp [find] at h
  | cons kv0 m ih =>
    obtain ⟨k0, v0⟩ := kv0
    simp only [find] at h
    split_ifs at h with hk
    · simp only [Option.some.injEq] at h
      rw [← h, ← hk]
      exact List.mem_cons_self _ _
    · exact List.mem_cons_of_mem _ (ih h)

/-- `flip` keeps the stored keys normalized, whatever its outcome. -/
theorem flip_normalized (I : IntersectionFn) (s : FlipPartnerMapNative) (edge : Int × Int)
    (h : Normalized s) : Normalized (flip I s edge).2 := by
  unfold flip
  by_cases hmem : normalize_edge edge ∈ s.edges_
  swap
  · simp only [hmem, not_false_eq_true, if_true]
    exact h
  simp only [hmem, not_true_eq_false, if_false]
  cases hf : find s.flip_map_ (normalize_edge edge) with
  | none => exact h
  | some new =>
    have hnew : new.u ≤ new.v := (h.2.2 _ (find_mem _ _ _ hf)).2
    have hold : (normalize_edge edge).u ≤ (normalize_edge edge).v := EdgeKey.of_le _ _
    obtain ⟨h1, h2, h3⟩ := h
    have hs1 : Normalized { s with flip_map_ := erase s.flip_map_ (normalize_edge edge) } :=
      ⟨h1, h2, fun kv hkv => h3 kv (mem_erase _ _ _ hkv)⟩
    simp only
    split
    · apply andThen_preserves Normalized
      · apply update_incident_normalized I _ _ _ _ (EdgeKey.of_le _ _)
        refine ⟨h1, fun kv hkv => ?_, fun kv hkv => h3 kv (mem_erase _ _ _ hkv)⟩
        rcases mem_assign _ _ _ _ hkv with h4 | h4
        · rw [h4]; exact hnew
        · exact h2 kv (mem_erase _ _ _ h4)
      intro s3 hs3
      apply andThen_preserves Normalized
      · exact update_incident_normalized I _ _ _ _ (EdgeKey.of_le _ _) hs3
      intro s4 hs4
      apply andThen_preserves Normalized
      · exact update_incident_normalized I _ _ _ _ (EdgeKey.of_le _ _) hs4
      intro s5 hs5
      apply andThen_preserves Normalized
      · exact update_incident_normalized I _ _ _ _ (EdgeKey.of_le _ _) hs5
      intro s6 hs6
      apply andThen_preserves Normalized
      · apply update_flip_partner_normalized I _ _ hnew
        obtain ⟨g1, g2, g3⟩ := hs6
        refine ⟨fun x hx => ?_, g2, g3⟩
        rw [mem_setInsert, mem_setErase] at hx
        rcases hx with hx | hx
        · exact g1 x hx.1
        · rw [hx]; exact hnew
      intro s8 hs8
      exact hs8
    · exact hs1

theorem initialEdges_le (edges : List (Int × Int)) : ∀ x ∈ initialEdges edges, x.u ≤ x.v := by
  have key : ∀ (es : List (Int × Int)) (acc : List EdgeKey), (∀ x ∈ acc, x.u ≤ x.v) →
      ∀ x ∈ es.foldl (fun acc edge => setInsert acc (normalize_edge edge)) acc, x.u ≤ x.v := by
    intro es
    induction es with
    | nil => intro acc h x hx; exact h x hx
    | cons e es ih =>
      intro acc h x hx
      simp only [List.foldl_cons] at hx
      apply ih (setInsert acc (normalize_edge e)) _ x hx
      intro y hy
      rw [mem_setInsert] at hy
      rcases hy with hy | hy
      · exact h y hy
      · rw [hy]; exact EdgeKey.of_le _ _
  exact key edges [] (by simp)

theorem add_triangle_normalized (s : FlipPartnerMapNative) (t : Int × Int × Int)
    (h : Normalized s) : Normalized (add_triangle s t) := by
  obtain ⟨h1, h2, h3⟩ := h
  refine ⟨fun x hx => ?_, fun kv hkv => ?_, h3⟩
  · simp only [add_triangle, mem_setInsert] at hx
    rcases hx with ((hx | hx) | hx) | hx
    · exact h1 x hx
    · rw [hx]; exact EdgeKey.of_le _ _
    · rw [hx]; exact EdgeKey.of_le _ _
    · rw [hx]; exact EdgeKey.of_le _ _
  · simp only [add_triangle] at hkv
    rcases mem_assign _ _ _ _ hkv with h4 | h4
    · rw [h4]; exact EdgeKey.of_le _ _
    · rcases mem_assign _ _ _ _ h4 with h5 | h5
      · rw [h5]; exact EdgeKey.of_le _ _
      · rcases mem_assign _ _ _ _ h5 with h6 | h6
        · rw [h6]; exact EdgeKey.of_le _ _
        · exact h2 kv h6

theorem fold_add_triangle_normalized (tris : List (Int × Int × Int)) :
    ∀ s : FlipPartnerMapNative, Normalized s → Normalized (tris.foldl add_triangle s) := by
  induction tris with
  | nil => intro s h; exact h
  | cons t tris ih =>
    intro s h
    exact ih _ (add_triangle_normalized s t h)

theorem update_all_normalized (I : IntersectionFn) (ks : List EdgeKey) :
    ∀ s s1 : FlipPartnerMapNative, Normalized s → (∀ k ∈ ks, k.u ≤ k.v) →
      update_all I ks s = Except.ok s1 → Normalized s1 := by
  induction ks with
  | nil =>
    intro s s1 h _ hr
    simp only [update_all, Except.ok.injEq] at hr
    rw [← hr]; exact h
  | cons k ks ih =>
    intro s s1 h hk hr
    have hn := update_flip_partner_normalized I s k (hk k (by simp)) h
    simp only [update_all] at hr
    split at hr
    · simp at hr
    · rename_i u s2 heq
      rw [heq] at hn
      exact ih s2 s1 hn (fun k2 hk2 => hk k2 (by simp [hk2])) hr

/-- The constructor stores normalized keys only. -/
theorem new_normalized (I : IntersectionFn) (ct : ComputeTriangles) (points : List Point)
    (edges : List (Int × Int)) (s : FlipPartnerMapNative)
    (h : FlipPartnerMapNative.new I ct points edges = Except.ok s) : Normalized s := by
  unfold FlipPartnerMapNative.new rebuild_flip_map at h
  simp only at h
  split at h
  · simp at h
  · rename_i tris _
    have h0 : Normalized (FlipPartnerMapNative.mk points (initialEdges edges) [] []) :=
      ⟨initialEdges_le edges, by simp, by simp⟩
    have h1 := fold_add_triangle_normalized tris _ h0
    refine update_all_normalized I _ _ s h1 ?_ h
    intro k hk
    simp only [keys, List.mem_map] at hk
    obtain ⟨kv, hkv, hk2⟩ := hk
    rw [← hk2]
    exact h1.2.1 kv hkv

theorem reachable_normalized (I : IntersectionFn) (ct : ComputeTriangles)
    (s : FlipPartnerMapNative) (h : Reachable I ct s) : Normalized s := by
  induction h with
  | construct points edges s h => exact new_normalized I ct points edges s h
  | flip s edge _ ih => exact flip_normalized I s edge ih

theorem normalize_edge_swap (u v : Int) : normalize_edge (u, v) = normalize_edge (v, u) :=
  EdgeKey.of_comm u v

theorem flip_result_le (I : IntersectionFn) (s : FlipPartnerMapNative) (edge r : Int × Int)
    (h : Normalized s) (hr : (flip I s edge).1 = Except.ok r) : r.1 ≤ r.2 := by
  have hs : flip I s edge = (Except.ok r, (flip I s edge).2) := by rw [← hr]
  obtain ⟨new, -, -, -, hf, -, hr2, -⟩ := flip_ok_spec I s _ edge r hs
  rw [hr2]
  exact (h.2.2 _ (find_mem _ _ _ hf)).2

theorem queries_congr (I : IntersectionFn) (s : FlipPartnerMapNative) (e1 e2 : Int × Int)
    (h : normalize_edge e1 = normalize_edge e2) :
    is_flippable s e1 = is_flippable s e2 ∧ get_flip_partner s e1 = get_flip_partner s e2 ∧
    conflicting_flips s e1 = conflicting_flips s e2 ∧ flip I s e1 = flip I s e2 := by
  refine ⟨?_, ?_, ?_, ?_⟩
  · unfold is_flippable; rw [h]
  · unfold get_flip_partner; rw [h]
  · unfold conflicting_flips; simp only [h]
  · unfold flip; simp only [h]


/-! ## `compute_triangles` -/

theorem sort3_asc (t : Int × Int × Int) :
    (sort3 t).1 ≤ (sort3 t).2.1 ∧ (sort3 t).2.1 ≤ (sort3 t).2.2 := by
  obtain ⟨a, b, c⟩ := t
  by_cases h1 : a ≤ b <;> by_cases h2 : b ≤ c <;> by_cases h3 : a ≤ c <;>
    simp [sort3, List.insertionSort, List.orderedInsert, h1, h2, h3] <;> omega

theorem extract_asc (idx : Point → Option Int) (faces : List Face)
    (L : List (Int × Int × Int)) (h : extract_triangular_faces idx faces = Except.ok L) :
    ∀ t ∈ L, t.1 ≤ t.2.1 ∧ t.2.1 ≤ t.2.2 := by
  induction faces generalizing L with
  | nil =>
    simp [extract_triangular_faces] at h
    subst h
    simp
  | cons f rest ih =>
    simp only [extract_triangular_faces] at h
    split_ifs at h with hu
    · exact ih L h
    · generalize hw : walk_boundary idx f.outer_ccb _ = w at h
      cases w with
      | error e => simp at h
      | ok st =>
        obtain ⟨idxs, deg⟩ := st
        cases hr : extract_triangular_faces idx rest with
        | error e => simp [hr] at h
        | ok triangles =>
          simp only [hr] at h
          split_ifs at h with hd
          · simp at h
            subst h
            intro t ht
            rcases List.mem_cons.1 ht with rfl | ht
            · exact sort3_asc idxs
            · exact ih triangles hr t ht
          · simp at h
            subst h
            exact ih triangles hr

theorem tupleLe_total (a b : Int × Int × Int) : tupleLe a b ∨ tupleLe b a := by
  unfold tupleLe
  omega

theorem tupleLe_trans (a b c : Int × Int × Int) (h1 : tupleLe a b) (h2 : tupleLe b c) :
    tupleLe a c := by
  unfold tupleLe at *
  omega

theorem tupleLe_antisymm (a b : Int × Int × Int) (h1 : tupleLe a b) (h2 : tupleLe b a) :
    a = b := by
  unfold tupleLe at *
  obtain ⟨a1, a2, a3⟩ := a
  obtain ⟨b1, b2, b3⟩ := b
  simp only [Prod.mk.injEq] at *
  omega

instance tupleLe_isTotal : IsTotal (Int × Int × Int) tupleLe := ⟨tupleLe_total⟩

instance tupleLe_isTrans : IsTrans (Int × Int × Int) tupleLe := ⟨tupleLe_trans⟩

theorem unique_sublist (l : List (Int × Int × Int)) : (unique l).Sublist l := by
  induction l with
  | nil => simp [unique]
  | cons a l ih =>
    cases l with
    | nil => simp [unique]
    | cons b rest =>
      simp only [unique]
      split_ifs with hab
      · exact List.Sublist.cons a ih
      · exact List.Sublist.cons₂ a ih

theorem unique_length_le (l : List (Int × Int × Int)) : (unique l).length ≤ l.length :=
  (unique_sublist l).length_le

theorem unique_eq_of_length (l : List (Int × Int × Int))
    (h : (unique l).length = l.length) : unique l = l :=
  (unique_sublist l).eq_of_length h

theorem unique_chain (l : List (Int × Int × Int)) (h : (unique l).length = l.length) :
    List.Chain' (fun a b => a ≠ b) l := by
  induction l with
  | nil => simp
  | cons a l ih =>
    cases l with
    | nil => simp
    | cons b rest =>
      simp only [unique] at h
      split_ifs at h with hab
      · have := unique_length_le (b :: rest)
        simp only [List.length_cons] at h this
        omega
      · simp only [List.length_cons, add_left_inj] at h
        exact List.chain'_cons.2 ⟨hab, ih (by simpa using h)⟩

theorem sorted_nodup_of_chain (l : List (Int × Int × Int)) (hs : l.Sorted tupleLe)
    (hc : List.Chain' (fun a b => a ≠ b) l) : l.Nodup := by
  induction l with
  | nil => simp
  | cons a l ih =>
    have hs2 := List.sorted_cons.1 hs
    refine List.nodup_cons.2 ⟨?_, ih hs2.2 hc.tail⟩
    intro ha
    cases l with
    | nil => simp at ha
    | cons b rest =>
      have hab : a ≠ b := (List.chain'_cons.1 hc).1
      have h1 : tupleLe a b := hs2.1 b (List.mem_cons_self _ _)
      have h2 : tupleLe b a := by
        rcases List.mem_cons.1 ha with h | h
        · exact absurd h hab
        · exact (List.sorted_cons.1 hs2.2).1 a h
      exact hab (tupleLe_antisymm a b h1 h2)

theorem unique_of_dup (l : List (Int × Int × Int)) (hs : l.Sorted tupleLe) (hd : ¬l.Nodup) :
    (unique l).length ≠ l.length :=
  fun h => hd (sorted_nodup_of_chain l hs (unique_chain l h))

theorem compute_triangles_ok (arrangement : ArrangementFn) (points : List Point)
    (edges : List (Int × Int)) (tris : List (Int × Int × Int))
    (h : compute_triangles arrangement points edges = Except.ok tris) :
    ∃ faces extracted,
      build_arrangement_for_triangles arrangement points edges = Except.ok faces ∧
      extract_triangular_faces (idx_of points) faces = Except.ok extracted ∧
      tris = List.insertionSort tupleLe extracted ∧
      (unique tris).length = tris.length := by
  unfold compute_triangles at h
  cases hb : build_arrangement_for_triangles arrangement points edges with
  | error e => simp [hb] at h
  | ok faces =>
    cases he : extract_triangular_faces (idx_of points) faces with
    | error e => simp [hb, he] at h
    | ok extracted =>
      simp only [hb, he] at h
      split_ifs at h with hl
      simp at h
      have hu := unique_eq_of_length _ (not_not.1 hl)
      rw [hu] at h
      subst h
      exact ⟨faces, extracted, rfl, he, rfl, not_not.1 hl⟩

theorem walk_four (idx : Point → Option Int) (p0 p1 p2 p3 : Point) (i0 i1 i2 i3 : Int)
    (h0 : idx p0 = some i0) (h1 : idx p1 = some i1) (h2 : idx p2 = some i2)
    (h3 : idx p3 = some i3) :
    walk_boundary idx [p0, p1, p2, p3] ((0, 0, 0), 0) = Except.ok ((i0, i1, i2), 4) := by
  simp [walk_boundary, walk_step, h0, h1, h2, h3]

theorem walk_deg (idx : Point → Option Int) (l : List Point) (st st1 : (Int × Int × Int) × Nat)
    (h : walk_boundary idx l st = Except.ok st1) : st1.2 = st.2 + l.length ∧ st1.2 ≤ 4 ∨
      (l = [] ∧ st1 = st) := by
  induction l generalizing st with
  | nil =>
    simp [walk_boundary] at h
    exact Or.inr ⟨rfl, h.symm⟩
  | cons pv rest ih =>
    left
    simp only [walk_boundary] at h
    cases hw : walk_step idx st pv with
    | error e => simp [hw] at h
    | ok s2 =>
      simp only [hw] at h
      have h2 : s2.2 = st.2 + 1 ∧ st.2 ≤ 3 := by
        by_cases hgt : st.2 > 3
        · simp [walk_step, hgt] at hw
        · cases hi : idx pv with
          | none => simp [walk_step, hgt, hi] at hw
          | some i =>
            simp only [walk_step, hgt, hi, if_false] at hw
            simp only [Except.ok.injEq] at hw
            subst hw
            exact ⟨rfl, by omega⟩
      rcases ih s2 h with h3 | h3
      · simp only [List.length_cons]
        omega
      · rw [h3.2, h3.1]
        simp only [List.length_cons, List.length_nil]
        omega

theorem walk_five (idx : Point → Option Int) (l : List Point) (hl : 5 ≤ l.length)
    (hk : ∀ p ∈ l, ∃ i, idx p = some i) (st : (Int × Int × Int) × Nat) :
    walk_boundary idx l st = Except.error TriErr.notTriangular := by
  cases hw : walk_boundary idx l st with
  | ok st1 =>
    rcases walk_deg idx l st st1 hw with h | h
    · omega
    · rw [h.1] at hl
      simp at hl
  | error e =>
    clear hl
    induction l generalizing st with
    | nil => simp [walk_boundary] at hw
    | cons pv rest ih =>
      simp only [walk_boundary] at hw
      obtain ⟨i, hi⟩ := hk pv (List.mem_cons_self _ _)
      cases hs : walk_step idx st pv with
      | error e2 =>
        simp only [hs] at hw
        by_cases hgt : st.2 > 3
        · simp [walk_step, hgt] at hs
          simp at hw
          rw [← hw, ← hs]
        · simp [walk_step, hgt, hi] at hs
      | ok s2 =>
        simp only [hs] at hw
        exact ih (fun p hp => hk p (List.mem_cons_of_mem _ hp)) s2 hw

theorem idx_of_mem (points : List Point) (p : Point) (h : p ∈ points) :
    ∃ i, idx_of points p = some i := by
  simp [idx_of, h]

theorem extract_quad_face (idx : Point → Option Int) (f : Face) (rest : List Face)
    (hu : f.is_unbounded = false) (hl : f.outer_ccb.length = 4)
    (hk : ∀ p ∈ f.outer_ccb, ∃ i, idx p = some i) :
    extract_triangular_faces idx (f :: rest) = extract_triangular_faces idx rest := by
  obtain ⟨u, ccb⟩ := f
  simp only at hu hl hk
  subst hu
  match ccb, hl, hk with
  | [p0, p1, p2, p3], _, hk =>
    obtain ⟨i0, h0⟩ := hk p0 (by simp)
    obtain ⟨i1, h1⟩ := hk p1 (by simp)
    obtain ⟨i2, h2⟩ := hk p2 (by simp)
    obtain ⟨i3, h3⟩ := hk p3 (by simp)
    have hw := walk_four idx p0 p1 p2 p3 i0 i1 i2 i3 h0 h1 h2 h3
    simp only [extract_triangular_faces, hw]
    cases extract_triangular_faces idx rest <;> simp

theorem extract_large_face (idx : Point → Option Int) (f : Face) (rest : List Face)
    (hu : f.is_unbounded = false) (hl : 5 ≤ f.outer_ccb.length)
    (hk : ∀ p ∈ f.outer_ccb, ∃ i, idx p = some i) :
    extract_triangular_faces idx (f :: rest) = Except.error TriErr.notTriangular := by
  simp [extract_triangular_faces, hu, walk_five idx f.outer_ccb hl hk]

theorem unitSquare_idx_of :
    idx_of (squarePoints 0 0 1 0) (pointAt (squarePoints 0 0 1 0) 0) = some 0 ∧
    idx_of (squarePoints 0 0 1 0) (pointAt (squarePoints 0 0 1 0) 1) = some 1 ∧
    idx_of (squarePoints 0 0 1 0) (pointAt (squarePoints 0 0 1 0) 2) = some 2 ∧
    idx_of (squarePoints 0 0 1 0) (pointAt (squarePoints 0 0 1 0) 3) = some 3 := by
  have e1 : (({ x := 0, y := 0 } : Point) == { x := 1, y := 0 }) = false := by
    rw [beq_eq_false_iff_ne]; simp
  have e2 : (({ x := 0, y := 0 } : Point) == { x := 1, y := 1 }) = false := by
    rw [beq_eq_false_iff_ne]; simp
  have e3 : (({ x := 1, y := 0 } : Point) == { x := 1, y := 1 }) = false := by
    rw [beq_eq_false_iff_ne]; simp
  have e4 : (({ x := 0, y := 0 } : Point) == { x := 0, y := 1 }) = false := by
    rw [beq_eq_false_iff_ne]; simp
  have e5 : (({ x := 1, y := 0 } : Point) == { x := 0, y := 1 }) = false := by
    rw [beq_eq_false_iff_ne]; simp
  have e6 : (({ x := 1, y := 1 } : Point) == { x := 0, y := 1 }) = false := by
    rw [beq_eq_false_iff_ne]; simp
  simp [idx_of, squarePoints, pointAt, List.indexOf, List.findIdx, List.findIdx.go, e1, e2, e3,
    e4, e5, e6]

theorem unitSquare_compute_triangles (edges : List (Int × Int))
    (hb : edges.all (edge_in_bounds (squarePoints 0 0 1 0)) = true) :
    compute_triangles squareArrangement (squarePoints 0 0 1 0) edges =
      if (0, 2) ∈ edges ∨ (2, 0) ∈ edges then Except.ok [(0, 1, 2), (0, 2, 3)]
      else Except.ok [(0, 1, 3), (1, 2, 3)] := by
  obtain ⟨h0, h1, h2, h3⟩ := unitSquare_idx_of
  by_cases hd : (0, 2) ∈ edges ∨ (2, 0) ∈ edges
  · simp [compute_triangles, build_arrangement_for_triangles, hb, squareArrangement, hd,
      extract_triangular_faces, triangleFace, walk_boundary, walk_step, h0, h1, h2, h3,
      sort3, unique, tupleLe]
  · simp [compute_triangles, build_arrangement_for_triangles, hb, squareArrangement, hd,
      extract_triangular_faces, triangleFace, walk_boundary, walk_step, h0, h1, h2, h3,
      sort3, unique, tupleLe]

/-! ## The open-addressing table -/

namespace detail

theorem table_size_pos : 0 < EDGE_TABLE_SIZE := by decide

theorem table_size_eq : EDGE_TABLE_SIZE = 2 ^ 17 := by decide

theorem and_mask (x : Nat) : x &&& EDGE_TABLE_MASK = x % EDGE_TABLE_SIZE := by
  have h : EDGE_TABLE_MASK = 2 ^ 17 - 1 := by decide
  rw [h, table_size_eq]
  exact Nat.and_pow_two_sub_one_eq_mod x 17

theorem start_index_lt (e : Edge) : start_index e < EDGE_TABLE_SIZE := by
  unfold start_index
  rw [and_mask]
  exact Nat.mod_lt _ table_size_pos

theorem slot_lt (e : Edge) (j : Nat) : slot e j < EDGE_TABLE_SIZE :=
  Nat.mod_lt _ table_size_pos

theorem slot_zero (e : Edge) : slot e 0 = start_index e := by
  unfold slot
  rw [Nat.add_zero]
  exact Nat.mod_eq_of_lt (start_index_lt e)

theorem slot_succ (e : Edge) (j : Nat) : (slot e j + 1) &&& EDGE_TABLE_MASK = slot e (j + 1) := by
  rw [and_mask]
  unfold slot
  rw [Nat.mod_add_mod, Nat.add_assoc]

/-- Every slot is visited within `EDGE_TABLE_SIZE` steps. -/
theorem slot_surj (e : Edge) (idx : Nat) (h : idx < EDGE_TABLE_SIZE) :
    ∃ j, j < EDGE_TABLE_SIZE ∧ slot e j = idx := by
  have hs := start_index_lt e
  refine ⟨(idx + EDGE_TABLE_SIZE - start_index e) % EDGE_TABLE_SIZE,
    Nat.mod_lt _ table_size_pos, ?_⟩
  unfold slot
  rw [Nat.add_mod_mod]
  have : start_index e + (idx + EDGE_TABLE_SIZE - start_index e) = idx + EDGE_TABLE_SIZE := by
    omega
  rw [this, Nat.add_mod_right]
  exact Nat.mod_eq_of_lt h

theorem slot_inj (e : Edge) (j1 j2 : Nat) (h1 : j1 < EDGE_TABLE_SIZE)
    (h2 : j2 < EDGE_TABLE_SIZE) (h : slot e j1 = slot e j2) : j1 = j2 := by
  unfold slot at h
  have h3 : (start_index e + j1) ≡ (start_index e + j2) [MOD EDGE_TABLE_SIZE] := h
  have h4 : j1 ≡ j2 [MOD EDGE_TABLE_SIZE] := Nat.ModEq.add_left_cancel' _ h3
  unfold Nat.ModEq at h4
  rwa [Nat.mod_eq_of_lt h1, Nat.mod_eq_of_lt h2] at h4

theorem find_probe_run (t : EdgeTable) (e : Edge) (k : Nat) :
    ∀ j f, (∀ j2, j ≤ j2 → j2 < j + k → ¬Stop t e j2) →
      find_probe t e (k + f) (slot e j) = find_probe t e f (slot e (j + k)) := by
  induction k with
  | zero =>
    intro j f _
    simp
  | succ k ih =>
    intro j f h
    have h0 := h j (le_refl _) (by omega)
    unfold Stop at h0
    push_neg at h0
    have h1 : k + 1 + f = (k + f) + 1 := by omega
    rw [h1, find_probe]
    simp only [h0.1, h0.2, if_false, Bool.true_eq_false]
    rw [slot_succ, ih (j + 1) f (fun j2 hj1 hj2 => h j2 (by omega) (by omega))]
    congr 2
    omega

theorem insert_probe_run (t : EdgeTable) (e : Edge) (k : Nat) :
    ∀ j f, (∀ j2, j ≤ j2 → j2 < j + k → ¬Stop t e j2) →
      insert_probe t e (k + f) (slot e j) = insert_probe t e f (slot e (j + k)) := by
  induction k with
  | zero =>
    intro j f _
    simp
  | succ k ih =>
    intro j f h
    have h0 := h j (le_refl _) (by omega)
    unfold Stop at h0
    push_neg at h0
    have h1 : k + 1 + f = (k + f) + 1 := by omega
    rw [h1, insert_probe]
    simp only [h0.1, h0.2, if_false, Bool.true_eq_false]
    rw [slot_succ, ih (j + 1) f (fun j2 hj1 hj2 => h j2 (by omega) (by omega))]
    congr 2
    omega

/-- The outcome of a probing: it hangs, or it stops first after `j` steps. -/
theorem probe_cases (t : EdgeTable) (e : Edge) :
    (∀ j, j < EDGE_TABLE_SIZE → ¬Stop t e j) ∨
    ∃ j, j < EDGE_TABLE_SIZE ∧ Stop t e j ∧ ∀ j2, j2 < j → ¬Stop t e j2 := by
  classical
  by_cases h : ∃ j, j < EDGE_TABLE_SIZE ∧ Stop t e j
  · right
    refine ⟨Nat.find h, (Nat.find_spec h).1, (Nat.find_spec h).2, ?_⟩
    intro j2 hj2 hs
    exact Nat.find_min h hj2 ⟨lt_trans hj2 (Nat.find_spec h).1, hs⟩
  · left
    intro j hj hs
    exact h ⟨j, hj, hs⟩

theorem find_bucket_hang (t : EdgeTable) (e : Edge)
    (h : ∀ j, j < EDGE_TABLE_SIZE → ¬Stop t e j) :
    find_bucket t e = Except.error BatchErr.hang := by
  unfold find_bucket
  rw [← slot_zero]
  have := find_probe_run t e EDGE_TABLE_SIZE 0 0 (fun j2 _ h2 => h j2 (by omega))
  rw [Nat.add_zero] at this
  rw [this]
  rfl

theorem find_bucket_stop (t : EdgeTable) (e : Edge) (j : Nat) (hj : j < EDGE_TABLE_SIZE)
    (h : ∀ j2, j2 < j → ¬Stop t e j2) (hs : Stop t e j) :
    find_bucket t e =
      if (t (slot e j)).used = false then Except.ok none else Except.ok (some (slot e j)) := by
  unfold find_bucket
  rw [← slot_zero]
  obtain ⟨f, hf⟩ : ∃ f, EDGE_TABLE_SIZE = j + (f + 1) := ⟨EDGE_TABLE_SIZE - j - 1, by omega⟩
  rw [hf, find_probe_run t e j 0 (f + 1) (fun j2 _ h2 => h j2 (by omega)), Nat.zero_add,
    find_probe]
  by_cases hu : (t (slot e j)).used = false
  · simp [hu]
  · have hk : (t (slot e j)).key = e := by
      rcases hs with hs | hs
      · exact absurd hs hu
      · exact hs
    simp [hu, hk]

theorem insert_bucket_hang (t : EdgeTable) (e : Edge)
    (h : ∀ j, j < EDGE_TABLE_SIZE → ¬Stop t e j) :
    insert_bucket t e = Except.error BatchErr.hang := by
  unfold insert_bucket
  rw [← slot_zero]
  have := insert_probe_run t e EDGE_TABLE_SIZE 0 0 (fun j2 _ h2 => h j2 (by omega))
  rw [Nat.add_zero] at this
  rw [this]
  rfl

theorem insert_bucket_stop (t : EdgeTable) (e : Edge) (j : Nat) (hj : j < EDGE_TABLE_SIZE)
    (h : ∀ j2, j2 < j → ¬Stop t e j2) (hs : Stop t e j) :
    insert_bucket t e =
      if (t (slot e j)).used = false then
        Except.ok (Function.update t (slot e j) (fresh_bucket (t (slot e j)) e), slot e j)
      else Except.ok (t, slot e j) := by
  unfold insert_bucket
  rw [← slot_zero]
  obtain ⟨f, hf⟩ : ∃ f, EDGE_TABLE_SIZE = j + (f + 1) := ⟨EDGE_TABLE_SIZE - j - 1, by omega⟩
  rw [hf, insert_probe_run t e j 0 (f + 1) (fun j2 _ h2 => h j2 (by omega)), Nat.zero_add,
    insert_probe]
  by_cases hu : (t (slot e j)).used = false
  · simp [hu, fresh_bucket]
  · have hk : (t (slot e j)).key = e := by
      rcases hs with hs | hs
      · exact absurd hs hu
      · exact hs
    simp [hu, hk]

end detail
namespace detail

theorem chain_key_inj (t : EdgeTable) (hc : Chain t) (i1 i2 : Nat) (h1 : i1 < EDGE_TABLE_SIZE)
    (h2 : i2 < EDGE_TABLE_SIZE) (u1 : (t i1).used = true) (u2 : (t i2).used = true)
    (hk : (t i1).key = (t i2).key) : i1 = i2 := by
  obtain ⟨j1, hj1, hs1, hc1⟩ := hc i1 h1 u1
  obtain ⟨j2, hj2, hs2, hc2⟩ := hc i2 h2 u2
  have hs1b : slot (t i2).key j1 = i1 := by
    rw [← hk]
    exact hs1
  have hs2b : slot (t i1).key j2 = i2 := by
    rw [hk]
    exact hs2
  rcases Nat.lt_trichotomy j1 j2 with h | h | h
  · have h3 := (hc2 j1 h).2
    rw [hs1b] at h3
    exact absurd hk h3
  · exact hs1b.symm.trans ((congrArg (slot (t i2).key) h).trans hs2)
  · have h3 := (hc1 j2 h).2
    rw [hs2b] at h3
    exact absurd hk.symm h3

theorem find_of_used (t : EdgeTable) (hc : Chain t) (i : Nat) (h : i < EDGE_TABLE_SIZE)
    (u : (t i).used = true) : find_bucket t (t i).key = Except.ok (some i) := by
  obtain ⟨j, hj, hs, hcj⟩ := hc i h u
  have h1 : ∀ j2, j2 < j → ¬Stop t (t i).key j2 := by
    intro j2 hj2 hst
    rcases hst with hst | hst
    · rw [(hcj j2 hj2).1] at hst
      exact absurd hst (by decide)
    · exact (hcj j2 hj2).2 hst
  have h2 : Stop t (t i).key j := Or.inr (by rw [hs])
  rw [find_bucket_stop t _ j hj h1 h2, hs]
  simp [u]

theorem find_some (t : EdgeTable) (e : Edge) (i : Nat)
    (h : find_bucket t e = Except.ok (some i)) :
    i < EDGE_TABLE_SIZE ∧ (t i).used = true ∧ (t i).key = e := by
  rcases probe_cases t e with hh | ⟨j, hj, hs, hm⟩
  · rw [find_bucket_hang t e hh] at h
    cases h
  · rw [find_bucket_stop t e j hj hm hs] at h
    by_cases hu : (t (slot e j)).used = false
    · simp [hu] at h
    · rw [if_neg hu] at h
      simp only [Except.ok.injEq, Option.some.injEq] at h
      subst h
      refine ⟨slot_lt e j, by simpa using hu, ?_⟩
      rcases hs with hs | hs
      · exact absurd hs hu
      · exact hs

theorem find_none (t : EdgeTable) (hc : Chain t) (e : Edge)
    (h : find_bucket t e = Except.ok none) (i : Nat) (hi : i < EDGE_TABLE_SIZE)
    (u : (t i).used = true) : (t i).key ≠ e := by
  intro hk
  have := find_of_used t hc i hi u
  rw [hk, h] at this
  cases this

theorem find_error (t : EdgeTable) (e : Edge) (x : BatchErr)
    (h : find_bucket t e = Except.error x) :
    x = BatchErr.hang ∧ ∀ i, i < EDGE_TABLE_SIZE → (t i).used = true ∧ (t i).key ≠ e := by
  rcases probe_cases t e with hh | ⟨j, hj, hs, hm⟩
  · rw [find_bucket_hang t e hh] at h
    cases h
    refine ⟨rfl, ?_⟩
    intro i hi
    obtain ⟨j, hj, hs⟩ := slot_surj e i hi
    have := hh j hj
    unfold Stop at this
    push_neg at this
    rw [hs] at this
    exact ⟨by simpa using this.1, this.2⟩
  · rw [find_bucket_stop t e j hj hm hs] at h
    split_ifs at h

theorem insert_error (t : EdgeTable) (e : Edge) (x : BatchErr)
    (h : insert_bucket t e = Except.error x) :
    x = BatchErr.hang ∧ ∀ i, i < EDGE_TABLE_SIZE → (t i).used = true ∧ (t i).key ≠ e := by
  rcases probe_cases t e with hh | ⟨j, hj, hs, hm⟩
  · rw [insert_bucket_hang t e hh] at h
    cases h
    refine ⟨rfl, ?_⟩
    intro i hi
    obtain ⟨j, hj, hs⟩ := slot_surj e i hi
    have := hh j hj
    unfold Stop at this
    push_neg at this
    rw [hs] at this
    exact ⟨by simpa using this.1, this.2⟩
  · rw [insert_bucket_stop t e j hj hm hs] at h
    split_ifs at h

/-- What a returning `insert_bucket` does: it finds the bucket of the key, or it
takes the first unused slot of the probing for a key that has no bucket. -/
theorem insert_ok (t t2 : EdgeTable) (e : Edge) (i : Nat)
    (h : insert_bucket t e = Except.ok (t2, i)) :
    i < EDGE_TABLE_SIZE ∧
    (((t i).used = true ∧ (t i).key = e ∧ t2 = t) ∨
      ((t i).used = false ∧ t2 = Function.update t i (fresh_bucket (t i) e) ∧
        (Chain t → ∀ i2, i2 < EDGE_TABLE_SIZE → (t i2).used = true → (t i2).key ≠ e))) ∧
    (Chain t → Chain t2) := by
  rcases probe_cases t e with hh | ⟨j, hj, hs, hm⟩
  · rw [insert_bucket_hang t e hh] at h
    cases h
  · rw [insert_bucket_stop t e j hj hm hs] at h
    by_cases hu : (t (slot e j)).used = false
    · simp only [hu, if_true, Except.ok.injEq, Prod.mk.injEq] at h
      obtain ⟨h1, h2⟩ := h
      subst h2
      subst h1
      have hearlier : ∀ j2, j2 < j → (t (slot e j2)).used = true ∧ (t (slot e j2)).key ≠ e := by
        intro j2 hj2
        have := hm j2 hj2
        unfold Stop at this
        push_neg at this
        exact ⟨by simpa using this.1, this.2⟩
      have hfresh : Chain t → ∀ i2, i2 < EDGE_TABLE_SIZE → (t i2).used = true →
          (t i2).key ≠ e := by
        intro hc i2 hi2 u2 hk
        obtain ⟨j2, hj2, hs2, hc2⟩ := hc i2 hi2 u2
        rw [hk] at hs2 hc2
        rcases Nat.lt_trichotomy j2 j with hlt | heq | hgt
        · have := (hearlier j2 hlt).2
          rw [hs2] at this
          exact this hk
        · rw [heq] at hs2
          rw [hs2, u2] at hu
          cases hu
        · have := (hc2 j hgt).1
          rw [hu] at this
          cases this
      refine ⟨slot_lt e j, Or.inr ⟨hu, rfl, hfresh⟩, ?_⟩
      intro hc idx hidx hused
      have hat : Function.update t (slot e j) (fresh_bucket (t (slot e j)) e) (slot e j) =
          fresh_bucket (t (slot e j)) e := Function.update_same _ _ _
      by_cases hij : idx = slot e j
      · rw [hij, hat]
        refine ⟨j, hj, rfl, ?_⟩
        intro j2 hj2
        have hne : slot e j2 ≠ slot e j := by
          intro heq
          have := (hearlier j2 hj2).1
          rw [heq, hu] at this
          cases this
        show (Function.update t (slot e j) _ (slot e j2)).used = true ∧
          (Function.update t (slot e j) _ (slot e j2)).key ≠ e
        rw [Function.update_noteq hne]
        exact hearlier j2 hj2
      · rw [Function.update_noteq hij] at hused ⊢
        obtain ⟨j2, hj2, hs2, hc2⟩ := hc idx hidx hused
        refine ⟨j2, hj2, hs2, ?_⟩
        intro j3 hj3
        have hne : slot (t idx).key j3 ≠ slot e j := by
          intro heq
          have := (hc2 j3 hj3).1
          rw [heq, hu] at this
          cases this
        rw [Function.update_noteq hne]
        exact hc2 j3 hj3
    · rw [if_neg hu] at h
      simp only [Except.ok.injEq, Prod.mk.injEq] at h
      obtain ⟨h1, h2⟩ := h
      subst h2
      subst h1
      have hk : (t (slot e j)).key = e := by
        rcases hs with hs | hs
        · exact absurd hs hu
        · exact hs
      exact ⟨slot_lt e j, Or.inl ⟨by simpa using hu, hk, rfl⟩, fun hc => hc⟩

theorem find_probe_congr (t t2 : EdgeTable) (h : KeysEq t t2) (e : Edge) (f : Nat) :
    ∀ i, find_probe t2 e f i = find_probe t e f i := by
  induction f with
  | zero =>
    intro i
    rfl
  | succ f ih =>
    intro i
    simp only [find_probe, (h i).1, (h i).2, ih]

theorem find_congr (t t2 : EdgeTable) (h : KeysEq t t2) (e : Edge) :
    find_bucket t2 e = find_bucket t e :=
  find_probe_congr t t2 h e _ _

theorem chain_congr (t t2 : EdgeTable) (h : KeysEq t t2) (hc : Chain t) : Chain t2 := by
  intro idx hidx hu
  rw [(h idx).1] at hu
  obtain ⟨j, hj, hs, hcj⟩ := hc idx hidx hu
  rw [(h idx).2]
  refine ⟨j, hj, hs, ?_⟩
  intro j2 hj2
  rw [(h _).1, (h _).2]
  exact hcj j2 hj2

theorem keysEq_refl (t : EdgeTable) : KeysEq t t := fun _ => ⟨rfl, rfl⟩

theorem keysEq_trans (t t2 t3 : EdgeTable) (h1 : KeysEq t t2) (h2 : KeysEq t2 t3) :
    KeysEq t t3 := fun i =>
  ⟨(h2 i).1.trans (h1 i).1, (h2 i).2.trans (h1 i).2⟩

theorem keysEq_update (t : EdgeTable) (i : Nat) (b : EdgeBucket) (hu : b.used = (t i).used)
    (hk : b.key = (t i).key) : KeysEq t (Function.update t i b) := by
  intro i2
  by_cases h : i2 = i
  · subst h
    simp [hu, hk]
  · simp [Function.update_noteq h]

end detail

/-! ## The loop over the triangles -/

namespace detail

theorem incident_of_append (ins : List (Edge × Tri)) (e k : Edge) (T : Tri) :
    incident_of (ins ++ [(e, T)]) k =
      if e = k then incident_of ins k ++ [T] else incident_of ins k := by
  unfold incident_of
  by_cases h : e = k <;> simp [List.filter_append, List.filter_cons, h]

theorem incident_of_nil_of_not_mem (ins : List (Edge × Tri)) (e : Edge)
    (h : e ∉ ins.map Prod.fst) : incident_of ins e = [] := by
  unfold incident_of
  rw [List.map_eq_nil_iff, List.filter_eq_nil_iff]
  intro p hp
  simp only [decide_eq_true_eq]
  intro hpe
  exact h (List.mem_map.2 ⟨p, hp, hpe⟩)

theorem take_two_snoc_lt (l : List Tri) (T : Tri) (h : (l.take 2).length < 2) :
    (l ++ [T]).take 2 = l.take 2 ++ [T] := by
  match l, h with
  | [], _ => rfl
  | [a], _ => rfl
  | a :: b :: rest, h => simp at h

theorem take_two_snoc_ge (l : List Tri) (T : Tri) (h : 2 ≤ (l.take 2).length) :
    (l ++ [T]).take 2 = l.take 2 := by
  match l, h with
  | [], h => simp at h
  | [a], h => simp at h
  | a :: b :: rest, _ => rfl

theorem bucket_tris_length (b : EdgeBucket) (h : b.triangle_count ≤ 2) :
    (bucket_tris b).length = b.triangle_count := by
  unfold bucket_tris
  simp
  omega

theorem recInv_clear (t : EdgeTable) : RecInv [] (clear_edge_table t) := by
  have h : ∀ i, i < EDGE_TABLE_SIZE → (clear_edge_table t i).used = false := by
    intro i hi
    simp [clear_edge_table, hi]
  refine ⟨?_, ?_, ?_, ?_, ?_⟩
  · intro i hi hu
    rw [h i hi] at hu
    cases hu
  · intro i hi hu
    rw [h i hi] at hu
    cases hu
  · intro i hi hu
    rw [h i hi] at hu
    cases hu
  · intro p hp
    cases hp
  · intro i hi hu
    rw [h i hi] at hu
    cases hu

/-- The table after `insert_bucket` in the loop over the triangles. -/
theorem insert_recInv (ins : List (Edge × Tri)) (t t1 : EdgeTable) (e : Edge) (idx : Nat)
    (hinv : RecInv ins t) (h : insert_bucket t e = Except.ok (t1, idx)) :
    Chain t1 ∧ idx < EDGE_TABLE_SIZE ∧ (t1 idx).used = true ∧ (t1 idx).key = e ∧
    (t1 idx).blocked = false ∧ (t1 idx).candidate_valid = false ∧
    bucket_tris (t1 idx) = (incident_of ins e).take 2 ∧ (t1 idx).triangle_count ≤ 2 ∧
    (∀ i, i ≠ idx → t1 i = t i) ∧
    (∀ i, (t i).used = true → (t1 i).used = true ∧ (t1 i).key = (t i).key) := by
  obtain ⟨hidx, hcase, hchain⟩ := insert_ok t t1 e idx h
  rcases hcase with ⟨hu, hk, ht⟩ | ⟨hu, ht, hfresh⟩
  · subst ht
    have hf := hinv.flags idx hidx hu
    have ht := hinv.tris idx hidx hu
    rw [hk] at ht
    exact ⟨hinv.chain, hidx, hu, hk, hf.1, hf.2, ht.1, ht.2, fun _ _ => rfl,
      fun _ hi => ⟨hi, rfl⟩⟩
  · have hat : t1 idx = fresh_bucket (t idx) e := by
      rw [ht]
      exact Function.update_same _ _ _
    have hne : ∀ i, i ≠ idx → t1 i = t i := by
      intro i hi
      rw [ht]
      exact Function.update_noteq hi _ _
    have hnot : e ∉ ins.map Prod.fst := by
      intro hmem
      obtain ⟨p, hp, hpe⟩ := List.mem_map.1 hmem
      obtain ⟨i, hi, hui, hki⟩ := hinv.present p hp
      exact hfresh hinv.chain i hi hui (hki.trans hpe)
    refine ⟨hchain hinv.chain, hidx, ?_, ?_, ?_, ?_, ?_, ?_, hne, ?_⟩
    · rw [hat]; rfl
    · rw [hat]; rfl
    · rw [hat]; rfl
    · rw [hat]; rfl
    · rw [hat, incident_of_nil_of_not_mem ins e hnot]
      rfl
    · rw [hat]
      exact Nat.zero_le 2
    · intro i hi
      have : i ≠ idx := by
        intro hii
        rw [hii, hu] at hi
        cases hi
      rw [hne i this]
      exact ⟨hi, rfl⟩

theorem record_edge_recInv (ins : List (Edge × Tri)) (T : Tri) (t t2 : EdgeTable) (e : Edge)
    (hinv : RecInv ins t) (h : record_edge T t e = Except.ok t2) :
    RecInv (ins ++ [(e, T)]) t2 := by
  unfold record_edge at h
  cases hins : insert_bucket t e with
  | error x => simp [hins] at h
  | ok r =>
    obtain ⟨t1, idx⟩ := r
    simp only [hins] at h
    obtain ⟨hchain, hidx, hu, hk, hb, hcv, htris, hcount, hne, hkeep⟩ :=
      insert_recInv ins t t1 e idx hinv hins
    have hlen := bucket_tris_length (t1 idx) hcount
    -- the other buckets are those of `t`, with other keys
    have hother : ∀ i, i < EDGE_TABLE_SIZE → i ≠ idx → (t1 i).used = true →
        (t1 i).key ≠ e := by
      intro i hi hii hui hki
      exact hii (chain_key_inj t1 hchain i idx hi hidx hui hu (hki.trans hk.symm))
    -- what the update does to the bucket
    obtain ⟨b, hb2, ht2⟩ : ∃ b : EdgeBucket,
        (b.used = true ∧ b.key = e ∧ b.blocked = false ∧ b.candidate_valid = false ∧
          bucket_tris b = (incident_of ins e ++ [T]).take 2 ∧ b.triangle_count ≤ 2) ∧
        t2 = Function.update t1 idx b := by
      by_cases hc2 : (t1 idx).triangle_count < 2
      · rw [if_pos hc2] at h
        have hl2 : ((incident_of ins e).take 2).length < 2 := by
          rw [← htris, hlen]
          exact hc2
        by_cases hc0 : (t1 idx).triangle_count = 0
        · rw [if_pos hc0] at h
          simp only [Except.ok.injEq] at h
          refine ⟨{ t1 idx with triangles0 := T, triangle_count := (t1 idx).triangle_count + 1 },
            ⟨hu, hk, hb, hcv, ?_, ?_⟩, h.symm⟩
          · rw [take_two_snoc_lt _ _ hl2, ← htris]
            simp [bucket_tris, hc0]
          · simp only [hc0]
            omega
        · rw [if_neg hc0] at h
          simp only [Except.ok.injEq] at h
          have hc1 : (t1 idx).triangle_count = 1 := by omega
          refine ⟨{ t1 idx with triangles1 := T, triangle_count := (t1 idx).triangle_count + 1 },
            ⟨hu, hk, hb, hcv, ?_, ?_⟩, h.symm⟩
          · rw [take_two_snoc_lt _ _ hl2, ← htris]
            simp [bucket_tris, hc1]
          · simp only [hc1]
            omega
      · rw [if_neg hc2] at h
        simp only [Except.ok.injEq] at h
        refine ⟨t1 idx, ⟨hu, hk, hb, hcv, ?_, hcount⟩, ?_⟩
        · rw [take_two_snoc_ge _ _ (by rw [← htris, hlen]; omega), htris]
        · rw [← h]
          exact (Function.update_eq_self idx t1).symm
    obtain ⟨bu, bk, bb, bcv, btris, bcount⟩ := hb2
    have hat : t2 idx = b := by
      rw [ht2]
      exact Function.update_same _ _ _
    have hne2 : ∀ i, i ≠ idx → t2 i = t1 i := by
      intro i hi
      rw [ht2]
      exact Function.update_noteq hi _ _
    have hkeys : KeysEq t1 t2 := by
      rw [ht2]
      exact keysEq_update t1 idx b (bu.trans hu.symm) (bk.trans hk.symm)
    refine ⟨chain_congr t1 t2 hkeys hchain, ?_, ?_, ?_, ?_⟩
    · intro i hi hui
      by_cases hii : i = idx
      · rw [hii, hat]
        exact ⟨bb, bcv⟩
      · rw [hne2 i hii] at hui ⊢
        rw [hne i hii] at hui ⊢
        exact hinv.flags i hi hui
    · intro i hi hui
      by_cases hii : i = idx
      · rw [hii, hat, bk, incident_of_append, if_pos rfl]
        exact ⟨btris, bcount⟩
      · rw [hne2 i hii] at hui ⊢
        have hke := hother i hi hii hui
        rw [incident_of_append, if_neg (fun h => hke h.symm)]
        rw [hne i hii] at hui ⊢
        exact hinv.tris i hi hui
    · intro p hp
      rcases List.mem_append.1 hp with hp | hp
      · obtain ⟨i, hi, hui, hki⟩ := hinv.present p hp
        refine ⟨i, hi, ?_, ?_⟩
        · rw [(hkeys i).1]
          exact (hkeep i hui).1
        · rw [(hkeys i).2, (hkeep i hui).2]
          exact hki
      · simp only [List.mem_singleton] at hp
        subst hp
        exact ⟨idx, hidx, by rw [hat]; exact bu, by rw [hat]; exact bk⟩
    · intro i hi hui
      by_cases hii : i = idx
      · rw [hii, hat, bk]
        simp
      · rw [hne2 i hii] at hui ⊢
        rw [hne i hii] at hui ⊢
        have := hinv.inserted i hi hui
        simp only [List.map_append, List.mem_append]
        exact Or.inl this

theorem record_edges_recInv (T : Tri) (es : List Edge) :
    ∀ (ins : List (Edge × Tri)) (t t2 : EdgeTable), RecInv ins t →
      record_edges T es t = Except.ok t2 → RecInv (ins ++ es.map (fun e => (e, T))) t2 := by
  induction es with
  | nil =>
    intro ins t t2 hinv h
    simp only [record_edges, Except.ok.injEq] at h
    subst h
    simpa using hinv
  | cons e rest ih =>
    intro ins t t2 hinv h
    simp only [record_edges] at h
    cases hr : record_edge T t e with
    | error x => simp [hr] at h
    | ok t1 =>
      simp only [hr] at h
      have := ih (ins ++ [(e, T)]) t1 t2 (record_edge_recInv ins T t t1 e hinv hr) h
      simpa using this

theorem record_triangles_recInv (tris : List (Int × Int × Int)) :
    ∀ (ins : List (Edge × Tri)) (t t2 : EdgeTable), RecInv ins t →
      record_triangles tris t = Except.ok t2 → RecInv (ins ++ insertions tris) t2 := by
  induction tris with
  | nil =>
    intro ins t t2 hinv h
    simp only [record_triangles, Except.ok.injEq] at h
    subst h
    simpa [insertions] using hinv
  | cons T rest ih =>
    intro ins t t2 hinv h
    simp only [record_triangles] at h
    cases hr : record_edges (to_triangle T) (tri_edges (to_triangle T)) t with
    | error x => simp [hr] at h
    | ok t1 =>
      simp only [hr] at h
      have := ih _ t1 t2 (record_edges_recInv _ _ ins t t1 hinv hr) h
      simpa [insertions, List.flatMap_cons] using this

end detail

/-! ## Triangles, their edges and opposite vertices -/

namespace detail

theorem normalize_edge_comm (x y : Int) : normalize_edge x y = normalize_edge y x := by
  unfold normalize_edge
  split_ifs with h1 h2 h2
  · omega
  · rfl
  · rfl
  · have : x = y := by omega
    subst this
    rfl

theorem normalize_edge_fields (x y : Int) :
    ((normalize_edge x y).first = x ∧ (normalize_edge x y).second = y) ∨
    ((normalize_edge x y).first = y ∧ (normalize_edge x y).second = x) := by
  unfold normalize_edge
  split_ifs
  · exact Or.inl ⟨rfl, rfl⟩
  · exact Or.inr ⟨rfl, rfl⟩

theorem normalize_edge_le (x y : Int) :
    (normalize_edge x y).first ≤ (normalize_edge x y).second := by
  unfold normalize_edge
  split_ifs <;> simp <;> omega

theorem normalize_edge_self (e : Edge) (h : e.first ≤ e.second) :
    normalize_edge e.first e.second = e := by
  unfold normalize_edge
  split_ifs with h1
  · rfl
  · have : e.first = e.second := by omega
    cases e
    simp only at this
    subst this
    rfl

theorem ne_fields_iff (x y v : Int) :
    (v ≠ (normalize_edge x y).first ∧ v ≠ (normalize_edge x y).second) ↔ (v ≠ x ∧ v ≠ y) := by
  rcases normalize_edge_fields x y with h | h <;> rw [h.1, h.2]
  exact and_comm

theorem rot_shift (T : Tri) (x y z : Int) (h : Rot T x y z) : Rot T y z x := by
  obtain ⟨a, b, c⟩ := T
  unfold Rot at *
  simp only [Prod.mk.injEq] at *
  rcases h with ⟨h1, h2, h3⟩ | ⟨h1, h2, h3⟩ | ⟨h1, h2, h3⟩
  · exact Or.inr (Or.inl ⟨h2, h3, h1⟩)
  · exact Or.inr (Or.inr ⟨h2, h3, h1⟩)
  · exact Or.inl ⟨h2, h3, h1⟩

theorem mem_tri_edges_iff (T : Tri) (e : Edge) :
    e ∈ tri_edges T ↔ e = normalize_edge T.1 T.2.1 ∨ e = normalize_edge T.2.1 T.2.2 ∨
      e = normalize_edge T.2.2 T.1 := by
  simp [tri_edges]

theorem mem_tri_edges_rot (T : Tri) (x y z : Int) (h : Rot T x y z) (e : Edge) :
    e ∈ tri_edges T ↔ e = normalize_edge x y ∨ e = normalize_edge y z ∨
      e = normalize_edge z x := by
  obtain ⟨a, b, c⟩ := T
  rw [mem_tri_edges_iff]
  unfold Rot at h
  simp only [Prod.mk.injEq] at h
  rcases h with ⟨h1, h2, h3⟩ | ⟨h1, h2, h3⟩ | ⟨h1, h2, h3⟩ <;> subst h1 <;> subst h2 <;>
    subst h3 <;> simp only <;> tauto

theorem exists_rot_of_mem (T : Tri) (e : Edge) (h : e ∈ tri_edges T) :
    ∃ x y z, Rot T x y z ∧ e = normalize_edge x y := by
  obtain ⟨a, b, c⟩ := T
  rcases (mem_tri_edges_iff _ e).1 h with h | h | h
  · exact ⟨a, b, c, Or.inl rfl, h⟩
  · exact ⟨b, c, a, Or.inr (Or.inl rfl), h⟩
  · exact ⟨c, a, b, Or.inr (Or.inr rfl), h⟩

theorem opposite_vertex_rot (T : Tri) (x y z : Int) (h : Rot T x y z) :
    opposite_vertex T (normalize_edge x y) =
      if z ≠ x ∧ z ≠ y then Except.ok z else Except.error BatchErr.missingOpposite := by
  obtain ⟨a, b, c⟩ := T
  unfold Rot at h
  simp only [Prod.mk.injEq] at h
  unfold opposite_vertex
  simp only [ne_fields_iff]
  rcases h with ⟨h1, h2, h3⟩ | ⟨h1, h2, h3⟩ | ⟨h1, h2, h3⟩ <;> subst h1 <;> subst h2 <;>
    subst h3 <;> simp

/-- The shape of a triangle around one of its edges that has an opposite vertex. -/
theorem triangle_shape (T : Tri) (e : Edge) (o : Int) (he : e ∈ tri_edges T)
    (ho : opposite_vertex T e = Except.ok o) :
    ∃ x y, Rot T x y o ∧ e = normalize_edge x y ∧ o ≠ x ∧ o ≠ y := by
  obtain ⟨x, y, z, hr, hxy⟩ := exists_rot_of_mem T e he
  rw [hxy, opposite_vertex_rot T x y z hr] at ho
  split_ifs at ho with hz
  simp only [Except.ok.injEq] at ho
  subst ho
  exact ⟨x, y, hr, hxy, hz.1, hz.2⟩

end detail

namespace detail

theorem incident_of_append_list (l1 l2 : List (Edge × Tri)) (e : Edge) :
    incident_of (l1 ++ l2) e = incident_of l1 e ++ incident_of l2 e := by
  simp [incident_of, List.filter_append]

theorem incident_cons (T : Int × Int × Int) (rest : List (Int × Int × Int)) (e : Edge) :
    incident_of (insertions (T :: rest)) e =
      incident_of ((tri_edges T).map (fun x => (x, T))) e ++ incident_of (insertions rest) e := by
  unfold insertions
  rw [List.flatMap_cons, incident_of_append_list]
  rfl

theorem rep_mem (T : Tri) (e : Edge) (X : Tri)
    (h : X ∈ incident_of ((tri_edges T).map (fun x => (x, T))) e) :
    X = T ∧ e ∈ tri_edges T := by
  unfold incident_of at h
  simp only [List.mem_map, List.mem_filter, decide_eq_true_eq] at h
  obtain ⟨p, ⟨⟨x, hx, hp⟩, hpe⟩, hX⟩ := h
  subst hp
  simp only at hpe hX
  subst hpe
  exact ⟨hX.symm, hx⟩

theorem rep_nil (T : Tri) (e : Edge) (h : e ∉ tri_edges T) :
    incident_of ((tri_edges T).map (fun x => (x, T))) e = [] := by
  rw [List.eq_nil_iff_forall_not_mem]
  intro X hX
  exact h (rep_mem T e X hX).2

theorem rep_ne_nil (T : Tri) (e : Edge) (h : e ∈ tri_edges T) :
    incident_of ((tri_edges T).map (fun x => (x, T))) e ≠ [] := by
  intro hn
  have : T ∈ incident_of ((tri_edges T).map (fun x => (x, T))) e := by
    unfold incident_of
    simp only [List.mem_map, List.mem_filter, decide_eq_true_eq]
    exact ⟨(e, T), ⟨⟨e, h, rfl⟩, rfl⟩, rfl⟩
  rw [hn] at this
  cases this

theorem normalize_edge_ne (x y o p : Int) (h1 : o ≠ x) (h2 : o ≠ y) :
    normalize_edge p o ≠ normalize_edge x y ∧ normalize_edge o p ≠ normalize_edge x y := by
  have key : ∀ a b, (a = o ∨ b = o) → normalize_edge a b ≠ normalize_edge x y := by
    intro a b hab heq
    have hf := normalize_edge_fields a b
    have hg := normalize_edge_fields x y
    rw [heq] at hf
    rcases hab with rfl | rfl <;> rcases hf with hf | hf <;> rcases hg with hg | hg <;> omega
  exact ⟨key p o (Or.inr rfl), key o p (Or.inl rfl)⟩

theorem rep_single (T : Tri) (e : Edge) (o : Int) (he : e ∈ tri_edges T)
    (ho : opposite_vertex T e = Except.ok o) :
    incident_of ((tri_edges T).map (fun x => (x, T))) e = [T] := by
  obtain ⟨x, y, hr, hxy, hox, hoy⟩ := triangle_shape T e o he ho
  have h1 := (normalize_edge_ne x y o y hox hoy).1
  have h2 := (normalize_edge_ne x y o x hox hoy).2
  obtain ⟨a, b, c⟩ := T
  unfold Rot at hr
  simp only [Prod.mk.injEq] at hr
  subst hxy
  unfold incident_of tri_edges
  rcases hr with ⟨r1, r2, r3⟩ | ⟨r1, r2, r3⟩ | ⟨r1, r2, r3⟩ <;> subst r1 <;> subst r2 <;>
    subst r3 <;> simp [List.filter_cons, h1, h2]

theorem incident_filter (tris : List (Int × Int × Int)) (e : Edge) :
    incident_of (insertions tris) e =
      incident_of (insertions (tris.filter (fun T => decide (e ∈ tri_edges (to_triangle T))))) e := by
  induction tris with
  | nil => rfl
  | cons T rest ih =>
    by_cases h : e ∈ tri_edges (to_triangle T)
    · rw [List.filter_cons_of_pos (by simpa using h), incident_cons, incident_cons, ih]
    · rw [List.filter_cons_of_neg (by simpa using h), incident_cons, ih]
      have : to_triangle T = T := rfl
      rw [this] at h
      rw [rep_nil T e h, List.nil_append]

theorem mem_incident (tris : List (Int × Int × Int)) (e : Edge) (X : Tri)
    (h : X ∈ incident_of (insertions tris) e) : X ∈ tris ∧ e ∈ tri_edges X := by
  induction tris with
  | nil => cases h
  | cons T rest ih =>
    rw [incident_cons] at h
    rcases List.mem_append.1 h with h | h
    · obtain ⟨h1, h2⟩ := rep_mem T e X h
      subst h1
      exact ⟨List.mem_cons_self _ _, h2⟩
    · exact ⟨List.mem_cons_of_mem _ (ih h).1, (ih h).2⟩

theorem mem_recorded (tris : List (Int × Int × Int)) (e : Edge) (X : Tri)
    (h : X ∈ recorded tris e) : X ∈ tris ∧ e ∈ tri_edges X :=
  mem_incident tris e X (List.mem_of_mem_take h)

/-- An edge with two recorded triangles, both with an opposite vertex, that lies in
at most two triangles lies in exactly these two. -/
theorem filter_of_recorded (tris : List (Int × Int × Int)) (e : Edge) (X Y : Tri) (o1 : Int)
    (h2 : (tris.filter (fun T => decide (e ∈ tri_edges (to_triangle T)))).length ≤ 2)
    (hrec : recorded tris e = [X, Y]) (hX : opposite_vertex X e = Except.ok o1) :
    tris.filter (fun T => decide (e ∈ tri_edges (to_triangle T))) = [X, Y] := by
  unfold recorded at hrec
  rw [incident_filter] at hrec
  have hmem : ∀ T, T ∈ tris.filter (fun T => decide (e ∈ tri_edges (to_triangle T))) →
      e ∈ tri_edges T := by
    intro T hT
    have := (List.mem_filter.1 hT).2
    simpa [to_triangle] using this
  generalize tris.filter (fun T => decide (e ∈ tri_edges (to_triangle T))) = F at h2 hrec hmem
  match F, h2, hrec, hmem with
  | [], _, hrec, _ => simp [insertions, incident_of] at hrec
  | [P], _, hrec, hmem =>
    exfalso
    have hP := hmem P (List.mem_singleton_self P)
    rw [incident_cons] at hrec
    have hnil : incident_of (insertions []) e = [] := rfl
    rw [hnil, List.append_nil] at hrec
    have hXP : X = P := by
      have : X ∈ incident_of ((tri_edges P).map (fun x => (x, P))) e :=
        List.mem_of_mem_take (by rw [hrec]; exact List.mem_cons_self _ _)
      exact (rep_mem P e X this).1
    subst hXP
    rw [rep_single X e o1 hP hX] at hrec
    simp at hrec
  | [P, Q], _, hrec, hmem =>
    have hP := hmem P (List.mem_cons_self _ _)
    have hQ := hmem Q (List.mem_cons_of_mem _ (List.mem_singleton_self Q))
    rw [incident_cons, incident_cons] at hrec
    have hnil : incident_of (insertions []) e = [] := rfl
    rw [hnil, List.append_nil] at hrec
    have hne := rep_ne_nil P e hP
    have hXP : X = P := by
      cases hl : incident_of ((tri_edges P).map (fun x => (x, P))) e with
      | nil => exact absurd hl hne
      | cons Z rest =>
        have hZ : Z = P := (rep_mem P e Z (by rw [hl]; exact List.mem_cons_self _ _)).1
        rw [hl] at hrec
        simp only [List.cons_append, List.take_succ_cons] at hrec
        have := (List.cons.inj hrec).1
        rw [← this, hZ]
    subst hXP
    rw [rep_single X e o1 hP hX] at hrec
    have hneQ := rep_ne_nil Q e hQ
    cases hl : incident_of ((tri_edges Q).map (fun x => (x, Q))) e with
    | nil => exact absurd hl hneQ
    | cons Z rest =>
      have hZ : Z = Q := (rep_mem Q e Z (by rw [hl]; exact List.mem_cons_self _ _)).1
      rw [hl] at hrec
      simp only [List.singleton_append, List.take_succ_cons, List.take_zero, List.cons.injEq,
        and_true, true_and] at hrec
      rw [← hrec, hZ]
  | _ :: _ :: _ :: _, h2, _, _ => simp at h2

theorem recorded_of_filter (tris : List (Int × Int × Int)) (e : Edge) (A B : Tri) (o1 o2 : Int)
    (hf : tris.filter (fun T => decide (e ∈ tri_edges (to_triangle T))) = [A, B])
    (hA : opposite_vertex A e = Except.ok o1) (hB : opposite_vertex B e = Except.ok o2) :
    recorded tris e = [A, B] := by
  have hmem : ∀ T, T ∈ tris.filter (fun T => decide (e ∈ tri_edges (to_triangle T))) →
      e ∈ tri_edges T := by
    intro T hT
    have := (List.mem_filter.1 hT).2
    simpa [to_triangle] using this
  rw [hf] at hmem
  unfold recorded
  rw [incident_filter, hf, incident_cons, incident_cons,
    rep_single A e o1 (hmem A (List.mem_cons_self _ _)) hA,
    rep_single B e o2 (hmem B (List.mem_cons_of_mem _ (List.mem_singleton_self B))) hB]
  rfl

end detail

namespace detail

/-- What the candidate record of an edge says. -/
theorem edge_candidate_some (K : Kernel) (points : List Point) (tris : List (Int × Int × Int))
    (e : Edge) (c : CandidateEdge) (h : edge_candidate K points tris e = some c) :
    ∃ A B, recorded tris e = [A, B] ∧ opposite_vertex A e = Except.ok c.opp1 ∧
      opposite_vertex B e = Except.ok c.opp2 ∧ c.edge = e ∧
      c.partner = normalize_edge c.opp1 c.opp2 ∧
      do_cross K.intersection
        { source := pointAt points e.first, target := pointAt points e.second }
        { source := pointAt points c.opp1, target := pointAt points c.opp2 } = true ∧
      violates_local_delaunay K (pointAt points e.first) (pointAt points e.second)
        (pointAt points c.opp1) (pointAt points c.opp2) = true := by
  unfold edge_candidate at h
  split at h
  · rename_i A B hrec
    split at h
    · rename_i o1 o2 h1 h2
      split_ifs at h with hc
      simp only [Option.some.injEq] at h
      subst h
      exact ⟨A, B, hrec, h1, h2, rfl, rfl, hc.1, hc.2⟩
    · cases h
  · cases h

theorem edge_candidate_of (K : Kernel) (points : List Point) (tris : List (Int × Int × Int))
    (e : Edge) (A B : Tri) (o1 o2 : Int) (hrec : recorded tris e = [A, B])
    (h1 : opposite_vertex A e = Except.ok o1) (h2 : opposite_vertex B e = Except.ok o2) :
    edge_candidate K points tris e =
      if do_cross K.intersection
          { source := pointAt points e.first, target := pointAt points e.second }
          { source := pointAt points o1, target := pointAt points o2 } = true ∧
        violates_local_delaunay K (pointAt points e.first) (pointAt points e.second)
          (pointAt points o1) (pointAt points o2) = true then
        some { edge := e, partner := normalize_edge o1 o2, opp1 := o1, opp2 := o2 }
      else none := by
  unfold edge_candidate
  rw [hrec]
  simp only [h1, h2]

theorem mem_conflicts (c : CandidateEdge) (e : Edge) :
    e ∈ conflicting_edges_from_candidate c ↔
      e = normalize_edge c.edge.first c.opp1 ∨ e = normalize_edge c.edge.second c.opp1 ∨
      e = normalize_edge c.edge.first c.opp2 ∨ e = normalize_edge c.edge.second c.opp2 := by
  simp [conflicting_edges_from_candidate]

/-- A triangle with both edges is recorded for the candidate, and the second edge
joins an endpoint of the first to its opposite vertex. -/
theorem conflict_of_shared_triangle (K : Kernel) (points : List Point)
    (tris : List (Int × Int × Int)) (e1 e2 : Edge) (c1 : CandidateEdge) (T : Tri)
    (hT : T ∈ tris) (h1 : e1 ∈ tri_edges T) (h2 : e2 ∈ tri_edges T) (hne : e1 ≠ e2)
    (hc : edge_candidate K points tris e1 = some c1)
    (htwo : (tris.filter (fun T => decide (e1 ∈ tri_edges (to_triangle T)))).length ≤ 2) :
    e2 ∈ conflicting_edges_from_candidate c1 := by
  obtain ⟨A, B, hrec, hA, hB, hedge, -, -, -⟩ := edge_candidate_some K points tris e1 c1 hc
  have hf := filter_of_recorded tris e1 A B c1.opp1 htwo hrec hA
  have hTf : T ∈ tris.filter (fun T => decide (e1 ∈ tri_edges (to_triangle T))) :=
    List.mem_filter.2 ⟨hT, by simpa [to_triangle] using h1⟩
  rw [hf] at hTf
  rw [mem_conflicts, hedge]
  have key : ∀ o, opposite_vertex T e1 = Except.ok o →
      e2 = normalize_edge e1.first o ∨ e2 = normalize_edge e1.second o := by
    intro o ho
    obtain ⟨p, q, hr, hpq, hop, hoq⟩ := triangle_shape T e1 o h1 ho
    have hm := (mem_tri_edges_rot T p q o hr e2).1 h2
    have hfld := normalize_edge_fields p q
    rw [← hpq] at hfld
    rcases hm with hm | hm | hm
    · exact absurd (hpq.trans hm.symm) hne
    · rcases hfld with ⟨f1, f2⟩ | ⟨f1, f2⟩
      · right
        rw [f2]
        exact hm
      · left
        rw [f1]
        exact hm
    · rw [normalize_edge_comm] at hm
      rcases hfld with ⟨f1, f2⟩ | ⟨f1, f2⟩
      · left
        rw [f1]
        exact hm
      · right
        rw [f2]
        exact hm
  rcases List.mem_cons.1 hTf with hTA | hTB
  · subst hTA
    rcases key _ hA with h | h
    · exact Or.inl h
    · exact Or.inr (Or.inl h)
  · simp only [List.mem_singleton] at hTB
    subst hTB
    rcases key _ hB with h | h
    · exact Or.inr (Or.inr (Or.inl h))
    · exact Or.inr (Or.inr (Or.inr h))

/-- A conflict edge of a candidate shares a triangle with it. -/
theorem shared_triangle_of_conflict (K : Kernel) (points : List Point)
    (tris : List (Int × Int × Int)) (e1 e2 : Edge) (c1 : CandidateEdge)
    (hc : edge_candidate K points tris e1 = some c1)
    (h : e2 ∈ conflicting_edges_from_candidate c1) :
    ∃ T, T ∈ tris ∧ e1 ∈ tri_edges T ∧ e2 ∈ tri_edges T := by
  obtain ⟨A, B, hrec, hA, hB, hedge, -, -, -⟩ := edge_candidate_some K points tris e1 c1 hc
  have hAm := mem_recorded tris e1 A (by rw [hrec]; simp)
  have hBm := mem_recorded tris e1 B (by rw [hrec]; simp)
  have key : ∀ T o, e1 ∈ tri_edges T → opposite_vertex T e1 = Except.ok o →
      normalize_edge e1.first o ∈ tri_edges T ∧ normalize_edge e1.second o ∈ tri_edges T := by
    intro T o h1 ho
    obtain ⟨p, q, hr, hpq, hop, hoq⟩ := triangle_shape T e1 o h1 ho
    have hfld := normalize_edge_fields p q
    rw [← hpq] at hfld
    have m1 : normalize_edge q o ∈ tri_edges T :=
      (mem_tri_edges_rot T p q o hr _).2 (Or.inr (Or.inl rfl))
    have m2 : normalize_edge p o ∈ tri_edges T :=
      (mem_tri_edges_rot T p q o hr _).2 (Or.inr (Or.inr (normalize_edge_comm p o)))
    rcases hfld with ⟨f1, f2⟩ | ⟨f1, f2⟩
    · rw [f1, f2]
      exact ⟨m2, m1⟩
    · rw [f1, f2]
      exact ⟨m1, m2⟩
  rw [mem_conflicts, hedge] at h
  rcases h with h | h | h | h
  · exact ⟨A, hAm.1, hAm.2, h ▸ (key A _ hAm.2 hA).1⟩
  · exact ⟨A, hAm.1, hAm.2, h ▸ (key A _ hAm.2 hA).2⟩
  · exact ⟨B, hBm.1, hBm.2, h ▸ (key B _ hBm.2 hB).1⟩
  · exact ⟨B, hBm.1, hBm.2, h ▸ (key B _ hBm.2 hB).2⟩

/-- The conflict relation between two candidates is symmetric when the second lies
in at most two triangles. -/
theorem conflict_symm (K : Kernel) (points : List Point) (tris : List (Int × Int × Int))
    (e1 e2 : Edge) (c1 c2 : CandidateEdge) (hne : e1 ≠ e2)
    (h1 : edge_candidate K points tris e1 = some c1)
    (h2 : edge_candidate K points tris e2 = some c2)
    (htwo : (tris.filter (fun T => decide (e2 ∈ tri_edges (to_triangle T)))).length ≤ 2)
    (h : e2 ∈ conflicting_edges_from_candidate c1) :
    e1 ∈ conflicting_edges_from_candidate c2 := by
  obtain ⟨T, hT, hT1, hT2⟩ := shared_triangle_of_conflict K points tris e1 e2 c1 h1 h
  exact conflict_of_shared_triangle K points tris e2 e1 c2 T hT hT2 hT1 (Ne.symm hne) h2 htwo

end detail

/-! ## The marking of the candidates -/

namespace detail

theorem sameData_refl (t : EdgeTable) : SameData t t := fun _ => ⟨rfl, rfl, rfl, rfl, rfl⟩

theorem sameData_trans (t t2 t3 : EdgeTable) (h1 : SameData t t2) (h2 : SameData t2 t3) :
    SameData t t3 := fun i =>
  ⟨(h2 i).1.trans (h1 i).1, (h2 i).2.1.trans (h1 i).2.1, (h2 i).2.2.1.trans (h1 i).2.2.1,
    (h2 i).2.2.2.1.trans (h1 i).2.2.2.1, (h2 i).2.2.2.2.trans (h1 i).2.2.2.2⟩

theorem sameData_keysEq (t t2 : EdgeTable) (h : SameData t t2) : KeysEq t t2 :=
  fun i => ⟨(h i).1, (h i).2.1⟩

theorem sameData_bucket_tris (t t2 : EdgeTable) (h : SameData t t2) (i : Nat) :
    bucket_tris (t2 i) = bucket_tris (t i) := by
  unfold bucket_tris
  rw [(h i).2.2.1, (h i).2.2.2.1, (h i).2.2.2.2]

theorem sameData_update (t : EdgeTable) (i : Nat) (b : EdgeBucket) (hu : b.used = (t i).used)
    (hk : b.key = (t i).key) (hc : b.triangle_count = (t i).triangle_count)
    (h0 : b.triangles0 = (t i).triangles0) (h1 : b.triangles1 = (t i).triangles1) :
    SameData t (Function.update t i b) := by
  intro i2
  by_cases h : i2 = i
  · subst h
    simp [hu, hk, hc, h0, h1]
  · simp [Function.update_noteq h]

theorem tableOk_sameData (K : Kernel) (points : List Point) (tris : List (Int × Int × Int))
    (t t2 : EdgeTable) (h : TableOk K points tris t) (hs : SameData t t2)
    (hc : ∀ i, i < EDGE_TABLE_SIZE → (t2 i).used = true → (t2 i).candidate_valid = true →
      edge_candidate K points tris (t2 i).key = some (t2 i).candidate) :
    TableOk K points tris t2 := by
  refine ⟨chain_congr t t2 (sameData_keysEq t t2 hs) h.chain, ?_, ?_, ?_, hc⟩
  · intro i hi hu
    rw [sameData_bucket_tris t t2 hs i, (hs i).2.1, (hs i).2.2.1]
    exact h.held i hi (by rw [← (hs i).1]; exact hu)
  · intro p hp
    obtain ⟨i, hi, hu, hk⟩ := h.present p hp
    exact ⟨i, hi, by rw [(hs i).1]; exact hu, by rw [(hs i).2.1]; exact hk⟩
  · intro i hi hu
    rw [(hs i).2.1]
    exact h.inserted i hi (by rw [← (hs i).1]; exact hu)

theorem tableOk_of_recInv (K : Kernel) (points : List Point) (tris : List (Int × Int × Int))
    (t : EdgeTable) (h : RecInv (insertions tris) t) :
    TableOk K points tris t ∧ Unblocked t ∧
      ∀ i, i < EDGE_TABLE_SIZE → (t i).used = true → (t i).candidate_valid = false := by
  refine ⟨⟨h.chain, h.tris, h.present, h.inserted, ?_⟩, fun i hi hu => (h.flags i hi hu).1,
    fun i hi hu => (h.flags i hi hu).2⟩
  intro i hi hu hcv
  rw [(h.flags i hi hu).2] at hcv
  cases hcv

theorem bucket_tris_two (b : EdgeBucket) (A B : Tri) (hc : b.triangle_count ≤ 2)
    (h : bucket_tris b = [A, B]) :
    b.triangle_count = 2 ∧ b.triangles0 = A ∧ b.triangles1 = B := by
  have hl := bucket_tris_length b hc
  rw [h] at hl
  have h2 : b.triangle_count = 2 := hl.symm
  unfold bucket_tris at h
  rw [h2] at h
  simp only [List.take_succ_cons, List.take_zero, List.cons.injEq, and_true] at h
  exact ⟨h2, h.1, h.2⟩

theorem bucket_tris_of_two (b : EdgeBucket) (h : b.triangle_count = 2) :
    bucket_tris b = [b.triangles0, b.triangles1] := by
  unfold bucket_tris
  rw [h]
  rfl

/-- The test of a bucket with two triangles computes the candidate record of its
edge. -/
theorem candidate_of_bucket_spec (K : Kernel) (points : List Point)
    (tris : List (Int × Int × Int)) (b : EdgeBucket) (e : Edge) (r : Option CandidateEdge)
    (hc : b.triangle_count = 2) (hb : bucket_tris b = recorded tris e)
    (h : candidate_of_bucket K points b e = Except.ok r) :
    edge_candidate K points tris e = r := by
  rw [bucket_tris_of_two b hc] at hb
  unfold candidate_of_bucket at h
  cases h1 : opposite_vertex b.triangles0 e with
  | error x => simp [h1] at h
  | ok o1 =>
    cases h2 : opposite_vertex b.triangles1 e with
    | error x => simp [h1, h2] at h
    | ok o2 =>
      rw [edge_candidate_of K points tris e _ _ o1 o2 hb.symm h1 h2]
      simp only [h1, h2] at h
      by_cases hx : do_cross K.intersection
          { source := pointAt points e.first, target := pointAt points e.second }
          { source := pointAt points o1, target := pointAt points o2 } = true
      · by_cases hv : violates_local_delaunay K (pointAt points e.first)
            (pointAt points e.second) (pointAt points o1) (pointAt points o2) = true
        · simp only [hx, hv, Bool.not_true, Bool.false_eq_true, if_false, Except.ok.injEq] at h
          simp [hx, hv, h]
        · simp only [hx, hv, Bool.not_true, Bool.false_eq_true, if_false, Bool.not_eq_true,
            Bool.not_eq_true', Bool.not_false, if_true, Except.ok.injEq] at h
          simp [hv, ← h]
      · simp only [hx, Bool.not_eq_true, Bool.not_eq_true', Bool.not_false, if_true,
          Except.ok.injEq] at h
        simp [hx, ← h]

theorem candidate_of_bucket_error (K : Kernel) (points : List Point) (b : EdgeBucket)
    (e : Edge) (x : BatchErr) (h : candidate_of_bucket K points b e = Except.error x) :
    x = BatchErr.missingOpposite ∧
      ((∀ o, opposite_vertex b.triangles0 e ≠ Except.ok o) ∨
        (∀ o, opposite_vertex b.triangles1 e ≠ Except.ok o)) := by
  have hop : ∀ T y, opposite_vertex T e = Except.error y → y = BatchErr.missingOpposite := by
    intro T y hy
    unfold opposite_vertex at hy
    split_ifs at hy
    simp only [Except.error.injEq] at hy
    exact hy.symm
  unfold candidate_of_bucket at h
  cases h1 : opposite_vertex b.triangles0 e with
  | error y =>
    simp only [h1, Except.error.injEq] at h
    exact ⟨h ▸ hop _ y h1, Or.inl (fun o ho => by cases ho)⟩
  | ok o1 =>
    cases h2 : opposite_vertex b.triangles1 e with
    | error y =>
      simp only [h1, h2, Except.error.injEq] at h
      exact ⟨h ▸ hop _ y h2, Or.inr (fun o ho => by cases ho)⟩
    | ok o2 =>
      simp only [h1, h2] at h
      split_ifs at h

theorem candidate_of_bucket_of (K : Kernel) (points : List Point)
    (tris : List (Int × Int × Int)) (b : EdgeBucket) (e : Edge) (c : CandidateEdge)
    (hc : b.triangle_count ≤ 2) (hb : bucket_tris b = recorded tris e)
    (h : edge_candidate K points tris e = some c) :
    b.triangle_count = 2 ∧ candidate_of_bucket K points b e = Except.ok (some c) := by
  obtain ⟨A, B, hrec, hA, hB, -, -, -, -⟩ := edge_candidate_some K points tris e c h
  rw [hrec] at hb
  obtain ⟨h2, h0, h1⟩ := bucket_tris_two b A B hc hb
  refine ⟨h2, ?_⟩
  cases hr : candidate_of_bucket K points b e with
  | error x =>
    rcases (candidate_of_bucket_error K points b e x hr).2 with hh | hh
    · rw [h0] at hh
      exact absurd hA (hh _)
    · rw [h1] at hh
      exact absurd hB (hh _)
  | ok r =>
    have := candidate_of_bucket_spec K points tris b e r h2 (by rw [hb, hrec]) hr
    rw [← this, h]

end detail

namespace detail

theorem scanPost_refl (K : Kernel) (points : List Point) (tris : List (Int × Int × Int))
    (idxs : List Nat) (t : EdgeTable) (buf : EdgeBuf) (n : Nat)
    (hok : TableOk K points tris t) (hub : Unblocked t)
    (hcap : idxs = [] ∨ MAX_EDGES_PER_TRIANG ≤ n) :
    ScanPost K points tris idxs t buf n t buf n := by
  refine ⟨hok, sameData_refl t, hub, le_refl n, Nat.le_add_right _ _, fun h => le_of_lt h,
    fun _ _ => rfl, fun _ h => h, fun _ _ => rfl, ?_, ?_, ?_⟩
  · intro k h1 h2
    omega
  · intro hlt i hi
    rcases hcap with h | h
    · rw [h] at hi
      cases hi
    · omega
  · intro k1 k2 h1 h2 h3
    omega

theorem scanPost_skip (K : Kernel) (points : List Point) (tris : List (Int × Int × Int))
    (idx : Nat) (rest : List Nat) (t : EdgeTable) (buf : EdgeBuf) (n : Nat) (t2 : EdgeTable)
    (buf2 : EdgeBuf) (n2 : Nat)
    (hno : (t idx).used = true → ∀ c, edge_candidate K points tris (t idx).key ≠ some c)
    (hpost : ScanPost K points tris rest t buf n t2 buf2 n2) :
    ScanPost K points tris (idx :: rest) t buf n t2 buf2 n2 := by
  refine ⟨hpost.ok, hpost.same, hpost.unblocked, hpost.le, ?_, hpost.cap, hpost.buf, hpost.mono,
    ?_, ?_, ?_, hpost.nodup⟩
  · have := hpost.bound
    simp only [List.length_cons]
    omega
  · intro i hi
    exact hpost.frame i (fun h => hi (List.mem_cons_of_mem _ h))
  · intro k h1 h2
    obtain ⟨i, hi, h⟩ := hpost.listed k h1 h2
    exact ⟨i, List.mem_cons_of_mem _ hi, h⟩
  · intro hlt i hi hu c hc
    rcases List.mem_cons.1 hi with h | h
    · subst h
      exact absurd hc (hno hu c)
    · exact hpost.complete hlt i h hu c hc

theorem scan_mark_ok (K : Kernel) (points : List Point) (tris : List (Int × Int × Int))
    (idx : Nat) (t : EdgeTable) (c : CandidateEdge) (hok : TableOk K points tris t)
    (hub : Unblocked t) (hc : edge_candidate K points tris (t idx).key = some c) (bl : Bool)
    (hbl : bl = false ∨ bl = (t idx).blocked) :
    TableOk K points tris (Function.update t idx
      { t idx with candidate_valid := true, blocked := bl, candidate := c }) ∧
    Unblocked (Function.update t idx
      { t idx with candidate_valid := true, blocked := bl, candidate := c }) ∧
    SameData t (Function.update t idx
      { t idx with candidate_valid := true, blocked := bl, candidate := c }) := by
  have hs : SameData t (Function.update t idx
      { t idx with candidate_valid := true, blocked := bl, candidate := c }) :=
    sameData_update t idx _ rfl rfl rfl rfl rfl
  refine ⟨tableOk_sameData K points tris t _ hok hs ?_, ?_, hs⟩
  · intro i hi hu hcv
    by_cases h : i = idx
    · subst h
      simp only [Function.update_same]
      exact hc
    · rw [Function.update_noteq h] at hu hcv ⊢
      exact hok.cand i hi hu hcv
  · intro i hi hu
    by_cases h : i = idx
    · subst h
      simp only [Function.update_same] at hu ⊢
      rcases hbl with h | h
      · exact h
      · rw [h]
        exact hub i hi hu
    · rw [Function.update_noteq h] at hu ⊢
      exact hub i hi hu

theorem scanPost_mark (K : Kernel) (points : List Point) (tris : List (Int × Int × Int))
    (idx : Nat) (rest : List Nat) (t : EdgeTable) (buf : EdgeBuf) (n : Nat) (c : CandidateEdge)
    (t2 : EdgeTable) (buf2 : EdgeBuf) (n2 : Nat) (hnot : idx ∉ rest)
    (hu : (t idx).used = true) (hcapn : n < MAX_EDGES_PER_TRIANG → n2 ≤ MAX_EDGES_PER_TRIANG)
    (hidx : idx < EDGE_TABLE_SIZE) (hlt : ∀ i, i ∈ rest → i < EDGE_TABLE_SIZE)
    (hpost : ScanPost K points tris rest
      (Function.update t idx
        { t idx with candidate_valid := true, blocked := false, candidate := c })
      (Function.update buf n (t idx).key) (n + 1) t2 buf2 n2) :
    ScanPost K points tris (idx :: rest) t buf n t2 buf2 n2 := by
  have hs1 : SameData t (Function.update t idx
      { t idx with candidate_valid := true, blocked := false, candidate := c }) :=
    sameData_update t idx _ rfl rfl rfl rfl rfl
  have hbn : buf2 n = (t idx).key := by
    rw [← hpost.buf n (Nat.lt_succ_self n)]
    exact Function.update_same _ _ _
  have hcv : (t2 idx).candidate_valid = true := by
    apply hpost.mono
    simp only [Function.update_same]
  have hsame := sameData_trans _ _ _ hs1 hpost.same
  refine ⟨hpost.ok, hsame, hpost.unblocked, ?_, ?_, hcapn, ?_, ?_, ?_, ?_, ?_, ?_⟩
  · have := hpost.le
    omega
  · have := hpost.bound
    simp only [List.length_cons]
    omega
  · intro k hk
    rw [← hpost.buf k (by omega)]
    exact (Function.update_noteq (by omega) _ _).symm
  · intro i hi
    apply hpost.mono
    by_cases h : i = idx
    · subst h
      simp only [Function.update_same]
    · rw [Function.update_noteq h]
      exact hi
  · intro i hi
    have h1 : i ≠ idx := fun h => hi (h ▸ List.mem_cons_self _ _)
    rw [hpost.frame i (fun h => hi (List.mem_cons_of_mem _ h)), Function.update_noteq h1]
  · intro k h1 h2
    by_cases hk : k = n
    · subst hk
      refine ⟨idx, List.mem_cons_self _ _, ?_, ?_, hcv⟩
      · rw [(hsame idx).1]
        exact hu
      · rw [(hsame idx).2.1, hbn]
    · obtain ⟨i, hi, h⟩ := hpost.listed k (by omega) h2
      exact ⟨i, List.mem_cons_of_mem _ hi, h⟩
  · intro hlt i hi hui c2 hc2
    rcases List.mem_cons.1 hi with h | h
    · subst h
      have := hpost.le
      exact ⟨n, le_refl n, by omega, hbn⟩
    · have hne : i ≠ idx := fun h2 => hnot (h2 ▸ h)
      have hti : Function.update t idx
          { t idx with candidate_valid := true, blocked := false, candidate := c } i = t i :=
        Function.update_noteq hne _ _
      obtain ⟨k, hk1, hk2, hk3⟩ := hpost.complete hlt i h (by rw [hti]; exact hui) c2
        (by rw [hti]; exact hc2)
      rw [hti] at hk3
      exact ⟨k, by omega, hk2, hk3⟩
  · intro k1 k2 h1 h2 h3
    by_cases hk : k1 = n
    · subst hk
      obtain ⟨i, hi, hui, hki, -⟩ := hpost.listed k2 (by omega) h3
      intro heq
      have hii : i = idx := chain_key_inj t2 hpost.ok.chain i idx (hlt i hi) hidx hui
        (by rw [(hsame idx).1]; exact hu) (by rw [hki, (hsame idx).2.1, ← hbn, heq])
      exact hnot (hii ▸ hi)
    · exact hpost.nodup k1 k2 (by omega) h2 h3

/-- The loop of `compute_delaunay_batches` over the buckets. -/
theorem scan_spec (K : Kernel) (points : List Point) (tris : List (Int × Int × Int)) :
    ∀ (idxs : List Nat) (t : EdgeTable) (buf : EdgeBuf) (n : Nat) (t2 : EdgeTable)
      (buf2 : EdgeBuf) (n2 : Nat), TableOk K points tris t → Unblocked t →
      (∀ i, i ∈ idxs → i < EDGE_TABLE_SIZE) → idxs.Nodup →
      scan_buckets K points idxs t buf n = Except.ok (t2, buf2, n2) →
      ScanPost K points tris idxs t buf n t2 buf2 n2 := by
  intro idxs
  induction idxs with
  | nil =>
    intro t buf n t2 buf2 n2 hok hub _ _ h
    simp only [scan_buckets, Except.ok.injEq, Prod.mk.injEq] at h
    obtain ⟨h1, h2, h3⟩ := h
    subst h1 h2 h3
    exact scanPost_refl K points tris [] t buf n hok hub (Or.inl rfl)
  | cons idx rest ih =>
    intro t buf n t2 buf2 n2 hok hub hlt hnd h
    have hidx := hlt idx (List.mem_cons_self _ _)
    have hlt2 : ∀ i, i ∈ rest → i < EDGE_TABLE_SIZE :=
      fun i hi => hlt i (List.mem_cons_of_mem _ hi)
    have hnd2 := (List.nodup_cons.1 hnd).2
    have hnot := (List.nodup_cons.1 hnd).1
    rw [scan_buckets] at h
    by_cases hskip : (t idx).used = false ∨ (t idx).triangle_count ≠ 2
    · simp only [hskip, if_true] at h
      refine scanPost_skip K points tris idx rest t buf n t2 buf2 n2 ?_
        (ih t buf n t2 buf2 n2 hok hub hlt2 hnd2 h)
      intro hu c hc
      have := (candidate_of_bucket_of K points tris (t idx) (t idx).key c
        (hok.held idx hidx hu).2 (hok.held idx hidx hu).1 hc).1
      rcases hskip with h1 | h1
      · rw [hu] at h1
        cases h1
      · exact h1 this
    · simp only [hskip, if_false] at h
      push_neg at hskip
      have hu : (t idx).used = true := by simpa using hskip.1
      have hheld := hok.held idx hidx hu
      cases hcb : candidate_of_bucket K points (t idx) (t idx).key with
      | error x => simp [hcb] at h
      | ok r =>
        have hr := candidate_of_bucket_spec K points tris (t idx) (t idx).key r hskip.2
          hheld.1 hcb
        cases r with
        | none =>
          simp only [hcb] at h
          refine scanPost_skip K points tris idx rest t buf n t2 buf2 n2 ?_
            (ih t buf n t2 buf2 n2 hok hub hlt2 hnd2 h)
          intro _ c hc
          rw [hr] at hc
          cases hc
        | some c =>
          simp only [hcb] at h
          obtain ⟨hok1, hub1, -⟩ := scan_mark_ok K points tris idx t c hok hub hr false
            (Or.inl rfl)
          by_cases hcap : n + 1 ≥ MAX_EDGES_PER_TRIANG
          · simp only [hcap, if_true, Except.ok.injEq, Prod.mk.injEq] at h
            obtain ⟨h1, h2, h3⟩ := h
            subst h1 h2 h3
            exact scanPost_mark K points tris idx rest t buf n c _ _ _ hnot hu
              (fun hn => hn) hidx hlt2 (scanPost_refl K points tris rest _ _ _ hok1 hub1 (Or.inr hcap))
          · simp only [hcap, if_false] at h
            have hpost := ih _ _ _ t2 buf2 n2 hok1 hub1 hlt2 hnd2 h
            exact scanPost_mark K points tris idx rest t buf n c t2 buf2 n2 hnot hu
              (fun _ => hpost.cap (by omega)) hidx hlt2 hpost

end detail

namespace detail

theorem filterPost_refl (K : Kernel) (points : List Point) (tris : List (Int × Int × Int))
    (cands : List (Int × Int)) (t : EdgeTable) (buf : EdgeBuf) (n : Nat)
    (hok : TableOk K points tris t) (hub : Unblocked t) :
    FilterPost K points tris cands t buf n t buf n := by
  refine ⟨hok, sameData_refl t, hub, le_refl n, Nat.le_add_right _ _, fun h => le_of_lt h,
    fun _ _ => rfl, fun _ h => h, ?_, fun _ _ _ h => Or.inl h, fun _ => rfl⟩
  intro k h1 h2
  omega

theorem filterPost_skip (K : Kernel) (points : List Point) (tris : List (Int × Int × Int))
    (p : Int × Int) (rest : List (Int × Int)) (t : EdgeTable) (buf : EdgeBuf) (n : Nat)
    (t2 : EdgeTable) (buf2 : EdgeBuf) (n2 : Nat)
    (hpost : FilterPost K points tris rest t buf n t2 buf2 n2) :
    FilterPost K points tris (p :: rest) t buf n t2 buf2 n2 := by
  refine ⟨hpost.ok, hpost.same, hpost.unblocked, hpost.le, ?_, hpost.cap, hpost.buf, hpost.mono,
    ?_, ?_, ?_⟩
  · have := hpost.bound
    simp only [List.length_cons]
    omega
  · intro k h1 h2
    obtain ⟨hm, h⟩ := hpost.listed k h1 h2
    exact ⟨List.mem_cons_of_mem _ hm, h⟩
  · intro i hi hu hcv
    rcases hpost.marked i hi hu hcv with h | h
    · exact Or.inl h
    · exact Or.inr (List.mem_cons_of_mem _ h)
  · intro hno
    exact hpost.none (fun q hq => hno q (List.mem_cons_of_mem _ hq))

theorem filterPost_mark (K : Kernel) (points : List Point) (tris : List (Int × Int × Int))
    (p : Int × Int) (rest : List (Int × Int)) (idx : Nat) (t : EdgeTable) (buf : EdgeBuf)
    (n : Nat) (c : CandidateEdge) (t2 : EdgeTable) (buf2 : EdgeBuf) (n2 : Nat)
    (hidx : idx < EDGE_TABLE_SIZE) (hu : (t idx).used = true)
    (hk : (t idx).key = normalize_edge p.1 p.2)
    (hc : edge_candidate K points tris (normalize_edge p.1 p.2) = some c)
    (hcapn : n < MAX_EDGES_PER_TRIANG → n2 ≤ MAX_EDGES_PER_TRIANG)
    (hpost : FilterPost K points tris rest
      (Function.update t idx { t idx with candidate_valid := true, candidate := c })
      (Function.update buf n (normalize_edge p.1 p.2)) (n + 1) t2 buf2 n2) :
    FilterPost K points tris (p :: rest) t buf n t2 buf2 n2 := by
  have hs1 : SameData t (Function.update t idx
      { t idx with candidate_valid := true, candidate := c }) :=
    sameData_update t idx _ rfl rfl rfl rfl rfl
  have hbn : buf2 n = normalize_edge p.1 p.2 := by
    rw [← hpost.buf n (Nat.lt_succ_self n)]
    exact Function.update_same _ _ _
  have hcv : (t2 idx).candidate_valid = true := by
    apply hpost.mono
    simp only [Function.update_same]
  have hsame := sameData_trans _ _ _ hs1 hpost.same
  refine ⟨hpost.ok, hsame, hpost.unblocked, ?_, ?_, hcapn, ?_, ?_, ?_, ?_, ?_⟩
  · have := hpost.le
    omega
  · have := hpost.bound
    simp only [List.length_cons]
    omega
  · intro k hk
    rw [← hpost.buf k (by omega)]
    exact (Function.update_noteq (by omega) _ _).symm
  · intro i hi
    apply hpost.mono
    by_cases h : i = idx
    · subst h
      simp only [Function.update_same]
    · rw [Function.update_noteq h]
      exact hi
  · intro k h1 h2
    by_cases hkn : k = n
    · subst hkn
      refine ⟨?_, idx, hidx, ?_, ?_, hcv⟩
      · rw [hbn]
        exact List.mem_map.2 ⟨p, List.mem_cons_self _ _, rfl⟩
      · rw [(hsame idx).1]
        exact hu
      · rw [(hsame idx).2.1, hbn, hk]
    · obtain ⟨hm, h⟩ := hpost.listed k (by omega) h2
      exact ⟨List.mem_cons_of_mem _ hm, h⟩
  · intro i hi hui hcvi
    rcases hpost.marked i hi hui hcvi with h | h
    · by_cases hii : i = idx
      · right
        rw [hii, (hsame idx).2.1, hk]
        exact List.mem_map.2 ⟨p, List.mem_cons_self _ _, rfl⟩
      · left
        rw [Function.update_noteq hii] at h
        exact h
    · exact Or.inr (List.mem_cons_of_mem _ h)
  · intro hno
    have := hno p (List.mem_cons_self _ _)
    rw [hc] at this
    cases this

/-- The loop of `sample_parallel_batch` over `candidates`. -/
theorem filter_candidates_spec (K : Kernel) (points : List Point)
    (tris : List (Int × Int × Int)) :
    ∀ (cands : List (Int × Int)) (t : EdgeTable) (buf : EdgeBuf) (n : Nat) (t2 : EdgeTable)
      (buf2 : EdgeBuf) (n2 : Nat), TableOk K points tris t → Unblocked t →
      filter_candidates K points cands t buf n = Except.ok (t2, buf2, n2) →
      FilterPost K points tris cands t buf n t2 buf2 n2 := by
  intro cands
  induction cands with
  | nil =>
    intro t buf n t2 buf2 n2 hok hub h
    simp only [filter_candidates, Except.ok.injEq, Prod.mk.injEq] at h
    obtain ⟨h1, h2, h3⟩ := h
    subst h1 h2 h3
    exact filterPost_refl K points tris [] t buf n hok hub
  | cons p rest ih =>
    intro t buf n t2 buf2 n2 hok hub h
    rw [filter_candidates] at h
    cases hf : find_bucket t (normalize_edge p.1 p.2) with
    | error x => simp [hf] at h
    | ok r =>
      cases r with
      | none =>
        simp only [hf] at h
        exact filterPost_skip K points tris p rest t buf n t2 buf2 n2
          (ih t buf n t2 buf2 n2 hok hub h)
      | some idx =>
        simp only [hf] at h
        obtain ⟨hidx, hu, hk⟩ := find_some t _ idx hf
        by_cases hcount : (t idx).triangle_count ≠ 2
        · rw [if_pos hcount] at h
          exact filterPost_skip K points tris p rest t buf n t2 buf2 n2
            (ih t buf n t2 buf2 n2 hok hub h)
        · rw [if_neg hcount] at h
          push_neg at hcount
          have hheld := hok.held idx hidx hu
          rw [hk] at hheld
          cases hcb : candidate_of_bucket K points (t idx) (normalize_edge p.1 p.2) with
          | error x => simp [hcb] at h
          | ok r =>
            have hr := candidate_of_bucket_spec K points tris (t idx) _ r hcount hheld.1 hcb
            cases r with
            | none =>
              simp only [hcb] at h
              exact filterPost_skip K points tris p rest t buf n t2 buf2 n2
                (ih t buf n t2 buf2 n2 hok hub h)
            | some c =>
              simp only [hcb] at h
              obtain ⟨hok1, hub1, -⟩ := scan_mark_ok K points tris idx t c hok hub
                (by rw [hk]; exact hr) (t idx).blocked (Or.inr rfl)
              by_cases hcap : n + 1 ≥ MAX_EDGES_PER_TRIANG
              · simp only [hcap, if_true, Except.ok.injEq, Prod.mk.injEq] at h
                obtain ⟨h1, h2, h3⟩ := h
                subst h1 h2 h3
                exact filterPost_mark K points tris p rest idx t buf n c _ _ _ hidx hu hk hr
                  (fun hn => hn) (filterPost_refl K points tris rest _ _ _ hok1 hub1)
              · simp only [hcap, if_false] at h
                have hpost := ih _ _ _ t2 buf2 n2 hok1 hub1 h
                exact filterPost_mark K points tris p rest idx t buf n c t2 buf2 n2 hidx hu hk
                  hr (fun _ => hpost.cap (by omega)) hpost

end detail

/-! ## The selection loop -/

namespace detail

theorem blockStep_refl (t : EdgeTable) : BlockStep t t := fun _ => Or.inl rfl

theorem blockStep_trans (t t2 t3 : EdgeTable) (h1 : BlockStep t t2) (h2 : BlockStep t2 t3) :
    BlockStep t t3 := by
  intro i
  rcases h1 i with a | a <;> rcases h2 i with b | b
  · exact Or.inl (b.trans a)
  · exact Or.inr (by rw [b, a])
  · exact Or.inr (b.trans a)
  · exact Or.inr (by rw [b, a])

theorem blockStep_update (t : EdgeTable) (i : Nat) :
    BlockStep t (Function.update t i { t i with blocked := true }) := by
  intro i2
  by_cases h : i2 = i
  · subst h
    exact Or.inr (Function.update_same _ _ _)
  · exact Or.inl (Function.update_noteq h _ _)

theorem blockStep_sameData (t t2 : EdgeTable) (h : BlockStep t t2) : SameData t t2 := by
  intro i
  rcases h i with a | a <;> rw [a] <;> exact ⟨rfl, rfl, rfl, rfl, rfl⟩

theorem blockStep_cv (t t2 : EdgeTable) (h : BlockStep t t2) (i : Nat) :
    (t2 i).candidate_valid = (t i).candidate_valid ∧ (t2 i).candidate = (t i).candidate := by
  rcases h i with a | a <;> rw [a] <;> exact ⟨rfl, rfl⟩

theorem blockStep_mono (t t2 : EdgeTable) (h : BlockStep t t2) (i : Nat)
    (hb : (t i).blocked = true) : (t2 i).blocked = true := by
  rcases h i with a | a <;> rw [a]
  exact hb

theorem tableOk_blockStep (K : Kernel) (points : List Point) (tris : List (Int × Int × Int))
    (t t2 : EdgeTable) (hok : TableOk K points tris t) (h : BlockStep t t2) :
    TableOk K points tris t2 := by
  have hs := blockStep_sameData t t2 h
  refine tableOk_sameData K points tris t t2 hok hs ?_
  intro i hi hu hcv
  rw [(hs i).2.1, (blockStep_cv t t2 h i).2]
  rw [(hs i).1] at hu
  rw [(blockStep_cv t t2 h i).1] at hcv
  exact hok.cand i hi hu hcv

/-- The loop over the conflict edges blocks their buckets and nothing else. -/
theorem block_conflicts_spec :
    ∀ (cs : List Edge) (t t2 : EdgeTable), Chain t →
      block_conflicts cs t = Except.ok t2 →
      BlockStep t t2 ∧
      (∀ c, c ∈ cs → ∀ i, i < EDGE_TABLE_SIZE → (t i).used = true → (t i).key = c →
        (t2 i).blocked = true) ∧
      (∀ i, (t2 i).blocked = true → (t i).blocked = true ∨
        (i < EDGE_TABLE_SIZE ∧ (t i).used = true ∧ (t i).key ∈ cs)) := by
  intro cs
  induction cs with
  | nil =>
    intro t t2 _ h
    simp only [block_conflicts, Except.ok.injEq] at h
    subst h
    exact ⟨blockStep_refl t, fun c hc => absurd hc (List.not_mem_nil c), fun i hi => Or.inl hi⟩
  | cons c rest ih =>
    intro t t2 hch h
    rw [block_conflicts] at h
    cases hf : find_bucket t c with
    | error x => simp [hf] at h
    | ok r =>
      cases r with
      | none =>
        simp only [hf] at h
        obtain ⟨h1, h2, h3⟩ := ih t t2 hch h
        refine ⟨h1, ?_, ?_⟩
        · intro c2 hc2 i hi hu hk
          rcases List.mem_cons.1 hc2 with heq | hmem
          · subst heq
            exact absurd hk (find_none t hch _ hf i hi hu)
          · exact h2 c2 hmem i hi hu hk
        · intro i hb
          rcases h3 i hb with h | ⟨h4, h5, h6⟩
          · exact Or.inl h
          · exact Or.inr ⟨h4, h5, List.mem_cons_of_mem _ h6⟩
      | some idx =>
        simp only [hf] at h
        obtain ⟨hidx, hu, hk⟩ := find_some t c idx hf
        have hstep := blockStep_update t idx
        have hsd := blockStep_sameData _ _ hstep
        have hch1 := chain_congr _ _ (sameData_keysEq _ _ hsd) hch
        obtain ⟨h1, h2, h3⟩ := ih _ t2 hch1 h
        refine ⟨blockStep_trans _ _ _ hstep h1, ?_, ?_⟩
        · intro c2 hc2 i hi hui hki
          rcases List.mem_cons.1 hc2 with heq | hmem
          · subst heq
            have hii : i = idx := chain_key_inj t hch i idx hi hidx hui hu (hki.trans hk.symm)
            subst hii
            apply blockStep_mono _ _ h1
            simp only [Function.update_same]
          · refine h2 c2 hmem i hi ?_ ?_
            · rw [(hsd i).1]
              exact hui
            · rw [(hsd i).2.1]
              exact hki
        · intro i hb
          rcases h3 i hb with h | ⟨h4, h5, h6⟩
          · by_cases hii : i = idx
            · subst hii
              exact Or.inr ⟨hidx, hu, hk ▸ List.mem_cons_self _ _⟩
            · rw [Function.update_noteq hii] at h
              exact Or.inl h
          · rw [(hsd i).1] at h5
            rw [(hsd i).2.1] at h6
            exact Or.inr ⟨h4, h5, List.mem_cons_of_mem _ h6⟩

theorem buf_list_succ (buf : EdgeBuf) (n : Nat) : buf_list buf (n + 1) = buf_list buf n ++ [buf n] := by
  unfold buf_list
  rw [List.range_succ, List.map_append]
  rfl

theorem buf_list_congr (buf buf2 : EdgeBuf) (n : Nat) (h : BufSim n buf buf2) :
    buf_list buf n = buf_list buf2 n := by
  unfold buf_list
  apply List.map_congr_left
  intro i hi
  exact h i (List.mem_range.1 hi)

theorem buf_list_update (buf : EdgeBuf) (n : Nat) (e : Edge) :
    buf_list (Function.update buf n e) (n + 1) = buf_list buf n ++ [e] := by
  rw [buf_list_succ, Function.update_same]
  congr 1
  apply buf_list_congr
  intro i hi
  exact Function.update_noteq (by omega) _ _

theorem mem_buf_list (buf : EdgeBuf) (n : Nat) (e : Edge) :
    e ∈ buf_list buf n ↔ ∃ k, k < n ∧ buf k = e := by
  unfold buf_list
  simp [List.mem_map, List.mem_range]

theorem buf_list_length (buf : EdgeBuf) (n : Nat) : (buf_list buf n).length = n := by
  simp [buf_list]

theorem selInv_nil (K : Kernel) (points : List Point) (tris : List (Int × Int × Int))
    (t : EdgeTable) (hok : TableOk K points tris t) (hub : Unblocked t) :
    SelInv K points tris t [] := by
  refine ⟨hok, fun s hs => absurd hs (List.not_mem_nil s),
    fun s hs => absurd hs (List.not_mem_nil s), ?_, List.Pairwise.nil⟩
  intro i hi hu hb
  rw [hub i hi hu] at hb
  cases hb

theorem conflicts_of_some (K : Kernel) (points : List Point) (tris : List (Int × Int × Int))
    (e : Edge) (c : CandidateEdge) (h : edge_candidate K points tris e = some c) :
    conflicts_of K points tris e = conflicting_edges_from_candidate c := by
  unfold conflicts_of
  rw [h]

/-- One step of the selection loop: the edge is skipped, or it is appended to the
edges selected. -/
theorem select_edge_spec (K : Kernel) (points : List Point) (tris : List (Int × Int × Int))
    (t : EdgeTable) (sel : EdgeBuf) (n : Nat) (e : Edge) (S : List Edge) (t2 : EdgeTable)
    (sel2 : EdgeBuf) (n2 : Nat) (hinv : SelInv K points tris t S)
    (h : select_edge t sel n e = Except.ok (t2, sel2, n2)) :
    ∃ S2, SelInv K points tris t2 S2 ∧ BlockStep t t2 ∧
      ((S2 = S ∧ sel2 = sel ∧ n2 = n) ∨
        (S2 = S ++ [e] ∧ sel2 = Function.update sel n e ∧ n2 = n + 1)) ∧
      ((∃ i, i < EDGE_TABLE_SIZE ∧ (t i).used = true ∧ (t i).key = e ∧
          (t i).candidate_valid = true) →
        e ∈ S2 ∨ ∃ s, s ∈ S2 ∧ e ∈ conflicts_of K points tris s) := by
  have hch := hinv.ok.chain
  unfold select_edge at h
  cases hf : find_bucket t e with
  | error x => simp [hf] at h
  | ok r =>
    cases r with
    | none =>
      simp only [hf, Except.ok.injEq, Prod.mk.injEq] at h
      obtain ⟨h1, h2, h3⟩ := h
      subst h1 h2 h3
      refine ⟨S, hinv, blockStep_refl _, Or.inl ⟨rfl, rfl, rfl⟩, ?_⟩
      rintro ⟨i, hi, hu, hk, -⟩
      exact absurd hk (find_none _ hch e hf i hi hu)
    | some idx =>
      simp only [hf] at h
      obtain ⟨hidx, hu, hk⟩ := find_some t e idx hf
      by_cases hskip : (t idx).blocked = true ∨ (t idx).candidate_valid = false
      · rw [if_pos hskip] at h
        simp only [Except.ok.injEq, Prod.mk.injEq] at h
        obtain ⟨h1, h2, h3⟩ := h
        subst h1 h2 h3
        refine ⟨S, hinv, blockStep_refl _, Or.inl ⟨rfl, rfl, rfl⟩, ?_⟩
        rintro ⟨i, hi, hui, hki, hcvi⟩
        have hii : i = idx := chain_key_inj _ hch i idx hi hidx hui hu (hki.trans hk.symm)
        subst hii
        rcases hskip with hb | hcv
        · have := hinv.why i hi hui hb
          rw [hki] at this
          exact this
        · rw [hcvi] at hcv
          cases hcv
      · rw [if_neg hskip] at h
        push_neg at hskip
        have hb : (t idx).blocked = false := by simpa using hskip.1
        have hcv : (t idx).candidate_valid = true := by simpa using hskip.2
        have hcand := hinv.ok.cand idx hidx hu hcv
        rw [hk] at hcand
        have hconf := conflicts_of_some K points tris e _ hcand
        have hstep1 := blockStep_update t idx
        have hsd1 := blockStep_sameData _ _ hstep1
        have hch1 := chain_congr _ _ (sameData_keysEq _ _ hsd1) hch
        cases hbc : block_conflicts (conflicting_edges_from_candidate (t idx).candidate)
            (Function.update t idx { t idx with blocked := true }) with
        | error x => simp [hbc] at h
        | ok t3 =>
          simp only [hbc, Except.ok.injEq, Prod.mk.injEq] at h
          obtain ⟨h1, h2, h3⟩ := h
          subst h1 h2 h3
          obtain ⟨hstep2, hblk, hwhy⟩ := block_conflicts_spec _ _ t3 hch1 hbc
          have hstep := blockStep_trans _ _ _ hstep1 hstep2
          have hsd := blockStep_sameData _ _ hstep
          have hidxb : (t3 idx).blocked = true := by
            apply blockStep_mono _ _ hstep2
            simp only [Function.update_same]
          refine ⟨S ++ [e], ⟨tableOk_blockStep K points tris t t3 hinv.ok hstep, ?_, ?_, ?_,
            ?_⟩, hstep, Or.inr ⟨rfl, rfl, rfl⟩, fun _ => Or.inl (by simp)⟩
          · intro s hs
            rcases List.mem_append.1 hs with hs | hs
            · obtain ⟨i, hi, hui, hki, hcvi, hbi⟩ := hinv.sel s hs
              refine ⟨i, hi, ?_, ?_, ?_, blockStep_mono _ _ hstep i hbi⟩
              · rw [(hsd i).1]
                exact hui
              · rw [(hsd i).2.1]
                exact hki
              · rw [(blockStep_cv _ _ hstep i).1]
                exact hcvi
            · simp only [List.mem_singleton] at hs
              subst hs
              refine ⟨idx, hidx, ?_, ?_, ?_, hidxb⟩
              · rw [(hsd idx).1]
                exact hu
              · rw [(hsd idx).2.1]
                exact hk
              · rw [(blockStep_cv _ _ hstep idx).1]
                exact hcv
          · intro s hs c hc i hi hui hki
            rw [(hsd i).1] at hui
            rw [(hsd i).2.1] at hki
            rcases List.mem_append.1 hs with hs | hs
            · exact blockStep_mono _ _ hstep i (hinv.conf s hs c hc i hi hui hki)
            · simp only [List.mem_singleton] at hs
              subst hs
              rw [hconf] at hc
              refine hblk c hc i hi ?_ ?_
              · rw [(hsd1 i).1]
                exact hui
              · rw [(hsd1 i).2.1]
                exact hki
          · intro i hi hui hbi
            rw [(hsd i).1] at hui
            rw [(hsd i).2.1]
            rcases hwhy i hbi with h1 | ⟨-, -, h3⟩
            · by_cases hii : i = idx
              · subst hii
                left
                rw [hk]
                simp
              · rw [Function.update_noteq hii] at h1
                rcases hinv.why i hi hui h1 with h4 | ⟨s, hs, h4⟩
                · exact Or.inl (List.mem_append_left _ h4)
                · exact Or.inr ⟨s, List.mem_append_left _ hs, h4⟩
            · rw [(hsd1 i).2.1] at h3
              right
              exact ⟨e, by simp, by rw [hconf]; exact h3⟩
          · rw [List.pairwise_append]
            refine ⟨hinv.pairwise, List.pairwise_singleton _ _, ?_⟩
            intro a ha b hb2
            simp only [List.mem_singleton] at hb2
            subst hb2
            obtain ⟨i, hi, hui, hki, -, hbi⟩ := hinv.sel a ha
            constructor
            · intro hab
              subst hab
              have hii : i = idx := chain_key_inj _ hch i idx hi hidx hui hu (hki.trans hk.symm)
              subst hii
              rw [hb] at hbi
              cases hbi
            · intro hmem
              have := hinv.conf a ha b hmem idx hidx hu hk
              rw [hb] at this
              cases this

end detail

namespace detail

/-- The selection loop of `compute_delaunay_batches`. -/
theorem select_loop_spec (K : Kernel) (points : List Point) (tris : List (Int × Int × Int))
    (cands : EdgeBuf) :
    ∀ (is : List Nat) (t : EdgeTable) (sel : EdgeBuf) (n : Nat) (t2 : EdgeTable) (sel2 : EdgeBuf)
      (n2 : Nat), SelInv K points tris t (buf_list sel n) →
      select_loop cands is t sel n = Except.ok (t2, sel2, n2) →
      SelInv K points tris t2 (buf_list sel2 n2) ∧ BlockStep t t2 ∧ n ≤ n2 ∧
      n2 ≤ n + is.length ∧
      (∃ L, buf_list sel2 n2 = buf_list sel n ++ L ∧ ∀ s, s ∈ L → ∃ i, i ∈ is ∧ s = cands i) ∧
      (∀ i, i ∈ is →
        (∃ j, j < EDGE_TABLE_SIZE ∧ (t j).used = true ∧ (t j).key = cands i ∧
          (t j).candidate_valid = true) →
        cands i ∈ buf_list sel2 n2 ∨
          ∃ s, s ∈ buf_list sel2 n2 ∧ cands i ∈ conflicts_of K points tris s) := by
  intro is
  induction is with
  | nil =>
    intro t sel n t2 sel2 n2 hinv h
    simp only [select_loop, Except.ok.injEq, Prod.mk.injEq] at h
    obtain ⟨h1, h2, h3⟩ := h
    subst h1 h2 h3
    exact ⟨hinv, blockStep_refl _, le_refl _, Nat.le_add_right _ _, ⟨[], by simp,
      fun s hs => absurd hs (List.not_mem_nil s)⟩, fun i hi => absurd hi (List.not_mem_nil i)⟩
  | cons i rest ih =>
    intro t sel n t2 sel2 n2 hinv h
    rw [select_loop] at h
    cases hs : select_edge t sel n (cands i) with
    | error x => simp [hs] at h
    | ok r =>
      obtain ⟨t1, sel1, n1⟩ := r
      simp only [hs] at h
      obtain ⟨S1, hinv1, hstep1, hcase, hproc⟩ :=
        select_edge_spec K points tris t sel n (cands i) _ t1 sel1 n1 hinv hs
      have hS1 : S1 = buf_list sel1 n1 := by
        rcases hcase with ⟨a, b, c⟩ | ⟨a, b, c⟩
        · rw [a, b, c]
        · rw [a, b, c, buf_list_update]
      have hn1 : n ≤ n1 ∧ n1 ≤ n + 1 := by
        rcases hcase with ⟨a, b, c⟩ | ⟨a, b, c⟩ <;> omega
      have hpre : ∃ L, buf_list sel1 n1 = buf_list sel n ++ L ∧ ∀ s, s ∈ L → s = cands i := by
        rcases hcase with ⟨a, b, c⟩ | ⟨a, b, c⟩
        · exact ⟨[], by rw [← hS1, a]; simp, fun s hs => absurd hs (List.not_mem_nil s)⟩
        · exact ⟨[cands i], by rw [← hS1, a], fun s hs => by simpa using hs⟩
      rw [hS1] at hinv1 hproc
      obtain ⟨hinv2, hstep2, hle, hbound, ⟨L2, hL2, hL2m⟩, hproc2⟩ :=
        ih t1 sel1 n1 t2 sel2 n2 hinv1 h
      obtain ⟨L1, hL1, hL1m⟩ := hpre
      have hsd1 := blockStep_sameData _ _ hstep1
      refine ⟨hinv2, blockStep_trans _ _ _ hstep1 hstep2, by omega, ?_, ⟨L1 ++ L2, ?_, ?_⟩, ?_⟩
      · simp only [List.length_cons]
        omega
      · rw [hL2, hL1, List.append_assoc]
      · intro s hs
        rcases List.mem_append.1 hs with hs | hs
        · exact ⟨i, List.mem_cons_self _ _, hL1m s hs⟩
        · obtain ⟨i2, hi2, h2⟩ := hL2m s hs
          exact ⟨i2, List.mem_cons_of_mem _ hi2, h2⟩
      · intro i2 hi2 hslot
        rcases List.mem_cons.1 hi2 with heq | hmem
        · subst heq
          rcases hproc hslot with h1 | ⟨s, hs, h1⟩
          · left
            rw [hL2]
            exact List.mem_append_left _ h1
          · right
            exact ⟨s, by rw [hL2]; exact List.mem_append_left _ hs, h1⟩
        · apply hproc2 i2 hmem
          obtain ⟨j, hj, hu, hk, hcv⟩ := hslot
          refine ⟨j, hj, ?_, ?_, ?_⟩
          · rw [(hsd1 j).1]
            exact hu
          · rw [(hsd1 j).2.1]
            exact hk
          · rw [(blockStep_cv _ _ hstep1 j).1]
            exact hcv

/-- The selection loop of `sample_parallel_batch`. -/
theorem sample_loop_spec (K : Kernel) (points : List Point) (tris : List (Int × Int × Int))
    (R : Rng) (p : R.Real) (cands offs : EdgeBuf) (m : Nat) :
    ∀ (is : List Nat) (rng : R.State) (t : EdgeTable) (sel : EdgeBuf) (n : Nat) (t2 : EdgeTable)
      (sel2 : EdgeBuf) (n2 : Nat), SelInv K points tris t (buf_list sel n) →
      sample_loop R p cands offs m is rng t sel n = Except.ok (t2, sel2, n2) →
      SelInv K points tris t2 (buf_list sel2 n2) ∧ BlockStep t t2 ∧ n ≤ n2 ∧
      n2 ≤ n + is.length := by
  intro is
  induction is with
  | nil =>
    intro rng t sel n t2 sel2 n2 hinv h
    simp only [sample_loop, Except.ok.injEq, Prod.mk.injEq] at h
    obtain ⟨h1, h2, h3⟩ := h
    subst h1 h2 h3
    exact ⟨hinv, blockStep_refl _, le_refl _, Nat.le_add_right _ _⟩
  | cons i rest ih =>
    intro rng t sel n t2 sel2 n2 hinv h
    rw [sample_loop] at h
    cases hs : select_edge t sel n (choose_edge R p cands offs m i rng).1 with
    | error x => simp [hs] at h
    | ok r =>
      obtain ⟨t1, sel1, n1⟩ := r
      simp only [hs] at h
      obtain ⟨S1, hinv1, hstep1, hcase, -⟩ :=
        select_edge_spec K points tris t sel n _ _ t1 sel1 n1 hinv hs
      have hS1 : S1 = buf_list sel1 n1 := by
        rcases hcase with ⟨a, b, c⟩ | ⟨a, b, c⟩
        · rw [a, b, c]
        · rw [a, b, c, buf_list_update]
      have hn1 : n ≤ n1 ∧ n1 ≤ n + 1 := by
        rcases hcase with ⟨a, b, c⟩ | ⟨a, b, c⟩ <;> omega
      rw [hS1] at hinv1
      obtain ⟨hinv2, hstep2, hle, hbound⟩ := ih _ t1 sel1 n1 t2 sel2 n2 hinv1 h
      refine ⟨hinv2, blockStep_trans _ _ _ hstep1 hstep2, by omega, ?_⟩
      simp only [List.length_cons]
      omega

end detail

/-! ## The schedulers return -/

namespace detail

/-- A table whose slots are all used holds as many keys as it has slots. -/
theorem full_table_keys (ins : List (Edge × Tri)) (t : EdgeTable) (hinv : RecInv ins t)
    (hfull : ∀ i, i < EDGE_TABLE_SIZE → (t i).used = true) :
    EDGE_TABLE_SIZE ≤ (ins.map Prod.fst).dedup.length := by
  classical
  have h := Finset.card_le_card_of_injOn (s := Finset.range EDGE_TABLE_SIZE)
    (t := (ins.map Prod.fst).toFinset) (fun i => (t i).key) ?_ ?_
  · rw [Finset.card_range, List.card_toFinset] at h
    exact h
  · intro i hi
    rw [Finset.mem_range] at hi
    rw [List.mem_toFinset]
    exact hinv.inserted i hi (hfull i hi)
  · intro i hi j hj hij
    rw [Finset.mem_coe, Finset.mem_range] at hi hj
    exact chain_key_inj t hinv.chain i j hi hj (hfull i hi) (hfull j hj) hij

theorem free_slot (ins : List (Edge × Tri)) (t : EdgeTable) (hinv : RecInv ins t)
    (h : (ins.map Prod.fst).dedup.length < EDGE_TABLE_SIZE) :
    ∃ i, i < EDGE_TABLE_SIZE ∧ (t i).used = false := by
  by_contra hno
  push_neg at hno
  have := full_table_keys ins t hinv (fun i hi => by simpa using hno i hi)
  omega

theorem insert_total (t : EdgeTable) (e : Edge)
    (h : (∃ i, i < EDGE_TABLE_SIZE ∧ (t i).used = true ∧ (t i).key = e) ∨
      (∃ i, i < EDGE_TABLE_SIZE ∧ (t i).used = false)) :
    ∃ r, insert_bucket t e = Except.ok r := by
  cases hr : insert_bucket t e with
  | ok r => exact ⟨r, rfl⟩
  | error x =>
    exfalso
    have hall := (insert_error t e x hr).2
    rcases h with ⟨i, hi, _, hk⟩ | ⟨i, hi, hu⟩
    · exact (hall i hi).2 hk
    · rw [(hall i hi).1] at hu
      cases hu

theorem find_total (t : EdgeTable) (e : Edge)
    (h : ∃ i, i < EDGE_TABLE_SIZE ∧ (t i).used = false) :
    ∃ r, find_bucket t e = Except.ok r := by
  cases hr : find_bucket t e with
  | ok r => exact ⟨r, rfl⟩
  | error x =>
    exfalso
    have hall := (find_error t e x hr).2
    obtain ⟨i, hi, hu⟩ := h
    rw [(hall i hi).1] at hu
    cases hu

theorem dedup_length_mono (l1 l2 : List Edge) (h : l1 ⊆ l2) :
    l1.dedup.length ≤ l2.dedup.length := by
  apply List.Subperm.length_le
  apply List.Nodup.subperm (List.nodup_dedup l1)
  intro x hx
  exact List.mem_dedup.2 (h (List.mem_dedup.1 hx))

theorem dedup_length_snoc (l : List Edge) (e : Edge) (h : e ∉ l) :
    (l ++ [e]).dedup.length = l.dedup.length + 1 := by
  have hp : (l ++ [e]).dedup.Perm (e :: l.dedup) := by
    have h1 : (l ++ [e]).Perm (e :: l) := List.perm_append_singleton e l
    have h2 := List.Perm.dedup h1
    rw [List.dedup_cons_of_not_mem h] at h2
    exact h2
  rw [hp.length_eq]
  rfl

theorem record_edge_total (ins : List (Edge × Tri)) (T : Tri) (t : EdgeTable) (e : Edge)
    (hinv : RecInv ins t)
    (hcap : ((ins ++ [(e, T)]).map Prod.fst).dedup.length ≤ EDGE_TABLE_SIZE) :
    ∃ t2, record_edge T t e = Except.ok t2 := by
  have hins : ∃ r, insert_bucket t e = Except.ok r := by
    apply insert_total
    by_cases hmem : e ∈ ins.map Prod.fst
    · left
      obtain ⟨p, hp, hpe⟩ := List.mem_map.1 hmem
      obtain ⟨i, hi, hu, hk⟩ := hinv.present p hp
      exact ⟨i, hi, hu, hk.trans hpe⟩
    · right
      apply free_slot ins t hinv
      rw [List.map_append, List.map_singleton, dedup_length_snoc _ _ hmem] at hcap
      omega
  obtain ⟨⟨t1, idx⟩, hr⟩ := hins
  unfold record_edge
  rw [hr]
  simp only
  split_ifs <;> exact ⟨_, rfl⟩

theorem record_edges_total (T : Tri) :
    ∀ (es : List Edge) (ins : List (Edge × Tri)) (t : EdgeTable), RecInv ins t →
      ((ins ++ es.map (fun e => (e, T))).map Prod.fst).dedup.length ≤ EDGE_TABLE_SIZE →
      ∃ t2, record_edges T es t = Except.ok t2 := by
  intro es
  induction es with
  | nil =>
    intro ins t _ _
    exact ⟨t, rfl⟩
  | cons e rest ih =>
    intro ins t hinv hcap
    have hsub : ((ins ++ [(e, T)]).map Prod.fst).dedup.length ≤ EDGE_TABLE_SIZE := by
      refine le_trans (dedup_length_mono _ _ ?_) hcap
      intro x hx
      simp only [List.map_append, List.mem_append, List.map_cons, List.map_nil,
        List.mem_singleton, List.mem_cons] at hx ⊢
      tauto
    obtain ⟨t1, h1⟩ := record_edge_total ins T t e hinv hsub
    have hinv1 := record_edge_recInv ins T t t1 e hinv h1
    obtain ⟨t2, h2⟩ := ih (ins ++ [(e, T)]) t1 hinv1 (by simpa using hcap)
    refine ⟨t2, ?_⟩
    rw [record_edges, h1]
    exact h2

theorem record_triangles_total :
    ∀ (tris : List (Int × Int × Int)) (ins : List (Edge × Tri)) (t : EdgeTable), RecInv ins t →
      ((ins ++ insertions tris).map Prod.fst).dedup.length ≤ EDGE_TABLE_SIZE →
      ∃ t2, record_triangles tris t = Except.ok t2 := by
  intro tris
  induction tris with
  | nil =>
    intro ins t _ _
    exact ⟨t, rfl⟩
  | cons T rest ih =>
    intro ins t hinv hcap
    have hi : insertions (T :: rest) =
        (tri_edges (to_triangle T)).map (fun e => (e, to_triangle T)) ++ insertions rest := by
      unfold insertions
      rw [List.flatMap_cons]
    rw [hi, ← List.append_assoc] at hcap
    have hsub : ((ins ++ (tri_edges (to_triangle T)).map (fun e => (e, to_triangle T))).map
        Prod.fst).dedup.length ≤ EDGE_TABLE_SIZE := by
      refine le_trans (dedup_length_mono _ _ ?_) hcap
      intro x hx
      rw [List.map_append]
      exact List.mem_append_left _ hx
    obtain ⟨t1, h1⟩ := record_edges_total _ _ ins t hinv hsub
    have hinv1 := record_edges_recInv _ _ ins t t1 hinv h1
    obtain ⟨t2, h2⟩ := ih _ t1 hinv1 hcap
    refine ⟨t2, ?_⟩
    rw [record_triangles, h1]
    exact h2

/-- The loop over the triangles returns when the triangles have at most as many
distinct edges as the table has slots. -/
theorem record_total (tris : List (Int × Int × Int)) (t : EdgeTable)
    (hcap : (edge_keys tris).length ≤ EDGE_TABLE_SIZE) :
    ∃ t2, record_triangles tris (clear_edge_table t) = Except.ok t2 ∧
      RecInv (insertions tris) t2 := by
  obtain ⟨t2, h⟩ := record_triangles_total tris [] _ (recInv_clear t) (by simpa using hcap)
  exact ⟨t2, h, by simpa using record_triangles_recInv tris [] _ t2 (recInv_clear t) h⟩

/-- The loop over the triangles returns only when the triangles have at most as
many distinct edges as the table has slots. -/
theorem record_capacity (tris : List (Int × Int × Int)) (t t2 : EdgeTable)
    (h : record_triangles tris (clear_edge_table t) = Except.ok t2) :
    (edge_keys tris).length ≤ EDGE_TABLE_SIZE := by
  classical
  have hinv : RecInv (insertions tris) t2 := by
    simpa using record_triangles_recInv tris [] _ t2 (recInv_clear t) h
  choose! f hf using hinv.present
  unfold edge_keys
  rw [← List.card_toFinset]
  have hc := Finset.card_le_card_of_injOn (s := ((insertions tris).map Prod.fst).toFinset)
    (t := Finset.range EDGE_TABLE_SIZE)
    (fun e => if h : ∃ p, p ∈ insertions tris ∧ p.1 = e then f (Classical.choose h) else 0)
    ?_ ?_
  · rw [Finset.card_range] at hc
    exact hc
  · intro e he
    rw [List.mem_toFinset, List.mem_map] at he
    rw [Finset.mem_range]
    simp only [dif_pos he]
    exact (hf _ (Classical.choose_spec he).1).1
  · intro e1 he1 e2 he2 heq
    rw [Finset.mem_coe, List.mem_toFinset, List.mem_map] at he1 he2
    simp only [dif_pos he1, dif_pos he2] at heq
    have h1 := hf _ (Classical.choose_spec he1).1
    have h2 := hf _ (Classical.choose_spec he2).1
    rw [← (Classical.choose_spec he1).2, ← (Classical.choose_spec he2).2, ← h1.2.2, ← h2.2.2,
      heq]

end detail

namespace detail

theorem hasFree_keysEq (t t2 : EdgeTable) (h : KeysEq t t2) (hf : HasFree t) : HasFree t2 := by
  obtain ⟨i, hi, hu⟩ := hf
  exact ⟨i, hi, by rw [(h i).1]; exact hu⟩

theorem hasFree_blockStep (t t2 : EdgeTable) (h : BlockStep t t2) (hf : HasFree t) :
    HasFree t2 :=
  hasFree_keysEq t t2 (sameData_keysEq _ _ (blockStep_sameData _ _ h)) hf

theorem opposite_total (T : Tri) (e : Edge) (hd : T.1 ≠ T.2.1 ∧ T.2.1 ≠ T.2.2 ∧ T.1 ≠ T.2.2)
    (he : e ∈ tri_edges T) : ∃ o, opposite_vertex T e = Except.ok o := by
  obtain ⟨x, y, z, hr, hxy⟩ := exists_rot_of_mem T e he
  have hz : z ≠ x ∧ z ≠ y := by
    obtain ⟨a, b, c⟩ := T
    unfold Rot at hr
    simp only [Prod.mk.injEq] at hr hd
    rcases hr with ⟨h1, h2, h3⟩ | ⟨h1, h2, h3⟩ | ⟨h1, h2, h3⟩ <;> subst h1 <;> subst h2 <;>
      subst h3
    · exact ⟨fun h => hd.2.2 h.symm, fun h => hd.2.1 h.symm⟩
    · exact ⟨fun h => hd.1 h, fun h => hd.2.2 h⟩
    · exact ⟨fun h => hd.2.1 h, fun h => hd.1 h.symm⟩
  rw [hxy, opposite_vertex_rot T x y z hr, if_pos hz]
  exact ⟨z, rfl⟩

theorem candidate_of_bucket_total (K : Kernel) (points : List Point)
    (tris : List (Int × Int × Int)) (hd : NonDegenerate tris) (b : EdgeBucket) (e : Edge)
    (hc : b.triangle_count = 2) (hb : bucket_tris b = recorded tris e) :
    ∃ r, candidate_of_bucket K points b e = Except.ok r := by
  cases hr : candidate_of_bucket K points b e with
  | ok r => exact ⟨r, rfl⟩
  | error x =>
    exfalso
    rw [bucket_tris_of_two b hc] at hb
    have h0 := mem_recorded tris e b.triangles0 (by rw [← hb]; simp)
    have h1 := mem_recorded tris e b.triangles1 (by rw [← hb]; simp)
    obtain ⟨o0, ho0⟩ := opposite_total _ e (hd _ h0.1) h0.2
    obtain ⟨o1, ho1⟩ := opposite_total _ e (hd _ h1.1) h1.2
    rcases (candidate_of_bucket_error K points b e x hr).2 with h | h
    · exact h o0 ho0
    · exact h o1 ho1

theorem scan_total (K : Kernel) (points : List Point) (tris : List (Int × Int × Int))
    (hd : NonDegenerate tris) :
    ∀ (idxs : List Nat) (t : EdgeTable) (buf : EdgeBuf) (n : Nat), TableOk K points tris t →
      Unblocked t → (∀ i, i ∈ idxs → i < EDGE_TABLE_SIZE) →
      ∃ r, scan_buckets K points idxs t buf n = Except.ok r := by
  intro idxs
  induction idxs with
  | nil =>
    intro t buf n _ _ _
    exact ⟨_, rfl⟩
  | cons idx rest ih =>
    intro t buf n hok hub hlt
    have hidx := hlt idx (List.mem_cons_self _ _)
    have hlt2 : ∀ i, i ∈ rest → i < EDGE_TABLE_SIZE :=
      fun i hi => hlt i (List.mem_cons_of_mem _ hi)
    rw [scan_buckets]
    by_cases hskip : (t idx).used = false ∨ (t idx).triangle_count ≠ 2
    · simp only [hskip, if_true]
      exact ih t buf n hok hub hlt2
    · simp only [hskip, if_false]
      push_neg at hskip
      have hu : (t idx).used = true := by simpa using hskip.1
      have hheld := hok.held idx hidx hu
      obtain ⟨r, hr⟩ := candidate_of_bucket_total K points tris hd (t idx) (t idx).key hskip.2
        hheld.1
      have hspec := candidate_of_bucket_spec K points tris (t idx) (t idx).key r hskip.2
        hheld.1 hr
      rw [hr]
      cases r with
      | none => exact ih t buf n hok hub hlt2
      | some c =>
        simp only
        obtain ⟨hok1, hub1, -⟩ := scan_mark_ok K points tris idx t c hok hub hspec false
          (Or.inl rfl)
        by_cases hcap : n + 1 ≥ MAX_EDGES_PER_TRIANG
        · simp only [hcap, if_true]
          exact ⟨_, rfl⟩
        · simp only [hcap, if_false]
          exact ih _ _ _ hok1 hub1 hlt2

theorem filter_candidates_total (K : Kernel) (points : List Point)
    (tris : List (Int × Int × Int)) (hd : NonDegenerate tris) :
    ∀ (cands : List (Int × Int)) (t : EdgeTable) (buf : EdgeBuf) (n : Nat),
      TableOk K points tris t → Unblocked t → HasFree t →
      ∃ r, filter_candidates K points cands t buf n = Except.ok r := by
  intro cands
  induction cands with
  | nil =>
    intro t buf n _ _ _
    exact ⟨_, rfl⟩
  | cons p rest ih =>
    intro t buf n hok hub hfree
    rw [filter_candidates]
    obtain ⟨r, hf⟩ := find_total t (normalize_edge p.1 p.2) hfree
    rw [hf]
    cases r with
    | none => exact ih t buf n hok hub hfree
    | some idx =>
      simp only
      obtain ⟨hidx, hu, hk⟩ := find_some t _ idx hf
      by_cases hcount : (t idx).triangle_count ≠ 2
      · rw [if_pos hcount]
        exact ih t buf n hok hub hfree
      · rw [if_neg hcount]
        push_neg at hcount
        have hheld := hok.held idx hidx hu
        rw [hk] at hheld
        obtain ⟨r, hr⟩ := candidate_of_bucket_total K points tris hd (t idx) _ hcount hheld.1
        have hspec := candidate_of_bucket_spec K points tris (t idx) _ r hcount hheld.1 hr
        rw [hr]
        cases r with
        | none => exact ih t buf n hok hub hfree
        | some c =>
          simp only
          obtain ⟨hok1, hub1, hsd1⟩ := scan_mark_ok K points tris idx t c hok hub
            (by rw [hk]; exact hspec) (t idx).blocked (Or.inr rfl)
          by_cases hcap : n + 1 ≥ MAX_EDGES_PER_TRIANG
          · simp only [hcap, if_true]
            exact ⟨_, rfl⟩
          · simp only [hcap, if_false]
            exact ih _ _ _ hok1 hub1 (hasFree_keysEq _ _ (sameData_keysEq _ _ hsd1) hfree)

theorem filter_offenders_total (t : EdgeTable) (hfree : HasFree t) :
    ∀ (offs : List (Int × Int)) (buf : EdgeBuf) (n : Nat),
      ∃ r, filter_offenders t offs buf n = Except.ok r := by
  intro offs
  induction offs with
  | nil =>
    intro buf n
    exact ⟨_, rfl⟩
  | cons p rest ih =>
    intro buf n
    rw [filter_offenders]
    obtain ⟨r, hf⟩ := find_total t (normalize_edge p.1 p.2) hfree
    rw [hf]
    cases r with
    | none => exact ih buf n
    | some idx =>
      simp only
      split_ifs
      · exact ih buf n
      · exact ⟨_, rfl⟩
      · exact ih _ _

theorem block_conflicts_total :
    ∀ (cs : List Edge) (t : EdgeTable), HasFree t → ∃ r, block_conflicts cs t = Except.ok r := by
  intro cs
  induction cs with
  | nil =>
    intro t _
    exact ⟨_, rfl⟩
  | cons c rest ih =>
    intro t hfree
    rw [block_conflicts]
    obtain ⟨r, hf⟩ := find_total t c hfree
    rw [hf]
    cases r with
    | none => exact ih t hfree
    | some idx => exact ih _ (hasFree_blockStep _ _ (blockStep_update t idx) hfree)

theorem select_edge_total (t : EdgeTable) (sel : EdgeBuf) (n : Nat) (e : Edge)
    (hfree : HasFree t) : ∃ r, select_edge t sel n e = Except.ok r := by
  unfold select_edge
  obtain ⟨r, hf⟩ := find_total t e hfree
  rw [hf]
  cases r with
  | none => exact ⟨_, rfl⟩
  | some idx =>
    simp only
    split_ifs
    · exact ⟨_, rfl⟩
    · obtain ⟨t2, h2⟩ := block_conflicts_total
        (conflicting_edges_from_candidate (t idx).candidate) _
        (hasFree_blockStep _ _ (blockStep_update t idx) hfree)
      rw [h2]
      exact ⟨_, rfl⟩

theorem select_loop_total (K : Kernel) (points : List Point) (tris : List (Int × Int × Int))
    (cands : EdgeBuf) :
    ∀ (is : List Nat) (t : EdgeTable) (sel : EdgeBuf) (n : Nat),
      SelInv K points tris t (buf_list sel n) → HasFree t →
      ∃ r, select_loop cands is t sel n = Except.ok r := by
  intro is
  induction is with
  | nil =>
    intro t sel n _ _
    exact ⟨_, rfl⟩
  | cons i rest ih =>
    intro t sel n hinv hfree
    rw [select_loop]
    obtain ⟨⟨t1, sel1, n1⟩, hs⟩ := select_edge_total t sel n (cands i) hfree
    rw [hs]
    obtain ⟨hinv1, hstep, -, -, -, -⟩ :=
      select_loop_spec K points tris cands [i] t sel n t1 sel1 n1 hinv
        (by rw [select_loop, hs]; rfl)
    exact ih t1 sel1 n1 hinv1 (hasFree_blockStep _ _ hstep hfree)

theorem sample_loop_total (K : Kernel) (points : List Point) (tris : List (Int × Int × Int))
    (R : Rng) (p : R.Real) (cands offs : EdgeBuf) (m : Nat) :
    ∀ (is : List Nat) (rng : R.State) (t : EdgeTable) (sel : EdgeBuf) (n : Nat),
      SelInv K points tris t (buf_list sel n) → HasFree t →
      ∃ r, sample_loop R p cands offs m is rng t sel n = Except.ok r := by
  intro is
  induction is with
  | nil =>
    intro rng t sel n _ _
    exact ⟨_, rfl⟩
  | cons i rest ih =>
    intro rng t sel n hinv hfree
    rw [sample_loop]
    obtain ⟨⟨t1, sel1, n1⟩, hs⟩ :=
      select_edge_total t sel n (choose_edge R p cands offs m i rng).1 hfree
    simp only [hs]
    obtain ⟨hinv1, hstep, -, -⟩ :=
      sample_loop_spec K points tris R p cands offs m [i] rng t sel n t1 sel1 n1 hinv
        (by rw [sample_loop]; simp only [hs]; rfl)
    exact ih _ t1 sel1 n1 hinv1 (hasFree_blockStep _ _ hstep hfree)

theorem apply_loop_total (t : EdgeTable) (sel : EdgeBuf) (hfree : HasFree t) :
    ∀ (is : List Nat) (batch : List (Int × Int)) (s : List Edge),
      ∃ r, apply_loop t sel is batch s = Except.ok r := by
  intro is
  induction is with
  | nil =>
    intro batch s
    exact ⟨_, rfl⟩
  | cons i rest ih =>
    intro batch s
    rw [apply_loop]
    obtain ⟨r, hf⟩ := find_total t (sel i) hfree
    simp only [hf]
    cases r with
    | none => exact ih _ _
    | some idx => exact ih _ _

end detail

/-! ## The schedulers as a whole -/

namespace detail

theorem edge_of_to_pair (e : Edge) : edge_of (to_pair e) = e := rfl

theorem map_range_buf (sel : EdgeBuf) (n : Nat) :
    (List.range n).map (fun i => ((sel i).first, (sel i).second)) =
      (buf_list sel n).map to_pair := by
  unfold buf_list
  rw [List.map_map]
  rfl

end detail

/-- What `sample_parallel_batch` returns: the empty batch when the loop over
`candidates` finds no candidate, and else the edges selected by a run of the
selection loop on the table of the triangles. -/
theorem sample_spec (K : Kernel) (R : Rng) (arrangement : ArrangementFn) (g : detail.Scratch)
    (points : List Point) (edges candidates offenders : List (Int × Int)) (p : R.Real)
    (seed : Nat) (tris : List (Int × Int × Int)) (batch : List (Int × Int))
    (htris : compute_triangles arrangement points edges = Except.ok tris)
    (h : sample_parallel_batch K R arrangement g points edges candidates offenders p seed =
      Except.ok batch) :
    ((∀ q, q ∈ candidates →
        detail.edge_candidate K points tris (detail.normalize_edge q.1 q.2) = none) →
      batch = []) ∧
    ∃ t S, detail.SelInv K points tris t S ∧ batch = S.map detail.to_pair ∧
      S.length ≤ detail.MAX_EDGES_PER_TRIANG ∧
      ∀ i, i < detail.EDGE_TABLE_SIZE → (t i).used = true → (t i).candidate_valid = true →
        (t i).key ∈ candidates.map (fun q => detail.normalize_edge q.1 q.2) := by
  unfold sample_parallel_batch at h
  simp only [htris] at h
  cases hrec : detail.record_triangles tris (detail.clear_edge_table g.g_edge_table) with
  | error x => simp [hrec] at h
  | ok t1 =>
    simp only [hrec] at h
    have hinv : detail.RecInv (detail.insertions tris) t1 := by
      simpa using detail.record_triangles_recInv tris [] _ t1 (detail.recInv_clear _) hrec
    obtain ⟨hok1, hub1, hcv1⟩ := detail.tableOk_of_recInv K points tris t1 hinv
    cases hfc : detail.filter_candidates K points candidates t1 g.g_candidate_order_buf 0 with
    | error x => simp [hfc] at h
    | ok r =>
      obtain ⟨t2, cbuf, cn⟩ := r
      simp only [hfc] at h
      have hpost := detail.filter_candidates_spec K points tris candidates t1 _ 0 t2 cbuf cn
        hok1 hub1 hfc
      have hmarked : ∀ i, i < detail.EDGE_TABLE_SIZE → (t2 i).used = true →
          (t2 i).candidate_valid = true →
          (t2 i).key ∈ candidates.map (fun q => detail.normalize_edge q.1 q.2) := by
        intro i hi hu hcv
        rcases hpost.marked i hi hu hcv with h1 | h1
        · rw [hcv1 i hi (by rw [← (hpost.same i).1]; exact hu)] at h1
          cases h1
        · exact h1
      by_cases hcn : cn = 0
      · rw [if_pos hcn] at h
        simp only [Except.ok.injEq] at h
        subst h
        refine ⟨fun _ => rfl, t2, [], detail.selInv_nil K points tris t2 hpost.ok hpost.unblocked,
          rfl, Nat.zero_le _, hmarked⟩
      · rw [if_neg hcn] at h
        cases hfo : detail.filter_offenders t2 offenders g.g_offender_buf 0 with
        | error x => simp [hfo] at h
        | ok r2 =>
          obtain ⟨obuf, ocount⟩ := r2
          simp only [hfo] at h
          generalize hsh : detail.shuffle R cn cbuf (R.seed (seed % 2 ^ 32)) = sh at h
          cases hsl : detail.sample_loop R p sh.1 obuf ocount (List.range cn) sh.2 t2
              g.g_selected_buf 0 with
          | error x => simp [hsl] at h
          | ok r3 =>
            obtain ⟨t3, sel, sn⟩ := r3
            simp only [hsl, Except.ok.injEq] at h
            have hinv0 : detail.SelInv K points tris t2 (detail.buf_list g.g_selected_buf 0) :=
              detail.selInv_nil K points tris t2 hpost.ok hpost.unblocked
            obtain ⟨hinv3, hstep, -, hbound⟩ :=
              detail.sample_loop_spec K points tris R p sh.1 obuf ocount (List.range cn) sh.2 t2
                g.g_selected_buf 0 t3 sel sn hinv0 hsl
            have hcnM : cn ≤ detail.MAX_EDGES_PER_TRIANG := hpost.cap (by decide)
            refine ⟨?_, t3, detail.buf_list sel sn, hinv3, ?_, ?_, ?_⟩
            · intro hno
              exact absurd (hpost.none hno) hcn
            · rw [← h, detail.map_range_buf]
            · rw [detail.buf_list_length]
              simp only [List.length_range, Nat.zero_add] at hbound
              omega
            · intro i hi hu hcv
              have hsd := detail.blockStep_sameData _ _ hstep
              rw [(hsd i).2.1]
              rw [(hsd i).1] at hu
              rw [(detail.blockStep_cv _ _ hstep i).1] at hcv
              exact hmarked i hi hu hcv

/-- `sample_parallel_batch` returns a batch when `compute_triangles` returns
triangles with three different corners each and fewer distinct edges than the table
has slots. -/
theorem sample_total (K : Kernel) (R : Rng) (arrangement : ArrangementFn) (g : detail.Scratch)
    (points : List Point) (edges candidates offenders : List (Int × Int)) (p : R.Real)
    (seed : Nat) (tris : List (Int × Int × Int))
    (htris : compute_triangles arrangement points edges = Except.ok tris)
    (hcap : (detail.edge_keys tris).length < detail.EDGE_TABLE_SIZE)
    (hd : detail.NonDegenerate tris) :
    ∃ batch, sample_parallel_batch K R arrangement g points edges candidates offenders p seed =
      Except.ok batch := by
  unfold sample_parallel_batch
  simp only [htris]
  obtain ⟨t1, hrec, hinv⟩ := detail.record_total tris g.g_edge_table (le_of_lt hcap)
  rw [hrec]
  simp only
  obtain ⟨hok1, hub1, -⟩ := detail.tableOk_of_recInv K points tris t1 hinv
  have hfree1 : detail.HasFree t1 := detail.free_slot _ t1 hinv hcap
  obtain ⟨⟨t2, cbuf, cn⟩, hfc⟩ := detail.filter_candidates_total K points tris hd candidates t1
    g.g_candidate_order_buf 0 hok1 hub1 hfree1
  rw [hfc]
  simp only
  have hpost := detail.filter_candidates_spec K points tris candidates t1 _ 0 t2 cbuf cn
    hok1 hub1 hfc
  have hfree2 : detail.HasFree t2 :=
    detail.hasFree_keysEq _ _ (detail.sameData_keysEq _ _ hpost.same) hfree1
  by_cases hcn : cn = 0
  · rw [if_pos hcn]
    exact ⟨_, rfl⟩
  · rw [if_neg hcn]
    obtain ⟨⟨obuf, ocount⟩, hfo⟩ := detail.filter_offenders_total t2 hfree2 offenders
      g.g_offender_buf 0
    rw [hfo]
    simp only
    obtain ⟨⟨t3, sel, sn⟩, hsl⟩ := detail.sample_loop_total K points tris R p
      (detail.shuffle R cn cbuf (R.seed (seed % 2 ^ 32))).1 obuf ocount (List.range cn)
      (detail.shuffle R cn cbuf (R.seed (seed % 2 ^ 32))).2 t2 g.g_selected_buf 0
      (detail.selInv_nil K points tris t2 hpost.ok hpost.unblocked) hfree2
    rw [hsl]
    exact ⟨_, rfl⟩

namespace detail

theorem pairwise_either {α : Type} (R : α → α → Prop) (l : List α) (h : l.Pairwise R)
    (a b : α) (ha : a ∈ l) (hb : b ∈ l) (hab : a ≠ b) : R a b ∨ R b a := by
  induction l with
  | nil => cases ha
  | cons x rest ih =>
    rw [List.pairwise_cons] at h
    rcases List.mem_cons.1 ha with ha | ha
    · rcases List.mem_cons.1 hb with hb | hb
      · exact absurd (ha.trans hb.symm) hab
      · rw [ha]
        exact Or.inl (h.1 b hb)
    · rcases List.mem_cons.1 hb with hb | hb
      · rw [hb]
        exact Or.inr (h.1 a ha)
      · exact ih h.2 ha hb

/-- Two different edges selected in one run of the selection loop are no conflict
edges of each other and share no triangle, when no edge lies in more than two
triangles. -/
theorem selInv_conflict_free (K : Kernel) (points : List Point) (tris : List (Int × Int × Int))
    (t : EdgeTable) (S : List Edge) (hinv : SelInv K points tris t S) (htwo : AtMostTwo tris)
    (s1 s2 : Edge) (h1 : s1 ∈ S) (h2 : s2 ∈ S) (hne : s1 ≠ s2) :
    ∃ c1, edge_candidate K points tris s1 = some c1 ∧
      s2 ∉ conflicting_edges_from_candidate c1 ∧
      ∀ T, T ∈ tris → ¬(s1 ∈ tri_edges T ∧ s2 ∈ tri_edges T) := by
  have hc : ∀ s, s ∈ S → ∃ c, edge_candidate K points tris s = some c := by
    intro s hs
    obtain ⟨i, hi, hu, hk, hcv, -⟩ := hinv.sel s hs
    exact ⟨_, hk ▸ hinv.ok.cand i hi hu hcv⟩
  obtain ⟨c1, hc1⟩ := hc s1 h1
  obtain ⟨c2, hc2⟩ := hc s2 h2
  have hnot : s2 ∉ conflicting_edges_from_candidate c1 := by
    intro hmem
    rcases pairwise_either _ S hinv.pairwise s1 s2 h1 h2 hne with h | h
    · exact h.2 (by rw [conflicts_of_some K points tris s1 c1 hc1]; exact hmem)
    · apply h.2
      rw [conflicts_of_some K points tris s2 c2 hc2]
      exact conflict_symm K points tris s1 s2 c1 c2 hne hc1 hc2 (htwo s2) hmem
  refine ⟨c1, hc1, hnot, ?_⟩
  intro T hT hboth
  exact hnot (conflict_of_shared_triangle K points tris s1 s2 c1 T hT hboth.1 hboth.2 hne hc1
    (htwo s1))

theorem atMostTwo_of_length (tris : List (Int × Int × Int)) (h : tris.length ≤ 2) :
    AtMostTwo tris := fun _ => le_trans (List.length_filter_le _ _) h

end detail

theorem unitSquare_triangles :
    compute_triangles squareArrangement (squarePoints 0 0 1 0) squareEdges =
      Except.ok squareTriangles := by
  rw [unitSquare_compute_triangles squareEdges (by decide)]
  simp [squareEdges, squareTriangles]

theorem squareTriangles_capacity :
    (detail.edge_keys squareTriangles).length < detail.EDGE_TABLE_SIZE := by
  decide

theorem squareTriangles_nonDegenerate : detail.NonDegenerate squareTriangles := by
  intro T hT
  simp only [squareTriangles, List.mem_cons, List.mem_singleton, List.not_mem_nil,
    or_false] at hT
  rcases hT with rfl | rfl <;> decide

/-! ## The rounds of `compute_delaunay_batches` -/

namespace detail

theorem mem_insertions_of_incident (ins : List (Edge × Tri)) (e : Edge) (X : Tri)
    (h : X ∈ incident_of ins e) : (e, X) ∈ ins := by
  unfold incident_of at h
  simp only [List.mem_map, List.mem_filter, decide_eq_true_eq] at h
  obtain ⟨p, ⟨hp, hpe⟩, hX⟩ := h
  obtain ⟨a, b⟩ := p
  simp only at hpe hX
  subst hpe hX
  exact hp

theorem candidate_has_slot (K : Kernel) (points : List Point) (tris : List (Int × Int × Int))
    (t : EdgeTable) (hok : TableOk K points tris t) (e : Edge) (c : CandidateEdge)
    (h : edge_candidate K points tris e = some c) :
    ∃ i, i < EDGE_TABLE_SIZE ∧ (t i).used = true ∧ (t i).key = e := by
  obtain ⟨A, B, hrec, -⟩ := edge_candidate_some K points tris e c h
  have hA : A ∈ incident_of (insertions tris) e :=
    List.mem_of_mem_take (by unfold recorded at hrec; rw [hrec]; simp)
  exact hok.present (e, A) (mem_insertions_of_incident _ e A hA)

theorem candidate_mem_edge_keys (tris : List (Int × Int × Int)) (t : EdgeTable) (K : Kernel)
    (points : List Point) (hok : TableOk K points tris t) (i : Nat)
    (hi : i < EDGE_TABLE_SIZE) (hu : (t i).used = true) : (t i).key ∈ edge_keys tris :=
  List.mem_dedup.2 (hok.inserted i hi hu)

theorem apply_loop_spec (K : Kernel) (points : List Point) (tris : List (Int × Int × Int))
    (t : EdgeTable) (hok : TableOk K points tris t) (sel : EdgeBuf) :
    ∀ (is : List Nat) (batch : List (Int × Int)) (S : List Edge) (batch2 : List (Int × Int))
      (S2 : List Edge),
      (∀ i, i ∈ is → ∃ j, j < EDGE_TABLE_SIZE ∧ (t j).used = true ∧ (t j).key = sel i ∧
        (t j).candidate_valid = true) →
      apply_loop t sel is batch S = Except.ok (batch2, S2) →
      batch2 = batch ++ is.map (fun i => to_pair (sel i)) ∧
        S2 = flip_edges K points tris (is.map sel) S := by
  intro is
  induction is with
  | nil =>
    intro batch S batch2 S2 _ h
    simp only [apply_loop, Except.ok.injEq, Prod.mk.injEq] at h
    obtain ⟨h1, h2⟩ := h
    subst h1 h2
    simp [flip_edges]
  | cons i rest ih =>
    intro batch S batch2 S2 hsl h
    obtain ⟨j, hj, hu, hk, hcv⟩ := hsl i (List.mem_cons_self _ _)
    have hf := find_of_used t hok.chain j hj hu
    rw [hk] at hf
    rw [apply_loop] at h
    simp only [hf] at h
    have hcand := hok.cand j hj hu hcv
    rw [hk] at hcand
    obtain ⟨h1, h2⟩ := ih _ _ batch2 S2 (fun i2 hi2 => hsl i2 (List.mem_cons_of_mem _ hi2)) h
    constructor
    · rw [h1, List.append_assoc]
      rfl
    · rw [h2]
      simp only [flip_edges, List.map_cons, List.foldl_cons, hcand]

theorem buf_list_nodup (buf : EdgeBuf) (n : Nat)
    (h : ∀ k1 k2, k1 < k2 → k2 < n → buf k1 ≠ buf k2) : (buf_list buf n).Nodup := by
  unfold buf_list
  apply List.Nodup.map_on _ (List.nodup_range n)
  intro x hx y hy hxy
  rw [List.mem_range] at hx hy
  rcases Nat.lt_trichotomy x y with hlt | heq | hgt
  · exact absurd hxy (h x y hlt hy)
  · exact heq
  · exact absurd hxy.symm (h y x hgt hx)

end detail

/-- One round of the loop of `compute_delaunay_batches`: it ends the loop when the
edge set has no candidate, and otherwise yields a batch and the edge set with the
edges of the batch replaced by their flip partners. -/
theorem round_spec (K : Kernel) (arrangement : ArrangementFn) (points : List Point)
    (g : detail.Scratch) (edge_set : List detail.Edge) (r : detail.RoundResult)
    (h : detail.delaunay_round K arrangement points g edge_set = Except.ok r) :
    ∃ tris, compute_triangles arrangement points (detail.edges_vector_from_set edge_set) =
        Except.ok tris ∧
      ((r.batch = none ∧ r.edge_set = edge_set ∧
          ∀ e, detail.edge_candidate K points tris e = none) ∨
        (∃ batch, r.batch = some batch ∧
          detail.RoundOk K arrangement points { edge_set := edge_set, batch := batch } ∧
          r.edge_set = detail.flip_edges K points tris (batch.map detail.edge_of) edge_set)) := by
  unfold detail.delaunay_round at h
  cases htris : compute_triangles arrangement points (detail.edges_vector_from_set edge_set) with
  | error x => simp [htris] at h
  | ok tris =>
    refine ⟨tris, rfl, ?_⟩
    simp only [htris] at h
    cases hrec : detail.record_triangles tris (detail.clear_edge_table g.g_edge_table) with
    | error x => simp [hrec] at h
    | ok t1 =>
      simp only [hrec] at h
      have hinv : detail.RecInv (detail.insertions tris) t1 := by
        simpa using detail.record_triangles_recInv tris [] _ t1 (detail.recInv_clear _) hrec
      obtain ⟨hok1, hub1, -⟩ := detail.tableOk_of_recInv K points tris t1 hinv
      cases hscan : detail.scan_buckets K points (List.range detail.EDGE_TABLE_SIZE) t1
          g.g_candidate_order_buf 0 with
      | error x => simp [hscan] at h
      | ok r1 =>
        obtain ⟨t2, cbuf, cn⟩ := r1
        simp only [hscan] at h
        have hpost := detail.scan_spec K points tris _ t1 _ 0 t2 cbuf cn hok1 hub1
          (fun i hi => List.mem_range.1 hi) (List.nodup_range _) hscan
        have hcomplete : cn < detail.MAX_EDGES_PER_TRIANG → ∀ e c,
            detail.edge_candidate K points tris e = some c → ∃ k, k < cn ∧ cbuf k = e := by
          intro hlt e c hc
          obtain ⟨i, hi, hu, hk⟩ := detail.candidate_has_slot K points tris t1 hok1 e c hc
          obtain ⟨k, -, hk2, hk3⟩ := hpost.complete hlt i (List.mem_range.2 hi) hu c
            (by rw [hk]; exact hc)
          exact ⟨k, hk2, hk3.trans hk⟩
        by_cases hcn : cn = 0
        · rw [if_pos hcn] at h
          simp only [Except.ok.injEq] at h
          subst h
          left
          refine ⟨rfl, rfl, ?_⟩
          intro e
          cases hc : detail.edge_candidate K points tris e with
          | none => rfl
          | some c =>
            obtain ⟨k, hk, -⟩ := hcomplete (by rw [hcn]; decide) e c hc
            omega
        · rw [if_neg hcn] at h
          cases hsel : detail.select_loop cbuf (List.range cn) t2 g.g_selected_buf 0 with
          | error x => simp [hsel] at h
          | ok r2 =>
            obtain ⟨t3, sel, sn⟩ := r2
            simp only [hsel] at h
            obtain ⟨hinv3, hstep, -, -, ⟨L, hL, hLm⟩, hproc⟩ :=
              detail.select_loop_spec K points tris cbuf (List.range cn) t2 g.g_selected_buf 0
                t3 sel sn (detail.selInv_nil K points tris t2 hpost.ok hpost.unblocked) hsel
            have hslot : ∀ k, k < cn → ∃ j, j < detail.EDGE_TABLE_SIZE ∧ (t2 j).used = true ∧
                (t2 j).key = cbuf k ∧ (t2 j).candidate_valid = true := by
              intro k hk
              obtain ⟨i, hi, hu, hki, hcv⟩ := hpost.listed k (Nat.zero_le _) hk
              exact ⟨i, List.mem_range.1 hi, hu, hki, hcv⟩
            have hne : detail.buf_list sel sn ≠ [] := by
              intro hnil
              rcases hproc 0 (List.mem_range.2 (Nat.pos_of_ne_zero hcn))
                (hslot 0 (Nat.pos_of_ne_zero hcn)) with h1 | ⟨s, hs, -⟩
              · rw [hnil] at h1
                cases h1
              · rw [hnil] at hs
                cases hs
            have hsn : sn ≠ 0 := by
              intro h0
              apply hne
              rw [h0]
              rfl
            rw [if_neg hsn] at h
            cases happ : detail.apply_loop t3 sel (List.range sn) [] edge_set with
            | error x => simp [happ] at h
            | ok r3 =>
              obtain ⟨batch, S1⟩ := r3
              simp only [happ, Except.ok.injEq] at h
              subst h
              have hsel3 : ∀ i, i ∈ List.range sn → ∃ j, j < detail.EDGE_TABLE_SIZE ∧
                  (t3 j).used = true ∧ (t3 j).key = sel i ∧ (t3 j).candidate_valid = true := by
                intro i hi
                obtain ⟨j, hj, hu, hk, hcv, -⟩ := hinv3.sel (sel i)
                  ((detail.mem_buf_list sel sn _).2 ⟨i, List.mem_range.1 hi, rfl⟩)
                exact ⟨j, hj, hu, hk, hcv⟩
              obtain ⟨hb, hS1⟩ := detail.apply_loop_spec K points tris t3 hinv3.ok sel
                (List.range sn) [] edge_set batch S1 hsel3 happ
              have hbatch : batch = (detail.buf_list sel sn).map detail.to_pair := by
                rw [hb, List.nil_append]
                unfold detail.buf_list
                rw [List.map_map]
                rfl
              right
              refine ⟨batch, rfl, ⟨tris, t3, detail.buf_list sel sn, htris, hinv3, hbatch, hne,
                ?_⟩, ?_⟩
              · intro hlen e c hc
                have hcnlt : cn < detail.MAX_EDGES_PER_TRIANG := by
                  refine lt_of_le_of_lt ?_ hlen
                  rw [← detail.buf_list_length cbuf cn]
                  apply List.Subperm.length_le
                  apply List.Nodup.subperm
                    (detail.buf_list_nodup cbuf cn
                      (fun k1 k2 h1 h2 => hpost.nodup k1 k2 (Nat.zero_le _) h1 h2))
                  intro x hx
                  obtain ⟨k, hk, hkx⟩ := (detail.mem_buf_list cbuf cn x).1 hx
                  obtain ⟨j, hj, hu, hkj, hcv⟩ := hslot k hk
                  unfold detail.candidate_edges
                  rw [List.mem_filter]
                  refine ⟨?_, ?_⟩
                  · rw [← hkx, ← hkj]
                    exact detail.candidate_mem_edge_keys tris t2 K points hpost.ok j hj hu
                  · have := hpost.ok.cand j hj hu hcv
                    rw [hkj, hkx] at this
                    rw [this]
                    rfl
                obtain ⟨k, hk, hke⟩ := hcomplete hcnlt e c hc
                have := hproc k (List.mem_range.2 hk) (hslot k hk)
                rw [hke] at this
                exact this
              · have hid : List.map (detail.edge_of ∘ detail.to_pair) (detail.buf_list sel sn) =
                    List.map sel (List.range sn) := by
                  have : detail.edge_of ∘ detail.to_pair = id := rfl
                  rw [this, List.map_id]
                  rfl
                rw [hS1, hbatch, List.map_map, hid]

/-- The loop of `compute_delaunay_batches`: the rounds it appends follow each other
from the edge set it starts with, each yields a batch as `RoundOk` says, and the
edge set at the `break` has no candidate. -/
theorem loop_spec (K : Kernel) (arrangement : ArrangementFn) (points : List Point) :
    ∀ (fuel : Nat) (g : detail.Scratch) (edge_set : List detail.Edge) (acc rounds : List detail.Round)
      (final : List detail.Edge),
      detail.delaunay_loop K arrangement points fuel g edge_set acc =
        some (Except.ok (rounds, final)) →
      ∃ new, rounds = acc ++ new ∧ detail.RoundsFrom K arrangement points edge_set new final ∧
        (∀ r, r ∈ new → detail.RoundOk K arrangement points r) ∧
        ∃ tris, compute_triangles arrangement points (detail.edges_vector_from_set final) =
            Except.ok tris ∧
          ∀ e, detail.edge_candidate K points tris e = none := by
  intro fuel
  induction fuel with
  | zero =>
    intro g edge_set acc rounds final h
    simp [detail.delaunay_loop] at h
  | succ fuel ih =>
    intro g edge_set acc rounds final h
    rw [detail.delaunay_loop] at h
    cases hr : detail.delaunay_round K arrangement points g edge_set with
    | error x => simp [hr] at h
    | ok r =>
      simp only [hr] at h
      obtain ⟨tris, htris, hcase⟩ := round_spec K arrangement points g edge_set r hr
      rcases hcase with ⟨hnone, -, hno⟩ | ⟨batch, hsome, hok, hset⟩
      · simp only [hnone, Option.some.injEq, Except.ok.injEq, Prod.mk.injEq] at h
        obtain ⟨h1, h2⟩ := h
        subst h1 h2
        exact ⟨[], by simp, rfl, fun r hr => absurd hr (List.not_mem_nil r), tris, htris, hno⟩
      · simp only [hsome] at h
        obtain ⟨new, hnew, hfrom, hall, hfinal⟩ := ih _ _ _ rounds final h
        refine ⟨{ edge_set := edge_set, batch := batch } :: new, ?_, ?_, ?_, hfinal⟩
        · rw [hnew, List.append_assoc]
          rfl
        · refine ⟨rfl, tris, htris, ?_⟩
          rw [← hset]
          exact hfrom
        · intro r2 hr2
          rcases List.mem_cons.1 hr2 with h1 | h1
          · rw [h1]
            exact hok
          · exact hall r2 h1

/-- The batches of `compute_delaunay_batches` are the batches of the rounds of its
loop. -/
theorem batches_spec (K : Kernel) (arrangement : ArrangementFn) (g : detail.Scratch)
    (points : List Point) (edges : List (Int × Int)) (fuel : Nat)
    (batches : List (List (Int × Int)))
    (h : compute_delaunay_batches K arrangement g points edges fuel = some (Except.ok batches)) :
    ∃ rounds final,
      detail.delaunay_loop K arrangement points fuel g (detail.initial_edge_set edges) [] =
        some (Except.ok (rounds, final)) ∧
      batches = rounds.map (fun r => r.batch) := by
  unfold compute_delaunay_batches at h
  cases hl : detail.delaunay_loop K arrangement points fuel g (detail.initial_edge_set edges)
      [] with
  | none => simp [hl] at h
  | some r =>
    cases r with
    | error x => simp [hl] at h
    | ok v =>
      obtain ⟨rounds, final⟩ := v
      simp only [hl, Option.some.injEq, Except.ok.injEq] at h
      exact ⟨rounds, final, rfl, h.symm⟩

namespace detail

theorem candidate_of_bucket_congr (K : Kernel) (points : List Point) (b b2 : EdgeBucket)
    (e : Edge) (h0 : b.triangles0 = b2.triangles0) (h1 : b.triangles1 = b2.triangles1) :
    candidate_of_bucket K points b e = candidate_of_bucket K points b2 e := by
  unfold candidate_of_bucket
  rw [h0, h1]

theorem scan_unchanged (K : Kernel) (points : List Point) :
    ∀ (idxs : List Nat) (t : EdgeTable) (buf : EdgeBuf) (n : Nat),
      (∀ i, i ∈ idxs → (t i).used = true → (t i).triangle_count = 2 →
        candidate_of_bucket K points (t i) (t i).key = Except.ok none) →
      scan_buckets K points idxs t buf n = Except.ok (t, buf, n) := by
  intro idxs
  induction idxs with
  | nil =>
    intro t buf n _
    rfl
  | cons idx rest ih =>
    intro t buf n h
    rw [scan_buckets]
    have hrest := ih t buf n (fun i hi => h i (List.mem_cons_of_mem _ hi))
    by_cases hskip : (t idx).used = false ∨ (t idx).triangle_count ≠ 2
    · simp only [hskip, if_true]
      exact hrest
    · simp only [hskip, if_false]
      push_neg at hskip
      rw [h idx (List.mem_cons_self _ _) (by simpa using hskip.1) hskip.2]
      exact hrest

theorem scan_none_of_zero (K : Kernel) (points : List Point) (tris : List (Int × Int × Int)) :
    ∀ (idxs : List Nat) (t : EdgeTable) (buf : EdgeBuf) (n : Nat) (t2 : EdgeTable)
      (buf2 : EdgeBuf), TableOk K points tris t → Unblocked t →
      (∀ i, i ∈ idxs → i < EDGE_TABLE_SIZE) → idxs.Nodup →
      scan_buckets K points idxs t buf n = Except.ok (t2, buf2, n) →
      ∀ i, i ∈ idxs → (t i).used = true → (t i).triangle_count = 2 →
        candidate_of_bucket K points (t i) (t i).key = Except.ok none := by
  intro idxs
  induction idxs with
  | nil =>
    intro t buf n t2 buf2 _ _ _ _ _ i hi
    cases hi
  | cons idx rest ih =>
    intro t buf n t2 buf2 hok hub hlt hnd h i hi hu hc
    have hidx := hlt idx (List.mem_cons_self _ _)
    have hlt2 : ∀ i, i ∈ rest → i < EDGE_TABLE_SIZE :=
      fun i hi => hlt i (List.mem_cons_of_mem _ hi)
    have hnd2 := (List.nodup_cons.1 hnd).2
    rw [scan_buckets] at h
    by_cases hskip : (t idx).used = false ∨ (t idx).triangle_count ≠ 2
    · simp only [hskip, if_true] at h
      rcases List.mem_cons.1 hi with heq | hmem
      · subst heq
        rcases hskip with h1 | h1
        · rw [hu] at h1
          cases h1
        · exact absurd hc h1
      · exact ih t buf n t2 buf2 hok hub hlt2 hnd2 h i hmem hu hc
    · simp only [hskip, if_false] at h
      push_neg at hskip
      have hu2 : (t idx).used = true := by simpa using hskip.1
      have hheld := hok.held idx hidx hu2
      cases hcb : candidate_of_bucket K points (t idx) (t idx).key with
      | error x => simp [hcb] at h
      | ok r =>
        cases r with
        | none =>
          simp only [hcb] at h
          rcases List.mem_cons.1 hi with heq | hmem
          · subst heq
            exact hcb
          · exact ih t buf n t2 buf2 hok hub hlt2 hnd2 h i hmem hu hc
        | some c =>
          exfalso
          simp only [hcb] at h
          have hr := candidate_of_bucket_spec K points tris (t idx) (t idx).key _ hskip.2
            hheld.1 hcb
          obtain ⟨hok1, hub1, -⟩ := scan_mark_ok K points tris idx t c hok hub hr false
            (Or.inl rfl)
          by_cases hcap : n + 1 ≥ MAX_EDGES_PER_TRIANG
          · simp only [hcap, if_true, Except.ok.injEq, Prod.mk.injEq] at h
            omega
          · simp only [hcap, if_false] at h
            have := (scan_spec K points tris rest _ _ _ t2 buf2 n hok1 hub1 hlt2 hnd2 h).le
            omega

end detail

/-- A round that ends the loop ends it whatever the scratch arrays hold. -/
theorem round_none_any_scratch (K : Kernel) (arrangement : ArrangementFn) (points : List Point)
    (g g2 : detail.Scratch) (edge_set : List detail.Edge) (r : detail.RoundResult)
    (h : detail.delaunay_round K arrangement points g edge_set = Except.ok r)
    (hnone : r.batch = none) :
    ∃ r2, detail.delaunay_round K arrangement points g2 edge_set = Except.ok r2 ∧
      r2.batch = none ∧ r2.edge_set = edge_set := by
  obtain ⟨tris, htris, hcase⟩ := round_spec K arrangement points g edge_set r h
  have hno : ∀ e, detail.edge_candidate K points tris e = none := by
    rcases hcase with ⟨-, -, hno⟩ | ⟨batch, hsome, -, -⟩
    · exact hno
    · rw [hnone] at hsome
      cases hsome
  unfold detail.delaunay_round at h
  simp only [htris] at h
  cases hrec : detail.record_triangles tris (detail.clear_edge_table g.g_edge_table) with
  | error x => simp [hrec] at h
  | ok t1 =>
    simp only [hrec] at h
    have hinv : detail.RecInv (detail.insertions tris) t1 := by
      simpa using detail.record_triangles_recInv tris [] _ t1 (detail.recInv_clear _) hrec
    obtain ⟨hok1, hub1, -⟩ := detail.tableOk_of_recInv K points tris t1 hinv
    cases hscan : detail.scan_buckets K points (List.range detail.EDGE_TABLE_SIZE) t1
        g.g_candidate_order_buf 0 with
    | error x => simp [hscan] at h
    | ok r1 =>
      obtain ⟨t2, cbuf, cn⟩ := r1
      have hpost := detail.scan_spec K points tris _ t1 _ 0 t2 cbuf cn hok1 hub1
        (fun i hi => List.mem_range.1 hi) (List.nodup_range _) hscan
      have hcn : cn = 0 := by
        by_contra hne
        obtain ⟨i, hi, hu, -, hcv⟩ := hpost.listed 0 (le_refl 0) (Nat.pos_of_ne_zero hne)
        have := hpost.ok.cand i (List.mem_range.1 hi) hu hcv
        rw [hno] at this
        cases this
      subst hcn
      have hz := detail.scan_none_of_zero K points tris _ t1 _ 0 t2 cbuf hok1 hub1
        (fun i hi => List.mem_range.1 hi) (List.nodup_range _) hscan
      -- the second call
      obtain ⟨s1, hrec2, hinv2⟩ := detail.record_total tris g2.g_edge_table
        (detail.record_capacity tris _ t1 hrec)
      obtain ⟨hok2, hub2, -⟩ := detail.tableOk_of_recInv K points tris s1 hinv2
      have hscan2 : detail.scan_buckets K points (List.range detail.EDGE_TABLE_SIZE) s1
          g2.g_candidate_order_buf 0 = Except.ok (s1, g2.g_candidate_order_buf, 0) := by
        apply detail.scan_unchanged
        intro i hi hu hc
        have hi2 := List.mem_range.1 hi
        have hheld2 := hok2.held i hi2 hu
        obtain ⟨p, hp, hpe⟩ := List.mem_map.1 (hok2.inserted i hi2 hu)
        obtain ⟨j, hj, huj, hkj⟩ := hok1.present p hp
        have hheld1 := hok1.held j hj huj
        rw [hkj, hpe] at hheld1
        rw [detail.bucket_tris_of_two _ hc] at hheld2
        rw [← hheld2.1] at hheld1
        obtain ⟨hc1, h0, h1⟩ := detail.bucket_tris_two (t1 j) _ _ hheld1.2 hheld1.1
        have := hz j (List.mem_range.2 hj) huj hc1
        rw [hkj, hpe] at this
        rw [← this]
        exact detail.candidate_of_bucket_congr K points _ _ _ h0.symm h1.symm
      refine ⟨{ batch := none, edge_set := edge_set,
                scratch := { g2 with g_edge_table := s1 } }, ?_, rfl, rfl⟩
      unfold detail.delaunay_round
      simp only [htris, hrec2, hscan2]
      rfl

namespace detail

theorem set_insert_ok (s : List Edge) (e : Edge) (h : EdgeSetOk s) (he : e.first ≤ e.second) :
    EdgeSetOk (set_insert s e) := by
  unfold set_insert
  split_ifs with hm
  · exact h
  · refine ⟨?_, ?_⟩
    · rw [List.nodup_append]
      refine ⟨h.1, List.nodup_singleton e, ?_⟩
      intro a ha hb
      rw [List.mem_singleton] at hb
      exact hm (hb ▸ ha)
    · intro x hx
      rcases List.mem_append.1 hx with hx | hx
      · exact h.2 x hx
      · rw [List.mem_singleton] at hx
        rw [hx]
        exact he

theorem set_erase_ok (s : List Edge) (e : Edge) (h : EdgeSetOk s) : EdgeSetOk (set_erase s e) :=
  ⟨h.1.filter _, fun x hx => h.2 x (List.mem_filter.1 hx).1⟩

theorem initial_edge_set_ok (edges : List (Int × Int)) : EdgeSetOk (initial_edge_set edges) := by
  unfold initial_edge_set
  have key : ∀ (l : List (Int × Int)) (acc : List Edge), EdgeSetOk acc →
      EdgeSetOk (l.foldl (fun s p => set_insert s (normalize_edge p.1 p.2)) acc) := by
    intro l
    induction l with
    | nil =>
      intro acc h
      exact h
    | cons p rest ih =>
      intro acc h
      exact ih _ (set_insert_ok acc _ h (normalize_edge_le _ _))
  exact key edges [] ⟨List.nodup_nil, fun e he => absurd he (List.not_mem_nil e)⟩

theorem flip_edges_ok (K : Kernel) (points : List Point) (tris : List (Int × Int × Int))
    (S : List Edge) : ∀ (s : List Edge), EdgeSetOk s → EdgeSetOk (flip_edges K points tris S s) := by
  unfold flip_edges
  induction S with
  | nil =>
    intro s h
    exact h
  | cons x rest ih =>
    intro s h
    rw [List.foldl_cons]
    apply ih
    cases hc : edge_candidate K points tris x with
    | none => exact h
    | some c =>
      obtain ⟨A, B, -, -, -, -, hp, -, -⟩ := edge_candidate_some K points tris x c hc
      refine set_insert_ok _ _ (set_erase_ok s x h) ?_
      rw [hp]
      exact normalize_edge_le _ _

theorem roundsFrom_ok (K : Kernel) (arrangement : ArrangementFn) (points : List Point) :
    ∀ (rounds : List Round) (s final : List Edge), EdgeSetOk s →
      RoundsFrom K arrangement points s rounds final → EdgeSetOk final := by
  intro rounds
  induction rounds with
  | nil =>
    intro s final h hr
    unfold RoundsFrom at hr
    rw [hr]
    exact h
  | cons r rest ih =>
    intro s final h hr
    unfold RoundsFrom at hr
    obtain ⟨-, tris, -, hrest⟩ := hr
    exact ih _ final (flip_edges_ok K points tris _ s h) hrest

/-- The edge set that `compute_delaunay_batches` builds from the vector of an edge
set is this edge set. -/
theorem initial_of_vector (s : List Edge) (h : EdgeSetOk s) :
    initial_edge_set (edges_vector_from_set s) = s := by
  unfold initial_edge_set edges_vector_from_set
  have key : ∀ (l acc : List Edge), (acc ++ l).Nodup → (∀ e, e ∈ l → e.first ≤ e.second) →
      (l.map (fun edge => (edge.first, edge.second))).foldl
        (fun s p => set_insert s (normalize_edge p.1 p.2)) acc = acc ++ l := by
    intro l
    induction l with
    | nil =>
      intro acc _ _
      simp
    | cons x rest ih =>
      intro acc hnd hle
      rw [List.map_cons, List.foldl_cons]
      have hx : normalize_edge x.first x.second = x :=
        normalize_edge_self x (hle x (List.mem_cons_self _ _))
      simp only [hx]
      have hnot : x ∉ acc := by
        intro hm
        rw [List.nodup_append] at hnd
        exact hnd.2.2 hm (List.mem_cons_self _ _)
      have hins : set_insert acc x = acc ++ [x] := by
        unfold set_insert
        rw [if_neg hnot]
      rw [hins, ih (acc ++ [x]) (by simpa using hnd)
        (fun e he => hle e (List.mem_cons_of_mem _ he))]
      simp
  have := key s [] (by simpa using h.1) h.2
  simpa using this

end detail

/-- A round on an edge set without candidate ends the loop, when the triangles
have three different corners each and at most as many distinct edges as the table
has slots. -/
theorem round_none_total (K : Kernel) (arrangement : ArrangementFn) (points : List Point)
    (g : detail.Scratch) (edge_set : List detail.Edge) (tris : List (Int × Int × Int))
    (htris : compute_triangles arrangement points (detail.edges_vector_from_set edge_set) =
      Except.ok tris)
    (hcap : (detail.edge_keys tris).length ≤ detail.EDGE_TABLE_SIZE)
    (hd : detail.NonDegenerate tris)
    (hno : ∀ e, detail.edge_candidate K points tris e = none) :
    ∃ r, detail.delaunay_round K arrangement points g edge_set = Except.ok r ∧
      r.batch = none ∧ r.edge_set = edge_set := by
  obtain ⟨t1, hrec, hinv⟩ := detail.record_total tris g.g_edge_table hcap
  obtain ⟨hok1, hub1, -⟩ := detail.tableOk_of_recInv K points tris t1 hinv
  have hscan : detail.scan_buckets K points (List.range detail.EDGE_TABLE_SIZE) t1
      g.g_candidate_order_buf 0 = Except.ok (t1, g.g_candidate_order_buf, 0) := by
    apply detail.scan_unchanged
    intro i hi hu hc
    have hi2 := List.mem_range.1 hi
    have hheld := hok1.held i hi2 hu
    obtain ⟨r, hr⟩ := detail.candidate_of_bucket_total K points tris hd (t1 i) (t1 i).key hc
      hheld.1
    have := detail.candidate_of_bucket_spec K points tris (t1 i) (t1 i).key r hc hheld.1 hr
    rw [hno] at this
    rw [hr, ← this]
  refine ⟨{ batch := none, edge_set := edge_set,
            scratch := { g with g_edge_table := t1 } }, ?_, rfl, rfl⟩
  unfold detail.delaunay_round
  simp only [htris, hrec, hscan]
  rfl

/-- The loop of `compute_delaunay_batches` stops in the round in which a round
ends it. -/
theorem loop_of_round_none (K : Kernel) (arrangement : ArrangementFn) (points : List Point)
    (g : detail.Scratch) (edge_set : List detail.Edge) (acc : List detail.Round) (fuel : Nat)
    (r : detail.RoundResult)
    (h : detail.delaunay_round K arrangement points g edge_set = Except.ok r)
    (hnone : r.batch = none) :
    detail.delaunay_loop K arrangement points (fuel + 1) g edge_set acc =
      some (Except.ok (acc, edge_set)) := by
  rw [detail.delaunay_loop]
  simp only [h, hnone]

/-! ## The unit square -/

theorem unitSquare_triangles_length (E : List (Int × Int)) (tris : List (Int × Int × Int))
    (h : compute_triangles squareArrangement (squarePoints 0 0 1 0) E = Except.ok tris) :
    tris = [(0, 1, 2), (0, 2, 3)] ∨ tris = [(0, 1, 3), (1, 2, 3)] := by
  by_cases hb : E.all (edge_in_bounds (squarePoints 0 0 1 0)) = true
  · rw [unitSquare_compute_triangles E hb] at h
    split_ifs at h
    · left
      simpa using h.symm
    · right
      simpa using h.symm
  · simp [compute_triangles, build_arrangement_for_triangles, hb] at h

theorem unitSquare_atMostTwo (E : List (Int × Int)) (tris : List (Int × Int × Int))
    (h : compute_triangles squareArrangement (squarePoints 0 0 1 0) E = Except.ok tris) :
    detail.AtMostTwo tris := by
  apply detail.atMostTwo_of_length
  rcases unitSquare_triangles_length E tris h with h | h <;> rw [h] <;> decide

theorem unitSquare_initial :
    detail.edges_vector_from_set (detail.initial_edge_set squareEdges) =
      [(0, 1), (1, 2), (2, 3), (0, 3), (0, 2)] := by
  decide

theorem unitSquare_round_triangles :
    compute_triangles squareArrangement (squarePoints 0 0 1 0)
      (detail.edges_vector_from_set (detail.initial_edge_set squareEdges)) =
      Except.ok squareTriangles := by
  rw [unitSquare_initial, unitSquare_compute_triangles _ (by decide)]
  simp [squareTriangles]

theorem unitSquare_no_violation :
    violates_local_delaunay exactKernel (pointAt (squarePoints 0 0 1 0) 0)
      (pointAt (squarePoints 0 0 1 0) 2) (pointAt (squarePoints 0 0 1 0) 1)
      (pointAt (squarePoints 0 0 1 0) 3) = false := by
  simp [violates_local_delaunay, exactKernel, pointAt, squarePoints, signOf, orient,
    inCircleDet]
  norm_num
  decide

/-- The split unit square has no candidate: its four corners lie on one circle. -/
theorem unitSquare_no_candidate (e : detail.Edge) :
    detail.edge_candidate exactKernel (squarePoints 0 0 1 0) squareTriangles e = none := by
  cases hc : detail.edge_candidate exactKernel (squarePoints 0 0 1 0) squareTriangles e with
  | none => rfl
  | some c =>
    exfalso
    obtain ⟨A, B, hrec, hA, hB, -, -, -, hv⟩ :=
      detail.edge_candidate_some exactKernel (squarePoints 0 0 1 0) squareTriangles e c hc
    have hf := detail.filter_of_recorded squareTriangles e A B c.opp1
      (detail.atMostTwo_of_length squareTriangles (by decide) e) hrec hA
    have hlen : (squareTriangles.filter
        (fun T => decide (e ∈ detail.tri_edges (detail.to_triangle T)))).length = 2 := by
      rw [hf]
      rfl
    have hall : squareTriangles.filter
        (fun T => decide (e ∈ detail.tri_edges (detail.to_triangle T))) = squareTriangles :=
      List.Sublist.eq_of_length (List.filter_sublist _) hlen
    rw [hall] at hf
    have h1 : e ∈ detail.tri_edges (0, 1, 2) := by
      have := (List.filter_eq_self.1 hall) (0, 1, 2) (by simp [squareTriangles])
      simpa [detail.to_triangle] using this
    have h2 : e ∈ detail.tri_edges (0, 2, 3) := by
      have := (List.filter_eq_self.1 hall) (0, 2, 3) (by simp [squareTriangles])
      simpa [detail.to_triangle] using this
    have he : e = { first := 0, second := 2 } := by
      simp only [detail.tri_edges, detail.normalize_edge, List.mem_cons, List.mem_singleton,
        List.not_mem_nil, or_false] at h1 h2
      norm_num at h1 h2
      rcases h1 with h1 | h1 | h1 <;> rcases h2 with h2 | h2 | h2 <;>
        first
        | exact h1
        | exact h2
        | (rw [h1] at h2; simp at h2)
    simp only [squareTriangles, List.cons.injEq, and_true] at hf
    obtain ⟨hA2, hB2⟩ := hf
    subst he
    rw [← hA2] at hA
    rw [← hB2] at hB
    have o1 : c.opp1 = 1 := by
      simp [detail.opposite_vertex] at hA
      exact hA.symm
    have o2 : c.opp2 = 3 := by
      simp [detail.opposite_vertex] at hB
      exact hB.symm
    rw [o1, o2, unitSquare_no_violation] at hv
    cases hv

theorem batches_of_loop (K : Kernel) (arrangement : ArrangementFn) (g : detail.Scratch)
    (points : List Point) (edges : List (Int × Int)) (fuel : Nat) (rounds : List detail.Round)
    (final : List detail.Edge)
    (h : detail.delaunay_loop K arrangement points fuel g (detail.initial_edge_set edges) [] =
      some (Except.ok (rounds, final))) :
    compute_delaunay_batches K arrangement g points edges fuel =
      some (Except.ok (rounds.map (fun r => r.batch))) := by
  unfold compute_delaunay_batches
  rw [h]

/-- On the split unit square `compute_delaunay_batches` returns no batch. -/
theorem unitSquare_batches (g : detail.Scratch) (fuel : Nat) :
    detail.delaunay_loop exactKernel squareArrangement (squarePoints 0 0 1 0) (fuel + 1) g
        (detail.initial_edge_set squareEdges) [] =
      some (Except.ok ([], detail.initial_edge_set squareEdges)) ∧
    compute_delaunay_batches exactKernel squareArrangement g (squarePoints 0 0 1 0) squareEdges
      (fuel + 1) = some (Except.ok []) := by
  obtain ⟨r, hr, hnone, -⟩ := round_none_total exactKernel squareArrangement
    (squarePoints 0 0 1 0) g (detail.initial_edge_set squareEdges) squareTriangles
    unitSquare_round_triangles (le_of_lt squareTriangles_capacity)
    squareTriangles_nonDegenerate unitSquare_no_candidate
  have hl := loop_of_round_none exactKernel squareArrangement (squarePoints 0 0 1 0) g
    (detail.initial_edge_set squareEdges) [] fuel r hr hnone
  exact ⟨hl, batches_of_loop _ _ _ _ _ _ _ _ hl⟩

namespace detail

theorem selInv_nodup (K : Kernel) (points : List Point) (tris : List (Int × Int × Int))
    (t : EdgeTable) (S : List Edge) (hinv : SelInv K points tris t S) : S.Nodup :=
  List.Pairwise.imp (fun h => h.1) hinv.pairwise

theorem to_pair_injective : Function.Injective to_pair := by
  intro a b h
  cases a
  cases b
  simp only [to_pair, Prod.mk.injEq] at h
  rw [h.1, h.2]

theorem no_candidate_explicit (K : Kernel) (points : List Point)
    (tris : List (Int × Int × Int)) (e : Edge)
    (h : edge_candidate K points tris e = none) (A B : Tri) (o1 o2 : Int)
    (hf : tris.filter (fun T => decide (e ∈ tri_edges (to_triangle T))) = [A, B])
    (hA : opposite_vertex A e = Except.ok o1) (hB : opposite_vertex B e = Except.ok o2) :
    ¬(do_cross K.intersection
        { source := pointAt points e.first, target := pointAt points e.second }
        { source := pointAt points o1, target := pointAt points o2 } = true ∧
      violates_local_delaunay K (pointAt points e.first) (pointAt points e.second)
        (pointAt points o1) (pointAt points o2) = true) := by
  intro hc
  rw [edge_candidate_of K points tris e A B o1 o2 (recorded_of_filter tris e A B o1 o2 hf hA hB)
    hA hB, if_pos hc] at h
  cases h

end detail

/-- The loop of `compute_delaunay_batches` returns after a round that ends it, run
on the final edge set. -/
theorem loop_last (K : Kernel) (arrangement : ArrangementFn) (points : List Point) :
    ∀ (fuel : Nat) (g : detail.Scratch) (edge_set : List detail.Edge) (acc rounds : List detail.Round)
      (final : List detail.Edge),
      detail.delaunay_loop K arrangement points fuel g edge_set acc =
        some (Except.ok (rounds, final)) →
      ∃ g2 r, detail.delaunay_round K arrangement points g2 final = Except.ok r ∧
        r.batch = none := by
  intro fuel
  induction fuel with
  | zero =>
    intro g edge_set acc rounds final h
    simp [detail.delaunay_loop] at h
  | succ fuel ih =>
    intro g edge_set acc rounds final h
    rw [detail.delaunay_loop] at h
    cases hr : detail.delaunay_round K arrangement points g edge_set with
    | error x => simp [hr] at h
    | ok r =>
      simp only [hr] at h
      cases hb : r.batch with
      | none =>
        simp only [hb, Option.some.injEq, Except.ok.injEq, Prod.mk.injEq] at h
        rw [← h.2]
        exact ⟨g, r, hr, hb⟩
      | some batch =>
        simp only [hb] at h
        exact ih _ _ _ rounds final h

/-- In a state that satisfies invariant 2, a failure of `flip` after its two checks
comes from `opposite_vertex`. -/
theorem flip_error_of_invariant2 (I : IntersectionFn) (s : FlipPartnerMapNative)
    (edge : Int × Int) (e : Err) (hinv : Invariant2 I s)
    (h : (flip I s edge).1 = Except.error e) :
    e = Err.edgeNotFound ∨ e = Err.notFlippable ∨ e = Err.noOppositeVertex := by
  unfold flip at h
  by_cases hmem : normalize_edge edge ∈ s.edges_
  · simp only [hmem, not_true_eq_false, if_false] at h
    cases hf : find s.flip_map_ (normalize_edge edge) with
    | none =>
      simp only [hf, Except.error.injEq] at h
      exact Or.inr (Or.inl h.symm)
    | some new_edge =>
      obtain ⟨t0, t1, o0, o1, hett, -⟩ := (hinv _ _).1 hf
      simp only [hf, hett] at h
      right
      right
      simp only [andThen_error] at h
      rcases h with h | ⟨s3, -, h | ⟨s4, -, h | ⟨s5, -, h | ⟨s6, -, h | ⟨s8, -, h⟩⟩⟩⟩⟩
      · exact update_incident_error I _ _ _ _ e h
      · exact update_incident_error I _ _ _ _ e h
      · exact update_incident_error I _ _ _ _ e h
      · exact update_incident_error I _ _ _ _ e h
      · exact (update_flip_partner_error I _ _ e h).1
      · simp at h
  · simp only [hmem, not_false_eq_true, if_true, Except.error.injEq] at h
    exact Or.inl h.symm

namespace detail

/-- The used buckets of a table built by insertions form probing chains and hold
exactly the edges inserted. -/
theorem inserted_inv (t : EdgeTable) (es : List Edge) (h : Inserted t es) :
    Chain t ∧
    (∀ i, i < EDGE_TABLE_SIZE → (t i).used = true → (t i).key ∈ es) ∧
    (∀ e, e ∈ es → ∃ i, i < EDGE_TABLE_SIZE ∧ (t i).used = true ∧ (t i).key = e) := by
  induction h with
  | clear t0 =>
    have h0 := recInv_clear t0
    refine ⟨h0.chain, fun i hi hu => ?_, fun e he => absurd he (List.not_mem_nil e)⟩
    have := h0.inserted i hi hu
    simp at this
  | insert t t2 es e i h hi ih =>
    obtain ⟨hc, hin, hpr⟩ := ih
    obtain ⟨hlt, hcase, hc2⟩ := insert_ok t t2 e i hi
    refine ⟨hc2 hc, ?_, ?_⟩
    · intro k hk hu
      rcases hcase with ⟨-, -, ht⟩ | ⟨-, ht, -⟩
      · rw [ht] at hu ⊢
        exact List.mem_cons_of_mem _ (hin k hk hu)
      · rw [ht] at hu ⊢
        by_cases hki : k = i
        · subst hki
          rw [Function.update_same]
          exact List.mem_cons_self _ _
        · rw [Function.update_noteq hki] at hu ⊢
          exact List.mem_cons_of_mem _ (hin k hk hu)
    · intro e2 he2
      rcases hcase with ⟨hu, hk, ht⟩ | ⟨hfree, ht, -⟩
      · rw [ht]
        rcases List.mem_cons.1 he2 with he | he
        · exact ⟨i, hlt, hu, by rw [hk, he]⟩
        · exact hpr e2 he
      · rw [ht]
        rcases List.mem_cons.1 he2 with he | he
        · refine ⟨i, hlt, ?_, ?_⟩
          · rw [Function.update_same]
            rfl
          · rw [Function.update_same, he]
            rfl
        · obtain ⟨k, hk, hu, hkey⟩ := hpr e2 he
          by_cases hki : k = i
          · subst hki
            rw [hfree] at hu
            cases hu
          · exact ⟨k, hk, by rw [Function.update_noteq hki]; exact hu,
              by rw [Function.update_noteq hki]; exact hkey⟩
  | write t es i b h hu hk ih =>
    obtain ⟨hc, hin, hpr⟩ := ih
    have hke := keysEq_update t i b hu hk
    refine ⟨chain_congr _ _ hke hc, ?_, ?_⟩
    · intro k hk2 hu2
      rw [(hke k).1] at hu2
      rw [(hke k).2]
      exact hin k hk2 hu2
    · intro e he
      obtain ⟨k, hk2, hu2, hkey⟩ := hpr e he
      exact ⟨k, hk2, by rw [(hke k).1]; exact hu2, by rw [(hke k).2]; exact hkey⟩

/-- The call `insert_bucket` for a key that a used bucket holds returns that bucket
and leaves the table as it is. -/
theorem insert_existing (t : EdgeTable) (hc : Chain t) (i : Nat) (hi : i < EDGE_TABLE_SIZE)
    (hu : (t i).used = true) : insert_bucket t (t i).key = Except.ok (t, i) := by
  obtain ⟨⟨t2, k⟩, hr⟩ := insert_total t (t i).key (Or.inl ⟨i, hi, hu, rfl⟩)
  obtain ⟨hk, hcase, -⟩ := insert_ok t t2 (t i).key k hr
  rcases hcase with ⟨hu2, hkey, ht⟩ | ⟨-, -, hno⟩
  · have := chain_key_inj t hc k i hk hi hu2 hu hkey
    rw [hr, ht, this]
  · exact absurd rfl (hno hc i hi hu)

end detail

theorem collinear_iff (a b c : Point) : Collinear a b c ↔ orient a b c = 0 := by
  constructor
  · rintro ⟨α, β, γ, hne, ha, hb, hc⟩
    have h1 : α * orient a b c = 0 := by
      unfold orient
      linear_combination (c.y - a.y) * (hb - ha) - (b.y - a.y) * (hc - ha)
    have h2 : β * orient a b c = 0 := by
      unfold orient
      linear_combination (b.x - a.x) * (hc - ha) - (c.x - a.x) * (hb - ha)
    rcases hne with hne | hne
    · exact (mul_eq_zero.1 h1).resolve_left hne
    · exact (mul_eq_zero.1 h2).resolve_left hne
  · intro h
    unfold orient at h
    by_cases hb : b.x - a.x ≠ 0 ∨ b.y - a.y ≠ 0
    · refine ⟨-(b.y - a.y), b.x - a.x, -(b.y - a.y) * a.x + (b.x - a.x) * a.y, ?_, rfl, ?_, ?_⟩
      · rcases hb with hb | hb
        · exact Or.inr hb
        · exact Or.inl (neg_ne_zero.2 hb)
      · ring
      · linear_combination h
    · rw [not_or, not_not, not_not] at hb
      obtain ⟨hbx, hby⟩ := hb
      by_cases hc : c.x - a.x ≠ 0 ∨ c.y - a.y ≠ 0
      · refine ⟨-(c.y - a.y), c.x - a.x, -(c.y - a.y) * a.x + (c.x - a.x) * a.y, ?_, rfl, ?_, ?_⟩
        · rcases hc with hc | hc
          · exact Or.inr hc
          · exact Or.inl (neg_ne_zero.2 hc)
        · linear_combination (-(c.y - a.y)) * hbx + (c.x - a.x) * hby
        · ring
      · rw [not_or, not_not, not_not] at hc
        obtain ⟨hcx, hcy⟩ := hc
        refine ⟨1, 0, a.x, Or.inl one_ne_zero, by ring, ?_, ?_⟩
        · linear_combination hbx
        · linear_combination hcx

/-- The in-circle determinant is the orientation determinant times the power of the
fourth point with respect to the circle through the first three. -/
theorem inCircleDet_eq (a b c d o : Point) (h1 : sqDist o a = sqDist o b)
    (h2 : sqDist o a = sqDist o c) :
    inCircleDet a b c d = orient a b c * (sqDist o a - sqDist o d) := by
  unfold sqDist at h1 h2
  unfold inCircleDet orient sqDist
  linear_combination
    ((a.x - d.x) * (c.y - d.y) - (c.x - d.x) * (a.y - d.y)) * h1 -
      ((a.x - d.x) * (b.y - d.y) - (b.x - d.x) * (a.y - d.y)) * h2

theorem inCircleDet_swap (a b c d : Point) : inCircleDet b a c d = -inCircleDet a b c d := by
  unfold inCircleDet
  ring

theorem orient_swap (a b c : Point) : orient b a c = -orient a b c := by
  unfold orient
  ring

theorem circumcenter_spec (a b c : Point) (h : orient a b c ≠ 0) :
    sqDist (circumcenter a b c) a = sqDist (circumcenter a b c) b ∧
    sqDist (circumcenter a b c) a = sqDist (circumcenter a b c) c := by
  have h2 : (2 : ℚ) * orient a b c ≠ 0 := mul_ne_zero two_ne_zero h
  constructor
  · unfold sqDist circumcenter
    simp only
    generalize hD : orient a b c = D at h h2
    unfold orient at hD
    field_simp
    rw [← hD]
    ring
  · unfold sqDist circumcenter
    simp only
    generalize hD : orient a b c = D at h h2
    unfold orient at hD
    field_simp
    rw [← hD]
    ring

theorem signOf_eq_positive (q : ℚ) : signOf q = Sign.positive ↔ 0 < q := by
  unfold signOf
  split_ifs with h1 h2
  · simp only [false_iff, not_lt, reduceCtorEq]
    exact le_of_lt h1
  · simp only [false_iff, not_lt, reduceCtorEq]
    exact le_of_eq h2
  · simp only [true_iff]
    exact lt_of_le_of_ne (not_lt.1 h1) (Ne.symm h2)

/-- The value of `violates_local_delaunay` under the exact kernel, through the
determinants. -/
theorem violates_exact (a b c d : Point) :
    violates_local_delaunay exactKernel a b c d = true ↔
      (0 < orient a b c ∧ 0 < inCircleDet a b c d) ∨
      (orient a b c < 0 ∧ inCircleDet a b c d < 0) := by
  have hdef : violates_local_delaunay exactKernel a b c d =
      (match signOf (orient a b c) with
      | Sign.zero => false
      | Sign.negative => decide (signOf (inCircleDet b a c d) = Sign.positive)
      | Sign.positive => decide (signOf (inCircleDet a b c d) = Sign.positive)) := rfl
  rw [hdef]
  rcases lt_trichotomy (orient a b c) 0 with h | h | h
  · have hs : signOf (orient a b c) = Sign.negative := by simp [signOf, h]
    rw [hs]
    simp only [decide_eq_true_eq, signOf_eq_positive, inCircleDet_swap a b c d]
    constructor
    · intro hp
      exact Or.inr ⟨h, by linarith⟩
    · rintro (⟨hp, -⟩ | ⟨-, hn⟩)
      · linarith
      · linarith
  · have hs : signOf (orient a b c) = Sign.zero := by simp [signOf, h]
    rw [hs]
    simp [h]
  · have hs : signOf (orient a b c) = Sign.positive := (signOf_eq_positive _).2 h
    rw [hs]
    simp only [decide_eq_true_eq, signOf_eq_positive]
    constructor
    · intro hp
      exact Or.inl ⟨h, hp⟩
    · rintro (⟨-, hp⟩ | ⟨hn, -⟩)
      · exact hp
      · linarith

/-- The batch of `sample_parallel_batch` lists each edge once. -/
theorem sample_nodup (K : Kernel) (R : Rng) (arrangement : ArrangementFn) (g : detail.Scratch)
    (points : List Point) (edges candidates offenders : List (Int × Int)) (p : R.Real)
    (seed : Nat) (batch : List (Int × Int))
    (h : sample_parallel_batch K R arrangement g points edges candidates offenders p seed =
      Except.ok batch) : batch.Nodup := by
  cases htris : compute_triangles arrangement points edges with
  | error x =>
    unfold sample_parallel_batch at h
    simp [htris] at h
  | ok tris =>
    obtain ⟨-, t, S, hinv, hb, -, -⟩ := sample_spec K R arrangement g points edges candidates
      offenders p seed tris batch htris h
    rw [hb]
    exact List.Nodup.map detail.to_pair_injective (detail.selInv_nodup K points tris t S hinv)

/-- Every batch of `compute_delaunay_batches` lists each edge once. -/
theorem batches_nodup (K : Kernel) (arrangement : ArrangementFn) (g : detail.Scratch)
    (points : List Point) (edges : List (Int × Int)) (fuel : Nat)
    (batches : List (List (Int × Int)))
    (h : compute_delaunay_batches K arrangement g points edges fuel = some (Except.ok batches)) :
    ∀ b, b ∈ batches → b.Nodup := by
  obtain ⟨rounds, final, hl, hb⟩ := batches_spec K arrangement g points edges fuel batches h
  obtain ⟨new, hnew, -, hall, -⟩ := loop_spec K arrangement points fuel g _ [] rounds final hl
  rw [List.nil_append] at hnew
  subst hnew
  intro b hbm
  rw [hb] at hbm
  obtain ⟨r, hr, rfl⟩ := List.mem_map.1 hbm
  obtain ⟨tris, t, S, -, hinv, hS, -⟩ := hall r hr
  rw [hS]
  exact List.Nodup.map detail.to_pair_injective (detail.selInv_nodup K points tris t S hinv)

namespace detail

theorem resSim_cases {α β : Type} (r : α → β → Prop) (x : Except BatchErr α)
    (y : Except BatchErr β) (h : ResSim r x y) :
    (∃ e, x = Except.error e ∧ y = Except.error e) ∨
    (∃ a b, x = Except.ok a ∧ y = Except.ok b ∧ r a b) := by
  cases x with
  | error e =>
    cases y with
    | error e2 =>
      have : e = e2 := h
      exact Or.inl ⟨e, rfl, by rw [this]⟩
    | ok b => exact absurd h id
  | ok a =>
    cases y with
    | error e2 => exact absurd h id
    | ok b => exact Or.inr ⟨a, b, rfl, rfl, h⟩

theorem resSim_error {α β : Type} (r : α → β → Prop) (e : BatchErr) :
    ResSim r (Except.error e : Except BatchErr α) (Except.error e : Except BatchErr β) := rfl

theorem resSim_ok {α β : Type} (r : α → β → Prop) (a : α) (b : β) (h : r a b) :
    ResSim r (Except.ok a) (Except.ok b) := h

theorem resSim_eq {α : Type} (x y : Except BatchErr α) (h : ResSim (fun a b => a = b) x y) :
    x = y := by
  rcases resSim_cases _ x y h with ⟨e, h1, h2⟩ | ⟨a, b, h1, h2, hab⟩
  · rw [h1, h2]
  · rw [h1, h2, hab]

theorem bucketSim_refl (b : EdgeBucket) : BucketSim b b :=
  ⟨rfl, fun _ => ⟨rfl, rfl, rfl, rfl, fun _ => rfl, fun _ => rfl, fun _ => rfl⟩⟩

theorem tableSim_refl (t : EdgeTable) : TableSim t t := fun i _ => bucketSim_refl (t i)

theorem tableSim_clear (t t2 : EdgeTable) :
    TableSim (clear_edge_table t) (clear_edge_table t2) := by
  intro i hi
  simp [clear_edge_table, hi, BucketSim]

theorem tableSim_update (t t2 : EdgeTable) (i : Nat) (b b2 : EdgeBucket) (h : TableSim t t2)
    (hb : BucketSim b b2) : TableSim (Function.update t i b) (Function.update t2 i b2) := by
  intro k hk
  by_cases hki : k = i
  · subst hki
    rw [Function.update_same, Function.update_same]
    exact hb
  · rw [Function.update_noteq hki, Function.update_noteq hki]
    exact h k hk

theorem bufSim_update (n : Nat) (b b2 : EdgeBuf) (e : Edge) (h : BufSim n b b2) :
    BufSim (n + 1) (Function.update b n e) (Function.update b2 n e) := by
  intro k hk
  by_cases hkn : k = n
  · subst hkn
    rw [Function.update_same, Function.update_same]
  · rw [Function.update_noteq hkn, Function.update_noteq hkn]
    exact h k (by omega)

theorem next_slot_lt (i : Nat) : (i + 1) &&& EDGE_TABLE_MASK < EDGE_TABLE_SIZE := by
  rw [and_mask]
  exact Nat.mod_lt _ table_size_pos

theorem find_probe_sim (t t2 : EdgeTable) (h : TableSim t t2) (e : Edge) :
    ∀ f i, i < EDGE_TABLE_SIZE → find_probe t e f i = find_probe t2 e f i := by
  intro f
  induction f with
  | zero =>
    intro i _
    rfl
  | succ f ih =>
    intro i hi
    obtain ⟨hu, hrest⟩ := h i hi
    simp only [find_probe]
    rw [← hu]
    by_cases hused : (t i).used = false
    · rw [if_pos hused, if_pos hused]
    · have hut : (t i).used = true := by simpa using hused
      rw [if_neg hused, if_neg hused, (hrest hut).1, ih _ (next_slot_lt i)]

theorem find_sim (t t2 : EdgeTable) (h : TableSim t t2) (e : Edge) :
    find_bucket t e = find_bucket t2 e :=
  find_probe_sim t t2 h e _ _ (start_index_lt e)

theorem insert_probe_sim (t t2 : EdgeTable) (h : TableSim t t2) (e : Edge) :
    ∀ f i, i < EDGE_TABLE_SIZE →
      ResSim (fun r r2 => r.2 = r2.2 ∧ TableSim r.1 r2.1) (insert_probe t e f i)
        (insert_probe t2 e f i) := by
  intro f
  induction f with
  | zero =>
    intro i _
    exact resSim_error _ _
  | succ f ih =>
    intro i hi
    obtain ⟨hu, hrest⟩ := h i hi
    simp only [insert_probe]
    rw [← hu]
    by_cases hused : (t i).used = false
    · rw [if_pos hused, if_pos hused]
      refine resSim_ok _ _ _ ⟨rfl, tableSim_update t t2 i _ _ h ?_⟩
      exact ⟨rfl, fun _ => ⟨rfl, rfl, rfl, rfl, fun h1 => absurd h1 (Nat.not_succ_le_zero 0),
        fun h2 => absurd h2 (Nat.not_succ_le_zero 1), fun h3 => absurd h3 Bool.false_ne_true⟩⟩
    · have hut : (t i).used = true := by simpa using hused
      rw [if_neg hused, if_neg hused, (hrest hut).1]
      by_cases hk : (t2 i).key = e
      · rw [if_pos hk, if_pos hk]
        exact resSim_ok _ _ _ ⟨rfl, h⟩
      · rw [if_neg hk, if_neg hk]
        exact ih _ (next_slot_lt i)

theorem insert_sim (t t2 : EdgeTable) (h : TableSim t t2) (e : Edge) :
    ResSim (fun r r2 => r.2 = r2.2 ∧ TableSim r.1 r2.1) (insert_bucket t e)
      (insert_bucket t2 e) :=
  insert_probe_sim t t2 h e _ _ (start_index_lt e)

theorem insert_used (t t2 : EdgeTable) (e : Edge) (i : Nat)
    (h : insert_bucket t e = Except.ok (t2, i)) : i < EDGE_TABLE_SIZE ∧ (t2 i).used = true := by
  obtain ⟨hi, hcase, -⟩ := insert_ok t t2 e i h
  refine ⟨hi, ?_⟩
  rcases hcase with ⟨hu, -, ht⟩ | ⟨-, ht, -⟩
  · rw [ht]
    exact hu
  · rw [ht, Function.update_same]
    rfl

theorem record_edge_sim (tri : Tri) (t t2 : EdgeTable) (h : TableSim t t2) (e : Edge) :
    ResSim TableSim (record_edge tri t e) (record_edge tri t2 e) := by
  unfold record_edge
  rcases resSim_cases _ _ _ (insert_sim t t2 h e) with
    ⟨x, h1, h2⟩ | ⟨⟨ta, ia⟩, ⟨tb, ib⟩, h1, h2, hi, hs⟩
  · rw [h1, h2]
    exact resSim_error _ _
  · rw [h1, h2]
    simp only at hi hs
    subst hi
    obtain ⟨hlt, hu⟩ := insert_used t ta e ia h1
    obtain ⟨hub, hrest⟩ := hs ia hlt
    obtain ⟨hk, hb, hcv, hc, h0, h1b, hcand⟩ := hrest hu
    show ResSim TableSim
      (if (ta ia).triangle_count < 2 then
        if (ta ia).triangle_count = 0 then
          Except.ok (Function.update ta ia
            { ta ia with triangles0 := tri, triangle_count := (ta ia).triangle_count + 1 })
        else
          Except.ok (Function.update ta ia
            { ta ia with triangles1 := tri, triangle_count := (ta ia).triangle_count + 1 })
      else Except.ok ta)
      (if (tb ia).triangle_count < 2 then
        if (tb ia).triangle_count = 0 then
          Except.ok (Function.update tb ia
            { tb ia with triangles0 := tri, triangle_count := (tb ia).triangle_count + 1 })
        else
          Except.ok (Function.update tb ia
            { tb ia with triangles1 := tri, triangle_count := (tb ia).triangle_count + 1 })
      else Except.ok tb)
    rw [← hc]
    by_cases hlt2 : (ta ia).triangle_count < 2
    · rw [if_pos hlt2, if_pos hlt2]
      by_cases hz : (ta ia).triangle_count = 0
      · rw [if_pos hz, if_pos hz]
        refine resSim_ok _ _ _ (tableSim_update _ _ _ _ _ hs ?_)
        exact ⟨hub, fun _ => ⟨hk, hb, hcv, rfl, fun _ => rfl, fun h2 => by
          simp only [hz] at h2
          omega, hcand⟩⟩
      · rw [if_neg hz, if_neg hz]
        refine resSim_ok _ _ _ (tableSim_update _ _ _ _ _ hs ?_)
        exact ⟨hub, fun _ => ⟨hk, hb, hcv, rfl, fun _ => h0 (by omega), fun _ => rfl, hcand⟩⟩
    · rw [if_neg hlt2, if_neg hlt2]
      exact resSim_ok _ _ _ hs

theorem record_edges_sim (tri : Tri) :
    ∀ (es : List Edge) (t t2 : EdgeTable), TableSim t t2 →
      ResSim TableSim (record_edges tri es t) (record_edges tri es t2) := by
  intro es
  induction es with
  | nil =>
    intro t t2 h
    exact resSim_ok _ _ _ h
  | cons e es ih =>
    intro t t2 h
    simp only [record_edges]
    rcases resSim_cases _ _ _ (record_edge_sim tri t t2 h e) with
      ⟨x, h1, h2⟩ | ⟨ta, tb, h1, h2, hs⟩
    · rw [h1, h2]
      exact resSim_error _ _
    · rw [h1, h2]
      exact ih ta tb hs

theorem record_triangles_sim :
    ∀ (tris : List (Int × Int × Int)) (t t2 : EdgeTable), TableSim t t2 →
      ResSim TableSim (record_triangles tris t) (record_triangles tris t2) := by
  intro tris
  induction tris with
  | nil =>
    intro t t2 h
    exact resSim_ok _ _ _ h
  | cons T tris ih =>
    intro t t2 h
    simp only [record_triangles]
    rcases resSim_cases _ _ _ (record_edges_sim (to_triangle T) (tri_edges (to_triangle T))
      t t2 h) with ⟨x, h1, h2⟩ | ⟨ta, tb, h1, h2, hs⟩
    · rw [h1, h2]
      exact resSim_error _ _
    · rw [h1, h2]
      exact ih ta tb hs

end detail

namespace detail

theorem loopSim_ok (t t2 : EdgeTable) (buf buf2 : EdgeBuf) (n : Nat) (h : TableSim t t2)
    (hb : BufSim n buf buf2) :
    ResSim LoopSim (Except.ok (t, buf, n)) (Except.ok (t2, buf2, n)) :=
  ⟨h, rfl, hb⟩

theorem candidate_of_bucket_sim (K : Kernel) (points : List Point) (b b2 : EdgeBucket)
    (e : Edge) (h : BucketSim b b2) (hu : b.used = true) (hc : b.triangle_count = 2) :
    candidate_of_bucket K points b e = candidate_of_bucket K points b2 e := by
  obtain ⟨-, -, -, -, h0, h1, -⟩ := h.2 hu
  exact candidate_of_bucket_congr K points b b2 e (h0 (by omega)) (h1 (by omega))

theorem filter_candidates_sim (K : Kernel) (points : List Point) :
    ∀ (cands : List (Int × Int)) (t t2 : EdgeTable) (buf buf2 : EdgeBuf) (n : Nat),
      TableSim t t2 → BufSim n buf buf2 →
      ResSim LoopSim (filter_candidates K points cands t buf n)
        (filter_candidates K points cands t2 buf2 n) := by
  intro cands
  induction cands with
  | nil =>
    intro t t2 buf buf2 n h hb
    exact loopSim_ok _ _ _ _ _ h hb
  | cons q cands ih =>
    intro t t2 buf buf2 n h hb
    simp only [filter_candidates]
    rw [← find_sim t t2 h]
    cases hf : find_bucket t (normalize_edge q.1 q.2) with
    | error x => exact resSim_error _ _
    | ok r =>
      cases r with
      | none => exact ih t t2 buf buf2 n h hb
      | some idx =>
        obtain ⟨hi, hu, -⟩ := find_some t _ idx hf
        have hs := h idx hi
        obtain ⟨-, -, -, hc, -⟩ := hs.2 hu
        simp only
        by_cases hcount : (t idx).triangle_count ≠ 2
        · rw [if_pos hcount, if_pos (by rw [← hc]; exact hcount : (t2 idx).triangle_count ≠ 2)]
          exact ih t t2 buf buf2 n h hb
        · rw [if_neg hcount, if_neg (by rw [← hc]; exact hcount : ¬(t2 idx).triangle_count ≠ 2)]
          rw [← candidate_of_bucket_sim K points (t idx) (t2 idx) _ hs hu (not_not.1 hcount)]
          cases hcb : candidate_of_bucket K points (t idx) (normalize_edge q.1 q.2) with
          | error x => exact resSim_error _ _
          | ok c =>
            cases c with
            | none => exact ih t t2 buf buf2 n h hb
            | some c =>
              simp only
              have h2 : TableSim
                  (Function.update t idx { t idx with candidate_valid := true, candidate := c })
                  (Function.update t2 idx
                    { t2 idx with candidate_valid := true, candidate := c }) := by
                apply tableSim_update _ _ _ _ _ h
                obtain ⟨hk, hb2, -, hc2, h0, h1, -⟩ := hs.2 hu
                exact ⟨hs.1, fun _ => ⟨hk, hb2, rfl, hc2, h0, h1, fun _ => rfl⟩⟩
              have hb2 := bufSim_update n buf buf2 (normalize_edge q.1 q.2) hb
              by_cases hcap : n + 1 ≥ MAX_EDGES_PER_TRIANG
              · rw [if_pos hcap, if_pos hcap]
                exact loopSim_ok _ _ _ _ _ h2 hb2
              · rw [if_neg hcap, if_neg hcap]
                exact ih _ _ _ _ _ h2 hb2

theorem filter_offenders_sim (t t2 : EdgeTable) (h : TableSim t t2) :
    ∀ (offs : List (Int × Int)) (buf buf2 : EdgeBuf) (n : Nat), BufSim n buf buf2 →
      ResSim (fun r r2 => r.2 = r2.2 ∧ BufSim r.2 r.1 r2.1) (filter_offenders t offs buf n)
        (filter_offenders t2 offs buf2 n) := by
  intro offs
  induction offs with
  | nil =>
    intro buf buf2 n hb
    exact resSim_ok _ _ _ ⟨rfl, hb⟩
  | cons q offs ih =>
    intro buf buf2 n hb
    simp only [filter_offenders]
    rw [← find_sim t t2 h]
    cases hf : find_bucket t (normalize_edge q.1 q.2) with
    | error x => exact resSim_error _ _
    | ok r =>
      cases r with
      | none => exact ih buf buf2 n hb
      | some idx =>
        obtain ⟨hi, hu, -⟩ := find_some t _ idx hf
        obtain ⟨-, -, hcv, -⟩ := (h idx hi).2 hu
        simp only
        rw [← hcv]
        by_cases hv : (t idx).candidate_valid = false
        · rw [if_pos hv, if_pos hv]
          exact ih buf buf2 n hb
        · rw [if_neg hv, if_neg hv]
          have hb2 := bufSim_update n buf buf2 (normalize_edge q.1 q.2) hb
          by_cases hcap : n + 1 ≥ MAX_EDGES_PER_TRIANG
          · rw [if_pos hcap, if_pos hcap]
            exact resSim_ok _ _ _ ⟨rfl, hb2⟩
          · rw [if_neg hcap, if_neg hcap]
            exact ih _ _ _ hb2

/-- The shuffle of the first `n` entries leaves the other entries as they are. -/
theorem shuffle_frame (R : Rng) :
    ∀ (n : Nat) (buf : EdgeBuf) (rng : R.State) (k : Nat), n ≤ k →
      (shuffle R n buf rng).1 k = buf k := by
  intro n
  induction n with
  | zero =>
    intro buf rng k _
    rfl
  | succ n ih =>
    intro buf rng k hk
    simp only [shuffle]
    by_cases h1 : n + 1 > 1
    · rw [if_pos h1]
      rw [ih _ _ k (by omega)]
      have hj := R.uniform_int_le n rng
      rw [Function.update_noteq (by omega), Function.update_noteq (by omega)]
    · rw [if_neg h1]

theorem shuffle_sim (R : Rng) :
    ∀ (n : Nat) (buf buf2 : EdgeBuf) (rng : R.State), BufSim n buf buf2 →
      BufSim n (shuffle R n buf rng).1 (shuffle R n buf2 rng).1 ∧
      (shuffle R n buf rng).2 = (shuffle R n buf2 rng).2 := by
  intro n
  induction n with
  | zero =>
    intro buf buf2 rng hb
    exact ⟨fun k hk => absurd hk (Nat.not_lt_zero k), rfl⟩
  | succ n ih =>
    intro buf buf2 rng hb
    simp only [shuffle]
    by_cases h1 : n + 1 > 1
    · rw [if_pos h1, if_pos h1]
      have hj := R.uniform_int_le n rng
      have hb1 : BufSim (n + 1)
          (Function.update (Function.update buf n (buf (R.uniform_int n rng).1))
            (R.uniform_int n rng).1 (buf n))
          (Function.update (Function.update buf2 n (buf2 (R.uniform_int n rng).1))
            (R.uniform_int n rng).1 (buf2 n)) := by
        intro k hk
        rw [hb n (by omega), hb (R.uniform_int n rng).1 (by omega)]
        by_cases hkj : k = (R.uniform_int n rng).1
        · rw [hkj, Function.update_same, Function.update_same]
        · rw [Function.update_noteq hkj, Function.update_noteq hkj]
          by_cases hkn : k = n
          · rw [hkn, Function.update_same, Function.update_same]
          · rw [Function.update_noteq hkn, Function.update_noteq hkn]
            exact hb k hk
      obtain ⟨ih1, ih2⟩ := ih _ _ (R.uniform_int n rng).2 (fun k hk => hb1 k (by omega))
      refine ⟨fun k hk => ?_, ih2⟩
      by_cases hkn : k < n
      · exact ih1 k hkn
      · rw [shuffle_frame R n _ _ k (by omega), shuffle_frame R n _ _ k (by omega)]
        exact hb1 k hk
    · rw [if_neg h1, if_neg h1]
      exact ⟨hb, rfl⟩

theorem block_conflicts_sim :
    ∀ (cs : List Edge) (t t2 : EdgeTable), TableSim t t2 →
      ResSim TableSim (block_conflicts cs t) (block_conflicts cs t2) := by
  intro cs
  induction cs with
  | nil =>
    intro t t2 h
    exact resSim_ok _ _ _ h
  | cons c cs ih =>
    intro t t2 h
    simp only [block_conflicts]
    rw [← find_sim t t2 h]
    cases hf : find_bucket t c with
    | error x => exact resSim_error _ _
    | ok r =>
      cases r with
      | none => exact ih t t2 h
      | some idx =>
        obtain ⟨hi, hu, -⟩ := find_some t _ idx hf
        have hs := h idx hi
        apply ih
        apply tableSim_update _ _ _ _ _ h
        obtain ⟨hk, -, hcv, hc, h0, h1, hcand⟩ := hs.2 hu
        exact ⟨hs.1, fun _ => ⟨hk, rfl, hcv, hc, h0, h1, hcand⟩⟩

theorem select_edge_sim (t t2 : EdgeTable) (sel sel2 : EdgeBuf) (n : Nat) (e : Edge)
    (h : TableSim t t2) (hb : BufSim n sel sel2) :
    ResSim LoopSim (select_edge t sel n e) (select_edge t2 sel2 n e) := by
  unfold select_edge
  rw [← find_sim t t2 h]
  cases hf : find_bucket t e with
  | error x => exact resSim_error _ _
  | ok r =>
    cases r with
    | none => exact loopSim_ok _ _ _ _ _ h hb
    | some idx =>
      obtain ⟨hi, hu, -⟩ := find_some t _ idx hf
      have hs := h idx hi
      obtain ⟨hk, hbl, hcv, hc, h0, h1, hcand⟩ := hs.2 hu
      simp only
      by_cases hsel : (t idx).blocked = true ∨ (t idx).candidate_valid = false
      · rw [if_pos hsel, if_pos (by rw [← hbl, ← hcv]; exact hsel :
          (t2 idx).blocked = true ∨ (t2 idx).candidate_valid = false)]
        exact loopSim_ok _ _ _ _ _ h hb
      · rw [if_neg hsel, if_neg (by rw [← hbl, ← hcv]; exact hsel :
          ¬((t2 idx).blocked = true ∨ (t2 idx).candidate_valid = false))]
        have hv : (t idx).candidate_valid = true := by
          rw [not_or] at hsel
          simpa using hsel.2
        have hce : conflicting_edges_from_candidate (t2 idx).candidate =
            conflicting_edges_from_candidate (t idx).candidate := by rw [hcand hv]
        rw [hce]
        have h2 : TableSim (Function.update t idx { t idx with blocked := true })
            (Function.update t2 idx { t2 idx with blocked := true }) := by
          apply tableSim_update _ _ _ _ _ h
          exact ⟨hs.1, fun _ => ⟨hk, rfl, hcv, hc, h0, h1, hcand⟩⟩
        rcases resSim_cases _ _ _ (block_conflicts_sim
          (conflicting_edges_from_candidate (t idx).candidate) _ _ h2) with
          ⟨x, e1, e2⟩ | ⟨ta, tb, e1, e2, hs2⟩
        · rw [e1, e2]
          exact resSim_error _ _
        · rw [e1, e2]
          exact loopSim_ok _ _ _ _ _ hs2 (bufSim_update n sel sel2 e hb)

theorem select_loop_sim (cands cands2 : EdgeBuf) :
    ∀ (is : List Nat) (t t2 : EdgeTable) (sel sel2 : EdgeBuf) (n : Nat),
      (∀ i, i ∈ is → cands i = cands2 i) → TableSim t t2 → BufSim n sel sel2 →
      ResSim LoopSim (select_loop cands is t sel n) (select_loop cands2 is t2 sel2 n) := by
  intro is
  induction is with
  | nil =>
    intro t t2 sel sel2 n _ h hb
    exact loopSim_ok _ _ _ _ _ h hb
  | cons i is ih =>
    intro t t2 sel sel2 n hc h hb
    simp only [select_loop]
    rw [← hc i (List.mem_cons_self _ _)]
    rcases resSim_cases _ _ _ (select_edge_sim t t2 sel sel2 n (cands i) h hb) with
      ⟨x, e1, e2⟩ | ⟨⟨ta, sa, na⟩, ⟨tb, sb, nb⟩, e1, e2, hs, hn, hbs⟩
    · rw [e1, e2]
      exact resSim_error _ _
    · rw [e1, e2]
      simp only at hs hn hbs ⊢
      subst hn
      exact ih ta tb sa sb na (fun k hk => hc k (List.mem_cons_of_mem _ hk)) hs hbs

theorem choose_edge_sim (R : Rng) (p : R.Real) (cands cands2 offs offs2 : EdgeBuf)
    (m i : Nat) (rng : R.State) (hc : cands i = cands2 i) (ho : BufSim m offs offs2) :
    choose_edge R p cands offs m i rng = choose_edge R p cands2 offs2 m i rng := by
  unfold choose_edge
  by_cases hm : m = 0
  · rw [if_pos hm, if_pos hm, hc]
  · rw [if_neg hm, if_neg hm]
    simp only
    rw [hc, ho _ (Nat.lt_of_le_of_lt (R.uniform_int_le (m - 1) (R.uniform_real rng).2)
      (by omega))]

theorem sample_loop_sim (R : Rng) (p : R.Real) (cands cands2 offs offs2 : EdgeBuf) (m : Nat)
    (ho : BufSim m offs offs2) :
    ∀ (is : List Nat) (rng : R.State) (t t2 : EdgeTable) (sel sel2 : EdgeBuf) (n : Nat),
      (∀ i, i ∈ is → cands i = cands2 i) → TableSim t t2 → BufSim n sel sel2 →
      ResSim LoopSim (sample_loop R p cands offs m is rng t sel n)
        (sample_loop R p cands2 offs2 m is rng t2 sel2 n) := by
  intro is
  induction is with
  | nil =>
    intro rng t t2 sel sel2 n _ h hb
    exact loopSim_ok _ _ _ _ _ h hb
  | cons i is ih =>
    intro rng t t2 sel sel2 n hc h hb
    simp only [sample_loop]
    rw [← choose_edge_sim R p cands cands2 offs offs2 m i rng (hc i (List.mem_cons_self _ _)) ho]
    rcases resSim_cases _ _ _ (select_edge_sim t t2 sel sel2 n
      (choose_edge R p cands offs m i rng).1 h hb) with
      ⟨x, e1, e2⟩ | ⟨⟨ta, sa, na⟩, ⟨tb, sb, nb⟩, e1, e2, hs, hn, hbs⟩
    · rw [e1, e2]
      exact resSim_error _ _
    · rw [e1, e2]
      simp only at hs hn hbs ⊢
      subst hn
      exact ih _ ta tb sa sb na (fun k hk => hc k (List.mem_cons_of_mem _ hk)) hs hbs

end detail

/-- The result of `sample_parallel_batch` does not depend on the contents of the
thread-local arrays. -/
theorem sample_scratch_independent (K : Kernel) (R : Rng) (arrangement : ArrangementFn)
    (g g2 : detail.Scratch) (points : List Point) (edges candidates offenders : List (Int × Int))
    (p : R.Real) (seed : Nat) :
    sample_parallel_batch K R arrangement g points edges candidates offenders p seed =
      sample_parallel_batch K R arrangement g2 points edges candidates offenders p seed := by
  unfold sample_parallel_batch
  cases htris : compute_triangles arrangement points edges with
  | error x => rfl
  | ok tris =>
    simp only
    rcases detail.resSim_cases _ _ _ (detail.record_triangles_sim tris _ _
      (detail.tableSim_clear g.g_edge_table g2.g_edge_table)) with
      ⟨x, e1, e2⟩ | ⟨ta, tb, e1, e2, hs⟩
    · rw [e1, e2]
    · rw [e1, e2]
      simp only
      rcases detail.resSim_cases _ _ _ (detail.filter_candidates_sim K points candidates ta tb
        g.g_candidate_order_buf g2.g_candidate_order_buf 0 hs
        (fun k hk => absurd hk (Nat.not_lt_zero k))) with
        ⟨x, e1, e2⟩ | ⟨⟨tc, cb, cn⟩, ⟨td, cb2, cn2⟩, e1, e2, hs2, hn, hbs⟩
      · rw [e1, e2]
      · rw [e1, e2]
        simp only at hs2 hn hbs ⊢
        subst hn
        by_cases hz : cn = 0
        · rw [if_pos hz, if_pos hz]
        · rw [if_neg hz, if_neg hz]
          rcases detail.resSim_cases _ _ _ (detail.filter_offenders_sim tc td hs2 offenders
            g.g_offender_buf g2.g_offender_buf 0 (fun k hk => absurd hk (Nat.not_lt_zero k))) with
            ⟨x, e1, e2⟩ | ⟨⟨ob, on1⟩, ⟨ob2, on2⟩, e1, e2, hn, hbo⟩
          · rw [e1, e2]
          · rw [e1, e2]
            simp only at hn hbo ⊢
            subst hn
            obtain ⟨hsh1, hsh2⟩ := detail.shuffle_sim R cn cb cb2 (R.seed (seed % 2 ^ 32)) hbs
            rw [← hsh2]
            rcases detail.resSim_cases _ _ _ (detail.sample_loop_sim R p
              (detail.shuffle R cn cb (R.seed (seed % 2 ^ 32))).1
              (detail.shuffle R cn cb2 (R.seed (seed % 2 ^ 32))).1 ob ob2 on1 hbo
              (List.range cn) (detail.shuffle R cn cb (R.seed (seed % 2 ^ 32))).2 tc td
              g.g_selected_buf g2.g_selected_buf 0
              (fun i hi => hsh1 i (List.mem_range.1 hi)) hs2
              (fun k hk => absurd hk (Nat.not_lt_zero k))) with
              ⟨x, e1, e2⟩ | ⟨⟨te, sb, sn⟩, ⟨tf, sb2, sn2⟩, e1, e2, hs3, hn, hbsel⟩
            · rw [e1, e2]
            · rw [e1, e2]
              simp only at hs3 hn hbsel ⊢
              subst hn
              congr 1
              apply List.map_congr_left
              intro i hi
              rw [hbsel i (List.mem_range.1 hi)]

namespace detail

theorem scan_buckets_sim (K : Kernel) (points : List Point) :
    ∀ (idxs : List Nat) (t t2 : EdgeTable) (buf buf2 : EdgeBuf) (n : Nat),
      (∀ i, i ∈ idxs → i < EDGE_TABLE_SIZE) → TableSim t t2 → BufSim n buf buf2 →
      ResSim LoopSim (scan_buckets K points idxs t buf n)
        (scan_buckets K points idxs t2 buf2 n) := by
  intro idxs
  induction idxs with
  | nil =>
    intro t t2 buf buf2 n _ h hb
    exact loopSim_ok _ _ _ _ _ h hb
  | cons idx idxs ih =>
    intro t t2 buf buf2 n hlt h hb
    have hrest : ∀ i, i ∈ idxs → i < EDGE_TABLE_SIZE :=
      fun i hi => hlt i (List.mem_cons_of_mem _ hi)
    have hs := h idx (hlt idx (List.mem_cons_self _ _))
    simp only [scan_buckets]
    by_cases hskip : (t idx).used = false ∨ (t idx).triangle_count ≠ 2
    · have hskip2 : (t2 idx).used = false ∨ (t2 idx).triangle_count ≠ 2 := by
        rcases hskip with hu | hc
        · exact Or.inl (by rw [← hs.1]; exact hu)
        · by_cases hu : (t idx).used = true
          · exact Or.inr (by rw [← (hs.2 hu).2.2.2.1]; exact hc)
          · exact Or.inl (by rw [← hs.1]; simpa using hu)
      rw [if_pos hskip, if_pos hskip2]
      exact ih t t2 buf buf2 n hrest h hb
    · rw [not_or] at hskip
      have hu : (t idx).used = true := by simpa using hskip.1
      have hc : (t idx).triangle_count = 2 := not_not.1 hskip.2
      obtain ⟨hk, hbl, hcv, hc2, h0, h1, hcand⟩ := hs.2 hu
      have hskip2 : ¬((t2 idx).used = false ∨ (t2 idx).triangle_count ≠ 2) := by
        rw [← hs.1, ← hc2, not_or]
        exact hskip
      rw [if_neg (not_or.2 hskip), if_neg hskip2]
      have hcb : candidate_of_bucket K points (t2 idx) (t2 idx).key =
          candidate_of_bucket K points (t idx) (t idx).key := by
        rw [← hk]
        exact (candidate_of_bucket_sim K points (t idx) (t2 idx) _ hs hu hc).symm
      rw [hcb]
      cases hcase : candidate_of_bucket K points (t idx) (t idx).key with
      | error x => exact resSim_error _ _
      | ok c =>
        cases c with
        | none => exact ih t t2 buf buf2 n hrest h hb
        | some c =>
          simp only
          have h2 : TableSim
              (Function.update t idx
                { t idx with candidate_valid := true, blocked := false, candidate := c })
              (Function.update t2 idx
                { t2 idx with candidate_valid := true, blocked := false, candidate := c }) := by
            apply tableSim_update _ _ _ _ _ h
            exact ⟨hs.1, fun _ => ⟨hk, rfl, rfl, hc2, h0, h1, fun _ => rfl⟩⟩
          have hb2 : BufSim (n + 1) (Function.update buf n (t idx).key)
              (Function.update buf2 n (t2 idx).key) := by
            rw [← hk]
            exact bufSim_update n buf buf2 _ hb
          by_cases hcap : n + 1 ≥ MAX_EDGES_PER_TRIANG
          · rw [if_pos hcap, if_pos hcap]
            exact loopSim_ok _ _ _ _ _ h2 hb2
          · rw [if_neg hcap, if_neg hcap]
            exact ih _ _ _ _ _ hrest h2 hb2

theorem apply_loop_sim (t t2 : EdgeTable) (sel sel2 : EdgeBuf) (h : TableSim t t2) :
    ∀ (is : List Nat) (batch : List (Int × Int)) (es : List Edge),
      (∀ i, i ∈ is → sel i = sel2 i) →
      (∀ i, i ∈ is → ∀ idx, find_bucket t (sel i) = Except.ok (some idx) →
        (t idx).candidate_valid = true) →
      apply_loop t sel is batch es = apply_loop t2 sel2 is batch es := by
  intro is
  induction is with
  | nil =>
    intro batch es _ _
    rfl
  | cons i is ih =>
    intro batch es hsel hcv
    simp only [apply_loop]
    rw [← hsel i (List.mem_cons_self _ _), ← find_sim t t2 h]
    have hsel2 : ∀ k, k ∈ is → sel k = sel2 k := fun k hk => hsel k (List.mem_cons_of_mem _ hk)
    have hcv2 : ∀ k, k ∈ is → ∀ idx, find_bucket t (sel k) = Except.ok (some idx) →
        (t idx).candidate_valid = true := fun k hk => hcv k (List.mem_cons_of_mem _ hk)
    cases hf : find_bucket t (sel i) with
    | error x => rfl
    | ok r =>
      cases r with
      | none => exact ih _ _ hsel2 hcv2
      | some idx =>
        obtain ⟨hi, hu, -⟩ := find_some t _ idx hf
        have hv := hcv i (List.mem_cons_self _ _) idx hf
        obtain ⟨-, -, -, -, -, -, hcand⟩ := (h idx hi).2 hu
        simp only
        rw [← hcand hv]
        exact ih _ _ hsel2 hcv2

end detail

/-- The batch and the edge set that a round of `compute_delaunay_batches` yields do
not depend on the contents of the thread-local arrays. -/
theorem round_scratch_independent (K : Kernel) (arrangement : ArrangementFn)
    (points : List Point) (g g2 : detail.Scratch) (edge_set : List detail.Edge) :
    detail.ResSim (fun r r2 => r.batch = r2.batch ∧ r.edge_set = r2.edge_set)
      (detail.delaunay_round K arrangement points g edge_set)
      (detail.delaunay_round K arrangement points g2 edge_set) := by
  simp only [detail.delaunay_round]
  have hmem : ∀ i, i ∈ List.range detail.EDGE_TABLE_SIZE → i < detail.EDGE_TABLE_SIZE :=
    fun i hi => List.mem_range.1 hi
  have hnd : (List.range detail.EDGE_TABLE_SIZE).Nodup := List.nodup_range _
  generalize List.range detail.EDGE_TABLE_SIZE = idxs at hmem hnd ⊢
  cases htris : compute_triangles arrangement points (detail.edges_vector_from_set edge_set) with
  | error x => exact detail.resSim_error _ _
  | ok tris =>
    simp only
    rcases detail.resSim_cases _ _ _ (detail.record_triangles_sim tris _ _
      (detail.tableSim_clear g.g_edge_table g2.g_edge_table)) with
      ⟨x, e1, e2⟩ | ⟨ta, tb, e1, e2, hs⟩
    · rw [e1, e2]
      exact detail.resSim_error _ _
    · rw [e1, e2]
      simp only
      have hinv : detail.RecInv (detail.insertions tris) ta := by
        simpa using detail.record_triangles_recInv tris [] _ ta (detail.recInv_clear _) e1
      obtain ⟨hok1, hub1, -⟩ := detail.tableOk_of_recInv K points tris ta hinv
      rcases detail.resSim_cases _ _ _ (detail.scan_buckets_sim K points
        idxs ta tb g.g_candidate_order_buf
        g2.g_candidate_order_buf 0 hmem hs
        (fun k hk => absurd hk (Nat.not_lt_zero k))) with
        ⟨x, e3, e4⟩ | ⟨⟨tc, cb, cn⟩, ⟨td, cb2, cn2⟩, e3, e4, hs2, hn, hbs⟩
      · rw [e3, e4]
        exact detail.resSim_error _ _
      · rw [e3, e4]
        simp only at hs2 hn hbs ⊢
        subst hn
        have hpost := detail.scan_spec K points tris _ ta _ 0 tc cb cn hok1 hub1
          hmem hnd e3
        by_cases hz : cn = 0
        · rw [if_pos hz, if_pos hz]
          exact detail.resSim_ok _ _ _ ⟨rfl, rfl⟩
        · rw [if_neg hz, if_neg hz]
          rcases detail.resSim_cases _ _ _ (detail.select_loop_sim cb cb2 (List.range cn) tc td
            g.g_selected_buf g2.g_selected_buf 0 (fun i hi => hbs i (List.mem_range.1 hi)) hs2
            (fun k hk => absurd hk (Nat.not_lt_zero k))) with
            ⟨x, e5, e6⟩ | ⟨⟨te, sb, sn⟩, ⟨tf, sb2, sn2⟩, e5, e6, hs3, hn, hbsel⟩
          · rw [e5, e6]
            exact detail.resSim_error _ _
          · rw [e5, e6]
            simp only at hs3 hn hbsel ⊢
            subst hn
            obtain ⟨hinv3, -⟩ :=
              detail.select_loop_spec K points tris cb (List.range cn) tc g.g_selected_buf 0
                te sb sn (detail.selInv_nil K points tris tc hpost.ok hpost.unblocked) e5
            by_cases hsz : sn = 0
            · rw [if_pos hsz, if_pos hsz]
              exact detail.resSim_ok _ _ _ ⟨rfl, rfl⟩
            · rw [if_neg hsz, if_neg hsz]
              have happ := detail.apply_loop_sim te tf sb sb2 hs3 (List.range sn) [] edge_set
                (fun i hi => hbsel i (List.mem_range.1 hi)) (by
                  intro i hi idx hf
                  obtain ⟨hlt, hu, hk⟩ := detail.find_some te _ idx hf
                  obtain ⟨j, hj, hu2, hk2, hcv, -⟩ := hinv3.sel (sb i)
                    ((detail.mem_buf_list sb sn _).2 ⟨i, List.mem_range.1 hi, rfl⟩)
                  have := detail.chain_key_inj te hinv3.ok.chain idx j hlt hj hu hu2
                    (hk.trans hk2.symm)
                  rw [this]
                  exact hcv)
              rw [← happ]
              cases hap : detail.apply_loop te sb (List.range sn) [] edge_set with
              | error x => exact detail.resSim_error _ _
              | ok r =>
                exact detail.resSim_ok _ _ _ ⟨rfl, rfl⟩

/-- The loop of `compute_delaunay_batches` does not depend on the contents of the
thread-local arrays. -/
theorem loop_scratch_independent (K : Kernel) (arrangement : ArrangementFn)
    (points : List Point) :
    ∀ (fuel : Nat) (g g2 : detail.Scratch) (edge_set : List detail.Edge)
      (acc : List detail.Round),
      detail.delaunay_loop K arrangement points fuel g edge_set acc =
        detail.delaunay_loop K arrangement points fuel g2 edge_set acc := by
  intro fuel
  induction fuel with
  | zero =>
    intro g g2 edge_set acc
    rfl
  | succ fuel ih =>
    intro g g2 edge_set acc
    simp only [detail.delaunay_loop]
    rcases detail.resSim_cases _ _ _ (round_scratch_independent K arrangement points g g2
      edge_set) with ⟨x, e1, e2⟩ | ⟨r, r2, e1, e2, hb, hes⟩
    · rw [e1, e2]
    · rw [e1, e2]
      simp only
      rw [← hb, ← hes]
      cases hbatch : r.batch with
      | none => rfl
      | some batch => exact ih _ _ _ _

/-- The result of `compute_delaunay_batches` does not depend on the contents of the
thread-local arrays. -/
theorem batches_scratch_independent (K : Kernel) (arrangement : ArrangementFn)
    (g g2 : detail.Scratch) (points : List Point) (edges : List (Int × Int)) (fuel : Nat) :
    compute_delaunay_batches K arrangement g points edges fuel =
      compute_delaunay_batches K arrangement g2 points edges fuel := by
  unfold compute_delaunay_batches
  rw [loop_scratch_independent K arrangement points fuel g g2]

namespace detail

/-- The loop over `candidates` writes the buffer only from the count it starts with
up to the count it ends with, and does not pass the cap. -/
theorem filter_candidates_bounds (K : Kernel) (points : List Point) :
    ∀ (cands : List (Int × Int)) (t : EdgeTable) (buf : EdgeBuf) (n : Nat) (t2 : EdgeTable)
      (buf2 : EdgeBuf) (n2 : Nat),
      filter_candidates K points cands t buf n = Except.ok (t2, buf2, n2) →
      n ≤ n2 ∧ (n < MAX_EDGES_PER_TRIANG → n2 ≤ MAX_EDGES_PER_TRIANG) ∧
      ∀ k, k < n ∨ n2 ≤ k → buf2 k = buf k := by
  intro cands
  induction cands with
  | nil =>
    intro t buf n t2 buf2 n2 h
    simp only [filter_candidates, Except.ok.injEq, Prod.mk.injEq] at h
    obtain ⟨-, h2, h3⟩ := h
    subst h2 h3
    exact ⟨le_refl _, fun hn => le_of_lt hn, fun _ _ => rfl⟩
  | cons q cands ih =>
    intro t buf n t2 buf2 n2 h
    simp only [filter_candidates] at h
    cases hf : find_bucket t (normalize_edge q.1 q.2) with
    | error x => simp [hf] at h
    | ok r =>
      cases r with
      | none =>
        simp only [hf] at h
        exact ih _ _ _ _ _ _ h
      | some idx =>
        simp only [hf] at h
        by_cases hcount : (t idx).triangle_count ≠ 2
        · rw [if_pos hcount] at h
          exact ih _ _ _ _ _ _ h
        · rw [if_neg hcount] at h
          cases hcb : candidate_of_bucket K points (t idx) (normalize_edge q.1 q.2) with
          | error x => simp [hcb] at h
          | ok c =>
            cases c with
            | none =>
              simp only [hcb] at h
              exact ih _ _ _ _ _ _ h
            | some c =>
              simp only [hcb] at h
              by_cases hcap : n + 1 ≥ MAX_EDGES_PER_TRIANG
              · rw [if_pos hcap] at h
                simp only [Except.ok.injEq, Prod.mk.injEq] at h
                obtain ⟨-, h2, h3⟩ := h
                subst h2 h3
                refine ⟨Nat.le_succ n, fun hn => hn, fun k hk => ?_⟩
                rw [Function.update_noteq (by omega)]
              · rw [if_neg hcap] at h
                obtain ⟨h1, h2, h3⟩ := ih _ _ _ _ _ _ h
                refine ⟨by omega, fun _ => h2 (by omega), fun k hk => ?_⟩
                rw [h3 k (by omega), Function.update_noteq (by omega)]

/-- The loop over the buckets writes the buffer only from the count it starts with
up to the count it ends with, and does not pass the cap. -/
theorem scan_buckets_bounds (K : Kernel) (points : List Point) :
    ∀ (idxs : List Nat) (t : EdgeTable) (buf : EdgeBuf) (n : Nat) (t2 : EdgeTable)
      (buf2 : EdgeBuf) (n2 : Nat),
      scan_buckets K points idxs t buf n = Except.ok (t2, buf2, n2) →
      n ≤ n2 ∧ (n < MAX_EDGES_PER_TRIANG → n2 ≤ MAX_EDGES_PER_TRIANG) ∧
      ∀ k, k < n ∨ n2 ≤ k → buf2 k = buf k := by
  intro idxs
  induction idxs with
  | nil =>
    intro t buf n t2 buf2 n2 h
    simp only [scan_buckets, Except.ok.injEq, Prod.mk.injEq] at h
    obtain ⟨-, h2, h3⟩ := h
    subst h2 h3
    exact ⟨le_refl _, fun hn => le_of_lt hn, fun _ _ => rfl⟩
  | cons idx idxs ih =>
    intro t buf n t2 buf2 n2 h
    simp only [scan_buckets] at h
    by_cases hskip : (t idx).used = false ∨ (t idx).triangle_count ≠ 2
    · rw [if_pos hskip] at h
      exact ih _ _ _ _ _ _ h
    · rw [if_neg hskip] at h
      cases hcb : candidate_of_bucket K points (t idx) (t idx).key with
      | error x => simp [hcb] at h
      | ok c =>
        cases c with
        | none =>
          simp only [hcb] at h
          exact ih _ _ _ _ _ _ h
        | some c =>
          simp only [hcb] at h
          by_cases hcap : n + 1 ≥ MAX_EDGES_PER_TRIANG
          · rw [if_pos hcap] at h
            simp only [Except.ok.injEq, Prod.mk.injEq] at h
            obtain ⟨-, h2, h3⟩ := h
            subst h2 h3
            refine ⟨Nat.le_succ n, fun hn => hn, fun k hk => ?_⟩
            rw [Function.update_noteq (by omega)]
          · rw [if_neg hcap] at h
            obtain ⟨h1, h2, h3⟩ := ih _ _ _ _ _ _ h
            refine ⟨by omega, fun _ => h2 (by omega), fun k hk => ?_⟩
            rw [h3 k (by omega), Function.update_noteq (by omega)]

/-- The loop over `offenders` writes the buffer only from the count it starts with
up to the count it ends with, and does not pass the cap. -/
theorem filter_offenders_bounds (t : EdgeTable) :
    ∀ (offs : List (Int × Int)) (buf : EdgeBuf) (n : Nat) (buf2 : EdgeBuf) (n2 : Nat),
      filter_offenders t offs buf n = Except.ok (buf2, n2) →
      n ≤ n2 ∧ (n < MAX_EDGES_PER_TRIANG → n2 ≤ MAX_EDGES_PER_TRIANG) ∧
      ∀ k, k < n ∨ n2 ≤ k → buf2 k = buf k := by
  intro offs
  induction offs with
  | nil =>
    intro buf n buf2 n2 h
    simp only [filter_offenders, Except.ok.injEq, Prod.mk.injEq] at h
    obtain ⟨h2, h3⟩ := h
    subst h2 h3
    exact ⟨le_refl _, fun hn => le_of_lt hn, fun _ _ => rfl⟩
  | cons q offs ih =>
    intro buf n buf2 n2 h
    simp only [filter_offenders] at h
    cases hf : find_bucket t (normalize_edge q.1 q.2) with
    | error x => simp [hf] at h
    | ok r =>
      cases r with
      | none =>
        simp only [hf] at h
        exact ih _ _ _ _ h
      | some idx =>
        simp only [hf] at h
        by_cases hv : (t idx).candidate_valid = false
        · rw [if_pos hv] at h
          exact ih _ _ _ _ h
        · rw [if_neg hv] at h
          by_cases hcap : n + 1 ≥ MAX_EDGES_PER_TRIANG
          · rw [if_pos hcap] at h
            simp only [Except.ok.injEq, Prod.mk.injEq] at h
            obtain ⟨h2, h3⟩ := h
            subst h2 h3
            refine ⟨Nat.le_succ n, fun hn => hn, fun k hk => ?_⟩
            rw [Function.update_noteq (by omega)]
          · rw [if_neg hcap] at h
            obtain ⟨h1, h2, h3⟩ := ih _ _ _ _ h
            refine ⟨by omega, fun _ => h2 (by omega), fun k hk => ?_⟩
            rw [h3 k (by omega), Function.update_noteq (by omega)]

/-- One step of the selection loop leaves the buffer and the count, or writes the
edge at the count and adds one to the count. -/
theorem select_edge_bounds (t : EdgeTable) (sel : EdgeBuf) (n : Nat) (e : Edge)
    (t2 : EdgeTable) (sel2 : EdgeBuf) (n2 : Nat)
    (h : select_edge t sel n e = Except.ok (t2, sel2, n2)) :
    (n2 = n ∧ sel2 = sel) ∨ (n2 = n + 1 ∧ sel2 = Function.update sel n e) := by
  unfold select_edge at h
  cases hf : find_bucket t e with
  | error x => simp [hf] at h
  | ok r =>
    cases r with
    | none =>
      simp only [hf, Except.ok.injEq, Prod.mk.injEq] at h
      exact Or.inl ⟨h.2.2.symm, h.2.1.symm⟩
    | some idx =>
      simp only [hf] at h
      by_cases hsel : (t idx).blocked = true ∨ (t idx).candidate_valid = false
      · rw [if_pos hsel] at h
        simp only [Except.ok.injEq, Prod.mk.injEq] at h
        exact Or.inl ⟨h.2.2.symm, h.2.1.symm⟩
      · rw [if_neg hsel] at h
        cases hbc : block_conflicts (conflicting_edges_from_candidate (t idx).candidate)
            (Function.update t idx { t idx with blocked := true }) with
        | error x => simp [hbc] at h
        | ok t3 =>
          simp only [hbc, Except.ok.injEq, Prod.mk.injEq] at h
          exact Or.inr ⟨h.2.2.symm, h.2.1.symm⟩

theorem select_loop_bounds (cands : EdgeBuf) :
    ∀ (is : List Nat) (t : EdgeTable) (sel : EdgeBuf) (n : Nat) (t2 : EdgeTable)
      (sel2 : EdgeBuf) (n2 : Nat),
      select_loop cands is t sel n = Except.ok (t2, sel2, n2) →
      n ≤ n2 ∧ n2 ≤ n + is.length ∧ ∀ k, k < n ∨ n2 ≤ k → sel2 k = sel k := by
  intro is
  induction is with
  | nil =>
    intro t sel n t2 sel2 n2 h
    simp only [select_loop, Except.ok.injEq, Prod.mk.injEq] at h
    obtain ⟨-, h2, h3⟩ := h
    subst h2 h3
    exact ⟨le_refl _, le_refl _, fun _ _ => rfl⟩
  | cons i is ih =>
    intro t sel n t2 sel2 n2 h
    simp only [select_loop] at h
    cases hs : select_edge t sel n (cands i) with
    | error x => simp [hs] at h
    | ok r =>
      obtain ⟨ta, sa, na⟩ := r
      simp only [hs] at h
      obtain ⟨h1, h2, h3⟩ := ih _ _ _ _ _ _ h
      rcases select_edge_bounds t sel n (cands i) ta sa na hs with ⟨e1, e2⟩ | ⟨e1, e2⟩
      · subst e1 e2
        exact ⟨h1, by rw [List.length_cons]; omega, h3⟩
      · subst e1 e2
        refine ⟨by omega, by rw [List.length_cons]; omega, fun k hk => ?_⟩
        rw [h3 k (by omega), Function.update_noteq (by omega)]

theorem sample_loop_bounds (R : Rng) (p : R.Real) (cands offs : EdgeBuf) (m : Nat) :
    ∀ (is : List Nat) (rng : R.State) (t : EdgeTable) (sel : EdgeBuf) (n : Nat)
      (t2 : EdgeTable) (sel2 : EdgeBuf) (n2 : Nat),
      sample_loop R p cands offs m is rng t sel n = Except.ok (t2, sel2, n2) →
      n ≤ n2 ∧ n2 ≤ n + is.length ∧ ∀ k, k < n ∨ n2 ≤ k → sel2 k = sel k := by
  intro is
  induction is with
  | nil =>
    intro rng t sel n t2 sel2 n2 h
    simp only [sample_loop, Except.ok.injEq, Prod.mk.injEq] at h
    obtain ⟨-, h2, h3⟩ := h
    subst h2 h3
    exact ⟨le_refl _, le_refl _, fun _ _ => rfl⟩
  | cons i is ih =>
    intro rng t sel n t2 sel2 n2 h
    simp only [sample_loop] at h
    cases hs : select_edge t sel n (choose_edge R p cands offs m i rng).1 with
    | error x => simp [hs] at h
    | ok r =>
      obtain ⟨ta, sa, na⟩ := r
      simp only [hs] at h
      obtain ⟨h1, h2, h3⟩ := ih _ _ _ _ _ _ _ h
      rcases select_edge_bounds t sel n _ ta sa na hs with ⟨e1, e2⟩ | ⟨e1, e2⟩
      · subst e1 e2
        exact ⟨h1, by rw [List.length_cons]; omega, h3⟩
      · subst e1 e2
        refine ⟨by omega, by rw [List.length_cons]; omega, fun k hk => ?_⟩
        rw [h3 k (by omega), Function.update_noteq (by omega)]

/-- Once the loop over `candidates` has reached the cap, the entries that follow
are not looked at. -/
theorem filter_candidates_dropped (K : Kernel) (points : List Point) (rest : List (Int × Int)) :
    ∀ (cands : List (Int × Int)) (t : EdgeTable) (buf : EdgeBuf) (n : Nat) (t2 : EdgeTable)
      (buf2 : EdgeBuf) (n2 : Nat), n < MAX_EDGES_PER_TRIANG → MAX_EDGES_PER_TRIANG ≤ n2 →
      filter_candidates K points cands t buf n = Except.ok (t2, buf2, n2) →
      filter_candidates K points (cands ++ rest) t buf n = Except.ok (t2, buf2, n2) := by
  intro cands
  induction cands with
  | nil =>
    intro t buf n t2 buf2 n2 hn hn2 h
    simp only [filter_candidates, Except.ok.injEq, Prod.mk.injEq] at h
    omega
  | cons q cands ih =>
    intro t buf n t2 buf2 n2 hn hn2 h
    simp only [filter_candidates, List.cons_append] at h ⊢
    cases hf : find_bucket t (normalize_edge q.1 q.2) with
    | error x => simp [hf] at h
    | ok r =>
      cases r with
      | none =>
        simp only [hf] at h ⊢
        exact ih _ _ _ _ _ _ hn hn2 h
      | some idx =>
        simp only [hf] at h ⊢
        by_cases hcount : (t idx).triangle_count ≠ 2
        · rw [if_pos hcount] at h ⊢
          exact ih _ _ _ _ _ _ hn hn2 h
        · rw [if_neg hcount] at h ⊢
          cases hcb : candidate_of_bucket K points (t idx) (normalize_edge q.1 q.2) with
          | error x => simp [hcb] at h
          | ok c =>
            cases c with
            | none =>
              simp only [hcb] at h ⊢
              exact ih _ _ _ _ _ _ hn hn2 h
            | some c =>
              simp only [hcb] at h ⊢
              by_cases hcap : n + 1 ≥ MAX_EDGES_PER_TRIANG
              · rw [if_pos hcap] at h ⊢
                exact h
              · rw [if_neg hcap] at h ⊢
                exact ih _ _ _ _ _ _ (by omega) hn2 h

end detail

namespace detail

theorem buf_list_buf_of (l : List Edge) : buf_list (buf_of l) l.length = l := by
  apply List.ext_getElem
  · rw [buf_list_length]
  · intro i h1 h2
    unfold buf_list buf_of
    rw [List.getElem_map, List.getElem_range, List.getD_eq_getElem _ _ h2]

theorem bufSim_of_buf_list (buf : EdgeBuf) (n : Nat) (l : List Edge) (h : buf_list buf n = l) :
    l.length = n ∧ BufSim n buf (buf_of l) := by
  have hlen : l.length = n := by rw [← h, buf_list_length]
  refine ⟨hlen, fun i hi => ?_⟩
  subst h
  unfold buf_of buf_list
  rw [List.getD_eq_getElem _ _ (by rw [List.length_map, List.length_range]; exact hi),
    List.getElem_map, List.getElem_range]

/-- The loop over `candidates` appends exactly the valid entries, up to the cap, and
marks no other bucket. -/
theorem filter_candidates_exact (K : Kernel) (points : List Point)
    (tris : List (Int × Int × Int)) :
    ∀ (cands : List (Int × Int)) (t : EdgeTable) (buf : EdgeBuf) (n : Nat) (t2 : EdgeTable)
      (buf2 : EdgeBuf) (n2 : Nat), TableOk K points tris t → Unblocked t →
      n < MAX_EDGES_PER_TRIANG →
      filter_candidates K points cands t buf n = Except.ok (t2, buf2, n2) →
      buf_list buf2 n2 = buf_list buf n ++
        (valid_entries K points tris cands).take (MAX_EDGES_PER_TRIANG - n) ∧
      ∀ i, (t2 i).candidate_valid = true → (t i).candidate_valid = true ∨
        (t2 i).key ∈ (valid_entries K points tris cands).take (MAX_EDGES_PER_TRIANG - n) := by
  intro cands
  induction cands with
  | nil =>
    intro t buf n t2 buf2 n2 hok hub hn h
    simp only [filter_candidates, Except.ok.injEq, Prod.mk.injEq] at h
    obtain ⟨h1, h2, h3⟩ := h
    subst h1 h2 h3
    exact ⟨by simp [valid_entries], fun i hi => Or.inl hi⟩
  | cons p rest ih =>
    intro t buf n t2 buf2 n2 hok hub hn h
    rw [filter_candidates] at h
    have hskip : edge_candidate K points tris (normalize_edge p.1 p.2) = none →
        valid_entries K points tris (p :: rest) = valid_entries K points tris rest := by
      intro hnone
      unfold valid_entries
      rw [List.map_cons, List.filter_cons_of_neg (by rw [hnone]; simp)]
    have hmark : ∀ c, edge_candidate K points tris (normalize_edge p.1 p.2) = some c →
        (valid_entries K points tris (p :: rest)).take (MAX_EDGES_PER_TRIANG - n) =
          normalize_edge p.1 p.2 ::
            (valid_entries K points tris rest).take (MAX_EDGES_PER_TRIANG - (n + 1)) := by
      intro c hsome
      unfold valid_entries
      rw [List.map_cons, List.filter_cons_of_pos (by rw [hsome]; rfl)]
      have : MAX_EDGES_PER_TRIANG - n = (MAX_EDGES_PER_TRIANG - (n + 1)) + 1 := by omega
      rw [this, List.take_succ_cons]
    cases hf : find_bucket t (normalize_edge p.1 p.2) with
    | error x => simp [hf] at h
    | ok r =>
      cases r with
      | none =>
        simp only [hf] at h
        have hnone : edge_candidate K points tris (normalize_edge p.1 p.2) = none := by
          cases hc : edge_candidate K points tris (normalize_edge p.1 p.2) with
          | none => rfl
          | some c =>
            obtain ⟨i, hi, hu, hk⟩ := candidate_has_slot K points tris t hok _ c hc
            exact absurd hk (find_none t hok.chain _ hf i hi hu)
        rw [hskip hnone]
        exact ih t buf n t2 buf2 n2 hok hub hn h
      | some idx =>
        simp only [hf] at h
        obtain ⟨hidx, hu, hk⟩ := find_some t _ idx hf
        have hheld := hok.held idx hidx hu
        rw [hk] at hheld
        by_cases hcount : (t idx).triangle_count ≠ 2
        · rw [if_pos hcount] at h
          have hnone : edge_candidate K points tris (normalize_edge p.1 p.2) = none := by
            cases hc : edge_candidate K points tris (normalize_edge p.1 p.2) with
            | none => rfl
            | some c =>
              exact absurd (candidate_of_bucket_of K points tris (t idx) _ c hheld.2 hheld.1
                hc).1 hcount
          rw [hskip hnone]
          exact ih t buf n t2 buf2 n2 hok hub hn h
        · rw [if_neg hcount] at h
          push_neg at hcount
          cases hcb : candidate_of_bucket K points (t idx) (normalize_edge p.1 p.2) with
          | error x => simp [hcb] at h
          | ok r =>
            have hr := candidate_of_bucket_spec K points tris (t idx) _ r hcount hheld.1 hcb
            cases r with
            | none =>
              simp only [hcb] at h
              rw [hskip hr]
              exact ih t buf n t2 buf2 n2 hok hub hn h
            | some c =>
              simp only [hcb] at h
              obtain ⟨hok1, hub1, -⟩ := scan_mark_ok K points tris idx t c hok hub
                (by rw [hk]; exact hr) (t idx).blocked (Or.inr rfl)
              rw [hmark c hr]
              by_cases hcap : n + 1 ≥ MAX_EDGES_PER_TRIANG
              · simp only [hcap, if_true, Except.ok.injEq, Prod.mk.injEq] at h
                obtain ⟨h1, h2, h3⟩ := h
                subst h1 h2 h3
                have hz : MAX_EDGES_PER_TRIANG - (n + 1) = 0 := by omega
                rw [hz, List.take_zero, buf_list_update]
                refine ⟨rfl, fun i hi => ?_⟩
                by_cases hii : i = idx
                · subst hii
                  right
                  rw [Function.update_same]
                  simp only [List.mem_singleton]
                  exact hk
                · rw [Function.update_noteq hii] at hi
                  exact Or.inl hi
              · simp only [hcap, if_false] at h
                obtain ⟨e1, e2⟩ := ih _ _ _ t2 buf2 n2 hok1 hub1 (by omega) h
                rw [e1, buf_list_update, List.append_assoc]
                refine ⟨rfl, fun i hi => ?_⟩
                rcases e2 i hi with h1 | h1
                · by_cases hii : i = idx
                  · right
                    have hkeys := (filter_candidates_spec K points tris rest _ _ _ t2 buf2 n2
                      hok1 hub1 h).same i
                    rw [hkeys.2.1, hii, Function.update_same]
                    exact List.mem_cons.2 (Or.inl hk)
                  · rw [Function.update_noteq hii] at h1
                    exact Or.inl h1
                · exact Or.inr (List.mem_cons_of_mem _ h1)

/-- The loop over `offenders` keeps nothing when no offender has a marked bucket. -/
theorem filter_offenders_zero (t : EdgeTable) :
    ∀ (offs : List (Int × Int)) (buf : EdgeBuf) (n : Nat),
      (∀ q, q ∈ offs → ∀ idx, find_bucket t (normalize_edge q.1 q.2) = Except.ok (some idx) →
        (t idx).candidate_valid = false) →
      ∀ r, filter_offenders t offs buf n = Except.ok r → r = (buf, n) := by
  intro offs
  induction offs with
  | nil =>
    intro buf n _ r h
    simp only [filter_offenders, Except.ok.injEq] at h
    exact h.symm
  | cons q offs ih =>
    intro buf n hno r h
    simp only [filter_offenders] at h
    have hrest : ∀ q2, q2 ∈ offs → ∀ idx,
        find_bucket t (normalize_edge q2.1 q2.2) = Except.ok (some idx) →
        (t idx).candidate_valid = false := fun q2 hq2 => hno q2 (List.mem_cons_of_mem _ hq2)
    cases hf : find_bucket t (normalize_edge q.1 q.2) with
    | error x => simp [hf] at h
    | ok r2 =>
      cases r2 with
      | none =>
        simp only [hf] at h
        exact ih buf n hrest r h
      | some idx =>
        simp only [hf] at h
        rw [if_pos (hno q (List.mem_cons_self _ _) idx hf)] at h
        exact ih buf n hrest r h

/-- Without offenders the selection loop of `sample_parallel_batch` is the selection
loop of `compute_delaunay_batches`: it draws nothing. -/
theorem sample_loop_zero (R : Rng) (p : R.Real) (cands offs : EdgeBuf) :
    ∀ (is : List Nat) (rng : R.State) (t : EdgeTable) (sel : EdgeBuf) (n : Nat),
      sample_loop R p cands offs 0 is rng t sel n = select_loop cands is t sel n := by
  intro is
  induction is with
  | nil =>
    intro rng t sel n
    rfl
  | cons i is ih =>
    intro rng t sel n
    simp only [sample_loop, select_loop, choose_edge, if_true]
    cases hs : select_edge t sel n (cands i) with
    | error x => rfl
    | ok r =>
      obtain ⟨ta, sa, na⟩ := r
      exact ih _ _ _ _

/-- On marked entries the selection loop is the greedy selection. -/
theorem select_loop_greedy (K : Kernel) (points : List Point) (tris : List (Int × Int × Int))
    (cands : EdgeBuf) :
    ∀ (is : List Nat) (t : EdgeTable) (sel : EdgeBuf) (n : Nat) (t2 : EdgeTable) (sel2 : EdgeBuf)
      (n2 : Nat), SelInv K points tris t (buf_list sel n) →
      (∀ i, i ∈ is → ∃ j, j < EDGE_TABLE_SIZE ∧ (t j).used = true ∧ (t j).key = cands i ∧
        (t j).candidate_valid = true) →
      select_loop cands is t sel n = Except.ok (t2, sel2, n2) →
      buf_list sel2 n2 = (is.map cands).foldl (greedy_step K points tris) (buf_list sel n) := by
  intro is
  induction is with
  | nil =>
    intro t sel n t2 sel2 n2 _ _ h
    simp only [select_loop, Except.ok.injEq, Prod.mk.injEq] at h
    obtain ⟨-, h2, h3⟩ := h
    subst h2 h3
    rfl
  | cons i is ih =>
    intro t sel n t2 sel2 n2 hinv hmarked h
    simp only [select_loop] at h
    cases hs : select_edge t sel n (cands i) with
    | error x => simp [hs] at h
    | ok r =>
      obtain ⟨ta, sa, na⟩ := r
      simp only [hs] at h
      obtain ⟨S2, hinv2, hstep, hcase, hdone⟩ :=
        select_edge_spec K points tris t sel n (cands i) _ ta sa na hinv hs
      have hm2 : ∀ k, k ∈ is → ∃ j, j < EDGE_TABLE_SIZE ∧ (ta j).used = true ∧
          (ta j).key = cands k ∧ (ta j).candidate_valid = true := by
        intro k hk
        obtain ⟨j, hj, hu, hkey, hcv⟩ := hmarked k (List.mem_cons_of_mem _ hk)
        have hsd := blockStep_sameData _ _ hstep
        exact ⟨j, hj, by rw [(hsd j).1]; exact hu, by rw [(hsd j).2.1]; exact hkey,
          by rw [(blockStep_cv _ _ hstep j).1]; exact hcv⟩
      have hgs : buf_list sa na = greedy_step K points tris (buf_list sel n) (cands i) := by
        rcases hcase with ⟨e1, e2, e3⟩ | ⟨e1, e2, e3⟩
        · subst e2 e3
          rw [e1] at hdone
          unfold greedy_step
          rw [if_pos (hdone (hmarked i (List.mem_cons_self _ _)))]
        · subst e2 e3
          rw [buf_list_update]
          unfold greedy_step
          rw [if_neg]
          rw [e1] at hinv2
          have hpw := List.pairwise_append.1 hinv2.pairwise
          rintro (hmem | ⟨s, hs1, hs2⟩)
          · exact (hpw.2.2 _ hmem _ (List.mem_singleton.2 rfl)).1 rfl
          · exact (hpw.2.2 _ hs1 _ (List.mem_singleton.2 rfl)).2 hs2
      have hinv3 : SelInv K points tris ta (buf_list sa na) := by
        rcases hcase with ⟨e1, e2, e3⟩ | ⟨e1, e2, e3⟩
        · subst e2 e3
          rw [← e1]
          exact hinv2
        · subst e2 e3
          rw [buf_list_update, ← e1]
          exact hinv2
      rw [ih ta sa na t2 sel2 n2 hinv3 hm2 h, hgs]
      rfl

/-- The greedy selection leaves no edge of the order out that it could take. -/
theorem greedy_foldl_maximal (K : Kernel) (points : List Point)
    (tris : List (Int × Int × Int)) :
    ∀ (order S : List Edge),
      (∀ s, s ∈ S → s ∈ order.foldl (greedy_step K points tris) S) ∧
      ∀ e, e ∈ order → e ∈ order.foldl (greedy_step K points tris) S ∨
        ∃ s, s ∈ order.foldl (greedy_step K points tris) S ∧ e ∈ conflicts_of K points tris s := by
  intro order
  induction order with
  | nil =>
    intro S
    exact ⟨fun s hs => hs, fun e he => absurd he (List.not_mem_nil e)⟩
  | cons x order ih =>
    intro S
    simp only [List.foldl_cons]
    obtain ⟨ih1, ih2⟩ := ih (greedy_step K points tris S x)
    have hsub : ∀ s, s ∈ S → s ∈ greedy_step K points tris S x := by
      intro s hs
      unfold greedy_step
      split_ifs
      · exact hs
      · exact List.mem_append_left _ hs
    refine ⟨fun s hs => ih1 s (hsub s hs), fun e he => ?_⟩
    rcases List.mem_cons.1 he with hex | hex
    · subst hex
      by_cases hc : e ∈ S ∨ ∃ s, s ∈ S ∧ e ∈ conflicts_of K points tris s
      · rcases hc with hc | ⟨s, hs1, hs2⟩
        · exact Or.inl (ih1 e (hsub e hc))
        · exact Or.inr ⟨s, ih1 s (hsub s hs1), hs2⟩
      · left
        apply ih1
        unfold greedy_step
        rw [if_neg hc]
        exact List.mem_append_right _ (List.mem_singleton.2 rfl)
    · exact ih2 e hex

/-- The greedy selection takes edges of the order only. -/
theorem greedy_foldl_subset (K : Kernel) (points : List Point)
    (tris : List (Int × Int × Int)) :
    ∀ (order S : List Edge) (e : Edge), e ∈ order.foldl (greedy_step K points tris) S →
      e ∈ S ∨ e ∈ order := by
  intro order
  induction order with
  | nil =>
    intro S e he
    exact Or.inl he
  | cons x order ih =>
    intro S e he
    simp only [List.foldl_cons] at he
    rcases ih _ e he with h1 | h1
    · unfold greedy_step at h1
      split_ifs at h1
      · exact Or.inl h1
      · rcases List.mem_append.1 h1 with h2 | h2
        · exact Or.inl h2
        · exact Or.inr (List.mem_cons.2 (Or.inl (List.mem_singleton.1 h2)))
    · exact Or.inr (List.mem_cons_of_mem _ h1)

/-- The shuffle permutes the first `n` entries of the buffer. -/
theorem shuffle_perm (R : Rng) :
    ∀ (n : Nat) (buf : EdgeBuf) (rng : R.State),
      List.Perm (buf_list (shuffle R n buf rng).1 n) (buf_list buf n) := by
  intro n
  induction n with
  | zero =>
    intro buf rng
    exact List.Perm.refl _
  | succ n ih =>
    intro buf rng
    simp only [shuffle]
    by_cases h1 : n + 1 > 1
    · rw [if_pos h1]
      have hj := R.uniform_int_le n rng
      generalize (R.uniform_int n rng).1 = j at hj
      generalize (R.uniform_int n rng).2 = rng2
      rw [buf_list_succ, shuffle_frame R n _ _ n (le_refl n)]
      have hstep := ih (Function.update (Function.update buf n (buf j)) j (buf n)) rng2
      refine List.Perm.trans (List.Perm.append_right _ hstep) ?_
      rw [← buf_list_succ]
      -- the swap of the entries `j` and `n`
      have hfun : Function.update (Function.update buf n (buf j)) j (buf n) =
          buf ∘ (Equiv.swap j n) := by
        funext k
        simp only [Function.comp]
        by_cases hkj : k = j
        · subst hkj
          rw [Function.update_same, Equiv.swap_apply_left]
        · rw [Function.update_noteq hkj]
          by_cases hkn : k = n
          · subst hkn
            rw [Function.update_same, Equiv.swap_apply_right]
          · rw [Function.update_noteq hkn, Equiv.swap_apply_of_ne_of_ne hkj hkn]
      have hbound : ∀ k, k < n + 1 → Equiv.swap j n k < n + 1 := by
        intro k hk
        by_cases hkj : k = j
        · subst hkj
          rw [Equiv.swap_apply_left]
          omega
        · by_cases hkn : k = n
          · subst hkn
            rw [Equiv.swap_apply_right]
            omega
          · rw [Equiv.swap_apply_of_ne_of_ne hkj hkn]
            exact hk
      rw [hfun]
      unfold buf_list
      rw [← List.map_map]
      apply List.Perm.map
      apply (List.perm_ext_iff_of_nodup
        (List.Nodup.map (Equiv.injective _) (List.nodup_range _)) (List.nodup_range _)).2
      intro a
      simp only [List.mem_map, List.mem_range]
      constructor
      · rintro ⟨k, hk, rfl⟩
        exact hbound k hk
      · intro ha
        exact ⟨Equiv.swap j n a, hbound a ha, Equiv.swap_apply_self j n a⟩
    · rw [if_neg h1]

end detail

namespace detail

theorem shuffled_perm (R : Rng) (seed : Nat) (l : List Edge) :
    List.Perm (shuffled R seed l) l := by
  unfold shuffled
  have h := shuffle_perm R l.length (buf_of l) (R.seed (seed % 2 ^ 32))
  rw [buf_list_buf_of] at h
  exact h

theorem greedy_nil (K : Kernel) (points : List Point) (tris : List (Int × Int × Int)) :
    greedy K points tris [] = [] := rfl

theorem shuffled_nil (R : Rng) (seed : Nat) : shuffled R seed [] = [] := rfl

end detail

/-- What `sample_parallel_batch` does up to its selection loop when no offender is a
valid candidate that the call keeps: the table after the loop over `candidates`
holds a mark exactly on the valid candidates kept, the buffer lists them, and no
offender is kept. -/
theorem sample_stages (K : Kernel) (R : Rng) (arrangement : ArrangementFn) (g : detail.Scratch)
    (points : List Point) (edges candidates offenders : List (Int × Int)) (p : R.Real)
    (seed : Nat) (tris : List (Int × Int × Int))
    (htris : compute_triangles arrangement points edges = Except.ok tris)
    (hoff : ∀ q, q ∈ offenders →
      detail.normalize_edge q.1 q.2 ∉ detail.valid_candidates K points tris candidates) :
    (∃ x, sample_parallel_batch K R arrangement g points edges candidates offenders p seed =
        Except.error x ∧
      ∀ p2, sample_parallel_batch K R arrangement g points edges candidates offenders p2 seed =
        Except.error x) ∨
    ∃ t2 cbuf,
      detail.TableOk K points tris t2 ∧ detail.Unblocked t2 ∧
      detail.buf_list cbuf (detail.valid_candidates K points tris candidates).length =
        detail.valid_candidates K points tris candidates ∧
      (∀ e, e ∈ detail.valid_candidates K points tris candidates →
        ∃ j, j < detail.EDGE_TABLE_SIZE ∧ (t2 j).used = true ∧ (t2 j).key = e ∧
          (t2 j).candidate_valid = true) ∧
      ∀ p2, sample_parallel_batch K R arrangement g points edges candidates offenders p2 seed =
        if (detail.valid_candidates K points tris candidates).length = 0 then Except.ok []
        else
          Except.map
            (fun r => (List.range r.2.2).map (fun i => ((r.2.1 i).first, (r.2.1 i).second)))
            (detail.select_loop
              (detail.shuffle R (detail.valid_candidates K points tris candidates).length cbuf
                (R.seed (seed % 2 ^ 32))).1
              (List.range (detail.valid_candidates K points tris candidates).length) t2
              g.g_selected_buf 0) := by
  unfold sample_parallel_batch
  simp only [htris]
  cases hrec : detail.record_triangles tris (detail.clear_edge_table g.g_edge_table) with
  | error x => exact Or.inl ⟨x, rfl, fun _ => rfl⟩
  | ok t1 =>
    simp only
    have hinv : detail.RecInv (detail.insertions tris) t1 := by
      simpa using detail.record_triangles_recInv tris [] _ t1 (detail.recInv_clear _) hrec
    obtain ⟨hok1, hub1, hcv1⟩ := detail.tableOk_of_recInv K points tris t1 hinv
    cases hfc : detail.filter_candidates K points candidates t1 g.g_candidate_order_buf 0 with
    | error x => exact Or.inl ⟨x, rfl, fun _ => rfl⟩
    | ok r =>
      obtain ⟨t2, cbuf, cn⟩ := r
      simp only
      have hpost := detail.filter_candidates_spec K points tris candidates t1 _ 0 t2 cbuf cn
        hok1 hub1 hfc
      obtain ⟨hex1, hex2⟩ := detail.filter_candidates_exact K points tris candidates t1 _ 0 t2
        cbuf cn hok1 hub1 (by decide) hfc
      have hV : detail.buf_list cbuf cn = detail.valid_candidates K points tris candidates := by
        rw [hex1]
        rfl
      have hlen : (detail.valid_candidates K points tris candidates).length = cn := by
        rw [← hV, detail.buf_list_length]
      have hmarkedV : ∀ e, e ∈ detail.valid_candidates K points tris candidates →
          ∃ j, j < detail.EDGE_TABLE_SIZE ∧ (t2 j).used = true ∧ (t2 j).key = e ∧
            (t2 j).candidate_valid = true := by
        intro e he
        rw [← hV] at he
        obtain ⟨k, hk, hke⟩ := (detail.mem_buf_list cbuf cn e).1 he
        obtain ⟨-, j, hj, hu, hkey, hcv⟩ := hpost.listed k (Nat.zero_le _) hk
        exact ⟨j, hj, hu, hkey.trans hke, hcv⟩
      have hno : ∀ q, q ∈ offenders → ∀ idx,
          detail.find_bucket t2 (detail.normalize_edge q.1 q.2) = Except.ok (some idx) →
          (t2 idx).candidate_valid = false := by
        intro q hq idx hf
        obtain ⟨hidx, hu, hk⟩ := detail.find_some t2 _ idx hf
        cases hcv : (t2 idx).candidate_valid with
        | false => rfl
        | true =>
          exfalso
          rcases hex2 idx hcv with h1 | h1
          · rw [hcv1 idx hidx (by rw [← (hpost.same idx).1]; exact hu)] at h1
            cases h1
          · rw [hk] at h1
            exact hoff q hq h1
      by_cases hcn : cn = 0
      · right
        refine ⟨t2, cbuf, hpost.ok, hpost.unblocked, by rw [hlen]; exact hV, hmarkedV, ?_⟩
        intro p2
        rw [if_pos hcn, if_pos (by rw [hlen]; exact hcn)]
      · cases hfo : detail.filter_offenders t2 offenders g.g_offender_buf 0 with
        | error x =>
          left
          refine ⟨x, by rw [if_neg hcn], fun _ => by rw [if_neg hcn]⟩
        | ok r2 =>
          have hr2 := detail.filter_offenders_zero t2 offenders g.g_offender_buf 0 hno r2 hfo
          subst hr2
          right
          refine ⟨t2, cbuf, hpost.ok, hpost.unblocked, by rw [hlen]; exact hV, hmarkedV, ?_⟩
          intro p2
          rw [if_neg hcn, if_neg (by rw [hlen]; exact hcn), hlen]
          simp only [detail.sample_loop_zero]
          cases detail.select_loop (detail.shuffle R cn cbuf (R.seed (seed % 2 ^ 32))).1
              (List.range cn) t2 g.g_selected_buf 0 with
          | error x => rfl
          | ok r => rfl

/-- The batch of `sample_parallel_batch` when no offender is a valid candidate that
the call keeps: the greedy selection over the shuffled valid candidates. -/
theorem sample_greedy (K : Kernel) (R : Rng) (arrangement : ArrangementFn) (g : detail.Scratch)
    (points : List Point) (edges candidates offenders : List (Int × Int)) (p : R.Real)
    (seed : Nat) (tris : List (Int × Int × Int)) (batch : List (Int × Int))
    (htris : compute_triangles arrangement points edges = Except.ok tris)
    (hoff : ∀ q, q ∈ offenders →
      detail.normalize_edge q.1 q.2 ∉ detail.valid_candidates K points tris candidates)
    (h : sample_parallel_batch K R arrangement g points edges candidates offenders p seed =
      Except.ok batch) :
    (∀ p2, sample_parallel_batch K R arrangement g points edges candidates offenders p2 seed =
      Except.ok batch) ∧
    batch = (detail.greedy K points tris
      (detail.shuffled R seed (detail.valid_candidates K points tris candidates))).map
        detail.to_pair := by
  rcases sample_stages K R arrangement g points edges candidates offenders p seed tris htris
    hoff with ⟨x, hx, -⟩ | ⟨t2, cbuf, hok, hub, hV, hmarked, hall⟩
  · rw [hx] at h
    cases h
  · have hp := hall p
    rw [h] at hp
    refine ⟨fun p2 => by rw [hall p2, ← hp], ?_⟩
    generalize hVdef : detail.valid_candidates K points tris candidates = V at *
    by_cases hz : V.length = 0
    · rw [if_pos hz] at hp
      simp only [Except.ok.injEq] at hp
      have : V = [] := List.length_eq_zero.1 hz
      rw [hp, this]
      rfl
    · rw [if_neg hz] at hp
      generalize hsh : detail.shuffle R V.length cbuf (R.seed (seed % 2 ^ 32)) = sh at hp
      cases hsl : detail.select_loop sh.1 (List.range V.length) t2 g.g_selected_buf 0 with
      | error x =>
        rw [hsl] at hp
        cases hp
      | ok r =>
        obtain ⟨t3, sel, sn⟩ := r
        rw [hsl] at hp
        simp only [Except.map, Except.ok.injEq] at hp
        obtain ⟨-, hsim⟩ := detail.bufSim_of_buf_list cbuf V.length V hV
        obtain ⟨hshsim, -⟩ := detail.shuffle_sim R V.length cbuf (detail.buf_of V)
          (R.seed (seed % 2 ^ 32)) hsim
        rw [hsh] at hshsim
        have horder : detail.buf_list sh.1 V.length = detail.shuffled R seed V := by
          unfold detail.shuffled
          exact detail.buf_list_congr _ _ _ hshsim
        have hmk : ∀ i, i ∈ List.range V.length → ∃ j, j < detail.EDGE_TABLE_SIZE ∧
            (t2 j).used = true ∧ (t2 j).key = sh.1 i ∧ (t2 j).candidate_valid = true := by
          intro i hi
          apply hmarked
          have hmem : sh.1 i ∈ detail.buf_list sh.1 V.length :=
            (detail.mem_buf_list _ _ _).2 ⟨i, List.mem_range.1 hi, rfl⟩
          rw [horder] at hmem
          exact (detail.shuffled_perm R seed V).subset hmem
        have hg := detail.select_loop_greedy K points tris sh.1 (List.range V.length) t2
          g.g_selected_buf 0 t3 sel sn (detail.selInv_nil K points tris t2 hok hub) hmk hsl
        rw [hp, detail.map_range_buf, hg]
        have : (List.range V.length).map sh.1 = detail.buf_list sh.1 V.length := rfl
        rw [this, horder]
        rfl

theorem hex_pointAt :
    pointAt hexPoints 0 = { x := -1, y := 0 } ∧ pointAt hexPoints 1 = { x := 0, y := -1 } ∧
    pointAt hexPoints 2 = { x := 1, y := -1 } ∧ pointAt hexPoints 3 = { x := 1, y := 0 } ∧
    pointAt hexPoints 4 = { x := 0, y := 1 } ∧ pointAt hexPoints 5 = { x := -1, y := 1 } := by
  simp [pointAt, hexPoints]

theorem hex_idx_of :
    idx_of hexPoints (pointAt hexPoints 0) = some 0 ∧
    idx_of hexPoints (pointAt hexPoints 1) = some 1 ∧
    idx_of hexPoints (pointAt hexPoints 2) = some 2 ∧
    idx_of hexPoints (pointAt hexPoints 3) = some 3 ∧
    idx_of hexPoints (pointAt hexPoints 4) = some 4 ∧
    idx_of hexPoints (pointAt hexPoints 5) = some 5 := by
  have e1 : (({ x := -1, y := 0 } : Point) == { x := 0, y := -1 }) = false := by
    rw [beq_eq_false_iff_ne]; norm_num
  have e2 : (({ x := -1, y := 0 } : Point) == { x := 1, y := -1 }) = false := by
    rw [beq_eq_false_iff_ne]; norm_num
  have e3 : (({ x := -1, y := 0 } : Point) == { x := 1, y := 0 }) = false := by
    rw [beq_eq_false_iff_ne]; norm_num
  have e4 : (({ x := -1, y := 0 } : Point) == { x := 0, y := 1 }) = false := by
    rw [beq_eq_false_iff_ne]; norm_num
  have e5 : (({ x := -1, y := 0 } : Point) == { x := -1, y := 1 }) = false := by
    rw [beq_eq_false_iff_ne]; norm_num
  have e6 : (({ x := 0, y := -1 } : Point) == { x := 1, y := -1 }) = false := by
    rw [beq_eq_false_iff_ne]; norm_num
  have e7 : (({ x := 0, y := -1 } : Point) == { x := 1, y := 0 }) = false := by
    rw [beq_eq_false_iff_ne]; norm_num
  have e8 : (({ x := 0, y := -1 } : Point) == { x := 0, y := 1 }) = false := by
    rw [beq_eq_false_iff_ne]; norm_num
  have e9 : (({ x := 0, y := -1 } : Point) == { x := -1, y := 1 }) = false := by
    rw [beq_eq_false_iff_ne]; norm_num
  have e10 : (({ x := 1, y := -1 } : Point) == { x := 1, y := 0 }) = false := by
    rw [beq_eq_false_iff_ne]; norm_num
  have e11 : (({ x := 1, y := -1 } : Point) == { x := 0, y := 1 }) = false := by
    rw [beq_eq_false_iff_ne]; norm_num
  have e12 : (({ x := 1, y := -1 } : Point) == { x := -1, y := 1 }) = false := by
    rw [beq_eq_false_iff_ne]; norm_num
  have e13 : (({ x := 1, y := 0 } : Point) == { x := 0, y := 1 }) = false := by
    rw [beq_eq_false_iff_ne]; norm_num
  have e14 : (({ x := 1, y := 0 } : Point) == { x := -1, y := 1 }) = false := by
    rw [beq_eq_false_iff_ne]; norm_num
  have e15 : (({ x := 0, y := 1 } : Point) == { x := -1, y := 1 }) = false := by
    rw [beq_eq_false_iff_ne]; norm_num
  obtain ⟨p0, p1, p2, p3, p4, p5⟩ := hex_pointAt
  rw [p0, p1, p2, p3, p4, p5]
  simp [idx_of, hexPoints, List.indexOf, List.findIdx, List.findIdx.go, e1, e2, e3, e4, e5, e6, e7, e8, e9, e10, e11, e12, e13, e14, e15]

theorem hex_triangles :
    compute_triangles hexArrangement hexPoints hexEdges = Except.ok hexTriangles := by
  obtain ⟨h0, h1, h2, h3, h4, h5⟩ := hex_idx_of
  have hb : hexEdges.all (edge_in_bounds hexPoints) = true := by decide
  simp [compute_triangles, build_arrangement_for_triangles, hb, hexArrangement,
    extract_triangular_faces, triangleFace, walk_boundary, walk_step, h0, h1, h2, h3, h4, h5,
    sort3, unique, tupleLe, hexTriangles]

theorem hexTriangles_capacity :
    (detail.edge_keys hexTriangles).length < detail.EDGE_TABLE_SIZE := by
  decide

theorem hexTriangles_nonDegenerate : detail.NonDegenerate hexTriangles := by
  intro T hT
  simp only [hexTriangles, List.mem_cons, List.mem_singleton, List.not_mem_nil,
    or_false] at hT
  rcases hT with rfl | rfl | rfl | rfl <;> decide

/-- The diagonal `(1, 5)` of the hexagon is a candidate with opposite vertices `0`
and `4`. -/
theorem hex_candidate_15 :
    detail.edge_candidate exactKernel hexPoints hexTriangles { first := 1, second := 5 } =
      some { edge := { first := 1, second := 5 }, partner := { first := 0, second := 4 },
             opp1 := 0, opp2 := 4 } := by
  rw [detail.edge_candidate_of exactKernel hexPoints hexTriangles { first := 1, second := 5 }
    (0, 1, 5) (1, 4, 5) 0 4 (by decide) rfl rfl]
  obtain ⟨p0, p1, p2, p3, p4, p5⟩ := hex_pointAt
  rw [if_pos]
  · rfl
  · simp only [p0, p1, p2, p3, p4, p5]
    constructor
    · show do_cross segIntersection _ _ = true
      rw [do_cross_segIntersection]
      unfold ProperCross
      norm_num [crossDen, crossNumT, crossNumR]
    · rw [violates_exact]
      left
      norm_num [orient, inCircleDet]

/-- The diagonal `(2, 4)` of the hexagon is a candidate with opposite vertices `1`
and `3`. -/
theorem hex_candidate_24 :
    detail.edge_candidate exactKernel hexPoints hexTriangles { first := 2, second := 4 } =
      some { edge := { first := 2, second := 4 }, partner := { first := 1, second := 3 },
             opp1 := 1, opp2 := 3 } := by
  rw [detail.edge_candidate_of exactKernel hexPoints hexTriangles { first := 2, second := 4 }
    (1, 2, 4) (2, 3, 4) 1 3 (by decide) rfl rfl]
  obtain ⟨p0, p1, p2, p3, p4, p5⟩ := hex_pointAt
  rw [if_pos]
  · rfl
  · simp only [p0, p1, p2, p3, p4, p5]
    constructor
    · show do_cross segIntersection _ _ = true
      rw [do_cross_segIntersection]
      unfold ProperCross
      norm_num [crossDen, crossNumT, crossNumR]
    · rw [violates_exact]
      left
      norm_num [orient, inCircleDet]

/-- The two candidate diagonals of the hexagon are not in conflict. -/
theorem hex_no_conflict :
    ({ first := 2, second := 4 } : detail.Edge) ∉
      detail.conflicts_of exactKernel hexPoints hexTriangles { first := 1, second := 5 } ∧
    ({ first := 1, second := 5 } : detail.Edge) ∉
      detail.conflicts_of exactKernel hexPoints hexTriangles { first := 2, second := 4 } := by
  rw [detail.conflicts_of_some _ _ _ _ _ hex_candidate_15,
    detail.conflicts_of_some _ _ _ _ _ hex_candidate_24]
  constructor <;> decide

namespace detail

theorem apply_loop_length (t : EdgeTable) (sel : EdgeBuf) :
    ∀ (is : List Nat) (batch : List (Int × Int)) (es : List Edge) (batch2 : List (Int × Int))
      (es2 : List Edge), apply_loop t sel is batch es = Except.ok (batch2, es2) →
      batch2.length = batch.length + is.length := by
  intro is
  induction is with
  | nil =>
    intro batch es batch2 es2 h
    simp only [apply_loop, Except.ok.injEq, Prod.mk.injEq] at h
    rw [← h.1]
    rfl
  | cons i is ih =>
    intro batch es batch2 es2 h
    simp only [apply_loop] at h
    cases hf : find_bucket t (sel i) with
    | error x => simp [hf] at h
    | ok r =>
      cases r with
      | none =>
        simp only [hf] at h
        rw [ih _ _ _ _ h]
        simp only [List.length_append, List.length_cons, List.length_nil]
        omega
      | some idx =>
        simp only [hf] at h
        rw [ih _ _ _ _ h]
        simp only [List.length_append, List.length_cons, List.length_nil]
        omega

end detail

/-- The counters and the buffers of a call of `sample_parallel_batch` that
returns. -/
theorem sample_bounds (K : Kernel) (R : Rng) (arrangement : ArrangementFn) (g : detail.Scratch)
    (points : List Point) (edges candidates offenders : List (Int × Int)) (p : R.Real)
    (seed : Nat) (batch : List (Int × Int))
    (h : sample_parallel_batch K R arrangement g points edges candidates offenders p seed =
      Except.ok batch) :
    ∃ tris t1 t2 cbuf cn,
      compute_triangles arrangement points edges = Except.ok tris ∧
      detail.record_triangles tris (detail.clear_edge_table g.g_edge_table) = Except.ok t1 ∧
      detail.filter_candidates K points candidates t1 g.g_candidate_order_buf 0 =
        Except.ok (t2, cbuf, cn) ∧
      cn ≤ detail.MAX_EDGES_PER_TRIANG ∧
      (∀ k, cn ≤ k → cbuf k = g.g_candidate_order_buf k) ∧
      ((cn = 0 ∧ batch = []) ∨
        ∃ obuf oc t3 sel sn,
          detail.filter_offenders t2 offenders g.g_offender_buf 0 = Except.ok (obuf, oc) ∧
          oc ≤ detail.MAX_EDGES_PER_TRIANG ∧
          (∀ k, oc ≤ k → obuf k = g.g_offender_buf k) ∧
          (∀ k, cn ≤ k → (detail.shuffle R cn cbuf (R.seed (seed % 2 ^ 32))).1 k = cbuf k) ∧
          detail.sample_loop R p (detail.shuffle R cn cbuf (R.seed (seed % 2 ^ 32))).1 obuf oc
            (List.range cn) (detail.shuffle R cn cbuf (R.seed (seed % 2 ^ 32))).2 t2
            g.g_selected_buf 0 = Except.ok (t3, sel, sn) ∧
          sn ≤ cn ∧
          (∀ k, sn ≤ k → sel k = g.g_selected_buf k) ∧
          batch = (List.range sn).map (fun i => ((sel i).first, (sel i).second))) := by
  unfold sample_parallel_batch at h
  generalize R.seed (seed % 2 ^ 32) = rng0 at h ⊢
  cases htris : compute_triangles arrangement points edges with
  | error x => simp [htris] at h
  | ok tris =>
    simp only [htris] at h
    cases hrec : detail.record_triangles tris (detail.clear_edge_table g.g_edge_table) with
    | error x => simp [hrec] at h
    | ok t1 =>
      simp only [hrec] at h
      cases hfc : detail.filter_candidates K points candidates t1 g.g_candidate_order_buf 0 with
      | error x => simp [hfc] at h
      | ok r =>
        obtain ⟨t2, cbuf, cn⟩ := r
        simp only [hfc] at h
        obtain ⟨-, hc2, hc3⟩ := detail.filter_candidates_bounds K points candidates t1 _ 0 t2
          cbuf cn hfc
        refine ⟨tris, t1, t2, cbuf, cn, rfl, hrec, hfc, hc2 (by decide),
          fun k hk => hc3 k (Or.inr hk), ?_⟩
        by_cases hcn : cn = 0
        · rw [if_pos hcn] at h
          simp only [Except.ok.injEq] at h
          exact Or.inl ⟨hcn, h.symm⟩
        · rw [if_neg hcn] at h
          right
          cases hfo : detail.filter_offenders t2 offenders g.g_offender_buf 0 with
          | error x => simp [hfo] at h
          | ok r2 =>
            obtain ⟨obuf, oc⟩ := r2
            simp only [hfo] at h
            obtain ⟨-, ho2, ho3⟩ := detail.filter_offenders_bounds t2 offenders _ 0 obuf oc hfo
            cases hsl : detail.sample_loop R p
                (detail.shuffle R cn cbuf rng0).1 obuf oc (List.range cn)
                (detail.shuffle R cn cbuf rng0).2 t2 g.g_selected_buf 0 with
            | error x => simp [hsl] at h
            | ok r3 =>
              obtain ⟨t3, sel, sn⟩ := r3
              simp only [hsl, Except.ok.injEq] at h
              obtain ⟨-, hs2, hs3⟩ := detail.sample_loop_bounds R p _ _ _ _ _ _ _ _ _ _ _ hsl
              refine ⟨obuf, oc, t3, sel, sn, rfl, ho2 (by decide),
                fun k hk => ho3 k (Or.inr hk),
                fun k hk => detail.shuffle_frame R cn cbuf _ k hk, hsl, ?_,
                fun k hk => hs3 k (Or.inr hk), h.symm⟩
              simpa using hs2

/-- The counters and the buffers of a round of `compute_delaunay_batches` that
returns. -/
theorem round_bounds (K : Kernel) (arrangement : ArrangementFn) (points : List Point)
    (g : detail.Scratch) (edge_set : List detail.Edge) (r : detail.RoundResult)
    (h : detail.delaunay_round K arrangement points g edge_set = Except.ok r) :
    ∃ tris t1 t2 cbuf cn,
      compute_triangles arrangement points (detail.edges_vector_from_set edge_set) =
        Except.ok tris ∧
      detail.record_triangles tris (detail.clear_edge_table g.g_edge_table) = Except.ok t1 ∧
      detail.scan_buckets K points (List.range detail.EDGE_TABLE_SIZE) t1
        g.g_candidate_order_buf 0 = Except.ok (t2, cbuf, cn) ∧
      cn ≤ detail.MAX_EDGES_PER_TRIANG ∧
      (∀ k, cn ≤ k → cbuf k = g.g_candidate_order_buf k) ∧
      r.scratch.g_candidate_order_buf = cbuf ∧
      r.scratch.g_offender_buf = g.g_offender_buf ∧
      ((cn = 0 ∧ r.batch = none ∧ r.scratch.g_selected_buf = g.g_selected_buf) ∨
        ∃ t3 sel sn,
          detail.select_loop cbuf (List.range cn) t2 g.g_selected_buf 0 =
            Except.ok (t3, sel, sn) ∧
          sn ≤ cn ∧
          (∀ k, sn ≤ k → sel k = g.g_selected_buf k) ∧
          r.scratch.g_selected_buf = sel ∧
          ∀ b, r.batch = some b → b.length = sn) := by
  simp only [detail.delaunay_round] at h
  generalize hidx : List.range detail.EDGE_TABLE_SIZE = idxs at h ⊢
  cases htris : compute_triangles arrangement points (detail.edges_vector_from_set edge_set) with
  | error x => simp [htris] at h
  | ok tris =>
    simp only [htris] at h
    cases hrec : detail.record_triangles tris (detail.clear_edge_table g.g_edge_table) with
    | error x => simp [hrec] at h
    | ok t1 =>
      simp only [hrec] at h
      cases hscan : detail.scan_buckets K points idxs t1 g.g_candidate_order_buf 0 with
      | error x => simp [hscan] at h
      | ok r1 =>
        obtain ⟨t2, cbuf, cn⟩ := r1
        simp only [hscan] at h
        obtain ⟨-, hc2, hc3⟩ := detail.scan_buckets_bounds K points idxs t1 _ 0 t2 cbuf cn hscan
        by_cases hcn : cn = 0
        · rw [if_pos hcn] at h
          simp only [Except.ok.injEq] at h
          subst h
          exact ⟨tris, t1, t2, cbuf, cn, rfl, hrec, hscan, hc2 (by decide),
            fun k hk => hc3 k (Or.inr hk), rfl, rfl, Or.inl ⟨hcn, rfl, rfl⟩⟩
        · rw [if_neg hcn] at h
          cases hsel : detail.select_loop cbuf (List.range cn) t2 g.g_selected_buf 0 with
          | error x => simp [hsel] at h
          | ok r2 =>
            obtain ⟨t3, sel, sn⟩ := r2
            simp only [hsel] at h
            obtain ⟨-, hs2, hs3⟩ := detail.select_loop_bounds cbuf _ _ _ _ _ _ _ hsel
            have hsn : sn ≤ cn := by simpa using hs2
            by_cases hsz : sn = 0
            · rw [if_pos hsz] at h
              simp only [Except.ok.injEq] at h
              subst h
              exact ⟨tris, t1, t2, cbuf, cn, rfl, hrec, hscan, hc2 (by decide),
                fun k hk => hc3 k (Or.inr hk), rfl, rfl, Or.inr ⟨t3, sel, sn, hsel, hsn,
                  fun k hk => hs3 k (Or.inr hk), rfl, fun b hb => by cases hb⟩⟩
            · rw [if_neg hsz] at h
              cases happ : detail.apply_loop t3 sel (List.range sn) [] edge_set with
              | error x => simp [happ] at h
              | ok r3 =>
                obtain ⟨batch, es2⟩ := r3
                simp only [happ, Except.ok.injEq] at h
                subst h
                have hlen := detail.apply_loop_length t3 sel _ _ _ _ _ happ
                exact ⟨tris, t1, t2, cbuf, cn, rfl, hrec, hscan, hc2 (by decide),
                  fun k hk => hc3 k (Or.inr hk), rfl, rfl, Or.inr ⟨t3, sel, sn, hsel, hsn,
                    fun k hk => hs3 k (Or.inr hk), rfl, fun b hb => by
                      simp only [Option.some.injEq] at hb
                      rw [← hb, hlen]
                      simp⟩⟩

/-- The entries of `candidates` after the one that fills the buffer do not change
the outcome of `sample_parallel_batch`. -/
theorem sample_dropped (K : Kernel) (R : Rng) (arrangement : ArrangementFn) (g : detail.Scratch)
    (points : List Point) (edges candidates offenders rest : List (Int × Int)) (p : R.Real)
    (seed : Nat) (tris : List (Int × Int × Int)) (t1 t2 : detail.EdgeTable)
    (cbuf : detail.EdgeBuf)
    (htris : compute_triangles arrangement points edges = Except.ok tris)
    (hrec : detail.record_triangles tris (detail.clear_edge_table g.g_edge_table) =
      Except.ok t1)
    (hfc : detail.filter_candidates K points candidates t1 g.g_candidate_order_buf 0 =
      Except.ok (t2, cbuf, detail.MAX_EDGES_PER_TRIANG)) :
    detail.filter_candidates K points (candidates ++ rest) t1 g.g_candidate_order_buf 0 =
      Except.ok (t2, cbuf, detail.MAX_EDGES_PER_TRIANG) ∧
    sample_parallel_batch K R arrangement g points edges (candidates ++ rest) offenders p seed =
      sample_parallel_batch K R arrangement g points edges candidates offenders p seed := by
  have hd := detail.filter_candidates_dropped K points rest candidates t1 _ 0 t2 cbuf _
    (by decide) (le_refl _) hfc
  refine ⟨hd, ?_⟩
  unfold sample_parallel_batch
  simp only [htris, hrec]
  rw [hd, hfc]

namespace detail

theorem greedy_replicate (K : Kernel) (points : List Point) (tris : List (Int × Int × Int))
    (e : Edge) (n : Nat) : greedy K points tris (List.replicate (n + 1) e) = [e] := by
  have hstep : ∀ m, (List.replicate m e).foldl (greedy_step K points tris) [e] = [e] := by
    intro m
    induction m with
    | zero => rfl
    | succ m ih =>
      rw [List.replicate_succ, List.foldl_cons]
      have : greedy_step K points tris [e] e = [e] := by
        unfold greedy_step
        rw [if_pos (Or.inl (List.mem_singleton.2 rfl))]
      rw [this, ih]
  unfold greedy
  rw [List.replicate_succ, List.foldl_cons]
  have h0 : greedy_step K points tris [] e = [e] := by
    unfold greedy_step
    rw [if_neg]
    · rfl
    · rintro (h | ⟨s, hs, -⟩)
      · cases h
      · cases hs
  rw [h0, hstep]

theorem valid_candidates_replicate (K : Kernel) (points : List Point)
    (tris : List (Int × Int × Int)) (q : Int × Int) (rest : List (Int × Int))
    (h : (edge_candidate K points tris (normalize_edge q.1 q.2)).isSome = true) :
    valid_candidates K points tris (List.replicate MAX_EDGES_PER_TRIANG q ++ rest) =
      List.replicate MAX_EDGES_PER_TRIANG (normalize_edge q.1 q.2) := by
  unfold valid_candidates valid_entries
  rw [List.map_append, List.map_replicate, List.filter_append]
  have hf : (List.replicate MAX_EDGES_PER_TRIANG (normalize_edge q.1 q.2)).filter
      (fun e => (edge_candidate K points tris e).isSome) =
      List.replicate MAX_EDGES_PER_TRIANG (normalize_edge q.1 q.2) := by
    apply List.filter_eq_self.2
    intro x hx
    rw [List.eq_of_mem_replicate hx]
    exact h
  rw [hf]
  exact List.take_left' (List.length_replicate _ _)

end detail

/-- On the hexagon, with the diagonal `(1, 5)` listed `MAX_EDGES_PER_TRIANG` times
before other candidates and no offenders, `sample_parallel_batch` returns the batch
that holds the diagonal `(1, 5)` alone. -/
theorem hex_cap_batch (R : Rng) (g : detail.Scratch) (rest : List (Int × Int)) (p : R.Real)
    (seed : Nat) :
    sample_parallel_batch exactKernel R hexArrangement g hexPoints hexEdges
      (List.replicate detail.MAX_EDGES_PER_TRIANG (1, 5) ++ rest) [] p seed =
      Except.ok [(1, 5)] := by
  obtain ⟨batch, hb⟩ := sample_total exactKernel R hexArrangement g hexPoints hexEdges
    (List.replicate detail.MAX_EDGES_PER_TRIANG (1, 5) ++ rest) [] p seed hexTriangles
    hex_triangles hexTriangles_capacity hexTriangles_nonDegenerate
  obtain ⟨-, hg⟩ := sample_greedy exactKernel R hexArrangement g hexPoints hexEdges _ [] p seed
    hexTriangles batch hex_triangles (fun q hq => absurd hq (List.not_mem_nil q)) hb
  have hV := detail.valid_candidates_replicate exactKernel hexPoints hexTriangles (1, 5) rest
    (by
      have : detail.normalize_edge ((1, 5) : Int × Int).1 ((1, 5) : Int × Int).2 =
          { first := 1, second := 5 } := by decide
      rw [this, hex_candidate_15]
      rfl)
  have hn : detail.normalize_edge ((1, 5) : Int × Int).1 ((1, 5) : Int × Int).2 =
      { first := 1, second := 5 } := by decide
  rw [hn] at hV
  rw [hV] at hg
  have hsh : detail.shuffled R seed
      (List.replicate detail.MAX_EDGES_PER_TRIANG ({ first := 1, second := 5 } : detail.Edge)) =
      List.replicate (detail.shuffled R seed
        (List.replicate detail.MAX_EDGES_PER_TRIANG
          ({ first := 1, second := 5 } : detail.Edge))).length { first := 1, second := 5 } :=
    List.eq_replicate_of_mem (fun x hx =>
      List.eq_of_mem_replicate ((detail.shuffled_perm R seed _).subset hx))
  have hlen := (detail.shuffled_perm R seed
    (List.replicate detail.MAX_EDGES_PER_TRIANG ({ first := 1, second := 5 } : detail.Edge))).length_eq
  rw [List.length_replicate] at hlen
  rw [hlen] at hsh
  rw [hsh] at hg
  have hM : detail.MAX_EDGES_PER_TRIANG = 59999 + 1 := by decide
  rw [hM, detail.greedy_replicate] at hg
  rw [hb, hg]
  rfl

/-- On the hexagon, the loop over `MAX_EDGES_PER_TRIANG` copies of the diagonal
`(1, 5)` fills the buffer of candidates. -/
theorem hex_cap_reached (g : detail.Scratch) :
    ∃ t1 t2 cbuf,
      detail.record_triangles hexTriangles (detail.clear_edge_table g.g_edge_table) =
        Except.ok t1 ∧
      detail.filter_candidates exactKernel hexPoints
        (List.replicate detail.MAX_EDGES_PER_TRIANG (1, 5)) t1 g.g_candidate_order_buf 0 =
        Except.ok (t2, cbuf, detail.MAX_EDGES_PER_TRIANG) := by
  have hb := hex_cap_batch counterRng g [] (1 : Nat) 0
  rw [List.append_nil] at hb
  obtain ⟨tris, t1, t2, cbuf, cn, htris, hrec, hfc, -, -, hcase⟩ :=
    sample_bounds exactKernel counterRng hexArrangement g hexPoints hexEdges _ [] (1 : Nat) 0 _ hb
  rw [hex_triangles] at htris
  simp only [Except.ok.injEq] at htris
  subst htris
  have hinv : detail.RecInv (detail.insertions hexTriangles) t1 := by
    simpa using detail.record_triangles_recInv hexTriangles [] _ t1 (detail.recInv_clear _) hrec
  obtain ⟨hok1, hub1, -⟩ := detail.tableOk_of_recInv exactKernel hexPoints hexTriangles t1 hinv
  obtain ⟨hex1, -⟩ := detail.filter_candidates_exact exactKernel hexPoints hexTriangles _ t1 _ 0
    t2 cbuf cn hok1 hub1 (by decide) hfc
  have hV := detail.valid_candidates_replicate exactKernel hexPoints hexTriangles (1, 5) []
    (by
      have : detail.normalize_edge ((1, 5) : Int × Int).1 ((1, 5) : Int × Int).2 =
          { first := 1, second := 5 } := by decide
      rw [this, hex_candidate_15]
      rfl)
  rw [List.append_nil] at hV
  have hcn : cn = detail.MAX_EDGES_PER_TRIANG := by
    have h1 := congrArg List.length hex1
    rw [detail.buf_list_length] at h1
    have h2 : (detail.buf_list g.g_candidate_order_buf 0 ++
        List.take (detail.MAX_EDGES_PER_TRIANG - 0)
          (detail.valid_entries exactKernel hexPoints hexTriangles
            (List.replicate detail.MAX_EDGES_PER_TRIANG (1, 5)))) =
        detail.valid_candidates exactKernel hexPoints hexTriangles
          (List.replicate detail.MAX_EDGES_PER_TRIANG (1, 5)) := rfl
    rw [h2, hV, List.length_replicate] at h1
    exact h1
  rw [hcn] at hfc
  exact ⟨t1, t2, cbuf, hrec, hfc⟩

theorem hex_valid_three :
    detail.valid_candidates exactKernel hexPoints hexTriangles [(5, 1), (1, 5), (2, 4)] =
      [{ first := 1, second := 5 }, { first := 1, second := 5 }, { first := 2, second := 4 }] := by
  have h1 : detail.normalize_edge 5 1 = { first := 1, second := 5 } := by decide
  have h2 : detail.normalize_edge 1 5 = { first := 1, second := 5 } := by decide
  have h3 : detail.normalize_edge 2 4 = { first := 2, second := 4 } := by decide
  unfold detail.valid_candidates detail.valid_entries
  simp only [List.map_cons, List.map_nil, h1, h2, h3]
  rw [List.filter_cons_of_pos (by rw [hex_candidate_15]; rfl),
    List.filter_cons_of_pos (by rw [hex_candidate_15]; rfl),
    List.filter_cons_of_pos (by rw [hex_candidate_24]; rfl), List.filter_nil]
  rfl

/-- The triangles that `compute_triangles` extracts from the arrangement of the
hexagon. -/
theorem hexagon_compute_triangles (edges : List (Int × Int))
    (hb : edges.all (edge_in_bounds hexPoints) = true) :
    compute_triangles hexagonArrangement hexPoints edges =
      Except.ok
        (if (1, 5) ∈ edges ∨ (5, 1) ∈ edges then
          (if (2, 4) ∈ edges ∨ (4, 2) ∈ edges then hexTriangles
           else [(0, 1, 5), (1, 2, 3), (1, 3, 4), (1, 4, 5)])
         else
          (if (2, 4) ∈ edges ∨ (4, 2) ∈ edges then [(0, 1, 4), (0, 4, 5), (1, 2, 4), (2, 3, 4)]
           else hexFlippedTriangles)) := by
  obtain ⟨h0, h1, h2, h3, h4, h5⟩ := hex_idx_of
  by_cases hd : (1, 5) ∈ edges ∨ (5, 1) ∈ edges <;>
    by_cases hd2 : (2, 4) ∈ edges ∨ (4, 2) ∈ edges <;>
    simp [compute_triangles, build_arrangement_for_triangles, hb, hexagonArrangement, hd, hd2,
      extract_triangular_faces, triangleFace, walk_boundary, walk_step, h0, h1, h2, h3, h4, h5,
      sort3, unique, tupleLe, hexTriangles, hexFlippedTriangles]

namespace detail

/-- An edge with a candidate record is an edge of a triangle. -/
theorem candidate_in_edge_keys (K : Kernel) (points : List Point)
    (tris : List (Int × Int × Int)) (e : Edge) (c : CandidateEdge)
    (h : edge_candidate K points tris e = some c) : e ∈ edge_keys tris := by
  obtain ⟨A, B, hrec, -⟩ := edge_candidate_some K points tris e c h
  have hA : A ∈ incident_of (insertions tris) e :=
    List.mem_of_mem_take (by unfold recorded at hrec; rw [hrec]; simp)
  exact List.mem_dedup.2 (List.mem_map.2 ⟨(e, A), mem_insertions_of_incident _ e A hA, rfl⟩)

/-- No edge lies in more than two triangles when no edge of a triangle does. -/
theorem atMostTwo_of_keys (tris : List (Int × Int × Int))
    (h : ∀ e, e ∈ edge_keys tris →
      (tris.filter (fun tri => decide (e ∈ tri_edges (to_triangle tri)))).length ≤ 2) :
    AtMostTwo tris := by
  intro e
  by_cases he : e ∈ edge_keys tris
  · exact h e he
  · have hnil : tris.filter (fun tri => decide (e ∈ tri_edges (to_triangle tri))) = [] := by
      rw [List.filter_eq_nil_iff]
      intro T hT hd
      apply he
      have hd2 : e ∈ tri_edges (to_triangle T) := by simpa using hd
      refine List.mem_dedup.2 (List.mem_map.2 ⟨(e, to_triangle T), ?_, rfl⟩)
      unfold insertions
      rw [List.mem_flatMap]
      exact ⟨T, hT, List.mem_map.2 ⟨e, hd2, rfl⟩⟩
    rw [hnil]
    exact Nat.zero_le 2

end detail

/-- In every triangle list of the hexagon no edge lies in more than two triangles. -/
theorem hexagon_atMostTwo (E : List (Int × Int)) (tris : List (Int × Int × Int))
    (h : compute_triangles hexagonArrangement hexPoints E = Except.ok tris) :
    detail.AtMostTwo tris := by
  by_cases hb : E.all (edge_in_bounds hexPoints) = true
  · rw [hexagon_compute_triangles E hb] at h
    rw [Except.ok.injEq] at h
    subst h
    apply detail.atMostTwo_of_keys
    split_ifs <;> decide
  · simp [compute_triangles, build_arrangement_for_triangles, hb] at h

theorem hexTriangles_atMostTwo : detail.AtMostTwo hexTriangles :=
  detail.atMostTwo_of_keys hexTriangles (by decide)

/-- The diagonals `(1, 5)` and `(2, 4)` are the only candidates of the hexagon. -/
theorem hex_candidates (e : detail.Edge) (c : detail.CandidateEdge)
    (h : detail.edge_candidate exactKernel hexPoints hexTriangles e = some c) :
    e = { first := 1, second := 5 } ∨ e = { first := 2, second := 4 } := by
  have he := detail.candidate_in_edge_keys exactKernel hexPoints hexTriangles e c h
  have hk : ∀ x, x ∈ detail.edge_keys hexTriangles →
      x ∈ ([{ first := 1, second := 5 }, { first := 2, second := 4 },
        { first := 1, second := 4 }, { first := 0, second := 1 }, { first := 0, second := 5 },
        { first := 1, second := 2 }, { first := 4, second := 5 }, { first := 2, second := 3 },
        { first := 3, second := 4 }] : List detail.Edge) := by decide
  have he2 := hk e he
  simp only [List.mem_cons, List.mem_singleton, List.not_mem_nil, or_false] at he2
  obtain ⟨A, B, hrec, hA, hB, -, -, -, hv⟩ :=
    detail.edge_candidate_some exactKernel hexPoints hexTriangles e c h
  obtain ⟨p0, p1, p2, p3, p4, p5⟩ := hex_pointAt
  rcases he2 with rfl | rfl | rfl | rfl | rfl | rfl | rfl | rfl | rfl
  · exact Or.inl rfl
  · exact Or.inr rfl
  · exfalso
    have hr : detail.recorded hexTriangles { first := 1, second := 4 } =
        [(1, 2, 4), (1, 4, 5)] := by decide
    rw [hr] at hrec
    simp only [List.cons.injEq, and_true] at hrec
    obtain ⟨hA2, hB2⟩ := hrec
    rw [← hA2] at hA
    rw [← hB2] at hB
    have o1 : c.opp1 = 2 := by
      simp [detail.opposite_vertex] at hA
      exact hA.symm
    have o2 : c.opp2 = 5 := by
      simp [detail.opposite_vertex] at hB
      exact hB.symm
    rw [o1, o2, violates_exact] at hv
    simp only [p1, p4, p2, p5] at hv
    norm_num [orient, inCircleDet] at hv
  all_goals
    exfalso
    revert hrec
    generalize hr : detail.recorded hexTriangles _ = r
    have hlen : r.length = 1 := by rw [← hr]; decide
    intro hrec
    rw [hrec] at hlen
    cases hlen

theorem hexFlippedTriangles_capacity :
    (detail.edge_keys hexFlippedTriangles).length < detail.EDGE_TABLE_SIZE := by
  decide

theorem hexFlippedTriangles_nonDegenerate : detail.NonDegenerate hexFlippedTriangles := by
  intro T hT
  simp only [hexFlippedTriangles, List.mem_cons, List.mem_singleton, List.not_mem_nil,
    or_false] at hT
  rcases hT with rfl | rfl | rfl | rfl <;> decide

/-- After both flips the hexagon has no candidate left. -/
theorem hexFlipped_no_candidate (e : detail.Edge) :
    detail.edge_candidate exactKernel hexPoints hexFlippedTriangles e = none := by
  cases h : detail.edge_candidate exactKernel hexPoints hexFlippedTriangles e with
  | none => rfl
  | some c =>
    exfalso
    have he := detail.candidate_in_edge_keys exactKernel hexPoints hexFlippedTriangles e c h
    have hk : ∀ x, x ∈ detail.edge_keys hexFlippedTriangles →
        x ∈ ([{ first := 0, second := 4 }, { first := 1, second := 3 },
          { first := 1, second := 4 }, { first := 0, second := 1 }, { first := 0, second := 5 },
          { first := 1, second := 2 }, { first := 4, second := 5 }, { first := 2, second := 3 },
          { first := 3, second := 4 }] : List detail.Edge) := by decide
    have he2 := hk e he
    simp only [List.mem_cons, List.mem_singleton, List.not_mem_nil, or_false] at he2
    obtain ⟨A, B, hrec, hA, hB, -, -, -, hv⟩ :=
      detail.edge_candidate_some exactKernel hexPoints hexFlippedTriangles e c h
    obtain ⟨p0, p1, p2, p3, p4, p5⟩ := hex_pointAt
    rcases he2 with rfl | rfl | rfl | rfl | rfl | rfl | rfl | rfl | rfl
    · have hr : detail.recorded hexFlippedTriangles { first := 0, second := 4 } =
          [(0, 1, 4), (0, 4, 5)] := by decide
      rw [hr] at hrec
      simp only [List.cons.injEq, and_true] at hrec
      obtain ⟨hA2, hB2⟩ := hrec
      rw [← hA2] at hA
      rw [← hB2] at hB
      have o1 : c.opp1 = 1 := by
        simp [detail.opposite_vertex] at hA
        exact hA.symm
      have o2 : c.opp2 = 5 := by
        simp [detail.opposite_vertex] at hB
        exact hB.symm
      rw [o1, o2, violates_exact] at hv
      simp only [p0, p4, p1, p5] at hv
      norm_num [orient, inCircleDet] at hv
    · have hr : detail.recorded hexFlippedTriangles { first := 1, second := 3 } =
          [(1, 2, 3), (1, 3, 4)] := by decide
      rw [hr] at hrec
      simp only [List.cons.injEq, and_true] at hrec
      obtain ⟨hA2, hB2⟩ := hrec
      rw [← hA2] at hA
      rw [← hB2] at hB
      have o1 : c.opp1 = 2 := by
        simp [detail.opposite_vertex] at hA
        exact hA.symm
      have o2 : c.opp2 = 4 := by
        simp [detail.opposite_vertex] at hB
        exact hB.symm
      rw [o1, o2, violates_exact] at hv
      simp only [p1, p3, p2, p4] at hv
      norm_num [orient, inCircleDet] at hv
    · have hr : detail.recorded hexFlippedTriangles { first := 1, second := 4 } =
          [(0, 1, 4), (1, 3, 4)] := by decide
      rw [hr] at hrec
      simp only [List.cons.injEq, and_true] at hrec
      obtain ⟨hA2, hB2⟩ := hrec
      rw [← hA2] at hA
      rw [← hB2] at hB
      have o1 : c.opp1 = 0 := by
        simp [detail.opposite_vertex] at hA
        exact hA.symm
      have o2 : c.opp2 = 3 := by
        simp [detail.opposite_vertex] at hB
        exact hB.symm
      rw [o1, o2, violates_exact] at hv
      simp only [p1, p4, p0, p3] at hv
      norm_num [orient, inCircleDet] at hv
    all_goals
      revert hrec
      generalize hr : detail.recorded hexFlippedTriangles _ = r
      have hlen : r.length = 1 := by rw [← hr]; decide
      intro hrec
      rw [hrec] at hlen
      cases hlen

/-- A round of `compute_delaunay_batches` returns when the triangles of its edge set
have three different corners each and fewer distinct edges than the table has
slots. -/
theorem round_total (K : Kernel) (arrangement : ArrangementFn) (points : List Point)
    (g : detail.Scratch) (edge_set : List detail.Edge) (tris : List (Int × Int × Int))
    (htris : compute_triangles arrangement points (detail.edges_vector_from_set edge_set) =
      Except.ok tris)
    (hcap : (detail.edge_keys tris).length < detail.EDGE_TABLE_SIZE)
    (hd : detail.NonDegenerate tris) :
    ∃ r, detail.delaunay_round K arrangement points g edge_set = Except.ok r := by
  unfold detail.delaunay_round
  simp only [htris]
  obtain ⟨t1, hrec, hinv⟩ := detail.record_total tris g.g_edge_table (le_of_lt hcap)
  rw [hrec]
  simp only
  obtain ⟨hok1, hub1, -⟩ := detail.tableOk_of_recInv K points tris t1 hinv
  have hfree1 : detail.HasFree t1 := detail.free_slot _ t1 hinv hcap
  obtain ⟨⟨t2, cbuf, cn⟩, hscan⟩ := detail.scan_total K points tris hd
    (List.range detail.EDGE_TABLE_SIZE) t1 g.g_candidate_order_buf 0 hok1 hub1
    (fun i hi => List.mem_range.1 hi)
  rw [hscan]
  simp only
  have hpost := detail.scan_spec K points tris _ t1 _ 0 t2 cbuf cn hok1 hub1
    (fun i hi => List.mem_range.1 hi) (List.nodup_range _) hscan
  have hfree2 : detail.HasFree t2 :=
    detail.hasFree_keysEq _ _ (detail.sameData_keysEq _ _ hpost.same) hfree1
  by_cases hcn : cn = 0
  · rw [if_pos hcn]
    exact ⟨_, rfl⟩
  · rw [if_neg hcn]
    obtain ⟨⟨t3, sel, sn⟩, hsel⟩ := detail.select_loop_total K points tris cbuf (List.range cn)
      t2 g.g_selected_buf 0 (detail.selInv_nil K points tris t2 hpost.ok hpost.unblocked) hfree2
    rw [hsel]
    simp only
    obtain ⟨-, hstep, -⟩ := detail.select_loop_spec K points tris cbuf (List.range cn) t2
      g.g_selected_buf 0 t3 sel sn (detail.selInv_nil K points tris t2 hpost.ok hpost.unblocked)
      hsel
    by_cases hsn : sn = 0
    · rw [if_pos hsn]
      exact ⟨_, rfl⟩
    · rw [if_neg hsn]
      obtain ⟨⟨batch, es⟩, happ⟩ := detail.apply_loop_total t3 sel
        (detail.hasFree_blockStep _ _ hstep hfree2) (List.range sn) [] edge_set
      rw [happ]
      exact ⟨_, rfl⟩

/-- The loop of `compute_delaunay_batches` goes on with the next round after a
round that yields a batch. -/
theorem loop_of_round_some (K : Kernel) (arrangement : ArrangementFn) (points : List Point)
    (g : detail.Scratch) (edge_set : List detail.Edge) (acc : List detail.Round) (fuel : Nat)
    (r : detail.RoundResult) (batch : List (Int × Int))
    (h : detail.delaunay_round K arrangement points g edge_set = Except.ok r)
    (hsome : r.batch = some batch) :
    detail.delaunay_loop K arrangement points (fuel + 1) g edge_set acc =
      detail.delaunay_loop K arrangement points fuel r.scratch r.edge_set
        (acc ++ [{ edge_set := edge_set, batch := batch }]) := by
  rw [detail.delaunay_loop]
  simp only [h, hsome]

/-- A list without repetition that holds both `a` and `b` and nothing else is
`[a, b]` or `[b, a]`. -/
theorem list_of_two {α : Type} (S : List α) (a b : α) (hnd : S.Nodup) (ha : a ∈ S) (hb : b ∈ S)
    (hab : a ≠ b) (hsub : ∀ s, s ∈ S → s = a ∨ s = b) : S = [a, b] ∨ S = [b, a] := by
  match S, hnd, ha, hb, hsub with
  | [], _, ha, _, _ => cases ha
  | [x], _, ha, hb, _ =>
    exact absurd ((List.mem_singleton.1 ha).trans (List.mem_singleton.1 hb).symm) hab
  | [x, y], hnd, ha, hb, hsub =>
    have hxy : x ≠ y := by
      intro h
      rw [h] at hnd
      simp at hnd
    rcases hsub x (by simp) with hx | hx <;> rcases hsub y (by simp) with hy | hy
    · exact absurd (hx.trans hy.symm) hxy
    · left; rw [hx, hy]
    · right; rw [hx, hy]
    · exact absurd (hx.trans hy.symm) hxy
  | x :: y :: z :: rest, hnd, _, _, hsub =>
    exfalso
    have hxy : x ≠ y := by
      intro h
      rw [h] at hnd
      simp at hnd
    have hxz : x ≠ z := by
      intro h
      rw [h] at hnd
      simp at hnd
    have hyz : y ≠ z := by
      intro h
      rw [h] at hnd
      simp at hnd
    rcases hsub x (by simp) with hx | hx <;> rcases hsub y (by simp) with hy | hy <;>
      rcases hsub z (by simp) with hz | hz <;>
      first
      | exact hxy (hx.trans hy.symm)
      | exact hxz (hx.trans hz.symm)
      | exact hyz (hy.trans hz.symm)

theorem hexagon_initial :
    detail.edges_vector_from_set (detail.initial_edge_set hexEdges) =
      [(0, 1), (1, 2), (2, 3), (3, 4), (4, 5), (0, 5), (1, 5), (1, 4), (2, 4)] := by
  decide

theorem hexagon_round_triangles :
    compute_triangles hexagonArrangement hexPoints
      (detail.edges_vector_from_set (detail.initial_edge_set hexEdges)) =
      Except.ok hexTriangles := by
  rw [hexagon_initial, hexagon_compute_triangles _ (by decide), if_pos (by decide),
    if_pos (by decide)]

/-- The first round of `compute_delaunay_batches` on the hexagon selects both
candidate diagonals and replaces them by their flip partners. -/
theorem hexagon_round_one (g : detail.Scratch) :
    ∃ r, detail.delaunay_round exactKernel hexagonArrangement hexPoints g
        (detail.initial_edge_set hexEdges) = Except.ok r ∧
      ((r.batch = some [(1, 5), (2, 4)] ∧
        detail.edges_vector_from_set r.edge_set =
          [(0, 1), (1, 2), (2, 3), (3, 4), (4, 5), (0, 5), (1, 4), (0, 4), (1, 3)]) ∨
       (r.batch = some [(2, 4), (1, 5)] ∧
        detail.edges_vector_from_set r.edge_set =
          [(0, 1), (1, 2), (2, 3), (3, 4), (4, 5), (0, 5), (1, 4), (1, 3), (0, 4)])) := by
  obtain ⟨r, hr⟩ := round_total exactKernel hexagonArrangement hexPoints g
    (detail.initial_edge_set hexEdges) hexTriangles hexagon_round_triangles
    hexTriangles_capacity hexTriangles_nonDegenerate
  refine ⟨r, hr, ?_⟩
  obtain ⟨tris, htris, hcase⟩ := round_spec exactKernel hexagonArrangement hexPoints g _ r hr
  rw [hexagon_round_triangles, Except.ok.injEq] at htris
  subst htris
  rcases hcase with ⟨-, -, hno⟩ | ⟨batch, hsome, ⟨tris, t, S, htris, hinv, hbatch, -, hmax⟩, hset⟩
  · have := hno { first := 1, second := 5 }
    rw [hex_candidate_15] at this
    cases this
  · simp only at htris hbatch
    rw [hexagon_round_triangles, Except.ok.injEq] at htris
    subst htris
    have hsub : ∀ s, s ∈ S → s = { first := 1, second := 5 } ∨ s = { first := 2, second := 4 } := by
      intro s hs
      obtain ⟨i, hi, hu, hk, hcv, -⟩ := hinv.sel s hs
      have hc := hinv.ok.cand i hi hu hcv
      rw [hk] at hc
      exact hex_candidates s _ hc
    have hlen : (detail.candidate_edges exactKernel hexPoints hexTriangles).length <
        detail.MAX_EDGES_PER_TRIANG := by
      refine lt_of_le_of_lt (List.length_filter_le _ _) ?_
      decide
    have hc15 := detail.conflicts_of_some _ _ _ _ _ hex_candidate_15
    have hc24 := detail.conflicts_of_some _ _ _ _ _ hex_candidate_24
    have h15 : ({ first := 1, second := 5 } : detail.Edge) ∈ S := by
      rcases hmax hlen _ _ hex_candidate_15 with h | ⟨s, hs, hconf⟩
      · exact h
      · exfalso
        rcases hsub s hs with h | h
        · rw [h, hc15] at hconf
          revert hconf
          decide
        · rw [h, hc24] at hconf
          revert hconf
          decide
    have h24 : ({ first := 2, second := 4 } : detail.Edge) ∈ S := by
      rcases hmax hlen _ _ hex_candidate_24 with h | ⟨s, hs, hconf⟩
      · exact h
      · exfalso
        rcases hsub s hs with h | h
        · rw [h, hc15] at hconf
          revert hconf
          decide
        · rw [h, hc24] at hconf
          revert hconf
          decide
    have hid : batch.map detail.edge_of = S := by
      rw [hbatch, List.map_map]
      have : detail.edge_of ∘ detail.to_pair = id := rfl
      rw [this, List.map_id]
    rw [hid] at hset
    rcases list_of_two S _ _ (detail.selInv_nodup _ _ _ t S hinv) h15 h24 (by decide) hsub with
      hS | hS
    · left
      rw [hS] at hbatch hset
      refine ⟨by rw [hsome, hbatch]; rfl, ?_⟩
      rw [hset]
      simp only [detail.flip_edges, List.foldl, hex_candidate_15, hex_candidate_24]
      decide
    · right
      rw [hS] at hbatch hset
      refine ⟨by rw [hsome, hbatch]; rfl, ?_⟩
      rw [hset]
      simp only [detail.flip_edges, List.foldl, hex_candidate_15, hex_candidate_24]
      decide

/-- On the hexagon `compute_delaunay_batches` returns one batch, which holds the two
candidate diagonals `(1, 5)` and `(2, 4)`. -/
theorem hexagon_batches (g : detail.Scratch) (fuel : Nat) :
    compute_delaunay_batches exactKernel hexagonArrangement g hexPoints hexEdges (fuel + 2) =
        some (Except.ok [[(1, 5), (2, 4)]]) ∨
    compute_delaunay_batches exactKernel hexagonArrangement g hexPoints hexEdges (fuel + 2) =
        some (Except.ok [[(2, 4), (1, 5)]]) := by
  obtain ⟨r, hr, hcase⟩ := hexagon_round_one g
  have key : ∀ batch, r.batch = some batch →
      compute_triangles hexagonArrangement hexPoints
        (detail.edges_vector_from_set r.edge_set) = Except.ok hexFlippedTriangles →
      compute_delaunay_batches exactKernel hexagonArrangement g hexPoints hexEdges (fuel + 2) =
        some (Except.ok [batch]) := by
    intro batch hsome htris
    obtain ⟨r2, hr2, hnone, -⟩ := round_none_total exactKernel hexagonArrangement hexPoints
      r.scratch r.edge_set hexFlippedTriangles htris (le_of_lt hexFlippedTriangles_capacity)
      hexFlippedTriangles_nonDegenerate hexFlipped_no_candidate
    have hl2 := loop_of_round_none exactKernel hexagonArrangement hexPoints r.scratch r.edge_set
      ([] ++ [{ edge_set := detail.initial_edge_set hexEdges, batch := batch }]) fuel r2 hr2
      hnone
    have hl := loop_of_round_some exactKernel hexagonArrangement hexPoints g
      (detail.initial_edge_set hexEdges) [] (fuel + 1) r batch hr hsome
    rw [hl2] at hl
    exact batches_of_loop _ _ _ _ _ _ _ _ hl
  rcases hcase with ⟨hb, he⟩ | ⟨hb, he⟩
  · left
    apply key _ hb
    rw [he, hexagon_compute_triangles _ (by decide), if_neg (by decide), if_neg (by decide)]
  · right
    apply key _ hb
    rw [he, hexagon_compute_triangles _ (by decide), if_neg (by decide), if_neg (by decide)]


/-- The rounds behind the batch of the hexagon: one round, from the input edges, and
the edge set at the end is the triangulation with both diagonals flipped. -/
theorem hexagon_rounds (rounds : List detail.Round) (final : List detail.Edge)
    (batches : List (List (Int × Int)))
    (hb : batches = [[(1, 5), (2, 4)]] ∨ batches = [[(2, 4), (1, 5)]])
    (hmap : batches = rounds.map (fun r => r.batch))
    (hfrom : detail.RoundsFrom exactKernel hexagonArrangement hexPoints
      (detail.initial_edge_set hexEdges) rounds final) :
    (∃ r, rounds = [r] ∧ r.edge_set = detail.initial_edge_set hexEdges ∧
      ((1, 5) : Int × Int) ∈ r.batch ∧ ((2, 4) : Int × Int) ∈ r.batch) ∧
    compute_triangles hexagonArrangement hexPoints (detail.edges_vector_from_set final) =
      Except.ok hexFlippedTriangles := by
  have hone : ∃ r, rounds = [r] ∧
      (r.batch = [(1, 5), (2, 4)] ∨ r.batch = [(2, 4), (1, 5)]) := by
    match rounds, hmap with
    | [], hmap => rcases hb with h | h <;> rw [h] at hmap <;> cases hmap
    | [r], hmap =>
      refine ⟨r, rfl, ?_⟩
      rcases hb with h | h
      · rw [h] at hmap
        simp only [List.map_cons, List.map_nil, List.cons.injEq, and_true] at hmap
        exact Or.inl hmap.symm
      · rw [h] at hmap
        simp only [List.map_cons, List.map_nil, List.cons.injEq, and_true] at hmap
        exact Or.inr hmap.symm
    | r :: r2 :: rest, hmap =>
      rcases hb with h | h <;> rw [h] at hmap <;> simp at hmap
  obtain ⟨r, hr, hbatch⟩ := hone
  subst hr
  obtain ⟨hset, tris, htris, hfinal⟩ := hfrom
  rw [hexagon_round_triangles, Except.ok.injEq] at htris
  subst htris
  have hfinal2 : final = detail.flip_edges exactKernel hexPoints hexTriangles
      (r.batch.map detail.edge_of) (detail.initial_edge_set hexEdges) := hfinal
  refine ⟨⟨r, rfl, hset, ?_, ?_⟩, ?_⟩
  · rcases hbatch with h | h <;> rw [h] <;> decide
  · rcases hbatch with h | h <;> rw [h] <;> decide
  · rcases hbatch with h | h
    · have hv : detail.edges_vector_from_set final =
          [(0, 1), (1, 2), (2, 3), (3, 4), (4, 5), (0, 5), (1, 4), (0, 4), (1, 3)] := by
        rw [hfinal2, h]
        simp only [detail.flip_edges, List.map, detail.edge_of, List.foldl, hex_candidate_15,
          hex_candidate_24]
        decide
      rw [hv, hexagon_compute_triangles _ (by decide), if_neg (by decide), if_neg (by decide)]
    · have hv : detail.edges_vector_from_set final =
          [(0, 1), (1, 2), (2, 3), (3, 4), (4, 5), (0, 5), (1, 4), (1, 3), (0, 4)] := by
        rw [hfinal2, h]
        simp only [detail.flip_edges, List.map, detail.edge_of, List.foldl, hex_candidate_15,
          hex_candidate_24]
        decide
      rw [hv, hexagon_compute_triangles _ (by decide), if_neg (by decide), if_neg (by decide)]

/-- On the hexagon, with the candidates `(5, 1)`, `(1, 5)`, `(2, 4)` and the side
`(0, 1)` as only offender, the batch of `sample_parallel_batch` holds both diagonals
`(1, 5)` and `(2, 4)`. -/
theorem hex_sample_both (g : detail.Scratch) (p : Nat) (seed : Nat) (batch : List (Int × Int))
    (h : sample_parallel_batch exactKernel counterRng hexArrangement g hexPoints hexEdges
      [(5, 1), (1, 5), (2, 4)] [(0, 1)] p seed = Except.ok batch) :
    ((1, 5) : Int × Int) ∈ batch ∧ ((2, 4) : Int × Int) ∈ batch := by
  have hoff : ∀ q, q ∈ [((0, 1) : Int × Int)] → detail.normalize_edge q.1 q.2 ∉
      detail.valid_candidates exactKernel hexPoints hexTriangles [(5, 1), (1, 5), (2, 4)] := by
    intro q hq
    rw [List.mem_singleton.1 hq, hex_valid_three]
    decide
  obtain ⟨-, h2⟩ := sample_greedy exactKernel counterRng hexArrangement g hexPoints hexEdges
    [(5, 1), (1, 5), (2, 4)] [(0, 1)] p seed hexTriangles batch hex_triangles hoff h
  rw [hex_valid_three] at h2
  have hsub : ∀ s, s ∈ detail.greedy exactKernel hexPoints hexTriangles
      (detail.shuffled counterRng seed [{ first := 1, second := 5 }, { first := 1, second := 5 },
        { first := 2, second := 4 }]) →
      s = { first := 1, second := 5 } ∨ s = { first := 2, second := 4 } := by
    intro s hs
    rcases detail.greedy_foldl_subset exactKernel hexPoints hexTriangles _ [] s hs with h | h
    · cases h
    · have := (detail.shuffled_perm counterRng seed _).subset h
      simp only [List.mem_cons, List.mem_singleton, List.not_mem_nil, or_false] at this
      rcases this with h | h | h
      · exact Or.inl h
      · exact Or.inl h
      · exact Or.inr h
  have hc15 := detail.conflicts_of_some _ _ _ _ _ hex_candidate_15
  have hc24 := detail.conflicts_of_some _ _ _ _ _ hex_candidate_24
  have hin : ∀ e, e ∈ ([{ first := 1, second := 5 }, { first := 1, second := 5 },
      { first := 2, second := 4 }] : List detail.Edge) →
      e ∈ detail.greedy exactKernel hexPoints hexTriangles
        (detail.shuffled counterRng seed [{ first := 1, second := 5 },
          { first := 1, second := 5 }, { first := 2, second := 4 }]) := by
    intro e he
    have hmem := (detail.shuffled_perm counterRng seed _).symm.subset he
    rcases (detail.greedy_foldl_maximal exactKernel hexPoints hexTriangles _ []).2 e hmem with
      hin | ⟨s, hs1, hs2⟩
    · exact hin
    · exfalso
      simp only [List.mem_cons, List.mem_singleton, List.not_mem_nil, or_false] at he
      rcases hsub s hs1 with hs | hs <;> rcases he with he | he | he <;>
        (rw [hs, he] at hs2
         first
         | (rw [hc15] at hs2; revert hs2; decide)
         | (rw [hc24] at hs2; revert hs2; decide))
  rw [h2]
  exact ⟨List.mem_map.2 ⟨{ first := 1, second := 5 }, hin _ (by simp), rfl⟩,
    List.mem_map.2 ⟨{ first := 2, second := 4 }, hin _ (by simp), rfl⟩⟩

/-- Segments that cross properly have two different endpoints each. -/
theorem properCross_nondegenerate (s1 s2 : Segment2) (h : ProperCross s1 s2) :
    s1.source ≠ s1.target ∧ s2.source ≠ s2.target := by
  obtain ⟨hden, -⟩ := h
  constructor
  · intro he
    apply hden
    simp only [crossDen, he]
    ring
  · intro he
    apply hden
    simp only [crossDen, he]
    ring

/-- Under invariant 2 with the exact crossing test, the partner of a flippable edge
joins the two opposite vertices, which with the endpoints of the edge are four
different indices. -/
theorem invariant2_quad (s : FlipPartnerMapNative) (old new : EdgeKey)
    (hinv : Invariant2 segIntersection s) (hf : find s.flip_map_ old = some new) :
    Quad old new ∧ ∃ t0 t1, find s.edge_to_triangles_ old = some [t0, t1] := by
  obtain ⟨t0, t1, o0, o1, hett, h0, h1, hc, hn⟩ := (hinv old new).1 hf
  rw [do_cross_segIntersection] at hc
  obtain ⟨hd1, hd2⟩ := properCross_nondegenerate _ _ hc
  have hou : old.u ≠ old.v := by
    intro h
    apply hd1
    simp only [segmentOf, h]
  have hoo : o0 ≠ o1 := by
    intro h
    apply hd2
    simp only [segmentOf, h]
  obtain ⟨-, a1, a2⟩ := opposite_vertex_ok t0 old o0 h0
  obtain ⟨-, b1, b2⟩ := opposite_vertex_ok t1 old o1 h1
  have hfields := EdgeKey.of_fields o0 o1
  rw [← hn] at hfields
  refine ⟨?_, t0, t1, hett⟩
  unfold Quad
  rcases hfields with ⟨hu, hv⟩ | ⟨hu, hv⟩
  · rw [hu, hv]
    exact ⟨hou, hoo, a1, a2, b1, b2⟩
  · rw [hu, hv]
    exact ⟨hou, Ne.symm hoo, b1, b2, a1, a2⟩

/-- The flip of a flippable edge succeeds when the four corners of its
quadrilateral differ and every listed triangle has an opposite vertex. -/
theorem flip_succeeds_core (I : IntersectionFn) (s : FlipPartnerMapNative) (edge : Int × Int)
    (new : EdgeKey) (t0 t1 : Triangle) (hq : Quad (normalize_edge edge) new)
    (hett : find s.edge_to_triangles_ (normalize_edge edge) = some [t0, t1])
    (hopp : ListsProper s) (hmem : normalize_edge edge ∈ s.edges_)
    (hf : find s.flip_map_ (normalize_edge edge) = some new) :
    ∃ s1, flip I s edge = (Except.ok (to_tuple new), s1) := by
  obtain ⟨⟨c12, c13, c14, c23, c24, c34⟩, ⟨a1, a2, a3, a4⟩, ⟨b1, b2, b3, b4⟩, hn⟩ :=
    quad_keys_ne _ new hq
  obtain ⟨q1, q2, q3, q4, q5, q6⟩ := hq
  generalize hold : normalize_edge edge = old at *
  -- the state on which the first `update_incident` runs
  let s2 : FlipPartnerMapNative :=
    { s with
      flip_map_ := erase s.flip_map_ old
      edge_to_triangles_ :=
        assign (erase s.edge_to_triangles_ old) new [newTri0 old new, newTri1 old new] }
  have e2 : ∀ y, y ≠ new → y ≠ old →
      find s2.edge_to_triangles_ y = find s.edge_to_triangles_ y := by
    intro y h1 h2
    simp only [s2, find_assign, if_neg (Ne.symm h1), find_erase, if_neg (Ne.symm h2)]
  have tri0a : ∃ w, opposite_vertex (newTri0 old new) (EdgeKey.of new.u old.u) = Except.ok w := by
    refine ⟨new.v, ?_⟩
    rw [newTri0, opposite_vertex_mk]
    rcases EdgeKey.of_fields new.u old.u with h | h <;> simp [h.1, h.2, q2, Ne.symm q2, q5]
  have tri0b : ∃ w, opposite_vertex (newTri0 old new) (EdgeKey.of new.v old.u) = Except.ok w := by
    refine ⟨new.u, ?_⟩
    rw [newTri0, opposite_vertex_mk]
    rcases EdgeKey.of_fields new.v old.u with h | h <;> simp [h.1, h.2, q2, q3]
  have tri1a : ∃ w, opposite_vertex (newTri1 old new) (EdgeKey.of new.u old.v) = Except.ok w := by
    refine ⟨new.v, ?_⟩
    rw [newTri1, opposite_vertex_mk]
    rcases EdgeKey.of_fields new.u old.v with h | h <;> simp [h.1, h.2, q2, Ne.symm q2, q6]
  have tri1b : ∃ w, opposite_vertex (newTri1 old new) (EdgeKey.of new.v old.v) = Except.ok w := by
    refine ⟨new.u, ?_⟩
    rw [newTri1, opposite_vertex_mk]
    rcases EdgeKey.of_fields new.v old.v with h | h <;> simp [h.1, h.2, q2, q4]
  obtain ⟨s3, h3⟩ := update_incident_succeeds I old s2 (EdgeKey.of new.u old.u)
    (newTri0 old new) (by
      rw [e2 _ a1 b1]
      exact incidentList_opposite _ _ _ _ (hopp _) tri0a)
  obtain ⟨-, -, t3, -⟩ := update_incident_step I _ _ _ _ _ h3
  obtain ⟨s4, h4⟩ := update_incident_succeeds I old s3 (EdgeKey.of new.v old.u)
    (newTri0 old new) (by
      rw [t3, find_ettStep, if_neg c12, e2 _ a2 b2]
      exact incidentList_opposite _ _ _ _ (hopp _) tri0b)
  obtain ⟨-, -, t4, -⟩ := update_incident_step I _ _ _ _ _ h4
  obtain ⟨s5, h5⟩ := update_incident_succeeds I old s4 (EdgeKey.of new.u old.v)
    (newTri1 old new) (by
      rw [t4, find_ettStep, if_neg c23, t3, find_ettStep, if_neg c13, e2 _ a3 b3]
      exact incidentList_opposite _ _ _ _ (hopp _) tri1a)
  obtain ⟨-, -, t5, -⟩ := update_incident_step I _ _ _ _ _ h5
  obtain ⟨s6, h6⟩ := update_incident_succeeds I old s5 (EdgeKey.of new.v old.v)
    (newTri1 old new) (by
      rw [t5, find_ettStep, if_neg c34, t4, find_ettStep, if_neg c24, t3, find_ettStep,
        if_neg c14, e2 _ a4 b4]
      exact incidentList_opposite _ _ _ _ (hopp _) tri1b)
  obtain ⟨-, -, t6, -⟩ := update_incident_step I _ _ _ _ _ h6
  have hnew6 : find s6.edge_to_triangles_ new = some [newTri0 old new, newTri1 old new] := by
    rw [t6, find_ettStep, if_neg a4, t5, find_ettStep, if_neg a3, t4, find_ettStep, if_neg a2,
      t3, find_ettStep, if_neg a1]
    simp only [s2, find_assign, if_true]
  obtain ⟨s8, h8⟩ := update_flip_partner_succeeds I
    { s6 with edges_ := setInsert (setErase s6.edges_ old) new } new (by
      intro L hL t ht
      simp only [hnew6, Option.some.injEq] at hL
      subst hL
      simp only [List.mem_cons, List.mem_singleton, List.not_mem_nil, or_false] at ht
      rcases ht with ht | ht
      · subst ht
        refine ⟨old.u, ?_⟩
        rw [newTri0, opposite_vertex_mk]
        simp [q3, q5, Ne.symm q3, Ne.symm q5]
      · subst ht
        refine ⟨old.v, ?_⟩
        rw [newTri1, opposite_vertex_mk]
        simp [q4, q6, Ne.symm q4, Ne.symm q6])
  refine ⟨s8, ?_⟩
  unfold flip
  simp only [hold, hmem, not_true_eq_false, if_false, hf, hett]
  simp only [newTri0, newTri1, s2] at h3 h4 h5 h6 h8
  simp only [andThen, h3, h4, h5, h6, h8]

/-- A successful flip keeps the opposite vertices of the listed triangles. -/
theorem flip_preserves_listsProper (s s1 : FlipPartnerMapNative) (edge r : Int × Int)
    (hinv : Invariant2 segIntersection s) (hopp : ListsProper s)
    (h : flip segIntersection s edge = (Except.ok r, s1)) : ListsProper s1 := by
  obtain ⟨new, i0, i1, -, hf, -, -, -, -, ht, -, -⟩ := flip_ok_spec segIntersection s s1 edge r h
  obtain ⟨hq, -⟩ := invariant2_quad s _ new hinv hf
  generalize normalize_edge edge = old at *
  obtain ⟨o1, o2, -⟩ := newTri_opposite old new hq
  intro y L1 hL1 t htm
  rw [ht] at hL1
  rcases find_ettAfterFlip_cases s.edge_to_triangles_ old new y L1 hq hL1 with
    ⟨h1, h2⟩ | ⟨h1, tri, htri, hu, hv, h2⟩ | ⟨-, -, h3⟩
  · subst h1 h2
    simp only [List.mem_cons, List.mem_singleton, List.not_mem_nil, or_false] at htm
    rcases htm with h | h <;> subst h
    · exact ⟨_, o1⟩
    · exact ⟨_, o2⟩
  · subst h2
    simp only [List.mem_cons, List.mem_filter] at htm
    rcases htm with h | h
    · subst h
      obtain ⟨w, hw, -⟩ := quad_tri_opposite old new y t hq h1 htri hu hv
      exact ⟨w, hw⟩
    · cases hfy : find s.edge_to_triangles_ y with
      | none =>
        rw [hfy] at h
        simp at h
      | some L =>
        rw [hfy] at h
        exact hopp y L hfy t h.1
  · exact hopp y L1 h3 t htm

/-- From a state with invariant 2 whose listed triangles have opposite vertices,
`flip` fails only because the edge is missing or not flippable, and then leaves the
state as it is. -/
theorem flip_error_proper (s : FlipPartnerMapNative) (edge : Int × Int) (e : Err)
    (hinv : Invariant2 segIntersection s) (hopp : ListsProper s)
    (h : (flip segIntersection s edge).1 = Except.error e) :
    (e = Err.edgeNotFound ∨ e = Err.notFlippable) ∧ (flip segIntersection s edge).2 = s := by
  rcases flip_error_cases segIntersection s edge e h with ⟨he, hm⟩ | ⟨he, hm, hf⟩ | ⟨-, hm, hf⟩
  · exact ⟨Or.inl he, by rw [flip_edgeNotFound _ _ _ hm]⟩
  · exact ⟨Or.inr he, by rw [flip_notFlippable _ _ _ hm hf]⟩
  · exfalso
    obtain ⟨new, hnew⟩ := Option.isSome_iff_exists.1 hf
    obtain ⟨hq, t0, t1, hett⟩ := invariant2_quad s _ new hinv hnew
    obtain ⟨s1, hs1⟩ := flip_succeeds_core segIntersection s edge new t0 t1 hq hett hopp hm hnew
    rw [hs1] at h
    cases h

/-- The constructor returns only when `compute_triangles` returned triangles. -/
theorem new_ok_triangles (I : IntersectionFn) (ct : ComputeTriangles) (points : List Point)
    (edges : List (Int × Int)) (s : FlipPartnerMapNative)
    (h : FlipPartnerMapNative.new I ct points edges = Except.ok s) :
    ∃ tris, ct points ((initialEdges edges).map (fun e => (e.u, e.v))) = Except.ok tris := by
  cases hc : ct points ((initialEdges edges).map (fun e => (e.u, e.v))) with
  | ok tris => exact ⟨tris, rfl⟩
  | error x =>
    exfalso
    unfold FlipPartnerMapNative.new rebuild_flip_map at h
    simp only [edge_list] at h
    have hc2 : ct points (List.map (fun edge => (edge.u, edge.v))
        (List.foldl (fun acc edge => setInsert acc (normalize_edge edge)) [] edges)) =
        Except.error x := hc
    simp only [hc2] at h
    cases h

/-- Every state that the constructor and `flip` produce satisfies invariant 2 and
lists only triangles with an opposite vertex, when `compute_triangles` returns
triangles with three different vertices each and no edge in more than two. -/
theorem reachable_proper (ct : ComputeTriangles)
    (hct : ∀ points edges tris, ct points edges = Except.ok tris → TrianglesOk tris)
    (s : FlipPartnerMapNative) (hs : Reachable segIntersection ct s) :
    Invariant2 segIntersection s ∧ ListsProper s := by
  induction hs with
  | construct points edges s h =>
    obtain ⟨tris, htris⟩ := new_ok_triangles segIntersection ct points edges s h
    have hok := hct _ _ tris htris
    obtain ⟨s2, hs2, hp, hb, hfm, -⟩ := new_spec segIntersection ct points edges tris htris hok
    rw [h, Except.ok.injEq] at hs2
    subst hs2
    refine ⟨(invariant2_iff segIntersection s).2 (by rw [hp]; exact hfm), ?_⟩
    intro x L hL t ht
    obtain ⟨-, -, hL2⟩ := (listsBuilt_find _ tris hb x L).1 hL
    rw [← hL2, mem_trianglesOf] at ht
    obtain ⟨⟨t0, ht0, ht0e⟩, -⟩ := ht
    rw [← ht0e]
    exact opposite_of_hasEdge t0 x (hok.1 t0 ht0)
  | flip s edge _ ih =>
    obtain ⟨hinv, hopp⟩ := ih
    cases hr : (flip segIntersection s edge).1 with
    | error e =>
      rw [(flip_error_proper s edge e hinv hopp hr).2]
      exact ⟨hinv, hopp⟩
    | ok r =>
      have hfl : flip segIntersection s edge = (Except.ok r, (flip segIntersection s edge).2) := by
        rw [← hr]
      exact ⟨flip_preserves_invariant2 segIntersection s _ edge r hinv hfl,
        flip_preserves_listsProper s _ edge r hinv hopp hfl⟩

theorem crossedSquare_new (I : IntersectionFn) (p0 p1 p2 p3 : Point)
    (hc : do_cross I { source := p0, target := p2 } { source := p1, target := p3 } = true)
    (hc2 : do_cross I { source := p1, target := p3 } { source := p0, target := p2 } = true)
    (h1 : do_cross I { source := p0, target := p1 } { source := p2, target := p3 } = false)
    (h2 : do_cross I { source := p1, target := p2 } { source := p0, target := p3 } = false)
    (h3 : do_cross I { source := p0, target := p3 } { source := p1, target := p2 } = false)
    (h4 : do_cross I { source := p2, target := p3 } { source := p0, target := p1 } = false) :
    FlipPartnerMapNative.new I (fun _ _ => Except.ok crossedTriangles) [p0, p1, p2, p3]
      crossedEdges = Except.ok (crossedSquare [p0, p1, p2, p3]) := by
  simp only [FlipPartnerMapNative.new, rebuild_flip_map, edge_list]
  simp [crossedTriangles, crossedEdges, crossedSquare, add_triangle, update_all, keys,
    update_flip_partner, check_flippability, opposite_vertex, Triangle.toList, find, assign,
    erase, setInsert, normalize_edge, EdgeKey.of, pointAt, hc, hc2, h1, h2, h3, h4]

theorem crossedTriangles_valid : ValidTriangles crossedEdges crossedTriangles := by
  refine ⟨by decide, by decide, fun e he => ?_, by decide⟩
  obtain ⟨u, v⟩ := e
  have hlt : u < v := he
  have hu : u = 0 ∨ u = 1 ∨ u = 2 ∨ u = 3 ∨ (u ≠ 0 ∧ u ≠ 1 ∧ u ≠ 2 ∧ u ≠ 3) := by omega
  have hv : v = 0 ∨ v = 1 ∨ v = 2 ∨ v = 3 ∨ (v ≠ 0 ∧ v ≠ 1 ∧ v ≠ 2 ∧ v ≠ 3) := by omega
  rcases hu with rfl | rfl | rfl | rfl | ⟨u0, u1, u2, u3⟩ <;>
    rcases hv with rfl | rfl | rfl | rfl | ⟨v0, v1, v2, v3⟩ <;>
    first
    | exact absurd hlt (lt_irrefl _)
    | simp [trianglesOf, crossedTriangles, triangleOfTuple, hasEdge, Triangle.toList,
        List.filter, *]

/-- The sides of the unit square do not cross the opposite sides, and its diagonals
cross each other. -/
theorem unitSquare_crossings :
    do_cross segIntersection
      { source := { x := 0, y := 0 }, target := { x := 1, y := 1 } }
      { source := { x := 1, y := 0 }, target := { x := 0, y := 1 } } = true ∧
    do_cross segIntersection
      { source := { x := 1, y := 0 }, target := { x := 0, y := 1 } }
      { source := { x := 0, y := 0 }, target := { x := 1, y := 1 } } = true ∧
    do_cross segIntersection
      { source := { x := 0, y := 0 }, target := { x := 1, y := 0 } }
      { source := { x := 1, y := 1 }, target := { x := 0, y := 1 } } = false ∧
    do_cross segIntersection
      { source := { x := 1, y := 0 }, target := { x := 1, y := 1 } }
      { source := { x := 0, y := 0 }, target := { x := 0, y := 1 } } = false ∧
    do_cross segIntersection
      { source := { x := 0, y := 0 }, target := { x := 0, y := 1 } }
      { source := { x := 1, y := 0 }, target := { x := 1, y := 1 } } = false ∧
    do_cross segIntersection
      { source := { x := 1, y := 1 }, target := { x := 0, y := 1 } }
      { source := { x := 0, y := 0 }, target := { x := 1, y := 0 } } = false := by
  refine ⟨?_, ?_, ?_, ?_, ?_, ?_⟩
  · rw [do_cross_segIntersection]
    unfold ProperCross
    norm_num [crossDen, crossNumT, crossNumR]
  · rw [do_cross_segIntersection]
    unfold ProperCross
    norm_num [crossDen, crossNumT, crossNumR]
  all_goals
    rw [Bool.eq_false_iff, ne_eq, do_cross_segIntersection]
    unfold ProperCross
    norm_num [crossDen, crossNumT, crossNumR]

theorem crossedSquare_unit_new :
    FlipPartnerMapNative.new segIntersection (fun _ _ => Except.ok crossedTriangles)
      (squarePoints 0 0 1 0) crossedEdges = Except.ok (crossedSquare (squarePoints 0 0 1 0)) := by
  obtain ⟨c1, c2, c3, c4, c5, c6⟩ := unitSquare_crossings
  have hp : squarePoints 0 0 1 0 =
      [{ x := 0, y := 0 }, { x := 1, y := 0 }, { x := 1, y := 1 }, { x := 0, y := 1 }] := by
    simp [squarePoints]
  rw [hp]
  exact crossedSquare_new segIntersection _ _ _ _ c1 c2 c3 c4 c5 c6

/-- The unit square with both diagonals satisfies the invariants. -/
theorem crossedSquare_invariants :
    Invariants segIntersection (crossedSquare (squarePoints 0 0 1 0)) := by
  obtain ⟨s, hs, hinv⟩ := new_invariants segIntersection
    (fun _ _ => Except.ok crossedTriangles) (squarePoints 0 0 1 0) crossedEdges crossedTriangles
    rfl crossedTriangles_valid
  rw [crossedSquare_unit_new, Except.ok.injEq] at hs
  rw [hs]
  exact hinv

/-- On the unit square with both diagonals, the flip of `(0, 2)` and then of its
partner `(1, 3)` both succeed, and the edge `(1, 3)`, an edge at the start, is no
edge at the end. -/
theorem crossedSquare_flips :
    ∃ s1 s2, flip segIntersection (crossedSquare (squarePoints 0 0 1 0)) (0, 2) =
        (Except.ok (1, 3), s1) ∧
      is_flippable s1 (1, 3) = true ∧
      get_flip_partner s1 (1, 3) = Except.ok (0, 2) ∧
      flip segIntersection s1 (1, 3) = (Except.ok (0, 2), s2) ∧
      ({ u := 1, v := 3 } : EdgeKey) ∈ (crossedSquare (squarePoints 0 0 1 0)).edges_ ∧
      ({ u := 1, v := 3 } : EdgeKey) ∉ s2.edges_ := by
  have hinv := crossedSquare_invariants
  have hn02 : normalize_edge (0, 2) = { u := 0, v := 2 } := by decide
  have hn13 : normalize_edge (1, 3) = { u := 1, v := 3 } := by decide
  have hmem : normalize_edge (0, 2) ∈ (crossedSquare (squarePoints 0 0 1 0)).edges_ := by
    decide
  have hf : find (crossedSquare (squarePoints 0 0 1 0)).flip_map_ (normalize_edge (0, 2)) =
      some { u := 1, v := 3 } := by decide
  obtain ⟨s1, hfl1, hp1, he1, ht1, -, hall1⟩ := flip_succeeds_spec segIntersection _ (0, 2)
    { u := 1, v := 3 } hinv hmem hf
  have hq : Quad { u := 0, v := 2 } { u := 1, v := 3 } := by
    unfold Quad
    decide
  have hq2 : Quad { u := 1, v := 3 } { u := 0, v := 2 } := quad_swap _ _ hq
  rw [hn02] at he1 ht1
  have hett1 : find s1.edge_to_triangles_ { u := 1, v := 3 } =
      some [newTri0 { u := 0, v := 2 } { u := 1, v := 3 },
        newTri1 { u := 0, v := 2 } { u := 1, v := 3 }] := by
    rw [ht1]
    exact find_ettAfterFlip_new _ _ _ hq
  obtain ⟨o1, o2, -⟩ := newTri_opposite { u := 0, v := 2 } { u := 1, v := 3 } hq
  have hf1 : find s1.flip_map_ { u := 1, v := 3 } = some { u := 0, v := 2 } := by
    rw [hall1, flipEntry_eq_checkOpp segIntersection _ _ _ _ _ _ _ hett1 o1 o2, hp1]
    unfold checkOpp
    have hc : do_cross segIntersection
        (segmentOf (crossedSquare (squarePoints 0 0 1 0)).points_
          ({ u := 1, v := 3 } : EdgeKey).u ({ u := 1, v := 3 } : EdgeKey).v)
        (segmentOf (crossedSquare (squarePoints 0 0 1 0)).points_
          ({ u := 0, v := 2 } : EdgeKey).u ({ u := 0, v := 2 } : EdgeKey).v) = true :=
      (square_cross 0 0 1 0 (Or.inl one_ne_zero)).2
    rw [if_pos hc]
    rfl
  have hopp1 : ListsProper s1 :=
    flip_preserves_listsProper _ s1 (0, 2) _ hinv.inv2 hinv.opposite hfl1
  have hmem1 : normalize_edge (1, 3) ∈ s1.edges_ := by
    rw [hn13, he1, mem_setInsert]
    exact Or.inr rfl
  obtain ⟨s2, hfl2⟩ := flip_succeeds_core segIntersection s1 (1, 3) { u := 0, v := 2 } _ _
    (by rw [hn13]; exact hq2) (by rw [hn13]; exact hett1) hopp1 hmem1 (by rw [hn13]; exact hf1)
  obtain ⟨new, -, -, -, hf2, -, -, -, he2, -⟩ := flip_ok_spec segIntersection s1 s2 (1, 3) _ hfl2
  rw [hn13, hf1, Option.some.injEq] at hf2
  subst hf2
  refine ⟨s1, s2, hfl1, ?_, ?_, hfl2, by decide, ?_⟩
  · unfold is_flippable
    rw [hn13, hf1]
    rfl
  · unfold get_flip_partner
    rw [hn13, hf1]
    rfl
  · rw [he2, hn13, mem_setInsert, mem_setErase]
    rintro (⟨-, h⟩ | h)
    · exact h rfl
    · revert h
      decide


/-- The partner of a flippable edge is no edge of the state when no edge of the
state crosses the flippable edge. -/
theorem partner_fresh_of_planar (s : FlipPartnerMapNative) (old new : EdgeKey)
    (hinv : Invariant2 segIntersection s) (hf : find s.flip_map_ old = some new)
    (hplanar : ∀ y, y ∈ s.edges_ →
      do_cross segIntersection (segmentOf s.points_ y.u y.v)
        (segmentOf s.points_ old.u old.v) = false) :
    new ∉ s.edges_ := by
  intro hmem
  obtain ⟨t0, t1, o0, o1, -, -, -, hc, hn⟩ := (hinv old new).1 hf
  have h := hplanar new hmem
  rw [crossSymmetric_segIntersection.1] at h
  have h2 : do_cross segIntersection (segmentOf s.points_ old.u old.v)
      (segmentOf s.points_ new.u new.v) = true := by
    rcases EdgeKey.of_fields o0 o1 with hfd | hfd
    · rw [hn, hfd.1, hfd.2]
      exact hc
    · rw [hn, hfd.1, hfd.2]
      unfold segmentOf at hc ⊢
      rw [crossSymmetric_segIntersection.2]
      exact hc
  rw [h2] at h
  cases h

theorem orient_rot (a b c : Point) : orient b c a = orient a b c := by
  unfold orient
  ring

theorem orient_sum (a b c z : Point) :
    orient a b z + orient b c z + orient c a z = orient a b c := by
  unfold orient
  ring

theorem orient_towards (a b z w : Point) (e : ℚ) :
    orient a b (towards z w e) = (1 - e) * orient a b z + e * orient a b w := by
  unfold orient towards
  ring

theorem insideTriangle_rot (a b c z : Point) :
    InsideTriangle a b c z ↔ InsideTriangle b c a z := by
  unfold InsideTriangle
  constructor
  · rintro (⟨h1, h2, h3⟩ | ⟨h1, h2, h3⟩)
    · exact Or.inl ⟨h2, h3, h1⟩
    · exact Or.inr ⟨h2, h3, h1⟩
  · rintro (⟨h1, h2, h3⟩ | ⟨h1, h2, h3⟩)
    · exact Or.inl ⟨h3, h1, h2⟩
    · exact Or.inr ⟨h3, h1, h2⟩

theorem insideTriangle_swap (a b c z : Point) :
    InsideTriangle a b c z ↔ InsideTriangle b a c z := by
  have key : ∀ a b c : Point, InsideTriangle a b c z → InsideTriangle b a c z := by
    intro a b c h
    unfold InsideTriangle at h ⊢
    rw [orient_swap a b z, orient_swap c a z, orient_swap b c z]
    rcases h with ⟨h1, h2, h3⟩ | ⟨h1, h2, h3⟩
    · exact Or.inr ⟨by linarith, by linarith, by linarith⟩
    · exact Or.inl ⟨by linarith, by linarith, by linarith⟩
  exact ⟨key a b c, key b a c⟩

/-- A triangle with a point strictly inside is not degenerate. -/
theorem insideTriangle_orient (a b c z : Point) (h : InsideTriangle a b c z) :
    orient a b c ≠ 0 := by
  have hs := orient_sum a b c z
  rcases h with ⟨h1, h2, h3⟩ | ⟨h1, h2, h3⟩
  · intro h0
    linarith
  · intro h0
    linarith

/-- A positive value stays positive a little way along an affine function. -/
theorem affine_pos_near (c d : ℚ) (hc : 0 < c) :
    ∃ δ : ℚ, 0 < δ ∧ δ ≤ 1 ∧ ∀ e, 0 ≤ e → e ≤ δ → 0 < (1 - e) * c + e * d := by
  refine ⟨c / (2 * (c + |d|)), ?_, ?_, ?_⟩
  · have := abs_nonneg d
    positivity
  · have := abs_nonneg d
    rw [div_le_one (by positivity)]
    linarith
  · intro e he0 he
    have habs := abs_nonneg d
    have hpos : 0 < 2 * (c + |d|) := by positivity
    have h1 : e * (2 * (c + |d|)) ≤ c := by
      rwa [le_div_iff₀ hpos] at he
    have h2 : -|d| ≤ d := neg_abs_le d
    nlinarith

/-- The inside of a triangle is open: from an inner point a little way towards any
point stays inside. -/
theorem insideTriangle_open (a b c z w : Point) (h : InsideTriangle a b c z) :
    ∃ δ : ℚ, 0 < δ ∧ δ ≤ 1 ∧ ∀ e, 0 ≤ e → e ≤ δ → InsideTriangle a b c (towards z w e) := by
  have key : ∀ f1 f2 f3 g1 g2 g3 : ℚ, 0 < f1 → 0 < f2 → 0 < f3 →
      ∃ δ : ℚ, 0 < δ ∧ δ ≤ 1 ∧ ∀ e, 0 ≤ e → e ≤ δ →
        0 < (1 - e) * f1 + e * g1 ∧ 0 < (1 - e) * f2 + e * g2 ∧ 0 < (1 - e) * f3 + e * g3 := by
    intro f1 f2 f3 g1 g2 g3 h1 h2 h3
    obtain ⟨d1, p1, q1, k1⟩ := affine_pos_near f1 g1 h1
    obtain ⟨d2, p2, q2, k2⟩ := affine_pos_near f2 g2 h2
    obtain ⟨d3, p3, q3, k3⟩ := affine_pos_near f3 g3 h3
    refine ⟨min d1 (min d2 d3), lt_min p1 (lt_min p2 p3), le_trans (min_le_left _ _) q1, ?_⟩
    intro e he0 he
    have e1 : e ≤ d1 := le_trans he (min_le_left _ _)
    have e2 : e ≤ d2 := le_trans he (le_trans (min_le_right _ _) (min_le_left _ _))
    have e3 : e ≤ d3 := le_trans he (le_trans (min_le_right _ _) (min_le_right _ _))
    exact ⟨k1 e he0 e1, k2 e he0 e2, k3 e he0 e3⟩
  rcases h with ⟨h1, h2, h3⟩ | ⟨h1, h2, h3⟩
  · obtain ⟨δ, hδ, hδ1, hk⟩ := key _ _ _ (orient a b w) (orient b c w) (orient c a w) h1 h2 h3
    refine ⟨δ, hδ, hδ1, fun e he0 he => Or.inl ?_⟩
    rw [orient_towards, orient_towards, orient_towards]
    exact hk e he0 he
  · obtain ⟨δ, hδ, hδ1, hk⟩ := key _ _ _ (-orient a b w) (-orient b c w) (-orient c a w)
      (neg_pos.2 h1) (neg_pos.2 h2) (neg_pos.2 h3)
    refine ⟨δ, hδ, hδ1, fun e he0 he => Or.inr ?_⟩
    rw [orient_towards, orient_towards, orient_towards]
    obtain ⟨k1, k2, k3⟩ := hk e he0 he
    exact ⟨by linarith, by linarith, by linarith⟩

/-- The meeting point of two segments that cross properly, by its fractions along
both. -/
theorem properCross_point (u v p q : Point)
    (h : ProperCross { source := u, target := v } { source := p, target := q }) :
    ∃ t r : ℚ, 0 < t ∧ t < 1 ∧ 0 < r ∧ r < 1 ∧
      u.x + t * (v.x - u.x) = p.x + r * (q.x - p.x) ∧
      u.y + t * (v.y - u.y) = p.y + r * (q.y - p.y) ∧
      (v.x - u.x) * (q.y - p.y) - (v.y - u.y) * (q.x - p.x) ≠ 0 := by
  obtain ⟨hd, t0, t1, r0, r1⟩ := h
  refine ⟨_, _, t0, t1, r0, r1, ?_, ?_, ?_⟩
  · simp only [crossNumT, crossNumR, crossDen] at hd ⊢
    field_simp
    ring
  · simp only [crossNumT, crossNumR, crossDen] at hd ⊢
    field_simp
    ring
  · simpa only [crossDen] using hd

/-- The orientations of the corners of a quadrilateral whose diagonals `u v` and
`p q` cross, in terms of the fractions of the meeting point. -/
theorem quad_orient (u v p q : Point) (t r : ℚ)
    (hx : u.x + t * (v.x - u.x) = p.x + r * (q.x - p.x))
    (hy : u.y + t * (v.y - u.y) = p.y + r * (q.y - p.y)) :
    orient u v p = -r * ((v.x - u.x) * (q.y - p.y) - (v.y - u.y) * (q.x - p.x)) ∧
    orient u v q = (1 - r) * ((v.x - u.x) * (q.y - p.y) - (v.y - u.y) * (q.x - p.x)) ∧
    orient p q u = t * ((v.x - u.x) * (q.y - p.y) - (v.y - u.y) * (q.x - p.x)) ∧
    orient p q v = -(1 - t) * ((v.x - u.x) * (q.y - p.y) - (v.y - u.y) * (q.x - p.x)) ∧
    orient v p q = -(1 - t) * ((v.x - u.x) * (q.y - p.y) - (v.y - u.y) * (q.x - p.x)) ∧
    orient v q p = (1 - t) * ((v.x - u.x) * (q.y - p.y) - (v.y - u.y) * (q.x - p.x)) := by
  unfold orient
  refine ⟨?_, ?_, ?_, ?_, ?_, ?_⟩
  · linear_combination (v.y - u.y) * hx - (v.x - u.x) * hy
  · linear_combination (v.y - u.y) * hx - (v.x - u.x) * hy
  · linear_combination (q.x - p.x) * hy - (q.y - p.y) * hx
  · linear_combination (q.x - p.x) * hy - (q.y - p.y) * hx
  · linear_combination (p.y - q.y) * hx - (p.x - q.x) * hy
  · linear_combination (q.y - p.y) * hx - (q.x - p.x) * hy

theorem quad_inside_new_pos (u v p q z : Point) (t r : ℚ) (t0 : 0 < t) (t1 : t < 1)
    (r0 : 0 < r) (r1 : r < 1)
    (hx : u.x + t * (v.x - u.x) = p.x + r * (q.x - p.x))
    (hy : u.y + t * (v.y - u.y) = p.y + r * (q.y - p.y))
    (hD : 0 < (v.x - u.x) * (q.y - p.y) - (v.y - u.y) * (q.x - p.x))
    (hz : InsideTriangle p q u z) :
    InsideTriangle u v p z ∨ InsideTriangle u v q z ∨ orient u v z = 0 := by
  obtain ⟨e1, e2, e3, e4, e5, e6⟩ := quad_orient u v p q t r hx hy
  generalize (v.x - u.x) * (q.y - p.y) - (v.y - u.y) * (q.x - p.x) = D at *
  have hsum := orient_sum p q u z
  have I1 : orient v p z * orient p q u =
      orient u p z * orient v p q + orient p q z * orient u v p := by
    unfold orient
    ring
  have I2 : orient v q z * orient p q u =
      orient q u z * orient v q p + orient p q z * orient u v q := by
    unfold orient
    ring
  have hpu : orient p u z = -orient u p z := orient_swap u p z
  have htD : 0 < t * D := mul_pos t0 hD
  have h1tD : 0 < (1 - t) * D := mul_pos (sub_pos.2 t1) hD
  have hrD : 0 < r * D := mul_pos r0 hD
  have h1rD : 0 < (1 - r) * D := mul_pos (sub_pos.2 r1) hD
  have hpos : 0 < orient p q z ∧ 0 < orient q u z ∧ 0 < orient u p z := by
    rcases hz with h | ⟨h1, h2, h3⟩
    · exact h
    · exfalso
      rw [e3] at hsum
      linarith
  obtain ⟨h1, h2, h3⟩ := hpos
  rcases lt_trichotomy (orient u v z) 0 with hlt | heq | hgt
  · left
    refine Or.inr ⟨hlt, ?_, by rw [hpu]; linarith⟩
    rw [e3, e5, e1] at I1
    have ha := mul_pos h3 h1tD
    have hb := mul_pos h1 hrD
    have hneg : orient v p z * (t * D) < 0 := by
      rw [I1]
      linarith
    exact neg_of_mul_neg_left hneg (le_of_lt htD)
  · exact Or.inr (Or.inr heq)
  · right
    left
    refine Or.inl ⟨hgt, ?_, h2⟩
    rw [e3, e6, e2] at I2
    have ha := mul_pos h2 h1tD
    have hb := mul_pos h1 h1rD
    have hpos2 : 0 < orient v q z * (t * D) := by
      rw [I2]
      linarith
    exact (mul_pos_iff_of_pos_right htD).1 hpos2

/-- A point strictly inside the triangle `p q u` of a quadrilateral whose diagonals
`u v` and `p q` cross lies strictly inside `u v p` or `u v q`, or on the line of
`u v`. -/
theorem quad_inside_new (u v p q z : Point)
    (hc : ProperCross { source := u, target := v } { source := p, target := q })
    (hz : InsideTriangle p q u z) :
    InsideTriangle u v p z ∨ InsideTriangle u v q z ∨ orient u v z = 0 := by
  obtain ⟨t, r, t0, t1, r0, r1, hx, hy, hD⟩ := properCross_point u v p q hc
  rcases lt_or_gt_of_ne hD with hneg | hpos
  · have hx2 : u.x + t * (v.x - u.x) = q.x + (1 - r) * (p.x - q.x) := by
      rw [hx]
      ring
    have hy2 : u.y + t * (v.y - u.y) = q.y + (1 - r) * (p.y - q.y) := by
      rw [hy]
      ring
    have hD2 : 0 < (v.x - u.x) * (p.y - q.y) - (v.y - u.y) * (p.x - q.x) := by linarith
    rcases quad_inside_new_pos u v q p z t (1 - r) t0 t1 (by linarith) (by linarith) hx2 hy2 hD2
      ((insideTriangle_swap p q u z).1 hz) with h | h | h
    · exact Or.inr (Or.inl h)
    · exact Or.inl h
    · exact Or.inr (Or.inr h)
  · exact quad_inside_new_pos u v p q z t r t0 t1 r0 r1 hx hy hpos hz

/-- The two triangles beside the new diagonal of a quadrilateral do not overlap. -/
theorem quad_new_disjoint (u v p q z : Point)
    (hc : ProperCross { source := u, target := v } { source := p, target := q })
    (h1 : InsideTriangle p q u z) (h2 : InsideTriangle p q v z) : False := by
  obtain ⟨t, r, t0, t1, r0, r1, hx, hy, hD⟩ := properCross_point u v p q hc
  obtain ⟨-, -, e3, e4, -, -⟩ := quad_orient u v p q t r hx hy
  generalize (v.x - u.x) * (q.y - p.y) - (v.y - u.y) * (q.x - p.x) = D at *
  have s1 := orient_sum p q u z
  have s2 := orient_sum p q v z
  rw [e3] at s1
  rw [e4] at s2
  rcases lt_or_gt_of_ne hD with hneg | hpos
  · have a := mul_pos_of_neg_of_neg (neg_neg_of_pos t0) hneg
    have b := mul_pos_of_neg_of_neg (neg_neg_of_pos (sub_pos.2 t1)) hneg
    rcases h1 with ⟨a1, a2, a3⟩ | ⟨a1, a2, a3⟩ <;> rcases h2 with ⟨b1, b2, b3⟩ | ⟨b1, b2, b3⟩ <;>
      linarith
  · have a := mul_pos t0 hpos
    have b := mul_pos (sub_pos.2 t1) hpos
    rcases h1 with ⟨a1, a2, a3⟩ | ⟨a1, a2, a3⟩ <;> rcases h2 with ⟨b1, b2, b3⟩ | ⟨b1, b2, b3⟩ <;>
      linarith

/-- The triangles beside the new diagonal of a quadrilateral are not degenerate. -/
theorem quad_new_orient (u v p q : Point)
    (hc : ProperCross { source := u, target := v } { source := p, target := q }) :
    orient p q u ≠ 0 ∧ orient p q v ≠ 0 ∧ orient u v p ≠ 0 ∧ orient u v q ≠ 0 := by
  obtain ⟨t, r, t0, t1, r0, r1, hx, hy, hD⟩ := properCross_point u v p q hc
  obtain ⟨e1, e2, e3, e4, -, -⟩ := quad_orient u v p q t r hx hy
  rw [e1, e2, e3, e4]
  refine ⟨mul_ne_zero (ne_of_gt t0) hD, mul_ne_zero ?_ hD, mul_ne_zero ?_ hD,
    mul_ne_zero ?_ hD⟩
  · linarith
  · linarith
  · linarith

/-- A point strictly inside a triangle `a b c` and the triangle `p q u` beside the
new diagonal gives a point strictly inside `a b c` and one of the two triangles
beside the old diagonal. -/
theorem quad_new_overlap (u v p q a b c z : Point)
    (hc : ProperCross { source := u, target := v } { source := p, target := q })
    (h1 : InsideTriangle p q u z) (h2 : InsideTriangle a b c z) :
    ∃ z2, InsideTriangle a b c z2 ∧ (InsideTriangle u v p z2 ∨ InsideTriangle u v q z2) := by
  rcases quad_inside_new u v p q z hc h1 with h | h | h
  · exact ⟨z, h2, Or.inl h⟩
  · exact ⟨z, h2, Or.inr h⟩
  · obtain ⟨d1, p1, q1, k1⟩ := insideTriangle_open p q u z p h1
    obtain ⟨d2, p2, q2, k2⟩ := insideTriangle_open a b c z p h2
    have hm : 0 < min d1 d2 := lt_min p1 p2
    have i1 := k1 (min d1 d2) (le_of_lt hm) (min_le_left _ _)
    have i2 := k2 (min d1 d2) (le_of_lt hm) (min_le_right _ _)
    refine ⟨towards z p (min d1 d2), i2, ?_⟩
    rcases quad_inside_new u v p q _ hc i1 with h3 | h3 | h3
    · exact Or.inl h3
    · exact Or.inr h3
    · exfalso
      rw [orient_towards, h] at h3
      have hne := (quad_new_orient u v p q hc).2.2.1
      have : min d1 d2 * orient u v p = 0 := by linarith
      rcases mul_eq_zero.1 this with h4 | h4
      · linarith
      · exact hne h4

/-- A triangle on the new diagonal `p q` of a quadrilateral overlaps the triangle
`u v p` beside the old diagonal. -/
theorem quad_partner_overlap (u v p q w : Point)
    (hc : ProperCross { source := u, target := v } { source := p, target := q })
    (hw : orient p q w ≠ 0) :
    ∃ z, InsideTriangle p q w z ∧ InsideTriangle u v p z := by
  obtain ⟨t, r, t0, t1, r0, r1, hx, hy, hD⟩ := properCross_point u v p q hc
  -- the point halfway between `p` and the meeting point of the diagonals
  have hmid : ∃ m : Point, m.x = p.x + r / 2 * (q.x - p.x) ∧ m.y = p.y + r / 2 * (q.y - p.y) :=
    ⟨{ x := p.x + r / 2 * (q.x - p.x), y := p.y + r / 2 * (q.y - p.y) }, rfl, rfl⟩
  obtain ⟨m, mx, my⟩ := hmid
  have o1 : orient u v m = 1 / 2 * orient u v p := by
    unfold orient
    rw [mx, my]
    linear_combination (1 / 2 * (v.y - u.y)) * hx - (1 / 2 * (v.x - u.x)) * hy
  have o2 : orient v p m = (1 - t) / 2 * orient u v p := by
    unfold orient
    rw [mx, my]
    linear_combination (1 / 2 * (p.y - v.y)) * hx - (1 / 2 * (p.x - v.x)) * hy
  have o3 : orient p u m = t / 2 * orient u v p := by
    unfold orient
    rw [mx, my]
    linear_combination (1 / 2 * (u.y - p.y)) * hx - (1 / 2 * (u.x - p.x)) * hy
  have hne := (quad_new_orient u v p q hc).2.2.1
  have hin : InsideTriangle u v p m := by
    unfold InsideTriangle
    rw [o1, o2, o3]
    have b1 : (0 : ℚ) < 1 / 2 := by norm_num
    have b2 : 0 < (1 - t) / 2 := by linarith
    have b3 : 0 < t / 2 := by linarith
    rcases lt_or_gt_of_ne hne with h | h
    · right
      exact ⟨mul_neg_of_pos_of_neg b1 h, mul_neg_of_pos_of_neg b2 h,
        mul_neg_of_pos_of_neg b3 h⟩
    · left
      exact ⟨mul_pos b1 h, mul_pos b2 h, mul_pos b3 h⟩
  obtain ⟨d, hd, hd1, hk⟩ := insideTriangle_open u v p m w hin
  refine ⟨towards m w (d / 2), ?_, hk (d / 2) (by linarith) (by linarith)⟩
  have q1 : orient p q (towards m w (d / 2)) = d / 2 * orient p q w := by
    unfold orient towards
    simp only [mx, my]
    ring
  have q2 : orient q w (towards m w (d / 2)) = (1 - d / 2) * (1 - r / 2) * orient p q w := by
    unfold orient towards
    simp only [mx, my]
    ring
  have q3 : orient w p (towards m w (d / 2)) = (1 - d / 2) * (r / 2) * orient p q w := by
    unfold orient towards
    simp only [mx, my]
    ring
  unfold InsideTriangle
  rw [q1, q2, q3]
  have c1 : 0 < d / 2 := by linarith
  have c2 : 0 < (1 - d / 2) * (1 - r / 2) := mul_pos (by linarith) (by linarith)
  have c3 : 0 < (1 - d / 2) * (r / 2) := mul_pos (by linarith) (by linarith)
  rcases lt_or_gt_of_ne hw with h | h
  · right
    exact ⟨mul_neg_of_pos_of_neg c1 h, mul_neg_of_pos_of_neg c2 h, mul_neg_of_pos_of_neg c3 h⟩
  · left
    exact ⟨mul_pos c1 h, mul_pos c2 h, mul_pos c3 h⟩

theorem orient_ne_rot (a b c : Point) : orient b c a ≠ 0 ↔ orient a b c ≠ 0 := by
  rw [orient_rot]

theorem orient_ne_swap (a b c : Point) : orient b a c ≠ 0 ↔ orient a b c ≠ 0 := by
  rw [orient_swap, neg_ne_zero]

/-- Being inside a triangle does not depend on the order of its corners. -/
theorem triInside_corners (points : List Point) (t : Triangle) (a b c : Int) (z : Point)
    (ha : a ∈ t.toList) (hb : b ∈ t.toList) (hc : c ∈ t.toList)
    (hab : a ≠ b) (hac : a ≠ c) (hbc : b ≠ c) :
    triInside points t z ↔
      InsideTriangle (pointAt points a) (pointAt points b) (pointAt points c) z := by
  obtain ⟨i, j, k⟩ := t
  simp only [Triangle.mem_toList] at ha hb hc
  unfold triInside
  simp only
  rcases ha with rfl | rfl | rfl <;> rcases hb with rfl | rfl | rfl <;>
    rcases hc with rfl | rfl | rfl <;>
    first
    | exact absurd rfl hab
    | exact absurd rfl hac
    | exact absurd rfl hbc
    | exact Iff.rfl
    | exact insideTriangle_rot _ _ _ _
    | exact (insideTriangle_rot _ _ _ _).symm
    | exact insideTriangle_swap _ _ _ _
    | exact (insideTriangle_rot _ _ _ _).trans (insideTriangle_swap _ _ _ _)
    | exact (insideTriangle_swap _ _ _ _).trans (insideTriangle_rot _ _ _ _)

/-- Being degenerate does not depend on the order of the corners of a triangle. -/
theorem triOrient_corners (points : List Point) (t : Triangle) (a b c : Int)
    (ha : a ∈ t.toList) (hb : b ∈ t.toList) (hc : c ∈ t.toList)
    (hab : a ≠ b) (hac : a ≠ c) (hbc : b ≠ c) :
    orient (pointAt points t.i0) (pointAt points t.i1) (pointAt points t.i2) ≠ 0 ↔
      orient (pointAt points a) (pointAt points b) (pointAt points c) ≠ 0 := by
  obtain ⟨i, j, k⟩ := t
  simp only [Triangle.mem_toList] at ha hb hc
  simp only
  rcases ha with rfl | rfl | rfl <;> rcases hb with rfl | rfl | rfl <;>
    rcases hc with rfl | rfl | rfl <;>
    first
    | exact absurd rfl hab
    | exact absurd rfl hac
    | exact absurd rfl hbc
    | exact Iff.rfl
    | exact orient_ne_rot _ _ _
    | exact (orient_ne_rot _ _ _).symm
    | exact orient_ne_swap _ _ _
    | exact (orient_ne_rot _ _ _).trans (orient_ne_swap _ _ _)
    | exact (orient_ne_swap _ _ _).trans (orient_ne_rot _ _ _)

/-- In a consistent state a flippable edge and its partner cross properly. -/
theorem invariants_cross (s : FlipPartnerMapNative) (old new : EdgeKey)
    (hinv : Invariants segIntersection s) (hf : find s.flip_map_ old = some new) :
    ProperCross
      { source := pointAt s.points_ old.u, target := pointAt s.points_ old.v }
      { source := pointAt s.points_ new.u, target := pointAt s.points_ new.v } := by
  obtain ⟨t0, t1, o0, o1, -, -, -, hc, hn⟩ := (hinv.inv2 old new).1 hf
  rw [do_cross_segIntersection] at hc
  unfold segmentOf at hc
  rcases EdgeKey.of_fields o0 o1 with hfd | hfd
  · rw [hn, hfd.1, hfd.2]
    exact hc
  · rw [hn, hfd.1, hfd.2]
    exact (properCross_reverse _ _ _).1 hc

/-- In a consistent state whose listed triangles do not overlap, the partner of a
flippable edge is no edge of the state. -/
theorem partner_fresh (s : FlipPartnerMapNative) (old new : EdgeKey)
    (hinv : Invariants segIntersection s) (htd : TrianglesDisjoint s)
    (hf : find s.flip_map_ old = some new) : new ∉ s.edges_ := by
  intro hnew
  have hmem := invariants_key_mem segIntersection s old new hinv hf
  obtain ⟨hq, hlt, -⟩ := invariants_quad segIntersection s old new hinv hmem hf
  obtain ⟨q1, q2, q3, q4, q5, q6⟩ := hq
  obtain ⟨t0, t1, hett, hT, -⟩ :=
    invariants_old_triangles segIntersection s old new hinv hmem hf
  obtain ⟨T, hTm, -, hTu, hTv, hTr, -⟩ := hT new.u (Or.inl rfl)
  have hTl : ListedTriangle s T := ⟨old, _, hett, hTm⟩
  -- a triangle of the partner
  obtain ⟨L, hL, hlen, hend⟩ := hinv.inv1 new hnew
  have hne : L ≠ [] := by
    intro h
    rw [h] at hlen
    simp at hlen
  obtain ⟨t, ht⟩ := List.exists_mem_of_ne_nil L hne
  obtain ⟨w, hw⟩ := hinv.opposite new L hL t ht
  obtain ⟨hw1, hw2, hw3⟩ := opposite_vertex_ok t new w hw
  obtain ⟨hu, hv⟩ := hend t ht
  have htl : ListedTriangle s t := ⟨new, L, hL, ht⟩
  have hcross := invariants_cross s old new hinv hf
  have hdeg := (triOrient_corners s.points_ t new.u new.v w hu hv hw1 q2 (Ne.symm hw2)
    (Ne.symm hw3)).1 (htd.1 t htl)
  obtain ⟨z, hz1, hz2⟩ := quad_partner_overlap _ _ _ _ _ hcross hdeg
  have hin1 : triInside s.points_ t z :=
    (triInside_corners s.points_ t new.u new.v w z hu hv hw1 q2 (Ne.symm hw2)
      (Ne.symm hw3)).2 hz1
  have hin2 : triInside s.points_ T z :=
    (triInside_corners s.points_ T old.u old.v new.u z hTu hTv hTr q1 (Ne.symm q3)
      (Ne.symm q4)).2 hz2
  refine htd.2 t T htl hTl ?_ z ⟨hin1, hin2⟩
  intro hsame
  have h1 : new.v ∈ T.toList := (hsame new.v).1 hv
  obtain ⟨i, j, k⟩ := T
  simp only [Triangle.mem_toList] at hTu hTv hTr h1
  omega

/-- The triangles listed after a flip are the two new triangles and triangles that
were listed before and do not contain the flipped edge. -/
theorem listed_after_flip (I : IntersectionFn) (s : FlipPartnerMapNative) (old new : EdgeKey)
    (hinv : Invariants I s) (hmem : old ∈ s.edges_) (hf : find s.flip_map_ old = some new)
    (t : Triangle)
    (h : ∃ y L, find (ettAfterFlip s.edge_to_triangles_ old new) y = some L ∧ t ∈ L) :
    t = newTri0 old new ∨ t = newTri1 old new ∨ (ListedTriangle s t ∧ hasEdge t old = false) := by
  obtain ⟨y, L, hy, ht⟩ := h
  obtain ⟨hq, -, -⟩ := invariants_quad I s old new hinv hmem hf
  rcases find_ettAfterFlip_cases _ old new y L hq hy with ⟨-, hL⟩ | ⟨-, tri, htri, -, -, hL⟩ |
    ⟨hnt, hne, hfind⟩
  · rw [hL] at ht
    simp only [List.mem_cons, List.mem_singleton, List.not_mem_nil, or_false] at ht
    rcases ht with h | h
    · exact Or.inl h
    · exact Or.inr (Or.inl h)
  · rw [hL] at ht
    rcases List.mem_cons.1 ht with h | h
    · rcases htri with h2 | h2
      · exact Or.inl (h.trans h2)
      · exact Or.inr (Or.inl (h.trans h2))
    · obtain ⟨hin, hhe⟩ := List.mem_filter.1 h
      refine Or.inr (Or.inr ⟨?_, by simpa using hhe⟩)
      cases hfy : find s.edge_to_triangles_ y with
      | none =>
        rw [hfy] at hin
        simp at hin
      | some L0 =>
        rw [hfy] at hin
        exact ⟨y, L0, hfy, hin⟩
  · refine Or.inr (Or.inr ⟨⟨y, L, hfind, ht⟩, ?_⟩)
    refine invariants_quad_rest I s old new hinv hmem hf y L hfind hne ?_ t ht
    intro hyq
    apply hnt
    simp only [quadEdges, List.mem_cons, List.mem_singleton, List.not_mem_nil, or_false] at hyq
    simp only [touched, List.mem_cons, List.mem_singleton, List.not_mem_nil, or_false]
    tauto

/-- A new triangle of a flip shares no inner point with a triangle that was listed
before the flip and does not contain the flipped edge. -/
theorem new_rest_disjoint (s : FlipPartnerMapNative) (old new : EdgeKey)
    (hinv : Invariants segIntersection s) (htd : TrianglesDisjoint s)
    (hmem : old ∈ s.edges_) (hf : find s.flip_map_ old = some new)
    (r : Int) (hr : r = old.u ∨ r = old.v) (t2 : Triangle) (hl : ListedTriangle s t2)
    (hh : hasEdge t2 old = false) (z : Point)
    (h1 : InsideTriangle (pointAt s.points_ new.u) (pointAt s.points_ new.v)
      (pointAt s.points_ r) z)
    (h2 : triInside s.points_ t2 z) : False := by
  obtain ⟨hq, -, -⟩ := invariants_quad segIntersection s old new hinv hmem hf
  obtain ⟨q1, q2, q3, q4, q5, q6⟩ := hq
  obtain ⟨t0, t1, hett, hT, -⟩ :=
    invariants_old_triangles segIntersection s old new hinv hmem hf
  obtain ⟨Tp, hTpm, -, hTpu, hTpv, hTpr, -⟩ := hT new.u (Or.inl rfl)
  obtain ⟨Tq, hTqm, -, hTqu, hTqv, hTqr, -⟩ := hT new.v (Or.inr rfl)
  have hc := invariants_cross s old new hinv hf
  have hns : ∀ T : Triangle, old.u ∈ T.toList → old.v ∈ T.toList → ¬SameCorners t2 T := by
    intro T hu hv hsame
    rw [hasEdge_eq_false_iff] at hh
    exact hh ⟨(hsame _).2 hu, (hsame _).2 hv⟩
  have hfin : ∀ z2, triInside s.points_ t2 z2 →
      (triInside s.points_ Tp z2 ∨ triInside s.points_ Tq z2) → False := by
    intro z2 hz hor
    rcases hor with h | h
    · exact htd.2 t2 Tp hl ⟨old, _, hett, hTpm⟩ (hns Tp hTpu hTpv) z2 ⟨hz, h⟩
    · exact htd.2 t2 Tq hl ⟨old, _, hett, hTqm⟩ (hns Tq hTqu hTqv) z2 ⟨hz, h⟩
  rcases hr with hr | hr
  · rw [hr] at h1
    obtain ⟨z2, hz2, hor⟩ := quad_new_overlap _ _ _ _ _ _ _ z hc h1 h2
    refine hfin z2 hz2 ?_
    rcases hor with h | h
    · exact Or.inl ((triInside_corners s.points_ Tp old.u old.v new.u z2 hTpu hTpv hTpr q1
        (Ne.symm q3) (Ne.symm q4)).2 h)
    · exact Or.inr ((triInside_corners s.points_ Tq old.u old.v new.v z2 hTqu hTqv hTqr q1
        (Ne.symm q5) (Ne.symm q6)).2 h)
  · rw [hr] at h1
    have hc2 : ProperCross
        { source := pointAt s.points_ old.v, target := pointAt s.points_ old.u }
        { source := pointAt s.points_ new.u, target := pointAt s.points_ new.v } :=
      (properCross_comm _ _).1 ((properCross_reverse _ _ _).1 ((properCross_comm _ _).1 hc))
    obtain ⟨z2, hz2, hor⟩ := quad_new_overlap _ _ _ _ _ _ _ z hc2 h1 h2
    refine hfin z2 hz2 ?_
    rcases hor with h | h
    · exact Or.inl ((triInside_corners s.points_ Tp old.v old.u new.u z2 hTpv hTpu hTpr
        (Ne.symm q1) (Ne.symm q4) (Ne.symm q3)).2 h)
    · exact Or.inr ((triInside_corners s.points_ Tq old.v old.u new.v z2 hTqv hTqu hTqr
        (Ne.symm q1) (Ne.symm q6) (Ne.symm q5)).2 h)

/-- A successful flip keeps the listed triangles free of overlaps. -/
theorem flip_preserves_disjoint (s s1 : FlipPartnerMapNative) (edge r : Int × Int)
    (hinv : Invariants segIntersection s) (htd : TrianglesDisjoint s)
    (hflip : flip segIntersection s edge = (Except.ok r, s1)) : TrianglesDisjoint s1 := by
  obtain ⟨new, i0, i1, hmem, hf, -, -, hpts, -, hett, -⟩ :=
    flip_ok_spec segIntersection s s1 edge r hflip
  obtain ⟨hq, -, -⟩ := invariants_quad segIntersection s _ new hinv hmem hf
  have hc := invariants_cross s _ new hinv hf
  obtain ⟨ho1, ho2, -, -⟩ := quad_new_orient _ _ _ _ hc
  have hl : ∀ t, ListedTriangle s1 t →
      t = newTri0 (normalize_edge edge) new ∨ t = newTri1 (normalize_edge edge) new ∨
        (ListedTriangle s t ∧ hasEdge t (normalize_edge edge) = false) := by
    intro t ht
    unfold ListedTriangle at ht
    rw [hett] at ht
    exact listed_after_flip segIntersection s _ new hinv hmem hf t ht
  have hN := new_rest_disjoint s _ new hinv htd hmem hf
  unfold TrianglesDisjoint
  rw [hpts]
  constructor
  · intro t ht
    rcases hl t ht with h | h | ⟨h, -⟩
    · rw [h]
      exact ho1
    · rw [h]
      exact ho2
    · exact htd.1 t h
  · intro t t2 ht ht2 hns z hz
    obtain ⟨hz1, hz2⟩ := hz
    rcases hl t ht with h | h | ⟨h, hh⟩ <;> rcases hl t2 ht2 with h2 | h2 | ⟨h2, hh2⟩
    · rw [h, h2] at hns
      exact hns (fun a => Iff.rfl)
    · rw [h] at hz1
      rw [h2] at hz2
      exact quad_new_disjoint _ _ _ _ z hc hz1 hz2
    · rw [h] at hz1
      exact hN _ (Or.inl rfl) t2 h2 hh2 z hz1 hz2
    · rw [h] at hz1
      rw [h2] at hz2
      exact quad_new_disjoint _ _ _ _ z hc hz2 hz1
    · rw [h, h2] at hns
      exact hns (fun a => Iff.rfl)
    · rw [h] at hz1
      exact hN _ (Or.inr rfl) t2 h2 hh2 z hz1 hz2
    · rw [h2] at hz2
      exact hN _ (Or.inl rfl) t h hh z hz2 hz1
    · rw [h2] at hz2
      exact hN _ (Or.inr rfl) t h hh z hz2 hz1
    · exact htd.2 t t2 h h2 hns z ⟨hz1, hz2⟩

/-- The triangles listed by the constructor are triangles of the list that
`compute_triangles` returned. -/
theorem new_listed (I : IntersectionFn) (ct : ComputeTriangles) (points : List Point)
    (edges : List (Int × Int)) (tris : List (Int × Int × Int))
    (hct : ct points ((initialEdges edges).map (fun e => (e.u, e.v))) = Except.ok tris)
    (hok : TrianglesOk tris) (s : FlipPartnerMapNative)
    (hs : FlipPartnerMapNative.new I ct points edges = Except.ok s) :
    s.points_ = points ∧ ∀ t, ListedTriangle s t → ∃ t0 ∈ tris, triangleOfTuple t0 = t := by
  obtain ⟨s2, hs2, hp, hb, -, -⟩ := new_spec I ct points edges tris hct hok
  rw [hs, Except.ok.injEq] at hs2
  subst hs2
  refine ⟨hp, ?_⟩
  rintro t ⟨x, L, hx, ht⟩
  obtain ⟨-, -, hL⟩ := (listsBuilt_find _ tris hb x L).1 hx
  rw [← hL] at ht
  exact ((mem_trianglesOf tris x t).1 ht).1

/-- The triangles listed by the constructor for a triangulation do not overlap. -/
theorem new_disjoint (I : IntersectionFn) (ct : ComputeTriangles) (points : List Point)
    (edges : List (Int × Int)) (tris : List (Int × Int × Int))
    (hct : ct points ((initialEdges edges).map (fun e => (e.u, e.v))) = Except.ok tris)
    (hok : TrianglesOk tris) (hgeo : GeoTriangles points tris) (s : FlipPartnerMapNative)
    (hs : FlipPartnerMapNative.new I ct points edges = Except.ok s) : TrianglesDisjoint s := by
  obtain ⟨hp, hl⟩ := new_listed I ct points edges tris hct hok s hs
  unfold TrianglesDisjoint
  rw [hp]
  constructor
  · intro t ht
    obtain ⟨t0, ht0, h0⟩ := hl t ht
    rw [← h0]
    exact hgeo.1 t0 ht0
  · intro t t2 ht ht2 hns z hz
    obtain ⟨t0, ht0, h0⟩ := hl t ht
    obtain ⟨t1, ht1, h1⟩ := hl t2 ht2
    subst h0
    subst h1
    refine hgeo.2 t0 t1 ht0 ht1 ?_ z hz
    intro h
    rw [h] at hns
    exact hns (fun a => Iff.rfl)

/-- A call of `flip`, whatever it returns, keeps the invariants and keeps the listed
triangles free of overlaps. -/
theorem flip_keeps_triangulation (s : FlipPartnerMapNative) (edge : Int × Int)
    (hinv : Invariants segIntersection s) (htd : TrianglesDisjoint s) :
    Invariants segIntersection (flip segIntersection s edge).2 ∧
      TrianglesDisjoint (flip segIntersection s edge).2 := by
  cases hres : (flip segIntersection s edge).1 with
  | error e =>
    have hp : ListsProper s := fun x L hL t ht => hinv.opposite x L hL t ht
    rw [(flip_error_proper s edge e hinv.inv2 hp hres).2]
    exact ⟨hinv, htd⟩
  | ok r =>
    have hflip : flip segIntersection s edge = (Except.ok r, (flip segIntersection s edge).2) := by
      rw [← hres]
    obtain ⟨new, -, -, -, hf, -⟩ := flip_ok_spec segIntersection s _ edge r hflip
    exact ⟨flip_preserves_invariants segIntersection s _ edge r new hinv hf
        (partner_fresh s _ new hinv htd hf) hflip,
      flip_preserves_disjoint s _ edge r hinv htd hflip⟩

/-- Every sequence of calls of `flip` keeps the invariants and keeps the listed
triangles free of overlaps. -/
theorem after_flips_triangulation (flips : List (Int × Int)) (s : FlipPartnerMapNative)
    (hinv : Invariants segIntersection s) (htd : TrianglesDisjoint s) :
    Invariants segIntersection (after_flips segIntersection s flips) ∧
      TrianglesDisjoint (after_flips segIntersection s flips) := by
  induction flips generalizing s with
  | nil => exact ⟨hinv, htd⟩
  | cons edge rest ih =>
    obtain ⟨h1, h2⟩ := flip_keeps_triangulation s edge hinv htd
    exact ih _ h1 h2

/-- The two triangles of the unit square split by the diagonal `(0, 2)` are not
degenerate and do not overlap. -/
theorem squareTriangles_geo : GeoTriangles (squarePoints 0 0 1 0) squareTriangles := by
  have e0 : pointAt (squarePoints 0 0 1 0) 0 = { x := 0, y := 0 } := by
    simp [pointAt, squarePoints]
  have e1 : pointAt (squarePoints 0 0 1 0) 1 = { x := 1, y := 0 } := by
    simp [pointAt, squarePoints]
  have e2 : pointAt (squarePoints 0 0 1 0) 2 = { x := 1, y := 1 } := by
    simp [pointAt, squarePoints]
  have e3 : pointAt (squarePoints 0 0 1 0) 3 = { x := 0, y := 1 } := by
    simp [pointAt, squarePoints]
  constructor
  · intro t ht
    simp only [squareTriangles, List.mem_cons, List.mem_singleton, List.not_mem_nil,
      or_false] at ht
    rcases ht with h | h <;> subst h <;> simp only [e0, e1, e2, e3, orient] <;> norm_num
  · intro t t2 ht ht2 hne z hz
    simp only [squareTriangles, List.mem_cons, List.mem_singleton, List.not_mem_nil,
      or_false] at ht ht2
    obtain ⟨hz1, hz2⟩ := hz
    rcases ht with h | h <;> rcases ht2 with h2 | h2 <;> subst h <;> subst h2
    · exact hne rfl
    · simp only [e0, e1, e2, e3, InsideTriangle, orient] at hz1 hz2
      rcases hz1 with ⟨a1, a2, a3⟩ | ⟨a1, a2, a3⟩ <;>
        rcases hz2 with ⟨b1, b2, b3⟩ | ⟨b1, b2, b3⟩ <;> linarith
    · simp only [e0, e1, e2, e3, InsideTriangle, orient] at hz1 hz2
      rcases hz1 with ⟨a1, a2, a3⟩ | ⟨a1, a2, a3⟩ <;>
        rcases hz2 with ⟨b1, b2, b3⟩ | ⟨b1, b2, b3⟩ <;> linarith
    · exact hne rfl

/-- The four triangles on the corners of the unit square overlap: they are not the
faces of an arrangement, and no triangulation has both diagonals as edges. -/
theorem crossedTriangles_overlap : ¬GeoTriangles (squarePoints 0 0 1 0) crossedTriangles := by
  intro h
  have e0 : pointAt (squarePoints 0 0 1 0) 0 = { x := 0, y := 0 } := by
    simp [pointAt, squarePoints]
  have e1 : pointAt (squarePoints 0 0 1 0) 1 = { x := 1, y := 0 } := by
    simp [pointAt, squarePoints]
  have e2 : pointAt (squarePoints 0 0 1 0) 2 = { x := 1, y := 1 } := by
    simp [pointAt, squarePoints]
  have e3 : pointAt (squarePoints 0 0 1 0) 3 = { x := 0, y := 1 } := by
    simp [pointAt, squarePoints]
  refine h.2 (0, 1, 2) (0, 1, 3) (by decide) (by decide) (by decide) { x := 1 / 2, y := 1 / 4 } ?_
  simp only [e0, e1, e2, e3, InsideTriangle, orient]
  norm_num

/-! ## The claims -/

/-- C1: `flip` on the edge `(u, v)` works on the normalized key `(min u v, max u v)`;
it fails with `edgeNotFound` exactly when that key is not in `edges_`, and it fails
with `notFlippable` exactly when the key is in `edges_` but is not a key of
`flip_map_`, so the test of the edge set comes first. -/
theorem flip_error_precedence (I : IntersectionFn) (s : FlipPartnerMapNative) (u v : Int) :
    normalize_edge (u, v) = { u := min u v, v := max u v } ∧
    ((flip I s (u, v)).1 = Except.error Err.edgeNotFound ↔
      normalize_edge (u, v) ∉ s.edges_) ∧
    ((flip I s (u, v)).1 = Except.error Err.notFlippable ↔
      (normalize_edge (u, v) ∈ s.edges_ ∧ find s.flip_map_ (normalize_edge (u, v)) = none)) := by
  refine ⟨EdgeKey.of_eq_min_max u v, ⟨fun h => ?_, fun h => ?_⟩, ⟨fun h => ?_, fun h => ?_⟩⟩
  · rcases flip_error_cases I s (u, v) _ h with h1 | h1 | h1
    · exact h1.2
    · exact absurd h1.1 (by decide)
    · rcases h1.1 with h2 | h2 <;> exact absurd h2 (by decide)
  · rw [flip_edgeNotFound I s (u, v) h]
  · rcases flip_error_cases I s (u, v) _ h with h1 | h1 | h1
    · exact absurd h1.1 (by decide)
    · exact h1.2
    · rcases h1.1 with h2 | h2 <;> exact absurd h2 (by decide)
  · rw [flip_notFlippable I s (u, v) h.1 h.2]

/-- C2: in a state that satisfies the invariants, `flip` on an edge of the edge set
that is a key of `flip_map_` with partner `new` succeeds and returns `new`, which is
normalized; afterwards the edge set is the old one without the edge and with `new`,
the edge is a key neither of `flip_map_` nor of `edge_to_triangles_`, and the list of
`new` holds exactly the two triangles `(new.u, new.v, e.u)` and `(new.u, new.v, e.v)`. -/
theorem flip_replaces_edge (I : IntersectionFn) (s : FlipPartnerMapNative) (u v : Int)
    (new : EdgeKey) (hinv : Invariants I s) (hmem : normalize_edge (u, v) ∈ s.edges_)
    (hf : find s.flip_map_ (normalize_edge (u, v)) = some new) :
    ∃ s1, flip I s (u, v) = (Except.ok (new.u, new.v), s1) ∧ new.u ≤ new.v ∧
      (∀ x, x ∈ s1.edges_ ↔ (x ∈ s.edges_ ∧ x ≠ normalize_edge (u, v)) ∨ x = new) ∧
      find s1.flip_map_ (normalize_edge (u, v)) = none ∧
      find s1.edge_to_triangles_ (normalize_edge (u, v)) = none ∧
      find s1.edge_to_triangles_ new =
        some [{ i0 := new.u, i1 := new.v, i2 := (normalize_edge (u, v)).u },
              { i0 := new.u, i1 := new.v, i2 := (normalize_edge (u, v)).v }] := by
  obtain ⟨s1, hfl, -, he, ht, hun, -⟩ := flip_succeeds_spec I s (u, v) new hinv hmem hf
  obtain ⟨hq, hlt, -⟩ := invariants_quad I s _ new hinv hmem hf
  refine ⟨s1, hfl, le_of_lt hlt, fun x => ?_, ?_, ?_, ?_⟩
  · rw [he, mem_setInsert, mem_setErase]
  · rw [hun _ (quad_not_touched_old _ new hq), find_erase, if_pos rfl]
  · rw [ht, find_ettAfterFlip_old _ _ new hq]
  · rw [ht, find_ettAfterFlip_new _ _ new hq]
    rfl

/-- Witness of C2 on the unit square split by the diagonal `(0, 2)`. -/
theorem flip_replaces_edge_witness :
    Invariants segIntersection (squareState (squarePoints 0 0 1 0)) ∧
    normalize_edge (0, 2) ∈ (squareState (squarePoints 0 0 1 0)).edges_ ∧
    find (squareState (squarePoints 0 0 1 0)).flip_map_ (normalize_edge (0, 2)) =
      some { u := 1, v := 3 } ∧
    ∃ s1, flip segIntersection (squareState (squarePoints 0 0 1 0)) (0, 2) =
        (Except.ok (1, 3), s1) ∧ (1 : Int) ≤ 3 ∧
      (∀ x, x ∈ s1.edges_ ↔
        (x ∈ (squareState (squarePoints 0 0 1 0)).edges_ ∧ x ≠ normalize_edge (0, 2)) ∨
          x = { u := 1, v := 3 }) ∧
      find s1.flip_map_ (normalize_edge (0, 2)) = none ∧
      find s1.edge_to_triangles_ (normalize_edge (0, 2)) = none ∧
      find s1.edge_to_triangles_ { u := 1, v := 3 } =
        some [{ i0 := 1, i1 := 3, i2 := (normalize_edge (0, 2)).u },
              { i0 := 1, i1 := 3, i2 := (normalize_edge (0, 2)).v }] :=
  ⟨squareState_invariants 0 0 1 0 (Or.inl one_ne_zero), by decide, by decide,
    flip_replaces_edge segIntersection (squareState (squarePoints 0 0 1 0)) 0 2
      { u := 1, v := 3 } (squareState_invariants 0 0 1 0 (Or.inl one_ne_zero))
      (by decide) (by decide)⟩

/-- C3: invariant 2 is preserved by every successful `flip`: if before the call
`flip_map_` holds `x` exactly when `x` has exactly two triangles whose opposite
vertices are joined by a segment that crosses `x`, with the normalized pair of those
vertices as value, then the same holds in the state after the call, and every key of
`flip_map_` then has exactly two triangles.  The consistency of the triangle lists
themselves is kept as well when the new diagonal was not an edge before. -/
theorem flip_preserves_flip_map_invariant (I : IntersectionFn) (s s1 : FlipPartnerMapNative)
    (edge r : Int × Int) (hinv : Invariant2 I s)
    (hflip : flip I s edge = (Except.ok r, s1)) :
    Invariant2 I s1 ∧
    (∀ x partner, find s1.flip_map_ x = some partner →
      ∃ t0 t1, find s1.edge_to_triangles_ x = some [t0, t1]) ∧
    (Invariants I s → { u := r.1, v := r.2 } ∉ s.edges_ → Invariants I s1) := by
  have h2 := flip_preserves_invariant2 I s s1 edge r hinv hflip
  refine ⟨h2, fun x partner hx => ?_, fun hfull hfresh => ?_⟩
  · obtain ⟨t0, t1, -, -, hett, -⟩ := (h2 x partner).1 hx
    exact ⟨t0, t1, hett⟩
  · obtain ⟨new, -, -, -, hf, -, hr, -⟩ := flip_ok_spec I s s1 edge r hflip
    have hnew : ({ u := r.1, v := r.2 } : EdgeKey) = new := by
      rw [hr]
      rfl
    rw [hnew] at hfresh
    exact flip_preserves_invariants I s s1 edge r new hfull hf hfresh hflip

/-- Witness of C3 on the unit square split by the diagonal `(0, 2)`. -/
theorem flip_preserves_flip_map_invariant_witness :
    Invariant2 segIntersection (squareState (squarePoints 0 0 1 0)) ∧
    flip segIntersection (squareState (squarePoints 0 0 1 0)) (0, 2) =
      (Except.ok (1, 3), squareFlipped (squarePoints 0 0 1 0)) ∧
    Invariant2 segIntersection (squareFlipped (squarePoints 0 0 1 0)) ∧
    (∀ x partner, find (squareFlipped (squarePoints 0 0 1 0)).flip_map_ x = some partner →
      ∃ t0 t1, find (squareFlipped (squarePoints 0 0 1 0)).edge_to_triangles_ x =
        some [t0, t1]) ∧
    (Invariants segIntersection (squareState (squarePoints 0 0 1 0)) →
      { u := ((1, 3) : Int × Int).1, v := ((1, 3) : Int × Int).2 } ∉
        (squareState (squarePoints 0 0 1 0)).edges_ →
      Invariants segIntersection (squareFlipped (squarePoints 0 0 1 0))) :=
  ⟨(squareState_invariants 0 0 1 0 (Or.inl one_ne_zero)).inv2,
    square_flip_seg 0 0 1 0 (Or.inl one_ne_zero),
    flip_preserves_flip_map_invariant segIntersection (squareState (squarePoints 0 0 1 0))
      (squareFlipped (squarePoints 0 0 1 0)) (0, 2) (1, 3)
      (squareState_invariants 0 0 1 0 (Or.inl one_ne_zero)).inv2
      (square_flip_seg 0 0 1 0 (Or.inl one_ne_zero))⟩

/-- C4: invariant 1 is preserved by every successful `flip`: if every edge of the
edge set has an entry of one or two triangles that contain both its endpoints, and
the triangles of the flipped edge are what is listed for the four edges of the
quadrilateral (each of the four lists holds exactly one triangle that contains the
flipped edge, no other list holds one), then after the flip every edge of the new
edge set again has such an entry, the four lists have kept their lengths, and no
list holds a triangle that contains the removed edge. -/
theorem flip_preserves_triangle_lists (I : IntersectionFn) (s s1 : FlipPartnerMapNative)
    (u v : Int) (r : Int × Int) (new : EdgeKey)
    (h1 : Invariant1 s)
    (hf : find s.flip_map_ (normalize_edge (u, v)) = some new)
    (hq : Quad (normalize_edge (u, v)) new)
    (hquad : ∀ a ∈ quadEdges (normalize_edge (u, v)) new, ∃ L,
      find s.edge_to_triangles_ a = some L ∧
      (L.filter (fun t => hasEdge t (normalize_edge (u, v)))).length = 1)
    (hrest : ∀ y L, find s.edge_to_triangles_ y = some L → y ≠ normalize_edge (u, v) →
      y ∉ quadEdges (normalize_edge (u, v)) new →
      ∀ t ∈ L, hasEdge t (normalize_edge (u, v)) = false)
    (hflip : flip I s (u, v) = (Except.ok r, s1)) :
    Invariant1 s1 ∧
    (∀ a ∈ quadEdges (normalize_edge (u, v)) new,
      (find s1.edge_to_triangles_ a).map List.length =
        (find s.edge_to_triangles_ a).map List.length) ∧
    (∀ y L, find s1.edge_to_triangles_ y = some L →
      ∀ t ∈ L, ¬((normalize_edge (u, v)).u ∈ t.toList ∧
        (normalize_edge (u, v)).v ∈ t.toList)) := by
  obtain ⟨a1, a2, a3⟩ := flip_invariant1_aux I s s1 (u, v) r new h1 hf hq hquad hrest hflip
  refine ⟨a1, a2, fun y L hL t ht => ?_⟩
  exact (hasEdge_eq_false_iff t _).1 (a3 y L hL t ht)

/-- Witness of C4 on the unit square split by the diagonal `(0, 2)`. -/
theorem flip_preserves_triangle_lists_witness :
    Invariant1 (squareState (squarePoints 0 0 1 0)) ∧
    find (squareState (squarePoints 0 0 1 0)).flip_map_ (normalize_edge (0, 2)) =
      some { u := 1, v := 3 } ∧
    Quad (normalize_edge (0, 2)) { u := 1, v := 3 } ∧
    flip segIntersection (squareState (squarePoints 0 0 1 0)) (0, 2) =
      (Except.ok (1, 3), squareFlipped (squarePoints 0 0 1 0)) ∧
    Invariant1 (squareFlipped (squarePoints 0 0 1 0)) ∧
    (∀ a ∈ quadEdges (normalize_edge (0, 2)) { u := 1, v := 3 },
      (find (squareFlipped (squarePoints 0 0 1 0)).edge_to_triangles_ a).map List.length =
        (find (squareState (squarePoints 0 0 1 0)).edge_to_triangles_ a).map List.length) ∧
    (∀ y L, find (squareFlipped (squarePoints 0 0 1 0)).edge_to_triangles_ y = some L →
      ∀ t ∈ L, ¬((normalize_edge (0, 2)).u ∈ t.toList ∧
        (normalize_edge (0, 2)).v ∈ t.toList)) :=
  ⟨(squareState_invariants 0 0 1 0 (Or.inl one_ne_zero)).inv1, by decide,
    by unfold Quad; decide,
    square_flip_seg 0 0 1 0 (Or.inl one_ne_zero),
    flip_preserves_triangle_lists segIntersection (squareState (squarePoints 0 0 1 0))
      (squareFlipped (squarePoints 0 0 1 0)) 0 2 (1, 3) { u := 1, v := 3 }
      (squareState_invariants 0 0 1 0 (Or.inl one_ne_zero)).inv1 (by decide)
      (by unfold Quad; decide)
      (invariants_quad_count segIntersection _ _ _
        (squareState_invariants 0 0 1 0 (Or.inl one_ne_zero)) (by decide) (by decide))
      (invariants_quad_rest segIntersection _ _ _
        (squareState_invariants 0 0 1 0 (Or.inl one_ne_zero)) (by decide) (by decide))
      (square_flip_seg 0 0 1 0 (Or.inl one_ne_zero))⟩

/-- C5: after the construction from a triangle list returned by `compute_triangles`
in which every triangle has three different vertices and every edge lies in at most
two triangles, `flippable_edges` holds exactly the edges that lie in exactly two
triangles and cross the segment joining the two opposite vertices, and for each of
them `get_flip_partner` returns the normalized pair of the two opposite vertices. -/
theorem flippable_edges_after_construction (I : IntersectionFn) (ct : ComputeTriangles)
    (points : List Point) (edges : List (Int × Int)) (tris : List (Int × Int × Int))
    (hct : ct points ((initialEdges edges).map (fun e => (e.u, e.v))) = Except.ok tris)
    (hok : TrianglesOk tris) :
    ∃ s, FlipPartnerMapNative.new I ct points edges = Except.ok s ∧
      (∀ x, x ∈ flippable_edges s ↔ ∃ partner, SpecFlippable I points tris x partner) ∧
      (∀ x partner, SpecFlippable I points tris x partner →
        get_flip_partner s x = Except.ok partner) :=
  construction_aux I ct points edges tris hct hok

/-- Witness of C5 on the unit square split by the diagonal `(0, 2)`. -/
theorem flippable_edges_after_construction_witness :
    squareComputeTriangles (squarePoints 0 0 1 0)
      ((initialEdges squareEdges).map (fun e => (e.u, e.v))) = Except.ok squareTriangles ∧
    TrianglesOk squareTriangles ∧
    ∃ s, FlipPartnerMapNative.new segIntersection squareComputeTriangles
        (squarePoints 0 0 1 0) squareEdges = Except.ok s ∧
      (∀ x, x ∈ flippable_edges s ↔
        ∃ partner, SpecFlippable segIntersection (squarePoints 0 0 1 0) squareTriangles x
          partner) ∧
      (∀ x partner, SpecFlippable segIntersection (squarePoints 0 0 1 0) squareTriangles x
        partner → get_flip_partner s x = Except.ok partner) :=
  ⟨rfl, validTriangles_ok squareEdges squareTriangles squareTriangles_valid,
    flippable_edges_after_construction segIntersection squareComputeTriangles
      (squarePoints 0 0 1 0) squareEdges squareTriangles rfl
      (validTriangles_ok squareEdges squareTriangles squareTriangles_valid)⟩

/-- C6: local invertibility.  Take any state that the constructor and any sequence
of calls of `flip` produce from a triangulation, that is from a triangle list of
`compute_triangles` that is valid for the edges and whose triangles are not
degenerate and do not overlap.  The state satisfies the invariants, and for every
flippable edge of it `flip` returns the partner `new`; right afterwards `new` is
flippable with the edge as its partner, and a second `flip`, on `new`, returns the
edge and restores the edge set and the flip map.  The crossing test is the exact
one, which is symmetric in its two arguments. -/
theorem flip_twice_restores (ct : ComputeTriangles) (points : List Point)
    (edges : List (Int × Int)) (tris : List (Int × Int × Int))
    (hct : ct points ((initialEdges edges).map (fun e => (e.u, e.v))) = Except.ok tris)
    (hv : ValidTriangles edges tris) (hgeo : GeoTriangles points tris)
    (s0 : FlipPartnerMapNative)
    (h0 : FlipPartnerMapNative.new segIntersection ct points edges = Except.ok s0)
    (flips : List (Int × Int)) (u v : Int) (new : EdgeKey)
    (hf : find (after_flips segIntersection s0 flips).flip_map_ (normalize_edge (u, v)) =
      some new) :
    Invariants segIntersection (after_flips segIntersection s0 flips) ∧
    (∀ a b, do_cross segIntersection a b = do_cross segIntersection b a) ∧
    ∃ s1 s2, flip segIntersection (after_flips segIntersection s0 flips) (u, v) =
        (Except.ok (new.u, new.v), s1) ∧
      is_flippable s1 (new.u, new.v) = true ∧
      get_flip_partner s1 (new.u, new.v) =
        Except.ok ((normalize_edge (u, v)).u, (normalize_edge (u, v)).v) ∧
      flip segIntersection s1 (new.u, new.v) =
        (Except.ok ((normalize_edge (u, v)).u, (normalize_edge (u, v)).v), s2) ∧
      (∀ x, x ∈ s2.edges_ ↔ x ∈ (after_flips segIntersection s0 flips).edges_) ∧
      (∀ x, find s2.flip_map_ x =
        find (after_flips segIntersection s0 flips).flip_map_ x) := by
  obtain ⟨s, hs, hinv0⟩ := new_invariants segIntersection ct points edges tris hct hv
  rw [h0, Except.ok.injEq] at hs
  subst hs
  have htd0 := new_disjoint segIntersection ct points edges tris hct
    (validTriangles_ok edges tris hv) hgeo s0 h0
  obtain ⟨hinv, htd⟩ := after_flips_triangulation flips s0 hinv0 htd0
  refine ⟨hinv, crossSymmetric_segIntersection.1, ?_⟩
  generalize after_flips segIntersection s0 flips = s at hf hinv htd
  have hfresh := partner_fresh s _ new hinv htd hf
  obtain ⟨s1, s2, h1, hp, h2, he, hm, -⟩ := flip_flip_aux segIntersection s (u, v) new hinv hf
    hfresh crossSymmetric_segIntersection
  have hmem := invariants_key_mem segIntersection s _ new hinv hf
  obtain ⟨-, hlt, -⟩ := invariants_quad segIntersection s _ new hinv hmem hf
  have hnorm : normalize_edge (new.u, new.v) = new := EdgeKey.of_self new (le_of_lt hlt)
  refine ⟨s1, s2, h1, ?_, ?_, h2, he, hm⟩
  · unfold is_flippable
    rw [hnorm, hp]
    rfl
  · unfold get_flip_partner
    rw [hnorm, hp]
    rfl

/-- Witness of C6 on the unit square: the constructor builds the square split by the
diagonal `(0, 2)`, one call of `flip` turns it into the square split by `(1, 3)`,
and there `flip` on `(1, 3)` followed by `flip` on `(0, 2)` restores the state. -/
theorem flip_twice_restores_witness :
    squareComputeTriangles (squarePoints 0 0 1 0)
      ((initialEdges squareEdges).map (fun e => (e.u, e.v))) = Except.ok squareTriangles ∧
    ValidTriangles squareEdges squareTriangles ∧
    GeoTriangles (squarePoints 0 0 1 0) squareTriangles ∧
    FlipPartnerMapNative.new segIntersection squareComputeTriangles (squarePoints 0 0 1 0)
      squareEdges = Except.ok (squareState (squarePoints 0 0 1 0)) ∧
    after_flips segIntersection (squareState (squarePoints 0 0 1 0)) [(0, 2)] =
      squareFlipped (squarePoints 0 0 1 0) ∧
    find (squareFlipped (squarePoints 0 0 1 0)).flip_map_ (normalize_edge (1, 3)) =
      some { u := 0, v := 2 } ∧
    Invariants segIntersection (squareFlipped (squarePoints 0 0 1 0)) ∧
    (∀ a b, do_cross segIntersection a b = do_cross segIntersection b a) ∧
    ∃ s1 s2, flip segIntersection (squareFlipped (squarePoints 0 0 1 0)) (1, 3) =
        (Except.ok (0, 2), s1) ∧
      is_flippable s1 (0, 2) = true ∧
      get_flip_partner s1 (0, 2) = Except.ok (1, 3) ∧
      flip segIntersection s1 (0, 2) = (Except.ok (1, 3), s2) ∧
      (∀ x, x ∈ s2.edges_ ↔ x ∈ (squareFlipped (squarePoints 0 0 1 0)).edges_) ∧
      (∀ x, find s2.flip_map_ x = find (squareFlipped (squarePoints 0 0 1 0)).flip_map_ x) := by
  have haf : after_flips segIntersection (squareState (squarePoints 0 0 1 0)) [(0, 2)] =
      squareFlipped (squarePoints 0 0 1 0) := by
    show (flip segIntersection (squareState (squarePoints 0 0 1 0)) (0, 2)).2 = _
    rw [square_flip_seg 0 0 1 0 (Or.inl one_ne_zero)]
  have hnew := square_new_seg squareComputeTriangles 0 0 1 0 (Or.inl one_ne_zero) rfl
  have hfind : find (squareFlipped (squarePoints 0 0 1 0)).flip_map_ (normalize_edge (1, 3)) =
      some { u := 0, v := 2 } := by decide
  have h := flip_twice_restores squareComputeTriangles (squarePoints 0 0 1 0) squareEdges
    squareTriangles rfl squareTriangles_valid squareTriangles_geo
    (squareState (squarePoints 0 0 1 0)) hnew [(0, 2)] 1 3 { u := 0, v := 2 }
    (by rw [haf]; exact hfind)
  rw [haf] at h
  exact ⟨rfl, squareTriangles_valid, squareTriangles_geo, hnew, haf, hfind, h⟩

/-- C7: the square scenario, first half.  For the four corners of a square with the
four sides and the diagonal `(0, 2)` as edges, so that the triangles are `(0, 1, 2)`
and `(0, 2, 3)`, `flippable_edges` returns exactly the diagonal `(0, 2)`,
`get_flip_partner` of it is `(1, 3)`, and `flip` on it returns `(1, 3)`. -/
theorem square_first_half (ct : ComputeTriangles) (x y a b : ℚ) (h : a ≠ 0 ∨ b ≠ 0)
    (hct : ct (squarePoints x y a b) squareEdgeList = Except.ok squareTriangles) :
    ∃ s, FlipPartnerMapNative.new segIntersection ct (squarePoints x y a b) squareEdges =
        Except.ok s ∧
      flippable_edges s = [(0, 2)] ∧
      get_flip_partner s (0, 2) = Except.ok (1, 3) ∧
      (flip segIntersection s (0, 2)).1 = Except.ok (1, 3) := by
  refine ⟨squareState (squarePoints x y a b), square_new_seg ct x y a b h hct, rfl, rfl, ?_⟩
  rw [square_flip_seg x y a b h]

/-- Witness of C7: the unit square `(0,0)`, `(1,0)`, `(1,1)`, `(0,1)`. -/
theorem square_first_half_witness :
    ((1 : ℚ) ≠ 0 ∨ (0 : ℚ) ≠ 0) ∧
    squareComputeTriangles (squarePoints 0 0 1 0) squareEdgeList = Except.ok squareTriangles ∧
    ∃ s, FlipPartnerMapNative.new segIntersection squareComputeTriangles
        (squarePoints 0 0 1 0) squareEdges = Except.ok s ∧
      flippable_edges s = [(0, 2)] ∧
      get_flip_partner s (0, 2) = Except.ok (1, 3) ∧
      (flip segIntersection s (0, 2)).1 = Except.ok (1, 3) :=
  ⟨Or.inl one_ne_zero, rfl,
    square_first_half squareComputeTriangles 0 0 1 0 (Or.inl one_ne_zero) rfl⟩

/-- C8 as stated fails: on the unit square split by the diagonal `(0, 2)`, after the
flip of that diagonal `flippable_edges` is not empty. -/
theorem square_second_half_counterexample :
    ∃ s, FlipPartnerMapNative.new segIntersection squareComputeTriangles
        (squarePoints 0 0 1 0) squareEdges = Except.ok s ∧
      flippable_edges (flip segIntersection s (0, 2)).2 ≠ [] := by
  refine ⟨squareState (squarePoints 0 0 1 0),
    square_new_seg squareComputeTriangles 0 0 1 0 (Or.inl one_ne_zero) rfl, ?_⟩
  rw [square_flip_seg 0 0 1 0 (Or.inl one_ne_zero)]
  decide

/-- C8, amended: the square scenario, second half.  In the square split by the
diagonal `(0, 2)`, after `flip` on that diagonal `flippable_edges` holds exactly the
new diagonal `(1, 3)`, whose flip partner is the old diagonal `(0, 2)`. -/
theorem square_second_half (ct : ComputeTriangles) (x y a b : ℚ) (h : a ≠ 0 ∨ b ≠ 0)
    (hct : ct (squarePoints x y a b) squareEdgeList = Except.ok squareTriangles) :
    ∃ s, FlipPartnerMapNative.new segIntersection ct (squarePoints x y a b) squareEdges =
        Except.ok s ∧
      flippable_edges (flip segIntersection s (0, 2)).2 = [(1, 3)] ∧
      get_flip_partner (flip segIntersection s (0, 2)).2 (1, 3) = Except.ok (0, 2) := by
  refine ⟨squareState (squarePoints x y a b), square_new_seg ct x y a b h hct, ?_⟩
  rw [square_flip_seg x y a b h]
  exact ⟨rfl, rfl⟩

/-- Witness of the amended C8: the unit square. -/
theorem square_second_half_witness :
    ((1 : ℚ) ≠ 0 ∨ (0 : ℚ) ≠ 0) ∧
    squareComputeTriangles (squarePoints 0 0 1 0) squareEdgeList = Except.ok squareTriangles ∧
    ∃ s, FlipPartnerMapNative.new segIntersection squareComputeTriangles
        (squarePoints 0 0 1 0) squareEdges = Except.ok s ∧
      flippable_edges (flip segIntersection s (0, 2)).2 = [(1, 3)] ∧
      get_flip_partner (flip segIntersection s (0, 2)).2 (1, 3) = Except.ok (0, 2) :=
  ⟨Or.inl one_ne_zero, rfl,
    square_second_half squareComputeTriangles 0 0 1 0 (Or.inl one_ne_zero) rfl⟩

/-- C9: in a state that satisfies invariant 2, for a flippable edge with key
`(ku, kv)` and partner `(p, q)`, `conflicting_flips` returns those of the four edges
`ku-p`, `kv-p`, `ku-q`, `kv-q`, in that order and normalized, that are keys of
`flip_map_`; the result never holds the edge itself, in either orientation, and has
at most four elements. -/
theorem conflicting_flips_spec (I : IntersectionFn) (s : FlipPartnerMapNative) (u v : Int)
    (partner : EdgeKey) (hinv : Invariant2 I s)
    (hf : find s.flip_map_ (normalize_edge (u, v)) = some partner) :
    ∃ result, conflicting_flips s (u, v) = Except.ok result ∧
      result =
        ([EdgeKey.of (normalize_edge (u, v)).u partner.u,
          EdgeKey.of (normalize_edge (u, v)).v partner.u,
          EdgeKey.of (normalize_edge (u, v)).u partner.v,
          EdgeKey.of (normalize_edge (u, v)).v partner.v].filter
            (fun c => (find s.flip_map_ c).isSome)).map (fun c => (c.u, c.v)) ∧
      (u, v) ∉ result ∧ (v, u) ∉ result ∧ result.length ≤ 4 ∧
      ∀ c ∈ result, c.1 ≤ c.2 ∧ is_flippable s c = true :=
  conflicting_flips_aux I s u v partner hinv hf

/-- Witness of C9 on the unit square split by the diagonal `(0, 2)`. -/
theorem conflicting_flips_spec_witness :
    Invariant2 segIntersection (squareState (squarePoints 0 0 1 0)) ∧
    find (squareState (squarePoints 0 0 1 0)).flip_map_ (normalize_edge (0, 2)) =
      some { u := 1, v := 3 } ∧
    ∃ result, conflicting_flips (squareState (squarePoints 0 0 1 0)) (0, 2) =
        Except.ok result ∧
      result =
        ([EdgeKey.of (normalize_edge (0, 2)).u 1, EdgeKey.of (normalize_edge (0, 2)).v 1,
          EdgeKey.of (normalize_edge (0, 2)).u 3, EdgeKey.of (normalize_edge (0, 2)).v 3].filter
            (fun c => (find (squareState (squarePoints 0 0 1 0)).flip_map_ c).isSome)).map
          (fun c => (c.u, c.v)) ∧
      ((0 : Int), (2 : Int)) ∉ result ∧ ((2 : Int), (0 : Int)) ∉ result ∧
      result.length ≤ 4 ∧
      ∀ c ∈ result, c.1 ≤ c.2 ∧ is_flippable (squareState (squarePoints 0 0 1 0)) c = true :=
  ⟨(squareState_invariants 0 0 1 0 (Or.inl one_ne_zero)).inv2, by decide,
    conflicting_flips_spec segIntersection (squareState (squarePoints 0 0 1 0)) 0 2
      { u := 1, v := 3 } (squareState_invariants 0 0 1 0 (Or.inl one_ne_zero)).inv2
      (by decide)⟩

/-- C10: `is_flippable` is true exactly when the normalized edge is a key of
`flip_map_`; `get_flip_partner` and `conflicting_flips` fail exactly when
`is_flippable` is false, and then with `notFlippable`; otherwise `get_flip_partner`
returns the stored partner.  The three operations are `const` member functions: they
are functions of the state that return a value only, so there is no state after
the call that could differ. -/
theorem queries_not_flippable (s : FlipPartnerMapNative) (u v : Int) :
    (is_flippable s (u, v) = true ↔
      ∃ partner, find s.flip_map_ { u := min u v, v := max u v } = some partner) ∧
    (get_flip_partner s (u, v) = Except.error Err.notFlippable ↔ is_flippable s (u, v) = false) ∧
    (conflicting_flips s (u, v) = Except.error Err.notFlippable ↔
      is_flippable s (u, v) = false) ∧
    (∀ e, get_flip_partner s (u, v) = Except.error e → e = Err.notFlippable) ∧
    (∀ e, conflicting_flips s (u, v) = Except.error e → e = Err.notFlippable) ∧
    (∀ partner, find s.flip_map_ { u := min u v, v := max u v } = some partner →
      get_flip_partner s (u, v) = Except.ok (partner.u, partner.v)) := by
  have hn : normalize_edge (u, v) = { u := min u v, v := max u v } := EdgeKey.of_eq_min_max u v
  cases hf : find s.flip_map_ { u := min u v, v := max u v } with
  | none => simp [is_flippable, get_flip_partner, conflicting_flips, hn, hf]
  | some p => simp [is_flippable, get_flip_partner, conflicting_flips, hn, hf, to_tuple]
/-- C18: in every state reachable by construction and flips, every key of `edges_`,
`edge_to_triangles_` and `flip_map_` and every value of `flip_map_` has `u ≤ v`, so
that no edge is stored both as `(u, v)` and as `(v, u)`; every edge returned by
`edges`, `flippable_edges`, `get_flip_partner`, `conflicting_flips` and `flip` has
`u ≤ v`; and `is_flippable`, `get_flip_partner`, `conflicting_flips` and `flip`
give the same result for `(u, v)` as for `(v, u)`. -/
theorem edge_keys_normalized (I : IntersectionFn) (ct : ComputeTriangles)
    (s : FlipPartnerMapNative) (h : Reachable I ct s) :
    Normalized s ∧
    (∀ u v : Int, u ≠ v →
      ¬(({ u := u, v := v } : EdgeKey) ∈ s.edges_ ∧ ({ u := v, v := u } : EdgeKey) ∈ s.edges_) ∧
      ¬(({ u := u, v := v } : EdgeKey) ∈ keys s.edge_to_triangles_ ∧
        ({ u := v, v := u } : EdgeKey) ∈ keys s.edge_to_triangles_) ∧
      ¬(({ u := u, v := v } : EdgeKey) ∈ keys s.flip_map_ ∧
        ({ u := v, v := u } : EdgeKey) ∈ keys s.flip_map_)) ∧
    (∀ e ∈ edge_list s, e.1 ≤ e.2) ∧
    (∀ e ∈ flippable_edges s, e.1 ≤ e.2) ∧
    (∀ edge r, get_flip_partner s edge = Except.ok r → r.1 ≤ r.2) ∧
    (∀ edge L, conflicting_flips s edge = Except.ok L → ∀ c ∈ L, c.1 ≤ c.2) ∧
    (∀ edge r, (flip I s edge).1 = Except.ok r → r.1 ≤ r.2) ∧
    (∀ u v, is_flippable s (u, v) = is_flippable s (v, u) ∧
      get_flip_partner s (u, v) = get_flip_partner s (v, u) ∧
      conflicting_flips s (u, v) = conflicting_flips s (v, u) ∧
      flip I s (u, v) = flip I s (v, u)) := by
  have hn := reachable_normalized I ct s h
  obtain ⟨h1, h2, h3⟩ := hn
  have hk2 : ∀ x ∈ keys s.edge_to_triangles_, x.u ≤ x.v := by
    intro x hx
    simp only [keys, List.mem_map] at hx
    obtain ⟨kv, hkv, hx2⟩ := hx
    rw [← hx2]; exact h2 kv hkv
  have hk3 : ∀ x ∈ keys s.flip_map_, x.u ≤ x.v := by
    intro x hx
    simp only [keys, List.mem_map] at hx
    obtain ⟨kv, hkv, hx2⟩ := hx
    rw [← hx2]; exact (h3 kv hkv).1
  refine ⟨⟨h1, h2, h3⟩, fun u v huv => ⟨?_, ?_, ?_⟩, ?_, ?_, ?_, ?_, ?_, ?_⟩
  · rintro ⟨a, b⟩
    have := h1 _ a
    have := h1 _ b
    simp only at *
    omega
  · rintro ⟨a, b⟩
    have := hk2 _ a
    have := hk2 _ b
    simp only at *
    omega
  · rintro ⟨a, b⟩
    have := hk3 _ a
    have := hk3 _ b
    simp only at *
    omega
  · intro e he
    simp only [edge_list, List.mem_map] at he
    obtain ⟨x, hx, hxe⟩ := he
    rw [← hxe]; exact h1 x hx
  · intro e he
    simp only [flippable_edges, List.mem_map] at he
    obtain ⟨kv, hkv, hxe⟩ := he
    rw [← hxe]; exact (h3 kv hkv).1
  · intro edge r hr
    unfold get_flip_partner at hr
    split at hr
    · simp at hr
    · rename_i p hp
      simp only [Except.ok.injEq] at hr
      rw [← hr]
      exact (h3 _ (find_mem _ _ _ hp)).2
  · intro edge L hL c hc
    unfold conflicting_flips at hL
    simp only at hL
    split at hL
    · simp at hL
    · simp only [Except.ok.injEq] at hL
      rw [← hL] at hc
      simp only [List.mem_map, List.mem_filter, List.mem_cons, List.mem_singleton,
        List.not_mem_nil, or_false] at hc
      obtain ⟨k, ⟨hk, -⟩, hkc⟩ := hc
      rw [← hkc]
      rcases hk with hk | hk | hk | hk <;> rw [hk] <;> exact EdgeKey.of_le _ _
  · intro edge r hr
    exact flip_result_le I s edge r ⟨h1, h2, h3⟩ hr
  · intro u v
    exact queries_congr I s (u, v) (v, u) (normalize_edge_swap u v)

/-- Witness of C18: the state that the constructor builds for the unit square. -/
theorem edge_keys_normalized_witness :
    Reachable segIntersection squareComputeTriangles (squareState (squarePoints 0 0 1 0)) ∧
    Normalized (squareState (squarePoints 0 0 1 0)) :=
  ⟨Reachable.construct (squarePoints 0 0 1 0) squareEdges _
      (square_new_seg squareComputeTriangles 0 0 1 0 (Or.inl one_ne_zero) rfl),
    (edge_keys_normalized segIntersection squareComputeTriangles _
      (Reachable.construct (squarePoints 0 0 1 0) squareEdges _
        (square_new_seg squareComputeTriangles 0 0 1 0 (Or.inl one_ne_zero) rfl))).1⟩

/-- C16: a bounded face with exactly four boundary vertices is no error in the code.
For four points, the arrangement of the hull edges alone has one bounded face, the
quadrilateral; `compute_triangles` returns the empty list of triangles for it, where
the claim expects a failure.  The test `deg > 3` sits at the top of the loop body, so
it only fires for a fifth vertex. -/
theorem quadrilateral_face_is_skipped (points : List Point) (edges : List (Int × Int))
    (hlen : points.length = 4) (hb : edges.all (edge_in_bounds points) = true) :
    compute_triangles hullOnlyArrangement points edges = Except.ok [] ∧
    (∀ rest : List Face,
      extract_triangular_faces (idx_of points)
        ({ is_unbounded := false, outer_ccb := points } :: rest) =
      extract_triangular_faces (idx_of points) rest) ∧
    (∀ (p : Point) (rest : List Face), p ∈ points →
      extract_triangular_faces (idx_of points)
        ({ is_unbounded := false, outer_ccb := p :: points } :: rest) =
      Except.error TriErr.notTriangular) := by
  have hq : ∀ rest : List Face,
      extract_triangular_faces (idx_of points)
        ({ is_unbounded := false, outer_ccb := points } :: rest) =
      extract_triangular_faces (idx_of points) rest := fun rest =>
    extract_quad_face _ _ rest rfl hlen (fun p hp => idx_of_mem points p hp)
  refine ⟨?_, hq, ?_⟩
  · simp only [compute_triangles, build_arrangement_for_triangles, hb, if_true,
      hullOnlyArrangement]
    have h1 : extract_triangular_faces (idx_of points)
        [{ is_unbounded := true, outer_ccb := [] }, { is_unbounded := false, outer_ccb := points }]
        = Except.ok [] := by
      rw [extract_triangular_faces]
      simp only [if_true]
      rw [hq]
      rfl
    simp [h1, unique]
  · intro p rest hp
    refine extract_large_face _ _ rest rfl (by simp [hlen]) ?_
    intro q hq2
    rcases List.mem_cons.1 hq2 with rfl | h
    · exact idx_of_mem points _ hp
    · exact idx_of_mem points q h

theorem quadrilateral_face_is_skipped_witness :
    (squarePoints 0 0 1 0).length = 4 ∧
    hullEdges.all (edge_in_bounds (squarePoints 0 0 1 0)) = true ∧
    compute_triangles hullOnlyArrangement (squarePoints 0 0 1 0) hullEdges = Except.ok [] :=
  ⟨rfl, by decide,
    (quadrilateral_face_is_skipped (squarePoints 0 0 1 0) hullEdges rfl (by decide)).1⟩

/-- C17: a list that `compute_triangles` returns has every triple in ascending order,
is sorted lexicographically and has no duplicate; when the faces extracted from the
arrangement hold a duplicate, the call fails with the duplicate error. -/
theorem compute_triangles_sorted (arrangement : ArrangementFn) (points : List Point)
    (edges : List (Int × Int)) (tris : List (Int × Int × Int))
    (h : compute_triangles arrangement points edges = Except.ok tris) :
    (∀ t ∈ tris, t.1 ≤ t.2.1 ∧ t.2.1 ≤ t.2.2) ∧
    tris.Sorted tupleLe ∧
    tris.Nodup ∧
    (∀ faces extracted,
      build_arrangement_for_triangles arrangement points edges = Except.ok faces →
      extract_triangular_faces (idx_of points) faces = Except.ok extracted →
      extracted.Nodup ∧ tris = List.insertionSort tupleLe extracted) := by
  obtain ⟨faces, extracted, hb, he, ht, hu⟩ :=
    compute_triangles_ok arrangement points edges tris h
  have hs : tris.Sorted tupleLe := by
    rw [ht]
    exact List.sorted_insertionSort tupleLe extracted
  have hn : tris.Nodup := sorted_nodup_of_chain tris hs (unique_chain tris hu)
  refine ⟨?_, hs, hn, ?_⟩
  · intro t htm
    have hp : t ∈ extracted := by
      rw [ht] at htm
      exact (List.perm_insertionSort tupleLe extracted).mem_iff.1 htm
    exact extract_asc _ faces extracted he t hp
  · intro faces2 extracted2 hb2 he2
    rw [hb] at hb2
    cases hb2
    rw [he] at he2
    cases he2
    refine ⟨?_, ht⟩
    rw [ht] at hn
    exact (List.perm_insertionSort tupleLe extracted).nodup_iff.1 hn

theorem compute_triangles_sorted_witness :
    compute_triangles squareArrangement (squarePoints 0 0 1 0) squareEdges =
      Except.ok [(0, 1, 2), (0, 2, 3)] ∧
    List.Sorted tupleLe [(0, 1, 2), (0, 2, 3)] ∧ List.Nodup [((0 : Int), (1 : Int), (2 : Int)), (0, 2, 3)] :=
  have h : compute_triangles squareArrangement (squarePoints 0 0 1 0) squareEdges =
      Except.ok [(0, 1, 2), (0, 2, 3)] := by
    rw [unitSquare_compute_triangles squareEdges (by decide)]
    simp [squareEdges]
  ⟨h, (compute_triangles_sorted _ _ _ _ h).2.1, (compute_triangles_sorted _ _ _ _ h).2.2.1⟩

/-- C12: in a batch returned by `sample_parallel_batch`, when no edge lies in more
than two of the extracted triangles, any two different edges `e1`, `e2` are free of
conflict: `e1` is a candidate with two opposite vertices, `e2` is none of the four
edges that join an endpoint of `e1` to one of them, and no triangle has both as
edges.  This holds for every list of candidates and of offenders, every
probability, seed and generator, and every content of the scratch arrays. -/
theorem sample_batch_conflict_free (K : Kernel) (R : Rng) (arrangement : ArrangementFn)
    (g : detail.Scratch) (points : List Point) (edges candidates offenders : List (Int × Int))
    (p : R.Real) (seed : Nat) (tris : List (Int × Int × Int)) (batch : List (Int × Int))
    (htris : compute_triangles arrangement points edges = Except.ok tris)
    (htwo : detail.AtMostTwo tris)
    (h : sample_parallel_batch K R arrangement g points edges candidates offenders p seed =
      Except.ok batch) :
    ∀ e1, e1 ∈ batch → ∀ e2, e2 ∈ batch → e1 ≠ e2 →
      ∃ c1, detail.edge_candidate K points tris (detail.edge_of e1) = some c1 ∧
        detail.edge_of e2 ∉ detail.conflicting_edges_from_candidate c1 ∧
        ∀ T, T ∈ tris →
          ¬(detail.edge_of e1 ∈ detail.tri_edges T ∧ detail.edge_of e2 ∈ detail.tri_edges T) := by
  obtain ⟨-, t, S, hinv, hb, -, -⟩ := sample_spec K R arrangement g points edges candidates
    offenders p seed tris batch htris h
  intro e1 h1 e2 h2 hne
  rw [hb] at h1 h2
  obtain ⟨s1, hs1, rfl⟩ := List.mem_map.1 h1
  obtain ⟨s2, hs2, rfl⟩ := List.mem_map.1 h2
  have hne2 : s1 ≠ s2 := fun h => hne (by rw [h])
  exact detail.selInv_conflict_free K points tris t S hinv htwo s1 s2 hs1 hs2 hne2

/-- Witness of C12 on the hexagon: with the candidates `(5, 1)`, `(1, 5)`, `(2, 4)`
the call returns a batch that holds both diagonals `(1, 5)` and `(2, 4)`, and the two
are free of conflict. -/
theorem sample_batch_conflict_free_witness :
    compute_triangles hexArrangement hexPoints hexEdges = Except.ok hexTriangles ∧
    detail.AtMostTwo hexTriangles ∧
    ∃ batch, sample_parallel_batch exactKernel counterRng hexArrangement detail.zeroScratch
        hexPoints hexEdges [(5, 1), (1, 5), (2, 4)] [(0, 1)] (1 : Nat) 7 = Except.ok batch ∧
      ((1, 5) : Int × Int) ∈ batch ∧ ((2, 4) : Int × Int) ∈ batch ∧
      ∃ c1, detail.edge_candidate exactKernel hexPoints hexTriangles
          (detail.edge_of (1, 5)) = some c1 ∧
        detail.edge_of (2, 4) ∉ detail.conflicting_edges_from_candidate c1 ∧
        ∀ T, T ∈ hexTriangles →
          ¬(detail.edge_of (1, 5) ∈ detail.tri_edges T ∧
            detail.edge_of (2, 4) ∈ detail.tri_edges T) := by
  obtain ⟨batch, hb⟩ := sample_total exactKernel counterRng hexArrangement
    detail.zeroScratch hexPoints hexEdges [(5, 1), (1, 5), (2, 4)] [(0, 1)] (1 : Nat) 7
    hexTriangles hex_triangles hexTriangles_capacity hexTriangles_nonDegenerate
  obtain ⟨h15, h24⟩ := hex_sample_both detail.zeroScratch 1 7 batch hb
  exact ⟨hex_triangles, hexTriangles_atMostTwo, batch, hb, h15, h24,
    sample_batch_conflict_free exactKernel counterRng hexArrangement detail.zeroScratch
      hexPoints hexEdges [(5, 1), (1, 5), (2, 4)] [(0, 1)] (1 : Nat) 7 hexTriangles batch
      hex_triangles hexTriangles_atMostTwo hb (1, 5) h15 (2, 4) h24 (by decide)⟩

/-- C20: every edge of the batch returned by `sample_parallel_batch` is the
normalized form of an entry of `candidates`, has two recorded triangles (the
triangles it lies in, when no edge lies in more than two), crosses the segment of
its two opposite vertices and violates the Delaunay condition; the batch is empty
when no entry of `candidates` is such an edge.  The call returns, whatever
`candidates` holds, when the triangles have three different corners each and fewer
distinct edges than the table has slots. -/
theorem sample_batch_valid (K : Kernel) (R : Rng) (arrangement : ArrangementFn)
    (g : detail.Scratch) (points : List Point) (edges candidates offenders : List (Int × Int))
    (p : R.Real) (seed : Nat) (tris : List (Int × Int × Int))
    (htris : compute_triangles arrangement points edges = Except.ok tris) :
    (∀ batch, sample_parallel_batch K R arrangement g points edges candidates offenders p seed =
        Except.ok batch →
      (∀ e, e ∈ batch →
        (∃ q, q ∈ candidates ∧ detail.edge_of e = detail.normalize_edge q.1 q.2) ∧
        ∃ A B o1 o2, detail.recorded tris (detail.edge_of e) = [A, B] ∧
          detail.opposite_vertex A (detail.edge_of e) = Except.ok o1 ∧
          detail.opposite_vertex B (detail.edge_of e) = Except.ok o2 ∧
          do_cross K.intersection
            { source := pointAt points e.1, target := pointAt points e.2 }
            { source := pointAt points o1, target := pointAt points o2 } = true ∧
          violates_local_delaunay K (pointAt points e.1) (pointAt points e.2)
            (pointAt points o1) (pointAt points o2) = true ∧
          (detail.AtMostTwo tris →
            tris.filter (fun T => decide (detail.edge_of e ∈ detail.tri_edges T)) = [A, B])) ∧
      ((∀ q, q ∈ candidates →
          detail.edge_candidate K points tris (detail.normalize_edge q.1 q.2) = none) →
        batch = [])) ∧
    ((detail.edge_keys tris).length < detail.EDGE_TABLE_SIZE → detail.NonDegenerate tris →
      ∃ batch, sample_parallel_batch K R arrangement g points edges candidates offenders p seed =
        Except.ok batch) := by
  refine ⟨?_, fun hcap hd => sample_total K R arrangement g points edges candidates offenders p
    seed tris htris hcap hd⟩
  intro batch h
  obtain ⟨hnone, t, S, hinv, hb, -, hmarked⟩ := sample_spec K R arrangement g points edges
    candidates offenders p seed tris batch htris h
  refine ⟨?_, hnone⟩
  intro e he
  rw [hb] at he
  obtain ⟨s, hs, rfl⟩ := List.mem_map.1 he
  obtain ⟨i, hi, hu, hk, hcv, -⟩ := hinv.sel s hs
  have hcand := hinv.ok.cand i hi hu hcv
  rw [hk] at hcand
  obtain ⟨A, B, hrec, hA, hB, -, -, hx, hv⟩ :=
    detail.edge_candidate_some K points tris s _ hcand
  constructor
  · have := hmarked i hi hu hcv
    rw [hk] at this
    obtain ⟨q, hq, hqe⟩ := List.mem_map.1 this
    exact ⟨q, hq, hqe.symm⟩
  · exact ⟨A, B, _, _, hrec, hA, hB, hx, hv,
      fun htwo => detail.filter_of_recorded tris s A B _ (htwo s) hrec hA⟩

theorem sample_batch_valid_witness :
    compute_triangles squareArrangement (squarePoints 0 0 1 0) squareEdges =
      Except.ok squareTriangles ∧
    ∃ batch, sample_parallel_batch exactKernel counterRng squareArrangement detail.zeroScratch
        (squarePoints 0 0 1 0) squareEdges [(2, 0), (5, 7)] [(0, 2)] (1 : Nat) 3 = Except.ok batch :=
  ⟨unitSquare_triangles,
    (sample_batch_valid exactKernel counterRng squareArrangement detail.zeroScratch
      (squarePoints 0 0 1 0) squareEdges [(2, 0), (5, 7)] [(0, 2)] (1 : Nat) 3 squareTriangles
      unitSquare_triangles).2 squareTriangles_capacity squareTriangles_nonDegenerate⟩

/-- C11: in every batch returned by `compute_delaunay_batches`, when no edge lies in
more than two of the triangles extracted in a round, any two different edges `e1`,
`e2` of the batch are free of conflict in the triangles of the round that selected
the batch: `e1` is a candidate with two opposite vertices, `e2` is none of the four
edges that join an endpoint of `e1` to one of them, and no triangle has both as
edges.  The rounds follow each other from the normalized input edges. -/
theorem delaunay_batches_conflict_free (K : Kernel) (arrangement : ArrangementFn)
    (g : detail.Scratch) (points : List Point) (edges : List (Int × Int)) (fuel : Nat)
    (batches : List (List (Int × Int)))
    (htwo : ∀ E tris, compute_triangles arrangement points E = Except.ok tris →
      detail.AtMostTwo tris)
    (h : compute_delaunay_batches K arrangement g points edges fuel = some (Except.ok batches)) :
    ∃ rounds final,
      batches = rounds.map (fun r => r.batch) ∧
      detail.RoundsFrom K arrangement points (detail.initial_edge_set edges) rounds final ∧
      ∀ r, r ∈ rounds →
        ∃ tris, compute_triangles arrangement points
            (detail.edges_vector_from_set r.edge_set) = Except.ok tris ∧
          ∀ e1, e1 ∈ r.batch → ∀ e2, e2 ∈ r.batch → e1 ≠ e2 →
            ∃ c1, detail.edge_candidate K points tris (detail.edge_of e1) = some c1 ∧
              detail.edge_of e2 ∉ detail.conflicting_edges_from_candidate c1 ∧
              ∀ T, T ∈ tris →
                ¬(detail.edge_of e1 ∈ detail.tri_edges T ∧
                  detail.edge_of e2 ∈ detail.tri_edges T) := by
  obtain ⟨rounds, final, hl, hb⟩ := batches_spec K arrangement g points edges fuel batches h
  obtain ⟨new, hnew, hfrom, hall, -⟩ := loop_spec K arrangement points fuel g _ [] rounds final hl
  rw [List.nil_append] at hnew
  subst hnew
  refine ⟨rounds, final, hb, hfrom, ?_⟩
  intro r hr
  obtain ⟨tris, t, S, htris, hinv, hbatch, -, -⟩ := hall r hr
  refine ⟨tris, htris, ?_⟩
  intro e1 h1 e2 h2 hne
  rw [hbatch] at h1 h2
  obtain ⟨s1, hs1, rfl⟩ := List.mem_map.1 h1
  obtain ⟨s2, hs2, rfl⟩ := List.mem_map.1 h2
  exact detail.selInv_conflict_free K points tris t S hinv (htwo _ tris htris) s1 s2 hs1 hs2
    (fun h => hne (by rw [h]))

/-- Witness of C11 on the hexagon: the call returns one batch, which holds the two
diagonals `(1, 5)` and `(2, 4)`, and the two are free of conflict in the triangles of
the round. -/
theorem delaunay_batches_conflict_free_witness :
    (∀ E tris, compute_triangles hexagonArrangement hexPoints E = Except.ok tris →
      detail.AtMostTwo tris) ∧
    ∃ batches, compute_delaunay_batches exactKernel hexagonArrangement detail.zeroScratch
        hexPoints hexEdges 2 = some (Except.ok batches) ∧
      (batches = [[(1, 5), (2, 4)]] ∨ batches = [[(2, 4), (1, 5)]]) ∧
      ∃ c1, detail.edge_candidate exactKernel hexPoints hexTriangles
          (detail.edge_of (1, 5)) = some c1 ∧
        detail.edge_of (2, 4) ∉ detail.conflicting_edges_from_candidate c1 ∧
        ∀ T, T ∈ hexTriangles →
          ¬(detail.edge_of (1, 5) ∈ detail.tri_edges T ∧
            detail.edge_of (2, 4) ∈ detail.tri_edges T) := by
  have key : ∀ batches, compute_delaunay_batches exactKernel hexagonArrangement
      detail.zeroScratch hexPoints hexEdges 2 = some (Except.ok batches) →
      (batches = [[(1, 5), (2, 4)]] ∨ batches = [[(2, 4), (1, 5)]]) →
      ∃ c1, detail.edge_candidate exactKernel hexPoints hexTriangles
          (detail.edge_of (1, 5)) = some c1 ∧
        detail.edge_of (2, 4) ∉ detail.conflicting_edges_from_candidate c1 ∧
        ∀ T, T ∈ hexTriangles →
          ¬(detail.edge_of (1, 5) ∈ detail.tri_edges T ∧
            detail.edge_of (2, 4) ∈ detail.tri_edges T) := by
    intro batches h hb
    obtain ⟨rounds, final, hmap, hfrom, hall⟩ := delaunay_batches_conflict_free exactKernel
      hexagonArrangement detail.zeroScratch hexPoints hexEdges 2 batches hexagon_atMostTwo h
    obtain ⟨⟨r, hr, hset, h15, h24⟩, -⟩ := hexagon_rounds rounds final batches hb hmap hfrom
    obtain ⟨tris, htris, hpair⟩ := hall r (by rw [hr]; exact List.mem_singleton.2 rfl)
    rw [hset, hexagon_round_triangles, Except.ok.injEq] at htris
    subst htris
    exact hpair (1, 5) h15 (2, 4) h24 (by decide)
  rcases hexagon_batches detail.zeroScratch 0 with h | h
  · exact ⟨hexagon_atMostTwo, _, h, Or.inl rfl, key _ h (Or.inl rfl)⟩
  · exact ⟨hexagon_atMostTwo, _, h, Or.inr rfl, key _ h (Or.inr rfl)⟩

/-- C13: when `compute_delaunay_batches` returns, the edge set that its loop holds at
the end, which comes from the normalized input edges by replacing the edges of every
batch in turn by their flip partners, has no candidate left: `compute_triangles`
returns triangles for it, and no edge that lies in exactly two of them, with opposite
vertices `o1` and `o2`, both crosses the segment from `o1` to `o2` and violates the
Delaunay condition. -/
theorem delaunay_fixed_point (K : Kernel) (arrangement : ArrangementFn) (g : detail.Scratch)
    (points : List Point) (edges : List (Int × Int)) (fuel : Nat)
    (batches : List (List (Int × Int)))
    (h : compute_delaunay_batches K arrangement g points edges fuel = some (Except.ok batches)) :
    ∃ rounds final,
      batches = rounds.map (fun r => r.batch) ∧
      detail.RoundsFrom K arrangement points (detail.initial_edge_set edges) rounds final ∧
      ∃ tris, compute_triangles arrangement points (detail.edges_vector_from_set final) =
          Except.ok tris ∧
        ∀ (e : detail.Edge) (A B : detail.Tri) (o1 o2 : Int),
          tris.filter (fun T => decide (e ∈ detail.tri_edges (detail.to_triangle T))) = [A, B] →
          detail.opposite_vertex A e = Except.ok o1 →
          detail.opposite_vertex B e = Except.ok o2 →
          ¬(do_cross K.intersection
              { source := pointAt points e.first, target := pointAt points e.second }
              { source := pointAt points o1, target := pointAt points o2 } = true ∧
            violates_local_delaunay K (pointAt points e.first) (pointAt points e.second)
              (pointAt points o1) (pointAt points o2) = true) := by
  obtain ⟨rounds, final, hl, hb⟩ := batches_spec K arrangement g points edges fuel batches h
  obtain ⟨new, hnew, hfrom, -, tris, htris, hno⟩ :=
    loop_spec K arrangement points fuel g _ [] rounds final hl
  rw [List.nil_append] at hnew
  subst hnew
  exact ⟨rounds, final, hb, hfrom, tris, htris,
    fun e A B o1 o2 hf hA hB =>
      detail.no_candidate_explicit K points tris e (hno e) A B o1 o2 hf hA hB⟩

/-- Witness of C13 on the hexagon: the call returns one batch with the diagonals
`(1, 5)` and `(2, 4)`; the edge set at the end is the triangulation with the diagonals
`(0, 4)` and `(1, 3)` in their place, and no edge of it is a candidate. -/
theorem delaunay_fixed_point_witness :
    ∃ batches, compute_delaunay_batches exactKernel hexagonArrangement detail.zeroScratch
        hexPoints hexEdges 2 = some (Except.ok batches) ∧
      (batches = [[(1, 5), (2, 4)]] ∨ batches = [[(2, 4), (1, 5)]]) ∧
      ∃ rounds final,
        batches = rounds.map (fun r => r.batch) ∧
        detail.RoundsFrom exactKernel hexagonArrangement hexPoints
          (detail.initial_edge_set hexEdges) rounds final ∧
        compute_triangles hexagonArrangement hexPoints (detail.edges_vector_from_set final) =
          Except.ok hexFlippedTriangles ∧
        ∀ (e : detail.Edge) (A B : detail.Tri) (o1 o2 : Int),
          hexFlippedTriangles.filter
            (fun T => decide (e ∈ detail.tri_edges (detail.to_triangle T))) = [A, B] →
          detail.opposite_vertex A e = Except.ok o1 →
          detail.opposite_vertex B e = Except.ok o2 →
          ¬(do_cross exactKernel.intersection
              { source := pointAt hexPoints e.first, target := pointAt hexPoints e.second }
              { source := pointAt hexPoints o1, target := pointAt hexPoints o2 } = true ∧
            violates_local_delaunay exactKernel (pointAt hexPoints e.first)
              (pointAt hexPoints e.second) (pointAt hexPoints o1) (pointAt hexPoints o2) =
                true) := by
  have key : ∀ batches, compute_delaunay_batches exactKernel hexagonArrangement
      detail.zeroScratch hexPoints hexEdges 2 = some (Except.ok batches) →
      (batches = [[(1, 5), (2, 4)]] ∨ batches = [[(2, 4), (1, 5)]]) →
      ∃ rounds final,
        batches = rounds.map (fun r => r.batch) ∧
        detail.RoundsFrom exactKernel hexagonArrangement hexPoints
          (detail.initial_edge_set hexEdges) rounds final ∧
        compute_triangles hexagonArrangement hexPoints (detail.edges_vector_from_set final) =
          Except.ok hexFlippedTriangles ∧
        ∀ (e : detail.Edge) (A B : detail.Tri) (o1 o2 : Int),
          hexFlippedTriangles.filter
            (fun T => decide (e ∈ detail.tri_edges (detail.to_triangle T))) = [A, B] →
          detail.opposite_vertex A e = Except.ok o1 →
          detail.opposite_vertex B e = Except.ok o2 →
          ¬(do_cross exactKernel.intersection
              { source := pointAt hexPoints e.first, target := pointAt hexPoints e.second }
              { source := pointAt hexPoints o1, target := pointAt hexPoints o2 } = true ∧
            violates_local_delaunay exactKernel (pointAt hexPoints e.first)
              (pointAt hexPoints e.second) (pointAt hexPoints o1) (pointAt hexPoints o2) =
                true) := by
    intro batches h hb
    obtain ⟨rounds, final, hmap, hfrom, tris, htris, hno⟩ := delaunay_fixed_point exactKernel
      hexagonArrangement detail.zeroScratch hexPoints hexEdges 2 batches h
    obtain ⟨-, hfinal⟩ := hexagon_rounds rounds final batches hb hmap hfrom
    rw [hfinal, Except.ok.injEq] at htris
    subst htris
    exact ⟨rounds, final, hmap, hfrom, hfinal, hno⟩
  rcases hexagon_batches detail.zeroScratch 0 with h | h
  · exact ⟨_, h, Or.inl rfl, key _ h (Or.inl rfl)⟩
  · exact ⟨_, h, Or.inr rfl, key _ h (Or.inr rfl)⟩

/-- C19: every batch returned by `compute_delaunay_batches` is not empty, and in a
round with fewer candidates than `MAX_EDGES_PER_TRIANG` every candidate of the
triangles of the round is in the batch or is one of the four conflict edges of an
edge of the batch; the loop only stops at an edge set without candidate. -/
theorem delaunay_batches_maximal (K : Kernel) (arrangement : ArrangementFn)
    (g : detail.Scratch) (points : List Point) (edges : List (Int × Int)) (fuel : Nat)
    (batches : List (List (Int × Int)))
    (h : compute_delaunay_batches K arrangement g points edges fuel = some (Except.ok batches)) :
    (∀ b, b ∈ batches → b ≠ []) ∧
    ∃ rounds final,
      batches = rounds.map (fun r => r.batch) ∧
      detail.RoundsFrom K arrangement points (detail.initial_edge_set edges) rounds final ∧
      (∀ r, r ∈ rounds →
        ∃ tris, compute_triangles arrangement points
            (detail.edges_vector_from_set r.edge_set) = Except.ok tris ∧
          (∀ e, e ∈ r.batch → ∃ c, detail.edge_candidate K points tris (detail.edge_of e) = some c) ∧
          ((detail.candidate_edges K points tris).length < detail.MAX_EDGES_PER_TRIANG →
            ∀ e c, detail.edge_candidate K points tris e = some c →
              detail.to_pair e ∈ r.batch ∨
              ∃ s cs, s ∈ r.batch ∧
                detail.edge_candidate K points tris (detail.edge_of s) = some cs ∧
                e ∈ detail.conflicting_edges_from_candidate cs)) ∧
      ∃ tris, compute_triangles arrangement points (detail.edges_vector_from_set final) =
          Except.ok tris ∧
        ∀ e, detail.edge_candidate K points tris e = none := by
  obtain ⟨rounds, final, hl, hb⟩ := batches_spec K arrangement g points edges fuel batches h
  obtain ⟨new, hnew, hfrom, hall, hfinal⟩ :=
    loop_spec K arrangement points fuel g _ [] rounds final hl
  rw [List.nil_append] at hnew
  subst hnew
  have hcand : ∀ (tris : List (Int × Int × Int)) (t : detail.EdgeTable) (S : List detail.Edge),
      detail.SelInv K points tris t S → ∀ s, s ∈ S →
      ∃ c, detail.edge_candidate K points tris s = some c := by
    intro tris t S hinv s hs
    obtain ⟨i, hi, hu, hk, hcv, -⟩ := hinv.sel s hs
    exact ⟨_, hk ▸ hinv.ok.cand i hi hu hcv⟩
  refine ⟨?_, rounds, final, hb, hfrom, ?_, hfinal⟩
  · intro b hbm
    rw [hb] at hbm
    obtain ⟨r, hr, rfl⟩ := List.mem_map.1 hbm
    obtain ⟨tris, t, S, -, -, hbatch, hne, -⟩ := hall r hr
    rw [hbatch]
    intro hnil
    exact hne (List.map_eq_nil_iff.1 hnil)
  · intro r hr
    obtain ⟨tris, t, S, htris, hinv, hbatch, -, hmax⟩ := hall r hr
    refine ⟨tris, htris, ?_, ?_⟩
    · intro e he
      rw [hbatch] at he
      obtain ⟨s, hs, rfl⟩ := List.mem_map.1 he
      exact hcand tris t S hinv s hs
    · intro hlen e c hc
      rcases hmax hlen e c hc with h1 | ⟨s, hs, h1⟩
      · left
        rw [hbatch]
        exact List.mem_map.2 ⟨e, h1, rfl⟩
      · right
        obtain ⟨cs, hcs⟩ := hcand tris t S hinv s hs
        refine ⟨detail.to_pair s, cs, ?_, hcs, ?_⟩
        · rw [hbatch]
          exact List.mem_map.2 ⟨s, hs, rfl⟩
        · rw [detail.conflicts_of_some K points tris s cs hcs] at h1
          exact h1

/-- Witness of C19 on the hexagon: the call returns one batch, which is not empty:
it holds both candidates of the round, the diagonals `(1, 5)` and `(2, 4)`. -/
theorem delaunay_batches_maximal_witness :
    ∃ batches, compute_delaunay_batches exactKernel hexagonArrangement detail.zeroScratch
        hexPoints hexEdges 2 = some (Except.ok batches) ∧
      (batches = [[(1, 5), (2, 4)]] ∨ batches = [[(2, 4), (1, 5)]]) ∧
      (∀ b, b ∈ batches → b ≠ []) ∧
      ∃ rounds final,
        batches = rounds.map (fun r => r.batch) ∧
        detail.RoundsFrom exactKernel hexagonArrangement hexPoints
          (detail.initial_edge_set hexEdges) rounds final ∧
        (∀ r, r ∈ rounds →
          ∃ tris, compute_triangles hexagonArrangement hexPoints
              (detail.edges_vector_from_set r.edge_set) = Except.ok tris ∧
            (∀ e, e ∈ r.batch →
              ∃ c, detail.edge_candidate exactKernel hexPoints tris (detail.edge_of e) = some c) ∧
            ((detail.candidate_edges exactKernel hexPoints tris).length <
                detail.MAX_EDGES_PER_TRIANG →
              ∀ e c, detail.edge_candidate exactKernel hexPoints tris e = some c →
                detail.to_pair e ∈ r.batch ∨
                ∃ s cs, s ∈ r.batch ∧
                  detail.edge_candidate exactKernel hexPoints tris (detail.edge_of s) = some cs ∧
                  e ∈ detail.conflicting_edges_from_candidate cs)) ∧
        ∃ tris, compute_triangles hexagonArrangement hexPoints
            (detail.edges_vector_from_set final) = Except.ok tris ∧
          ∀ e, detail.edge_candidate exactKernel hexPoints tris e = none := by
  rcases hexagon_batches detail.zeroScratch 0 with h | h
  · exact ⟨_, h, Or.inl rfl, delaunay_batches_maximal exactKernel hexagonArrangement
      detail.zeroScratch hexPoints hexEdges 2 _ h⟩
  · exact ⟨_, h, Or.inr rfl, delaunay_batches_maximal exactKernel hexagonArrangement
      detail.zeroScratch hexPoints hexEdges 2 _ h⟩

/-- C14: when `compute_delaunay_batches` returns, a second call on the edge set that
the first call ends with (the input edges with the edges of every batch replaced in
turn by their flip partners) returns the empty list of batches, whatever the scratch
arrays hold and for every fuel of at least one round.  A call also returns the empty
list when the triangles of its input have no candidate, three different corners each
and at most as many distinct edges as the table has slots. -/
theorem delaunay_idempotent (K : Kernel) (arrangement : ArrangementFn) (g : detail.Scratch)
    (points : List Point) (edges : List (Int × Int)) (fuel : Nat) :
    (∀ batches,
      compute_delaunay_batches K arrangement g points edges fuel = some (Except.ok batches) →
      ∃ rounds final,
        batches = rounds.map (fun r => r.batch) ∧
        detail.RoundsFrom K arrangement points (detail.initial_edge_set edges) rounds final ∧
        detail.initial_edge_set (detail.edges_vector_from_set final) = final ∧
        ∀ (g2 : detail.Scratch) (edges2 : List (Int × Int)) (fuel2 : Nat),
          detail.initial_edge_set edges2 = final →
          compute_delaunay_batches K arrangement g2 points edges2 (fuel2 + 1) =
            some (Except.ok [])) ∧
    (∀ tris,
      compute_triangles arrangement points
        (detail.edges_vector_from_set (detail.initial_edge_set edges)) = Except.ok tris →
      (detail.edge_keys tris).length ≤ detail.EDGE_TABLE_SIZE → detail.NonDegenerate tris →
      (∀ e, detail.edge_candidate K points tris e = none) →
      compute_delaunay_batches K arrangement g points edges (fuel + 1) =
        some (Except.ok [])) := by
  constructor
  · intro batches h
    obtain ⟨rounds, final, hl, hb⟩ := batches_spec K arrangement g points edges fuel batches h
    obtain ⟨new, hnew, hfrom, -, -⟩ := loop_spec K arrangement points fuel g _ [] rounds final hl
    rw [List.nil_append] at hnew
    subst hnew
    obtain ⟨g1, r1, hr1, hnone1⟩ := loop_last K arrangement points fuel g _ [] rounds final hl
    have hok := detail.roundsFrom_ok K arrangement points rounds _ final
      (detail.initial_edge_set_ok edges) hfrom
    refine ⟨rounds, final, hb, hfrom, detail.initial_of_vector final hok, ?_⟩
    intro g2 edges2 fuel2 he
    obtain ⟨r2, hr2, hnone2, -⟩ :=
      round_none_any_scratch K arrangement points g1 g2 final r1 hr1 hnone1
    have hl2 := loop_of_round_none K arrangement points g2 final [] fuel2 r2 hr2 hnone2
    rw [← he] at hl2
    exact batches_of_loop K arrangement g2 points edges2 (fuel2 + 1) [] _ hl2
  · intro tris htris hcap hd hno
    obtain ⟨r, hr, hnone, -⟩ := round_none_total K arrangement points g
      (detail.initial_edge_set edges) tris htris hcap hd hno
    have hl := loop_of_round_none K arrangement points g _ [] fuel r hr hnone
    exact batches_of_loop K arrangement g points edges (fuel + 1) [] _ hl

theorem delaunay_idempotent_witness :
    compute_delaunay_batches exactKernel squareArrangement detail.zeroScratch
      (squarePoints 0 0 1 0) squareEdges 1 = some (Except.ok []) ∧
    ∃ rounds final,
      detail.RoundsFrom exactKernel squareArrangement (squarePoints 0 0 1 0)
        (detail.initial_edge_set squareEdges) rounds final ∧
      compute_delaunay_batches exactKernel squareArrangement detail.zeroScratch
        (squarePoints 0 0 1 0) (detail.edges_vector_from_set final) 1 = some (Except.ok []) :=
  have h := (delaunay_idempotent exactKernel squareArrangement detail.zeroScratch
    (squarePoints 0 0 1 0) squareEdges 0).2 squareTriangles unitSquare_round_triangles
    (le_of_lt squareTriangles_capacity) squareTriangles_nonDegenerate unitSquare_no_candidate
  have h2 := (delaunay_idempotent exactKernel squareArrangement detail.zeroScratch
    (squarePoints 0 0 1 0) squareEdges 1).1 [] h
  ⟨h, h2.elim fun rounds hr => hr.elim fun final hf =>
    ⟨rounds, final, hf.2.1, hf.2.2.2 detail.zeroScratch _ 0 hf.2.2.1⟩⟩

/-- C26: a rejected `flip` changes nothing: when the call fails with `edgeNotFound`
or with `notFlippable`, the state after the call is the state before it, so that
`points_`, `edges_`, `edge_to_triangles_` and `flip_map_` are what they were. -/
theorem flip_rejected_atomic (I : IntersectionFn) (s : FlipPartnerMapNative)
    (edge : Int × Int)
    (h : (flip I s edge).1 = Except.error Err.edgeNotFound ∨
      (flip I s edge).1 = Except.error Err.notFlippable) :
    (flip I s edge).2 = s ∧
    (flip I s edge).2.points_ = s.points_ ∧ (flip I s edge).2.edges_ = s.edges_ ∧
    (flip I s edge).2.edge_to_triangles_ = s.edge_to_triangles_ ∧
    (flip I s edge).2.flip_map_ = s.flip_map_ := by
  have key : (flip I s edge).2 = s := by
    rcases h with h | h
    · rcases flip_error_cases I s edge _ h with ⟨-, hm⟩ | ⟨-, hm, hf⟩ | ⟨he, -⟩
      · rw [flip_edgeNotFound I s edge hm]
      · rw [flip_notFlippable I s edge hm hf]
      · rcases he with he | he <;> cases he
    · rcases flip_error_cases I s edge _ h with ⟨-, hm⟩ | ⟨-, hm, hf⟩ | ⟨he, -⟩
      · rw [flip_edgeNotFound I s edge hm]
      · rw [flip_notFlippable I s edge hm hf]
      · rcases he with he | he <;> cases he
  rw [key]
  exact ⟨rfl, rfl, rfl, rfl, rfl⟩

/-- Witness of C26 on the unit square split by the diagonal `(0, 2)`: the flip of the
side `(1, 0)` is rejected as not flippable, the flip of the absent diagonal `(3, 1)`
as not found. -/
theorem flip_rejected_atomic_witness :
    ((flip segIntersection (squareState (squarePoints 0 0 1 0)) (1, 0)).1 =
      Except.error Err.notFlippable ∧
     (flip segIntersection (squareState (squarePoints 0 0 1 0)) (1, 0)).2 =
      squareState (squarePoints 0 0 1 0)) ∧
    ((flip segIntersection (squareState (squarePoints 0 0 1 0)) (3, 1)).1 =
      Except.error Err.edgeNotFound ∧
     (flip segIntersection (squareState (squarePoints 0 0 1 0)) (3, 1)).2 =
      squareState (squarePoints 0 0 1 0)) :=
  ⟨⟨by rw [flip_notFlippable _ _ _ (by decide) (by decide)],
    (flip_rejected_atomic segIntersection (squareState (squarePoints 0 0 1 0)) (1, 0)
      (Or.inr (by rw [flip_notFlippable _ _ _ (by decide) (by decide)]))).1⟩,
   ⟨by rw [flip_edgeNotFound _ _ _ (by decide)],
    (flip_rejected_atomic segIntersection (squareState (squarePoints 0 0 1 0)) (3, 1)
      (Or.inl (by rw [flip_edgeNotFound _ _ _ (by decide)]))).1⟩⟩

/-- C22: a successful `flip` of the edge `(u, v)` with partner `(p, q)` is local:
`points_` is unchanged, and for every key other than the edge, its partner and the
four keys that join an endpoint of the partner to an endpoint of the edge, the
membership in `edges_`, the entry of `edge_to_triangles_` and the entry of
`flip_map_` are what they were before the call, where `(p, q)` is the value of
`flip_map_` for the edge.  This holds for every state in which the call succeeds,
with or without the invariants. -/
theorem flip_is_local (I : IntersectionFn) (s s1 : FlipPartnerMapNative)
    (edge r : Int × Int) (h : flip I s edge = (Except.ok r, s1)) :
    s1.points_ = s.points_ ∧
    (∀ y : EdgeKey, y ≠ normalize_edge edge → y ≠ { u := r.1, v := r.2 } →
      y ∉ quadEdges (normalize_edge edge) { u := r.1, v := r.2 } →
      (y ∈ s1.edges_ ↔ y ∈ s.edges_) ∧
      find s1.edge_to_triangles_ y = find s.edge_to_triangles_ y ∧
      find s1.flip_map_ y = find s.flip_map_ y) ∧
    normalize_edge edge ∈ s.edges_ ∧
    find s.flip_map_ (normalize_edge edge) = some { u := r.1, v := r.2 } := by
  obtain ⟨new, i0, i1, hmem, hf, -, hr, hp, he, ht, hun, -⟩ := flip_ok_spec I s s1 edge r h
  have hnew : ({ u := r.1, v := r.2 } : EdgeKey) = new := by
    rw [hr]
    rfl
  rw [hnew]
  refine ⟨hp, fun y hyo hyn hyq => ?_, hmem, hf⟩
  have hyt : y ∉ touched (normalize_edge edge) new := by
    rw [mem_touched]
    rintro (hq | hq)
    · exact hyq hq
    · exact hyn hq
  refine ⟨?_, ?_, ?_⟩
  · rw [he, mem_setInsert, mem_setErase]
    constructor
    · rintro (⟨hy, -⟩ | hy)
      · exact hy
      · exact absurd hy hyn
    · exact fun hy => Or.inl ⟨hy, hyo⟩
  · rw [ht, find_ettAfterFlip_other _ _ _ _ hyt hyo]
  · rw [hun y hyt, find_erase, if_neg (Ne.symm hyo)]

/-- Witness of C22 on the unit square split by the diagonal `(0, 2)`. -/
theorem flip_is_local_witness :
    flip segIntersection (squareState (squarePoints 0 0 1 0)) (0, 2) =
      (Except.ok (1, 3), squareFlipped (squarePoints 0 0 1 0)) ∧
    (squareFlipped (squarePoints 0 0 1 0)).points_ =
      (squareState (squarePoints 0 0 1 0)).points_ ∧
    (∀ y : EdgeKey, y ≠ normalize_edge (0, 2) → y ≠ { u := 1, v := 3 } →
      y ∉ quadEdges (normalize_edge (0, 2)) { u := 1, v := 3 } →
      (y ∈ (squareFlipped (squarePoints 0 0 1 0)).edges_ ↔
        y ∈ (squareState (squarePoints 0 0 1 0)).edges_) ∧
      find (squareFlipped (squarePoints 0 0 1 0)).edge_to_triangles_ y =
        find (squareState (squarePoints 0 0 1 0)).edge_to_triangles_ y ∧
      find (squareFlipped (squarePoints 0 0 1 0)).flip_map_ y =
        find (squareState (squarePoints 0 0 1 0)).flip_map_ y) :=
  ⟨square_flip_seg 0 0 1 0 (Or.inl one_ne_zero),
    (flip_is_local segIntersection (squareState (squarePoints 0 0 1 0))
      (squareFlipped (squarePoints 0 0 1 0)) (0, 2) (1, 3)
      (square_flip_seg 0 0 1 0 (Or.inl one_ne_zero))).1,
    (flip_is_local segIntersection (squareState (squarePoints 0 0 1 0))
      (squareFlipped (squarePoints 0 0 1 0)) (0, 2) (1, 3)
      (square_flip_seg 0 0 1 0 (Or.inl one_ne_zero))).2.1⟩

/-- C23: in every state that the constructor and calls of `flip` produce, when
`compute_triangles` returns triangles with three different vertices each and no edge
in more than two of them, invariant 2 holds, and a call of `flip` that fails fails
with `edgeNotFound` or `notFlippable`, never with `malformedTopology` and never
inside `opposite_vertex`, and leaves the state as it is.  From invariant 2 alone, in
any state and for any crossing test, `flip` never fails with `malformedTopology`. -/
theorem flip_errors_under_invariant (ct : ComputeTriangles)
    (hct : ∀ points edges tris, ct points edges = Except.ok tris → TrianglesOk tris)
    (s : FlipPartnerMapNative) (hs : Reachable segIntersection ct s) :
    Invariant2 segIntersection s ∧
    (∀ edge e, (flip segIntersection s edge).1 = Except.error e →
      (e = Err.edgeNotFound ∨ e = Err.notFlippable) ∧ e ≠ Err.malformedTopology ∧
      e ≠ Err.noOppositeVertex ∧ (flip segIntersection s edge).2 = s) ∧
    (∀ (I : IntersectionFn) (s2 : FlipPartnerMapNative) (edge : Int × Int) (e : Err),
      Invariant2 I s2 → (flip I s2 edge).1 = Except.error e → e ≠ Err.malformedTopology) := by
  obtain ⟨hinv, hopp⟩ := reachable_proper ct hct s hs
  refine ⟨hinv, fun edge e h => ?_, fun I s2 edge e hinv2 h => ?_⟩
  · obtain ⟨he, hst⟩ := flip_error_proper s edge e hinv hopp h
    refine ⟨he, ?_, ?_, hst⟩ <;> rcases he with he | he <;> rw [he] <;> decide
  · rcases flip_error_of_invariant2 I s2 edge e hinv2 h with h3 | h3 | h3 <;> rw [h3] <;> decide

/-- Witness of C23 on the unit square: the state after the constructor and the flip
of the diagonal `(0, 2)`, in which the flip of the side `(0, 1)` is rejected as not
flippable and the flip of the former diagonal `(0, 2)` as not found. -/
theorem flip_errors_under_invariant_witness :
    (∀ points edges tris, squareComputeTriangles points edges = Except.ok tris →
      TrianglesOk tris) ∧
    Reachable segIntersection squareComputeTriangles (squareFlipped (squarePoints 0 0 1 0)) ∧
    (flip segIntersection (squareFlipped (squarePoints 0 0 1 0)) (0, 1)).1 =
      Except.error Err.notFlippable ∧
    (flip segIntersection (squareFlipped (squarePoints 0 0 1 0)) (0, 2)).1 =
      Except.error Err.edgeNotFound ∧
    Invariant2 segIntersection (squareFlipped (squarePoints 0 0 1 0)) ∧
    (∀ edge e, (flip segIntersection (squareFlipped (squarePoints 0 0 1 0)) edge).1 =
        Except.error e →
      (e = Err.edgeNotFound ∨ e = Err.notFlippable) ∧ e ≠ Err.malformedTopology ∧
      e ≠ Err.noOppositeVertex ∧
      (flip segIntersection (squareFlipped (squarePoints 0 0 1 0)) edge).2 =
        squareFlipped (squarePoints 0 0 1 0)) := by
  have hct : ∀ points edges tris, squareComputeTriangles points edges = Except.ok tris →
      TrianglesOk tris := by
    intro points edges tris h
    have h2 : tris = squareTriangles := (Except.ok.inj h).symm
    rw [h2]
    exact validTriangles_ok squareEdges squareTriangles squareTriangles_valid
  have hr : Reachable segIntersection squareComputeTriangles
      (squareFlipped (squarePoints 0 0 1 0)) := by
    have h1 := Reachable.flip (squareState (squarePoints 0 0 1 0)) (0, 2)
      (Reachable.construct (squarePoints 0 0 1 0) squareEdges _
        (square_new_seg squareComputeTriangles 0 0 1 0 (Or.inl one_ne_zero) rfl))
    rw [square_flip_seg 0 0 1 0 (Or.inl one_ne_zero)] at h1
    exact h1
  have h := flip_errors_under_invariant squareComputeTriangles hct
    (squareFlipped (squarePoints 0 0 1 0)) hr
  exact ⟨hct, hr, by rw [flip_notFlippable _ _ _ (by decide) (by decide)],
    by rw [flip_edgeNotFound _ _ _ (by decide)], h.1, h.2.1⟩

/-- C27: for a table built from a cleared table by calls of `insert_bucket`, with
any writes of the callers to the other fields of the buckets in between, where `es`
lists the edges inserted: no two used buckets hold the same key; `find_bucket`
returns a bucket exactly for the edges inserted, and it is the used bucket with
that key; `insert_bucket` for an edge inserted before returns the same bucket and
leaves the whole table, so also the fields `triangle_count`, `blocked` and
`candidate_valid` of the bucket, as it is; and while a slot is unused both calls
return for every edge, `find_bucket` with `nullptr` for every edge never inserted,
and `insert_bucket` then takes an unused slot for it. -/
theorem edge_table_correct (t : detail.EdgeTable) (es : List detail.Edge)
    (h : detail.Inserted t es) :
    (∀ i j, i < detail.EDGE_TABLE_SIZE → j < detail.EDGE_TABLE_SIZE → (t i).used = true →
      (t j).used = true → (t i).key = (t j).key → i = j) ∧
    (∀ e i, detail.find_bucket t e = Except.ok (some i) →
      e ∈ es ∧ i < detail.EDGE_TABLE_SIZE ∧ (t i).used = true ∧ (t i).key = e) ∧
    (∀ e, e ∈ es → ∃ i, i < detail.EDGE_TABLE_SIZE ∧ (t i).used = true ∧ (t i).key = e ∧
      detail.find_bucket t e = Except.ok (some i) ∧
      detail.insert_bucket t e = Except.ok (t, i)) ∧
    (detail.HasFree t → ∀ e, e ∉ es →
      detail.find_bucket t e = Except.ok none ∧
      ∃ i, i < detail.EDGE_TABLE_SIZE ∧ (t i).used = false ∧
        detail.insert_bucket t e =
          Except.ok (Function.update t i (detail.fresh_bucket (t i) e), i)) := by
  obtain ⟨hc, hin, hpr⟩ := detail.inserted_inv t es h
  refine ⟨fun i j hi hj hu hu2 hk => detail.chain_key_inj t hc i j hi hj hu hu2 hk, ?_, ?_, ?_⟩
  · intro e i hf
    obtain ⟨hi, hu, hk⟩ := detail.find_some t e i hf
    exact ⟨by rw [← hk]; exact hin i hi hu, hi, hu, hk⟩
  · intro e he
    obtain ⟨i, hi, hu, hk⟩ := hpr e he
    refine ⟨i, hi, hu, hk, ?_, ?_⟩
    · rw [← hk]
      exact detail.find_of_used t hc i hi hu
    · rw [← hk]
      exact detail.insert_existing t hc i hi hu
  · intro hfree e he
    have hfind : detail.find_bucket t e = Except.ok none := by
      obtain ⟨r, hr⟩ := detail.find_total t e hfree
      cases r with
      | none => exact hr
      | some i =>
        obtain ⟨hi, hu, hk⟩ := detail.find_some t e i hr
        exact absurd (by rw [← hk]; exact hin i hi hu) he
    refine ⟨hfind, ?_⟩
    obtain ⟨⟨t2, i⟩, hr⟩ := detail.insert_total t e (Or.inr hfree)
    obtain ⟨hi, hcase, -⟩ := detail.insert_ok t t2 e i hr
    rcases hcase with ⟨hu, hk, -⟩ | ⟨hu, ht, -⟩
    · exact absurd (by rw [← hk]; exact hin i hi hu) he
    · exact ⟨i, hi, hu, by rw [hr, ht]⟩

/-- Witness of C27: in the cleared table every slot is unused, the edge `(0, 2)` is
not found, and its insertion takes an unused slot; in the table after the insertion
the edge is found in that slot and a second insertion changes nothing. -/
theorem edge_table_correct_witness :
    detail.Inserted (detail.clear_edge_table detail.zeroScratch.g_edge_table) [] ∧
    detail.HasFree (detail.clear_edge_table detail.zeroScratch.g_edge_table) ∧
    detail.find_bucket (detail.clear_edge_table detail.zeroScratch.g_edge_table)
      { first := 0, second := 2 } = Except.ok none ∧
    ∃ t2 i, i < detail.EDGE_TABLE_SIZE ∧
      detail.insert_bucket (detail.clear_edge_table detail.zeroScratch.g_edge_table)
        { first := 0, second := 2 } = Except.ok (t2, i) ∧
      detail.Inserted t2 [{ first := 0, second := 2 }] ∧
      detail.find_bucket t2 { first := 0, second := 2 } = Except.ok (some i) ∧
      detail.insert_bucket t2 { first := 0, second := 2 } = Except.ok (t2, i) := by
  have hfree : detail.HasFree (detail.clear_edge_table detail.zeroScratch.g_edge_table) :=
    ⟨0, detail.table_size_pos, by simp [detail.clear_edge_table, detail.table_size_pos]⟩
  have h := (edge_table_correct (detail.clear_edge_table detail.zeroScratch.g_edge_table) []
    (detail.Inserted.clear _)).2.2.2 hfree { first := 0, second := 2 } (List.not_mem_nil _)
  obtain ⟨h1, i, hi, -, h2⟩ := h
  have hins := detail.Inserted.insert _ _ [] _ i (detail.Inserted.clear _) h2
  obtain ⟨k, -, -, -, hf, hi2⟩ := (edge_table_correct _ _ hins).2.2.1 { first := 0, second := 2 }
    (List.mem_singleton.2 rfl)
  have hki : k = i := by
    obtain ⟨-, -, -, hkk⟩ := ((edge_table_correct _ _ hins).2.1 _ k hf)
    have hii : (Function.update (detail.clear_edge_table detail.zeroScratch.g_edge_table) i
        (detail.fresh_bucket (detail.clear_edge_table detail.zeroScratch.g_edge_table i)
          { first := 0, second := 2 }) i).key = { first := 0, second := 2 } := by
      rw [Function.update_same]
      rfl
    have hui : (Function.update (detail.clear_edge_table detail.zeroScratch.g_edge_table) i
        (detail.fresh_bucket (detail.clear_edge_table detail.zeroScratch.g_edge_table i)
          { first := 0, second := 2 }) i).used = true := by
      rw [Function.update_same]
      rfl
    obtain ⟨-, hk, hu, -⟩ := ((edge_table_correct _ _ hins).2.1 _ k hf)
    exact (edge_table_correct _ _ hins).1 k i hk hi hu hui (hkk.trans hii.symm)
  rw [hki] at hf hi2
  exact ⟨detail.Inserted.clear _, hfree, h1, _, i, hi, h2, hins, hf, hi2⟩

/-- C24: under the exact predicates, `violates_local_delaunay(a, b, c, d)` is true
exactly when `a`, `b`, `c` are not collinear and `d` lies strictly inside the circle
through them; it is false when `a`, `b`, `c` are collinear and when `d` lies on the
circle, and its value is the same for `(a, b, c, d)` and `(b, a, c, d)`. -/
theorem violates_local_delaunay_iff (a b c d : Point) :
    (violates_local_delaunay exactKernel a b c d = true ↔
      ¬Collinear a b c ∧ StrictlyInsideCircumcircle a b c d) ∧
    (Collinear a b c → violates_local_delaunay exactKernel a b c d = false) ∧
    (OnCircumcircle a b c d → violates_local_delaunay exactKernel a b c d = false) ∧
    violates_local_delaunay exactKernel a b c d =
      violates_local_delaunay exactKernel b a c d := by
  have hiff : violates_local_delaunay exactKernel a b c d = true ↔
      ¬Collinear a b c ∧ StrictlyInsideCircumcircle a b c d := by
    rw [violates_exact, collinear_iff]
    constructor
    · intro h
      have hD : orient a b c ≠ 0 := by
        rcases h with ⟨h, -⟩ | ⟨h, -⟩
        · exact ne_of_gt h
        · exact ne_of_lt h
      obtain ⟨e1, e2⟩ := circumcenter_spec a b c hD
      refine ⟨hD, circumcenter a b c, e1, e2, ?_⟩
      have hid := inCircleDet_eq a b c d (circumcenter a b c) e1 e2
      rcases h with ⟨hp, hc⟩ | ⟨hn, hc⟩
      · rw [hid] at hc
        linarith [(pos_iff_pos_of_mul_pos hc).1 hp]
      · rw [hid] at hc
        have : 0 < (-orient a b c) * (sqDist (circumcenter a b c) a -
            sqDist (circumcenter a b c) d) := by linarith
        linarith [(pos_iff_pos_of_mul_pos this).1 (by linarith)]
    · rintro ⟨hD, o, e1, e2, hlt⟩
      rw [inCircleDet_eq a b c d o e1 e2]
      rcases lt_or_gt_of_ne hD with hn | hp
      · exact Or.inr ⟨hn, mul_neg_of_neg_of_pos hn (by linarith)⟩
      · exact Or.inl ⟨hp, mul_pos hp (by linarith)⟩
  have hfalse : ∀ a b c d, ¬(violates_local_delaunay exactKernel a b c d = true) →
      violates_local_delaunay exactKernel a b c d = false := by
    intro a b c d h
    cases hv : violates_local_delaunay exactKernel a b c d with
    | false => rfl
    | true => exact absurd hv h
  refine ⟨hiff, fun hcol => ?_, ?_, ?_⟩
  · exact hfalse a b c d (fun hv => (hiff.1 hv).1 hcol)
  · rintro ⟨o, e1, e2, heq⟩
    apply hfalse
    rw [violates_exact, inCircleDet_eq a b c d o e1 e2, heq, sub_self, mul_zero]
    rintro (⟨-, h⟩ | ⟨-, h⟩) <;> exact lt_irrefl _ h
  · rw [Bool.eq_iff_iff, violates_exact, violates_exact, orient_swap a b c,
      inCircleDet_swap a b c d]
    constructor
    · rintro (⟨h1, h2⟩ | ⟨h1, h2⟩)
      · exact Or.inr ⟨by linarith, by linarith⟩
      · exact Or.inl ⟨by linarith, by linarith⟩
    · rintro (⟨h1, h2⟩ | ⟨h1, h2⟩)
      · exact Or.inr ⟨by linarith, by linarith⟩
      · exact Or.inl ⟨by linarith, by linarith⟩

/-- C25: the batch that `sample_parallel_batch` returns contains no edge twice,
whatever the lists `candidates` and `offenders` hold and whatever the generator
draws, and no batch that `compute_delaunay_batches` returns contains an edge
twice. -/
theorem batch_has_no_duplicate (K : Kernel) (R : Rng) (arrangement : ArrangementFn)
    (g : detail.Scratch) (points : List Point) (edges candidates offenders : List (Int × Int))
    (p : R.Real) (seed : Nat) :
    (∀ batch, sample_parallel_batch K R arrangement g points edges candidates offenders p seed =
        Except.ok batch → batch.Nodup) ∧
    (∀ fuel batches, compute_delaunay_batches K arrangement g points edges fuel =
        some (Except.ok batches) → ∀ b, b ∈ batches → b.Nodup) :=
  ⟨fun batch h => sample_nodup K R arrangement g points edges candidates offenders p seed batch h,
    fun fuel batches h => batches_nodup K arrangement g points edges fuel batches h⟩

/-- C15: `sample_parallel_batch` is deterministic: for the same points, edges,
candidates, offenders, probability and seed it returns the same outcome, with the
same edges in the same order, for any two contents `g` and `g2` of the thread-local
arrays `g_edge_table`, `g_candidate_order_buf`, `g_offender_buf` and
`g_selected_buf`. -/
theorem sample_deterministic (K : Kernel) (R : Rng) (arrangement : ArrangementFn)
    (g g2 : detail.Scratch) (points : List Point) (edges candidates offenders : List (Int × Int))
    (p : R.Real) (seed : Nat) :
    sample_parallel_batch K R arrangement g points edges candidates offenders p seed =
      sample_parallel_batch K R arrangement g2 points edges candidates offenders p seed :=
  sample_scratch_independent K R arrangement g g2 points edges candidates offenders p seed

/-- C21, amended: when no entry of `offenders` is among the valid candidates that
the call keeps (the first `MAX_EDGES_PER_TRIANG` entries of `candidates` whose
normalized edge is a candidate of the triangles), the batch of
`sample_parallel_batch` is the same for every `random_pick_prob`, it is the greedy
selection over the order into which the seed shuffles the kept valid candidates,
that order is a permutation of them, and every kept valid candidate is in the batch
or is a conflict edge of an edge of the batch. -/
theorem sample_without_offenders (K : Kernel) (R : Rng) (arrangement : ArrangementFn)
    (g : detail.Scratch) (points : List Point) (edges candidates offenders : List (Int × Int))
    (p : R.Real) (seed : Nat) (tris : List (Int × Int × Int)) (batch : List (Int × Int))
    (htris : compute_triangles arrangement points edges = Except.ok tris)
    (hoff : ∀ q, q ∈ offenders →
      detail.normalize_edge q.1 q.2 ∉ detail.valid_candidates K points tris candidates)
    (h : sample_parallel_batch K R arrangement g points edges candidates offenders p seed =
      Except.ok batch) :
    (∀ p2, sample_parallel_batch K R arrangement g points edges candidates offenders p2 seed =
      Except.ok batch) ∧
    batch = (detail.greedy K points tris
      (detail.shuffled R seed (detail.valid_candidates K points tris candidates))).map
        detail.to_pair ∧
    List.Perm (detail.shuffled R seed (detail.valid_candidates K points tris candidates))
      (detail.valid_candidates K points tris candidates) ∧
    ∀ e, e ∈ detail.valid_candidates K points tris candidates →
      detail.to_pair e ∈ batch ∨
        ∃ s, s ∈ batch ∧ e ∈ detail.conflicts_of K points tris (detail.edge_of s) := by
  obtain ⟨h1, h2⟩ := sample_greedy K R arrangement g points edges candidates offenders p seed
    tris batch htris hoff h
  refine ⟨h1, h2, detail.shuffled_perm R seed _, fun e he => ?_⟩
  have hmem : e ∈ detail.shuffled R seed (detail.valid_candidates K points tris candidates) :=
    (detail.shuffled_perm R seed _).symm.subset he
  rcases (detail.greedy_foldl_maximal K points tris _ []).2 e hmem with hin | ⟨s, hs1, hs2⟩
  · left
    rw [h2]
    exact List.mem_map_of_mem _ hin
  · right
    refine ⟨detail.to_pair s, ?_, hs2⟩
    rw [h2]
    exact List.mem_map_of_mem _ hs1

/-- Counterexample to C21 as stated: on the hexagon, with the candidate `(1, 5)`
listed 60000 times before the candidate `(2, 4)` and no offenders,
`sample_parallel_batch` returns the batch `[(1, 5)]`; the edge `(2, 4)` is a valid
candidate that is not in the batch and is not a conflict edge of `(1, 5)`. -/
theorem sample_cap_counterexample :
    compute_triangles hexArrangement hexPoints hexEdges = Except.ok hexTriangles ∧
    sample_parallel_batch exactKernel counterRng hexArrangement detail.zeroScratch hexPoints
      hexEdges (List.replicate 60000 (1, 5) ++ [(2, 4)]) [] (1 : Nat) 7 = Except.ok [(1, 5)] ∧
    ((2, 4) : Int × Int) ∈ List.replicate 60000 ((1, 5) : Int × Int) ++ [(2, 4)] ∧
    (detail.edge_candidate exactKernel hexPoints hexTriangles
      (detail.normalize_edge 2 4)).isSome = true ∧
    ((2, 4) : Int × Int) ∉ [((1, 5) : Int × Int)] ∧
    detail.normalize_edge 2 4 ∉
      detail.conflicts_of exactKernel hexPoints hexTriangles (detail.edge_of (1, 5)) := by
  refine ⟨hex_triangles, hex_cap_batch counterRng detail.zeroScratch [(2, 4)] (1 : Nat) 7,
    List.mem_append_right _ (List.mem_singleton.2 rfl), ?_, by decide, ?_⟩
  · have : detail.normalize_edge 2 4 = { first := 2, second := 4 } := by decide
    rw [this, hex_candidate_24]
    rfl
  · have : detail.normalize_edge 2 4 = { first := 2, second := 4 } := by decide
    rw [this]
    exact hex_no_conflict.1

/-- Witness of C21 on the hexagon: with the candidates `(5, 1)`, `(1, 5)`, `(2, 4)`
and the side `(0, 1)` as only offender, the call returns a batch, which holds both
diagonals `(1, 5)` and `(2, 4)`. -/
theorem sample_without_offenders_witness :
    compute_triangles hexArrangement hexPoints hexEdges = Except.ok hexTriangles ∧
    ∃ batch, sample_parallel_batch exactKernel counterRng hexArrangement detail.zeroScratch
        hexPoints hexEdges [(5, 1), (1, 5), (2, 4)] [(0, 1)] (1 : Nat) 7 = Except.ok batch ∧
      (∀ p2, sample_parallel_batch exactKernel counterRng hexArrangement detail.zeroScratch
        hexPoints hexEdges [(5, 1), (1, 5), (2, 4)] [(0, 1)] p2 7 = Except.ok batch) ∧
      batch = (detail.greedy exactKernel hexPoints hexTriangles
        (detail.shuffled counterRng 7
          [{ first := 1, second := 5 }, { first := 1, second := 5 },
            { first := 2, second := 4 }])).map detail.to_pair ∧
      ((1, 5) : Int × Int) ∈ batch ∧ ((2, 4) : Int × Int) ∈ batch := by
  have hoff : ∀ q, q ∈ [((0, 1) : Int × Int)] → detail.normalize_edge q.1 q.2 ∉
      detail.valid_candidates exactKernel hexPoints hexTriangles [(5, 1), (1, 5), (2, 4)] := by
    intro q hq
    rw [List.mem_singleton.1 hq, hex_valid_three]
    decide
  obtain ⟨batch, hb⟩ := sample_total exactKernel counterRng hexArrangement detail.zeroScratch
    hexPoints hexEdges [(5, 1), (1, 5), (2, 4)] [(0, 1)] (1 : Nat) 7 hexTriangles hex_triangles
    hexTriangles_capacity hexTriangles_nonDegenerate
  obtain ⟨h1, h2, -, h4⟩ := sample_without_offenders exactKernel counterRng hexArrangement
    detail.zeroScratch hexPoints hexEdges [(5, 1), (1, 5), (2, 4)] [(0, 1)] (1 : Nat) 7
    hexTriangles batch hex_triangles hoff hb
  rw [hex_valid_three] at h2 h4
  have hsub : ∀ s, s ∈ batch → detail.edge_of s = { first := 1, second := 5 } ∨
      detail.edge_of s = { first := 2, second := 4 } := by
    intro s hs
    rw [h2] at hs
    obtain ⟨e, he, rfl⟩ := List.mem_map.1 hs
    rcases detail.greedy_foldl_subset exactKernel hexPoints hexTriangles _ [] e he with h | h
    · cases h
    · have := (detail.shuffled_perm counterRng 7 _).subset h
      simp only [List.mem_cons, List.mem_singleton, List.not_mem_nil, or_false] at this
      rcases this with h | h | h
      · exact Or.inl (by rw [h]; rfl)
      · exact Or.inl (by rw [h]; rfl)
      · exact Or.inr (by rw [h]; rfl)
  have hc15 := detail.conflicts_of_some _ _ _ _ _ hex_candidate_15
  have hc24 := detail.conflicts_of_some _ _ _ _ _ hex_candidate_24
  refine ⟨hex_triangles, batch, hb, h1, h2, ?_, ?_⟩
  · rcases h4 { first := 1, second := 5 } (by simp) with h | ⟨s, hs, hconf⟩
    · exact h
    · exfalso
      rcases hsub s hs with h | h
      · rw [h, hc15] at hconf
        revert hconf
        decide
      · rw [h, hc24] at hconf
        revert hconf
        decide
  · rcases h4 { first := 2, second := 4 } (by simp) with h | ⟨s, hs, hconf⟩
    · exact h
    · exfalso
      rcases hsub s hs with h | h
      · rw [h, hc15] at hconf
        revert hconf
        decide
      · rw [h, hc24] at hconf
        revert hconf
        decide

/-- Witness of C25: on the hexagon, with a candidate listed three times in both
orientations and also given as offender, `sample_parallel_batch` returns a batch
without repetition; on the unit square `compute_delaunay_batches` returns. -/
theorem batch_has_no_duplicate_witness :
    (∃ batch, sample_parallel_batch exactKernel counterRng hexArrangement detail.zeroScratch
        hexPoints hexEdges [(5, 1), (1, 5), (2, 4), (1, 5)] [(1, 5), (5, 1)] (1 : Nat) 3 =
        Except.ok batch ∧ batch.Nodup) ∧
    compute_delaunay_batches exactKernel squareArrangement detail.zeroScratch
      (squarePoints 0 0 1 0) squareEdges 1 = some (Except.ok []) ∧
    ∀ b, b ∈ ([] : List (List (Int × Int))) → b.Nodup := by
  obtain ⟨batch, hb⟩ := sample_total exactKernel counterRng hexArrangement detail.zeroScratch
    hexPoints hexEdges [(5, 1), (1, 5), (2, 4), (1, 5)] [(1, 5), (5, 1)] (1 : Nat) 3 hexTriangles
    hex_triangles hexTriangles_capacity hexTriangles_nonDegenerate
  exact ⟨⟨batch, hb, (batch_has_no_duplicate exactKernel counterRng hexArrangement
      detail.zeroScratch hexPoints hexEdges [(5, 1), (1, 5), (2, 4), (1, 5)] [(1, 5), (5, 1)]
      (1 : Nat) 3).1 batch hb⟩,
    (unitSquare_batches detail.zeroScratch 0).2,
    (batch_has_no_duplicate exactKernel counterRng squareArrangement detail.zeroScratch
      (squarePoints 0 0 1 0) squareEdges [] [] (1 : Nat) 3).2 1 []
      (unitSquare_batches detail.zeroScratch 0).2⟩

/-- C28: the counters and the buffers of the schedulers stay within
`MAX_EDGES_PER_TRIANG`.  When `sample_parallel_batch` returns, its loops ran with a
`candidate_count` and an `offender_count` of at most `MAX_EDGES_PER_TRIANG` and a
`selected_count` of at most `candidate_count`, and each of its buffers is unchanged
from its counter on (so at every index from `MAX_EDGES_PER_TRIANG` on); the same
holds for every round of `compute_delaunay_batches` that returns.  The outcome of
both schedulers is the same for any two contents of the buffers, so that no entry
at or above a counter is read.  Once the loop over `candidates` has filled the
buffer, the entries that follow are dropped: they change neither the loop nor the
outcome of the call. -/
theorem scratch_buffer_bounds (K : Kernel) (R : Rng) (arrangement : ArrangementFn)
    (g : detail.Scratch) (points : List Point) (edges candidates offenders : List (Int × Int))
    (p : R.Real) (seed : Nat) :
    (∀ batch, sample_parallel_batch K R arrangement g points edges candidates offenders p seed =
        Except.ok batch →
      ∃ tris t1 t2 cbuf cn,
        compute_triangles arrangement points edges = Except.ok tris ∧
        detail.record_triangles tris (detail.clear_edge_table g.g_edge_table) = Except.ok t1 ∧
        detail.filter_candidates K points candidates t1 g.g_candidate_order_buf 0 =
          Except.ok (t2, cbuf, cn) ∧
        cn ≤ detail.MAX_EDGES_PER_TRIANG ∧
        (∀ k, cn ≤ k → cbuf k = g.g_candidate_order_buf k) ∧
        ((cn = 0 ∧ batch = []) ∨
          ∃ obuf oc t3 sel sn,
            detail.filter_offenders t2 offenders g.g_offender_buf 0 = Except.ok (obuf, oc) ∧
            oc ≤ detail.MAX_EDGES_PER_TRIANG ∧
            (∀ k, oc ≤ k → obuf k = g.g_offender_buf k) ∧
            (∀ k, cn ≤ k → (detail.shuffle R cn cbuf (R.seed (seed % 2 ^ 32))).1 k = cbuf k) ∧
            detail.sample_loop R p (detail.shuffle R cn cbuf (R.seed (seed % 2 ^ 32))).1 obuf oc
              (List.range cn) (detail.shuffle R cn cbuf (R.seed (seed % 2 ^ 32))).2 t2
              g.g_selected_buf 0 = Except.ok (t3, sel, sn) ∧
            sn ≤ cn ∧
            (∀ k, sn ≤ k → sel k = g.g_selected_buf k) ∧
            batch = (List.range sn).map (fun i => ((sel i).first, (sel i).second)))) ∧
    (∀ edge_set r, detail.delaunay_round K arrangement points g edge_set = Except.ok r →
      ∃ tris t1 t2 cbuf cn,
        compute_triangles arrangement points (detail.edges_vector_from_set edge_set) =
          Except.ok tris ∧
        detail.record_triangles tris (detail.clear_edge_table g.g_edge_table) = Except.ok t1 ∧
        detail.scan_buckets K points (List.range detail.EDGE_TABLE_SIZE) t1
          g.g_candidate_order_buf 0 = Except.ok (t2, cbuf, cn) ∧
        cn ≤ detail.MAX_EDGES_PER_TRIANG ∧
        (∀ k, cn ≤ k → cbuf k = g.g_candidate_order_buf k) ∧
        r.scratch.g_candidate_order_buf = cbuf ∧
        r.scratch.g_offender_buf = g.g_offender_buf ∧
        ((cn = 0 ∧ r.batch = none ∧ r.scratch.g_selected_buf = g.g_selected_buf) ∨
          ∃ t3 sel sn,
            detail.select_loop cbuf (List.range cn) t2 g.g_selected_buf 0 =
              Except.ok (t3, sel, sn) ∧
            sn ≤ cn ∧
            (∀ k, sn ≤ k → sel k = g.g_selected_buf k) ∧
            r.scratch.g_selected_buf = sel ∧
            ∀ b, r.batch = some b → b.length = sn)) ∧
    (∀ g2, sample_parallel_batch K R arrangement g points edges candidates offenders p seed =
      sample_parallel_batch K R arrangement g2 points edges candidates offenders p seed) ∧
    (∀ g2 fuel, compute_delaunay_batches K arrangement g points edges fuel =
      compute_delaunay_batches K arrangement g2 points edges fuel) ∧
    (∀ rest tris t1 t2 cbuf,
      compute_triangles arrangement points edges = Except.ok tris →
      detail.record_triangles tris (detail.clear_edge_table g.g_edge_table) = Except.ok t1 →
      detail.filter_candidates K points candidates t1 g.g_candidate_order_buf 0 =
        Except.ok (t2, cbuf, detail.MAX_EDGES_PER_TRIANG) →
      detail.filter_candidates K points (candidates ++ rest) t1 g.g_candidate_order_buf 0 =
        Except.ok (t2, cbuf, detail.MAX_EDGES_PER_TRIANG) ∧
      sample_parallel_batch K R arrangement g points edges (candidates ++ rest) offenders p
        seed =
        sample_parallel_batch K R arrangement g points edges candidates offenders p seed) :=
  ⟨fun batch h => sample_bounds K R arrangement g points edges candidates offenders p seed
      batch h,
    fun edge_set r h => round_bounds K arrangement points g edge_set r h,
    fun g2 => sample_scratch_independent K R arrangement g g2 points edges candidates offenders
      p seed,
    fun g2 fuel => batches_scratch_independent K arrangement g g2 points edges fuel,
    fun rest tris t1 t2 cbuf htris hrec hfc => sample_dropped K R arrangement g points edges
      candidates offenders rest p seed tris t1 t2 cbuf htris hrec hfc⟩

/-- Witness of C28 on the hexagon, with the diagonal `(1, 5)` listed 60000 times as
candidate: the call returns a batch of at most `MAX_EDGES_PER_TRIANG` edges, the
loop over the candidates ends with the buffer full, and the call returns the same
batch when the candidate `(2, 4)` follows in the list. -/
theorem scratch_buffer_bounds_witness :
    ∃ batch cn, sample_parallel_batch exactKernel counterRng hexArrangement detail.zeroScratch
        hexPoints hexEdges (List.replicate 60000 (1, 5)) [] (1 : Nat) 5 = Except.ok batch ∧
      batch.length ≤ cn ∧ cn ≤ detail.MAX_EDGES_PER_TRIANG ∧
      (∃ t1 t2 cbuf,
        detail.filter_candidates exactKernel hexPoints (List.replicate 60000 (1, 5)) t1
          detail.zeroScratch.g_candidate_order_buf 0 =
          Except.ok (t2, cbuf, detail.MAX_EDGES_PER_TRIANG)) ∧
      sample_parallel_batch exactKernel counterRng hexArrangement detail.zeroScratch
        hexPoints hexEdges (List.replicate 60000 (1, 5) ++ [(2, 4)]) [] (1 : Nat) 5 =
        Except.ok batch := by
  have hb := hex_cap_batch counterRng detail.zeroScratch [] (1 : Nat) 5
  rw [List.append_nil] at hb
  have hall := scratch_buffer_bounds exactKernel counterRng hexArrangement detail.zeroScratch
    hexPoints hexEdges (List.replicate 60000 (1, 5)) [] (1 : Nat) 5
  obtain ⟨tris, t1, t2, cbuf, cn, -, -, -, hcn, -, hcase⟩ := hall.1 _ hb
  obtain ⟨t1b, t2b, cbufb, hrec, hfc⟩ := hex_cap_reached detail.zeroScratch
  have hdrop := (hall.2.2.2.2 [(2, 4)] hexTriangles t1b t2b cbufb hex_triangles hrec hfc).2
  refine ⟨[(1, 5)], cn, hb, ?_, hcn, ⟨t1b, t2b, cbufb, hfc⟩, by rw [hdrop]; exact hb⟩
  rcases hcase with ⟨-, hnil⟩ | ⟨obuf, oc, t3, sel, sn, -, -, -, -, -, hsn, -, hbatch⟩
  · cases hnil
  · have := congrArg List.length hbatch
    rw [List.length_map, List.length_range] at this
    rw [this]
    exact hsn

end cgshop2026
